import Mathlib

/-!
# Dao interpreter: lexer, parser and evaluator

A shallow embedding of the Go sources `token`, `lexer`, `ast`, `parser`, `meta` and
`eval`, followed by theorems about them.

Conventions of the embedding.

* A Go `string` is a sequence of bytes: `Str := List Nat`.
* A Go function that may loop for ever or recurse without bound takes a `fuel` argument;
  running out of fuel is the outcome `Outcome.fuel`, a Go runtime panic (nil dereference,
  index out of range, division by zero) is the outcome `Outcome.panic`.
* A Go interface value (`ast.Expression`, `ast.Statement`, `meta.Meta`) may be the nil
  interface, or hold a nil pointer of a concrete type; both are constructors of the
  corresponding Lean type, because Go tells them apart (`x != nil` is true for the second).
-/

namespace Dao

/-! ## Strings -/

/-- Go `string`: a sequence of bytes. -/
abbrev Str := List Nat

/-- UTF-8 encoding of one code point (Go `string(rune)` for a valid rune). -/
def utf8 (r : Nat) : Str :=
  if r < 0x80 then [r]
  else if r < 0x800 then [0xC0 + r / 64, 0x80 + r % 64]
  else if r < 0x10000 then [0xE0 + r / 4096, 0x80 + r / 64 % 64, 0x80 + r % 64]
  else [0xF0 + r / 262144, 0x80 + r / 4096 % 64, 0x80 + r / 64 % 64, 0x80 + r % 64]

/-- The bytes of a string literal of the source text (UTF-8). -/
def str (s : String) : Str :=
  s.toList.foldr (fun c acc => utf8 c.toNat ++ acc) []

/-- Go `s[lo:hi]`: `none` is the runtime panic "slice bounds out of range". -/
def slice (s : Str) (lo hi : Nat) : Option Str :=
  if lo ≤ hi ∧ hi ≤ s.length then some ((s.drop lo).take (hi - lo)) else none

/-! ## Outcomes of a computation over a state -/

/-- Result of running a piece of Go code from a state `σ`. -/
inductive Outcome (σ α : Type) where
  /-- normal return with value `a` in state `s` -/
  | ok (a : α) (s : σ)
  /-- Go runtime panic -/
  | panic
  /-- the embedding ran out of fuel (the Go code has not returned yet) -/
  | fuel

/-- A computation over the state `σ`. -/
def Act (σ α : Type) : Type := σ → Outcome σ α

/-- Sequencing: faults abort. -/
def Act.bind {σ α β : Type} (x : Act σ α) (f : α → Act σ β) : Act σ β :=
  fun s => match x s with
    | .ok a s1 => f a s1
    | .panic => .panic
    | .fuel => .fuel

instance (σ : Type) : Monad (Act σ) where
  pure a := fun s => .ok a s
  bind := Act.bind

/-- The fault "panic". -/
def Act.panic {σ α : Type} : Act σ α := fun _ => .panic

/-- The fault "out of fuel". -/
def Act.outOfFuel {σ α : Type} : Act σ α := fun _ => .fuel

/-- Read the state. -/
def Act.get {σ : Type} : Act σ σ := fun s => .ok s s

/-- Replace the state. -/
def Act.set {σ : Type} (s : σ) : Act σ Unit := fun _ => .ok () s

/-- Apply a function to the state. -/
def Act.modify {σ : Type} (f : σ → σ) : Act σ Unit := fun s => .ok () (f s)

/-! ## package token -/

/-- The token types of `token.go` (Go: string constants, all distinct). -/
inductive TokenType where
  | ILLEGAL | EOF
  | ID | INT | STRING
  | ASSIGN | PLUS | MINUS | BANG | ASTERISK | SLASH | MOD
  | EQ | NEQ
  | LT | GT
  | COMMA | SEMICOLON
  | LPAREN | RPAREN | LBRACE | RBRACE | LBRACKET | RBRACKET
  | FUNC | VAR | IF | ELSE | TRUE | FALSE | NIL | RETURN | BREAK | FOR
  deriving DecidableEq, Repr

/-- The Go string value of a token type constant (what `%s` prints). -/
def TokenType.text : TokenType → Str
  | .ILLEGAL => str "ILLEGAL" | .EOF => str "EOF"
  | .ID => str "ID" | .INT => str "INT" | .STRING => str "STRING"
  | .ASSIGN => str "=" | .PLUS => str "+" | .MINUS => str "-" | .BANG => str "!"
  | .ASTERISK => str "*" | .SLASH => str "/" | .MOD => str "%"
  | .EQ => str "==" | .NEQ => str "!="
  | .LT => str "<" | .GT => str ">"
  | .COMMA => str "," | .SEMICOLON => str ";"
  | .LPAREN => str "(" | .RPAREN => str ")" | .LBRACE => str "\x7b" | .RBRACE => str "\x7d"
  | .LBRACKET => str "[" | .RBRACKET => str "]"
  | .FUNC => str "FUNC" | .VAR => str "VAR" | .IF => str "IF" | .ELSE => str "ELSE"
  | .TRUE => str "TRUE" | .FALSE => str "FALSE" | .NIL => str "NIL"
  | .RETURN => str "RETURN" | .BREAK => str "BREAK" | .FOR => str "FOR"

/-- Go `token.Token` (the field `Type` is spelled `Typ`: `Type` is reserved in Lean). -/
structure Token where
  Typ : TokenType
  Literal : Str
  deriving DecidableEq, Repr

/-- Go `token.New(tt, li)`: the lexeme is `string(li)` for a byte `li`, that is the UTF-8
encoding of the code point `li`. -/
def Token.New (tt : TokenType) (li : Nat) : Token := { Typ := tt, Literal := utf8 li }

/-- Go `token.GetTokenType`: lookup in the `keywords` table, `ID` otherwise. -/
def GetTokenType (id : Str) : TokenType :=
  if id = str "func" then .FUNC
  else if id = str "var" then .VAR
  else if id = str "if" then .IF
  else if id = str "else" then .ELSE
  else if id = str "true" then .TRUE
  else if id = str "false" then .FALSE
  else if id = str "nil" then .NIL
  else if id = str "return" then .RETURN
  else if id = str "break" then .BREAK
  else if id = str "for" then .FOR
  else .ID

/-! ## package lexer -/

/-- Go `lexer.Lexer`. -/
structure Lexer where
  input : Str
  pos : Nat
  nextPos : Nat
  ch : Nat
  deriving DecidableEq, Repr

/-- Go `(*Lexer).eat`. -/
def Lexer.eat (l : Lexer) : Lexer :=
  { l with
    ch := if l.nextPos ≥ l.input.length then 0 else l.input.getD l.nextPos 0
    pos := l.nextPos
    nextPos := l.nextPos + 1 }

/-- Go `lexer.New`. -/
def Lexer.New (input : Str) : Lexer :=
  Lexer.eat { input := input, pos := 0, nextPos := 0, ch := 0 }

/-- Go `(*Lexer).peak`. -/
def Lexer.peak (l : Lexer) : Nat :=
  if l.nextPos ≥ l.input.length then 0 else l.input.getD l.nextPos 0

/-- Go `isLetter`. -/
def isLetter (ch : Nat) : Bool :=
  (97 ≤ ch && ch ≤ 122) || (65 ≤ ch && ch ≤ 90) || ch == 95

/-- Go `isDigit`. -/
def isDigit (ch : Nat) : Bool := 48 ≤ ch && ch ≤ 57

/-- Go `isBlank`: space, newline, tab, carriage return. -/
def isBlank (ch : Nat) : Bool := ch == 32 || ch == 10 || ch == 9 || ch == 13

/-- The loop `for cond(l.ch) { l.eat() }`, at most `n` iterations. -/
def Lexer.eatWhile (cond : Nat → Bool) : Nat → Lexer → Lexer
  | 0, l => l
  | n + 1, l => if cond l.ch then Lexer.eatWhile cond n l.eat else l

/-- Go `(*Lexer).eatBlank`. The loop stops at the latest when `eat` runs past the end of
the input and sets `ch = 0`, so `input.length + 1` iterations are always enough. -/
def Lexer.eatBlank (l : Lexer) : Lexer := Lexer.eatWhile isBlank (l.input.length + 1) l

/-- Go `(*Lexer).eatID`: the lexeme and the lexer after it; `none` is a slice panic. -/
def Lexer.eatID (l : Lexer) : Option (Str × Lexer) :=
  let l1 := Lexer.eatWhile isLetter (l.input.length + 1) l
  (slice l.input l.pos l1.pos).map fun s => (s, l1)

/-- Go `(*Lexer).eatNumber`. -/
def Lexer.eatNumber (l : Lexer) : Option (Str × Lexer) :=
  let l1 := Lexer.eatWhile isDigit (l.input.length + 1) l
  (slice l.input l.pos l1.pos).map fun s => (s, l1)

/-- The loop of `readString`: `for { l.eat(); if l.ch == '"' || l.ch == 0 { break } }`,
at most `n` iterations. -/
def Lexer.readStringLoop : Nat → Lexer → Lexer
  | 0, l => l
  | n + 1, l =>
    let l1 := l.eat
    if l1.ch == 34 || l1.ch == 0 then l1 else Lexer.readStringLoop n l1

/-- Go `(*Lexer).readString`. -/
def Lexer.readString (l : Lexer) : Option (Str × Lexer) :=
  let l1 := Lexer.readStringLoop (l.input.length + 1) l
  (slice l.input (l.pos + 1) l1.pos).map fun s => (s, l1)

/-- The single-byte operator and delimiter cases of the `switch l.ch` in `Next`
(`=` and `!` have a lookahead and are handled in `Next`). -/
def punct (ch : Nat) : Option TokenType :=
  if ch = 43 then some .PLUS
  else if ch = 45 then some .MINUS
  else if ch = 42 then some .ASTERISK
  else if ch = 47 then some .SLASH
  else if ch = 37 then some .MOD
  else if ch = 60 then some .LT
  else if ch = 62 then some .GT
  else if ch = 40 then some .LPAREN
  else if ch = 41 then some .RPAREN
  else if ch = 123 then some .LBRACE
  else if ch = 125 then some .RBRACE
  else if ch = 91 then some .LBRACKET
  else if ch = 93 then some .RBRACKET
  else if ch = 44 then some .COMMA
  else if ch = 59 then some .SEMICOLON
  else none

/-- Go `(*Lexer).Next`: the token and the lexer after it; `none` is a slice panic. -/
def Lexer.Next (l0 : Lexer) : Option (Token × Lexer) :=
  let l := l0.eatBlank
  if l.ch = 61 then
    if l.peak = 61 then
      let l1 := l.eat
      some ({ Typ := .EQ, Literal := utf8 l.ch ++ utf8 l1.ch }, l1.eat)
    else some (Token.New .ASSIGN l.ch, l.eat)
  else if l.ch = 33 then
    if l.peak = 61 then
      let l1 := l.eat
      some ({ Typ := .NEQ, Literal := utf8 l.ch ++ utf8 l1.ch }, l1.eat)
    else some (Token.New .BANG l.ch, l.eat)
  else if l.ch = 34 then
    (l.readString).map fun (s, l1) => ({ Typ := .STRING, Literal := s }, l1.eat)
  else if l.ch = 0 then
    some ({ Typ := .EOF, Literal := [] }, l.eat)
  else
    match punct l.ch with
    | some tt => some (Token.New tt l.ch, l.eat)
    | none =>
      if isLetter l.ch then
        (l.eatID).map fun (s, l1) => ({ Typ := GetTokenType s, Literal := s }, l1)
      else if isDigit l.ch then
        (l.eatNumber).map fun (s, l1) => ({ Typ := .INT, Literal := s }, l1)
      else some (Token.New .ILLEGAL l.ch, l.eat)

/-! ## package ast

Pointer fields that the parser assigns in the struct literal, or always before the node can
be reached from the tree (`Name` of a `var`, the `Consequence` of an `if`, the `Body` of a
function or of a `for`), are plain fields; pointer fields the parser may leave nil are
`Option`s. A nil slice and an empty slice behave alike under `len`, `range` and `append`,
so a slice is a `List`. -/

/-- Go `ast.Identifier`; `Typ` is the Go field `Type`, nil when no type was written. -/
inductive Identifier where
  | mk (Token : Token) (Value : Str) (Typ : Option Identifier)

/-- The field `Token`. -/
def Identifier.Token : Identifier → Token
  | .mk t _ _ => t

/-- The field `Value`. -/
def Identifier.Value : Identifier → Str
  | .mk _ v _ => v

/-- The field `Type`. -/
def Identifier.Typ : Identifier → Option Identifier
  | .mk _ _ t => t

mutual
/-- A value of the Go interface `ast.Expression`. -/
inductive Expression where
  /-- the nil interface value -/
  | nil
  | Identifier (id : Identifier)
  | IntegerLiteral (Token : Token) (Value : Int)
  | BooleanLiteral (Token : Token) (Value : Bool)
  | NilLiteral (Token : Token) (Value : Str)
  | StringLiteral (Token : Token) (Value : Str)
  | PrefixExpression (Token : Token) (Operator : Str) (Right : Expression)
  | InfixExpression (Token : Token) (Operator : Str) (Left : Expression) (Right : Expression)
  | IfExpression (node : IfExpression)
  /-- a nil `*ast.IfExpression` stored in the interface (not equal to the nil interface) -/
  | nilIfExpression
  | FunctionLiteral (Token : Token) (Name : Option Identifier) (ReturnType : Option Identifier)
      (Args : List Identifier) (Body : BlockStatement)
  | CallExpression (Token : Token) (Function : Expression) (Args : List Expression)
/-- Go `ast.IfExpression`. -/
inductive IfExpression where
  | mk (Token : Token) (Condition : Expression) (Options : List IfExpression)
      (Consequence : BlockStatement) (Alternative : Option BlockStatement)
/-- A value of the Go interface `ast.Statement`. -/
inductive Statement where
  /-- the nil interface value -/
  | nil
  | VarStatement (Token : Token) (Name : Identifier) (Value : Expression)
  /-- a nil `*ast.VarStatement` stored in the interface (not equal to the nil interface) -/
  | nilVarStatement
  | AssignStatement (Token : Token) (Name : Identifier) (Value : Expression)
  /-- a nil `*ast.AssignStatement` stored in the interface -/
  | nilAssignStatement
  | ReturnStatement (Token : Token) (ReturnValue : Expression)
  | ExpressionStatement (Token : Token) (Expression : Expression)
  | ForStatement (Token : Token) (Condition : List Statement) (Body : BlockStatement)
/-- Go `ast.BlockStatement`. -/
inductive BlockStatement where
  | mk (Token : Token) (Statements : List Statement)
end

/-- Go `ast.Program`. -/
structure Program where
  Statements : List Statement

/-- The field `Statements`. -/
def BlockStatement.Statements : BlockStatement → List Statement
  | .mk _ ss => ss

/-- The field `Condition`. -/
def IfExpression.Condition : IfExpression → Expression
  | .mk _ c _ _ _ => c

/-- The field `Options`. -/
def IfExpression.Options : IfExpression → List IfExpression
  | .mk _ _ o _ _ => o

/-- The field `Consequence`. -/
def IfExpression.Consequence : IfExpression → BlockStatement
  | .mk _ _ _ c _ => c

/-- The field `Alternative`. -/
def IfExpression.Alternative : IfExpression → Option BlockStatement
  | .mk _ _ _ _ a => a

/-- Go `strings.Join`. -/
def join (sep : Str) : List Str → Str
  | [] => []
  | [a] => a
  | a :: b :: rest => a ++ sep ++ join sep (b :: rest)

mutual
/-- Go `String()` of an expression node; `none` is a nil-dereference panic. -/
def Expression.String : Expression → Option Str
  | .nil => none
  | .Identifier id => some id.Value
  | .IntegerLiteral t _ => some t.Literal
  | .BooleanLiteral t _ => some t.Literal
  | .NilLiteral t _ => some t.Literal
  | .StringLiteral t _ => some t.Literal
  | .PrefixExpression _ op r => do
    let rs ← r.String
    pure (str "(" ++ op ++ rs ++ str ")")
  | .InfixExpression _ op l r => do
    let ls ← l.String
    let rs ← r.String
    pure (str "(" ++ ls ++ str " " ++ op ++ str " " ++ rs ++ str ")")
  | .IfExpression node => node.String
  | .nilIfExpression => none
  | .FunctionLiteral t _ _ args body => do
    let bs ← body.String
    pure (t.Literal ++ str "(" ++ join (str ", ") (args.map Identifier.Value) ++ str ") " ++ bs)
  | .CallExpression _ f args => do
    let fs ← f.String
    let as ← Expression.Strings args
    pure (fs ++ str "(" ++ join (str ", ") as ++ str ")")
/-- The strings of the arguments of a call. -/
def Expression.Strings : List Expression → Option (List Str)
  | [] => some []
  | a :: rest => do
    let s ← a.String
    let ss ← Expression.Strings rest
    pure (s :: ss)
/-- Go `(*IfExpression).String`. -/
def IfExpression.String : IfExpression → Option Str
  | .mk _ c _ cons alt => do
    let cs ← c.String
    let bs ← cons.String
    match alt with
    | none => pure (str "if" ++ cs ++ str " " ++ bs)
    | some a => do
      let as ← a.String
      pure (str "if" ++ cs ++ str " " ++ bs ++ str "else " ++ as)
/-- Go `String()` of a statement node. -/
def Statement.String : Statement → Option Str
  | .nil => none
  | .VarStatement t name v =>
    match v with
    | .nil => some (t.Literal ++ str " " ++ name.Value ++ str " = " ++ str ";\n")
    | v => do
      let vs ← v.String
      pure (t.Literal ++ str " " ++ name.Value ++ str " = " ++ vs ++ str ";\n")
  | .nilVarStatement => none
  | .AssignStatement _ name v =>
    match v with
    | .nil => some (name.Value ++ str " = " ++ str ";")
    | v => do
      let vs ← v.String
      pure (name.Value ++ str " = " ++ vs ++ str ";")
  | .nilAssignStatement => none
  | .ReturnStatement t v =>
    match v with
    | .nil => some (t.Literal ++ str " " ++ str ";")
    | v => do
      let vs ← v.String
      pure (t.Literal ++ str " " ++ vs ++ str ";")
  | .ExpressionStatement _ e =>
    match e with
    | .nil => some []
    | e => e.String
  | .ForStatement _ cond _ => do
    let cs ← Statement.Strings cond
    pure (str "for" ++ cs ++ str " ")
/-- The concatenated strings of a list of statements. -/
def Statement.Strings : List Statement → Option Str
  | [] => some []
  | s :: rest => do
    let a ← s.String
    let b ← Statement.Strings rest
    pure (a ++ b)
/-- Go `(*BlockStatement).String`. -/
def BlockStatement.String : BlockStatement → Option Str
  | .mk _ ss => Statement.Strings ss
end

/-- Go `(*Program).String`. -/
def Program.String (p : Program) : Option Str := Statement.Strings p.Statements

/-! ## strconv.ParseInt (Go standard library), as called with base 0 and bit size 64 -/

/-- Go `strconv.lower`: `c | ('x' - 'X')`. -/
def lower (c : Nat) : Nat := c ||| 32

/-- The loop of `strconv.underscoreOK` over the number proper; `saw` is the class of the last
character seen: 0 for the start, 1 for a digit, 2 for an underscore, 3 for anything else. -/
def underscoreLoop (hex : Bool) : Str → Nat → Bool
  | [], saw => saw != 2
  | c :: rest, saw =>
    if (48 ≤ c && c ≤ 57) || (hex && 97 ≤ lower c && lower c ≤ 102) then
      underscoreLoop hex rest 1
    else if c = 95 then
      if saw != 1 then false else underscoreLoop hex rest 2
    else if saw = 2 then false
    else underscoreLoop hex rest 3

/-- Go `strconv.underscoreOK`: underscores only between digits or after a base prefix. -/
def underscoreOK (s : Str) : Bool :=
  let s1 := match s with
    | c :: t => if c = 45 ∨ c = 43 then t else s
    | [] => s
  match s1 with
  | 48 :: c :: t =>
    if lower c = 98 ∨ lower c = 111 ∨ lower c = 120 then
      underscoreLoop (lower c = 120) t 1
    else underscoreLoop false s1 0
  | _ => underscoreLoop false s1 0

/-- The digit loop of `strconv.ParseUint` for bit size 64: the accumulated value and whether
an underscore was seen; `none` is a syntax error or a range error. -/
def parseUintLoop (base : Nat) : Str → Nat → Bool → Option (Nat × Bool)
  | [], n, us => some (n, us)
  | c :: rest, n, us =>
    if c = 95 then parseUintLoop base rest n true
    else
      let d : Option Nat :=
        if 48 ≤ c ∧ c ≤ 57 then some (c - 48)
        else if 97 ≤ lower c ∧ lower c ≤ 122 then some (lower c - 97 + 10)
        else none
      match d with
      | none => none
      | some d =>
        if d ≥ base then none
        else if n ≥ (2 ^ 64 - 1) / base + 1 then none
        else if n * base + d > 2 ^ 64 - 1 then none
        else parseUintLoop base rest (n * base + d) us

/-- Go `strconv.ParseUint(s, 0, 64)`: the base is read off the prefix (`0b`, `0o`, `0x`, a
bare leading `0` for octal, decimal otherwise); `none` when Go returns an error. -/
def ParseUint0 (s : Str) : Option Nat :=
  match s with
  | [] => none
  | c0 :: t0 =>
    let (base, digits) : Nat × Str :=
      if c0 = 48 then
        match t0 with
        | c1 :: t1 =>
          if s.length ≥ 3 ∧ lower c1 = 98 then (2, t1)
          else if s.length ≥ 3 ∧ lower c1 = 111 then (8, t1)
          else if s.length ≥ 3 ∧ lower c1 = 120 then (16, t1)
          else (8, t0)
        | [] => (8, t0)
      else (10, s)
    match parseUintLoop base digits 0 false with
    | none => none
    | some (n, us) => if us && !underscoreOK s then none else some n

/-- Go `strconv.ParseInt(s, 0, 64)`: `none` when Go returns an error (syntax or range). -/
def ParseInt0 (s : Str) : Option Int :=
  match s with
  | [] => none
  | c :: t =>
    let neg := c = 45
    let s1 := if c = 43 ∨ c = 45 then t else s
    match ParseUint0 s1 with
    | none => none
    | some un =>
      if ¬ neg ∧ un ≥ 2 ^ 63 then none
      else if neg ∧ un > 2 ^ 63 then none
      else some (if neg then - (un : Int) else (un : Int))

/-! ## package parser -/

/-- Go `parser.Parser`; the two tables `prefixFNs` and `infixFNs` are fixed by `New` and
appear as the case distinctions of `parseExpression`. -/
structure Parser where
  l : Lexer
  errors : List Str
  curTok : Token
  nextTok : Token
  deriving DecidableEq, Repr

/-- Computations of the parser. -/
abbrev PAct (α : Type) : Type := Act Parser α

/-- Go `(*Parser).Next`; panics if the lexer does. -/
def Parser.Next : PAct Unit := fun p =>
  match p.l.Next with
  | none => .panic
  | some (t, l1) => .ok () { p with curTok := p.nextTok, nextTok := t, l := l1 }

/-- Go `parser.New`: the two calls of `Next` fill `nextTok` and then `curTok`; the zero
`Token` the struct starts with is overwritten by them and never read. -/
def Parser.New (l : Lexer) : Option Parser :=
  match l.Next with
  | none => none
  | some (t1, l1) =>
    match l1.Next with
    | none => none
    | some (t2, l2) => some { l := l2, errors := [], curTok := t1, nextTok := t2 }

/-- The binding powers (Go: `iota` constants starting at 1). -/
def LOWEST : Nat := 1
/-- Binding power of `==` and `!=`. -/
def EQUALS : Nat := 2
/-- Binding power of `<` and `>`. -/
def LESSGREATER : Nat := 3
/-- Binding power of `+` and `-`. -/
def SUM : Nat := 4
/-- Binding power of `*`, `/` and `%`. -/
def PRODUCT : Nat := 5
/-- Binding power of a unary operator. -/
def PREFIX : Nat := 6
/-- Binding power of a call. -/
def CALL : Nat := 7

/-- The Go map `powerBind`. -/
def powerBind : TokenType → Option Nat
  | .EQ => some EQUALS
  | .NEQ => some EQUALS
  | .LT => some LESSGREATER
  | .GT => some LESSGREATER
  | .PLUS => some SUM
  | .MINUS => some SUM
  | .SLASH => some PRODUCT
  | .ASTERISK => some PRODUCT
  | .MOD => some PRODUCT
  | .LPAREN => some CALL
  | _ => none

/-- Go `(*Parser).peekPowerBind`. -/
def Parser.peekPowerBind (p : Parser) : Nat := (powerBind p.nextTok.Typ).getD LOWEST

/-- Go `(*Parser).curPowerBind`. -/
def Parser.curPowerBind (p : Parser) : Nat := (powerBind p.curTok.Typ).getD LOWEST

/-- Go `(*Parser).curTokenIs`. -/
def Parser.curTokenIs (p : Parser) (t : TokenType) : Bool := p.curTok.Typ == t

/-- Go `(*Parser).nextTokenIs`. -/
def Parser.nextTokenIs (p : Parser) (t : TokenType) : Bool := p.nextTok.Typ == t

/-- Append a message to `p.errors`. -/
def Parser.addError (msg : Str) : PAct Unit :=
  Act.modify fun p => { p with errors := p.errors ++ [msg] }

/-- Go `(*Parser).peekError`. -/
def Parser.peekError (t : TokenType) : PAct Unit := fun p =>
  Parser.addError
    (str "expect next token to be " ++ t.text ++ str ", got " ++ p.nextTok.Typ.text
      ++ str " instead") p

/-- Go `(*Parser).noPrefixParseFnError`. -/
def Parser.noPrefixParseFnError (t : TokenType) : PAct Unit :=
  Parser.addError (str "no prefix parse function for " ++ t.text ++ str " found")

/-- Go `(*Parser).expectNext`. -/
def Parser.expectNext (t : TokenType) : PAct Bool := fun p =>
  if p.nextTokenIs t then (do Parser.Next; pure true : PAct Bool) p
  else (do Parser.peekError t; pure false : PAct Bool) p

/-- The statement tail `if p.nextTokenIs(token.SEMICOLON) { p.Next() }`. -/
def Parser.skipSemicolon : PAct Unit := fun p =>
  if p.nextTokenIs .SEMICOLON then Parser.Next p else .ok () p

/-- The identifier node `&ast.Identifier{Token: p.curTok, Value: p.curTok.Literal}`. -/
def Parser.curIdentifier (p : Parser) : Identifier :=
  .mk p.curTok p.curTok.Literal none

/-- Go `(*Parser).parseIdentifier`. -/
def parseIdentifier : PAct Expression := fun p => .ok (.Identifier p.curIdentifier) p

/-- Go `(*Parser).parseStringLiteral`. -/
def parseStringLiteral : PAct Expression := fun p =>
  .ok (.StringLiteral p.curTok p.curTok.Literal) p

/-- Go `(*Parser).parseBoolean`. -/
def parseBoolean : PAct Expression := fun p =>
  .ok (.BooleanLiteral p.curTok (p.curTokenIs .TRUE)) p

/-- Go `(*Parser).parseNil`. -/
def parseNil : PAct Expression := fun p => .ok (.NilLiteral p.curTok p.curTok.Literal) p

/-- Go `(*Parser).parseIntegerLiteral`. The message uses `%q`, which for a lexeme of digits
(all the lexer produces for `INT`) is the lexeme between double quotes. -/
def parseIntegerLiteral : PAct Expression := fun p =>
  match ParseInt0 p.curTok.Literal with
  | none =>
    (do Parser.addError (str "could not parse \"" ++ p.curTok.Literal ++ str "\" as integer")
        pure Expression.nil : PAct Expression) p
  | some value => .ok (.IntegerLiteral p.curTok value) p

/-- The loop `for p.nextTokenIs(token.COMMA) { ... }` of `parseFunctionArgs`; `none` is the
Go result `nil`. -/
def parseFunctionArgsLoop : Nat → List Identifier → PAct (Option (List Identifier))
  | 0, _ => Act.outOfFuel
  | n + 1, identifiers => fun p =>
    if p.nextTokenIs .COMMA then
      (do
        Parser.Next
        Parser.Next
        let p1 ← Act.get
        let ok ← Parser.expectNext .ID
        if !ok then pure none
        else do
          let p2 ← Act.get
          let ident := Identifier.mk p1.curTok p1.curTok.Literal (some p2.curIdentifier)
          parseFunctionArgsLoop n (identifiers ++ [ident]) : PAct _) p
    else .ok (some identifiers) p

/-- Go `(*Parser).parseFunctionArgs`; the result `nil` (a nil slice) is the empty list. -/
def parseFunctionArgs (fuel : Nat) : PAct (List Identifier) := fun p =>
  if p.nextTokenIs .RPAREN then (do Parser.Next; pure [] : PAct _) p
  else
    (do
      Parser.Next
      let p1 ← Act.get
      let ok ← Parser.expectNext .ID
      if !ok then pure []
      else do
        let p2 ← Act.get
        let ident := Identifier.mk p1.curTok p1.curTok.Literal (some p2.curIdentifier)
        match ← parseFunctionArgsLoop fuel [ident] with
        | none => pure []
        | some identifiers =>
          let ok ← Parser.expectNext .RPAREN
          if !ok then pure [] else pure identifiers : PAct _) p

mutual
/-- Go `(*Parser).parseStatement`. -/
def parseStatement : Nat → PAct Statement
  | 0 => Act.outOfFuel
  | n + 1 => fun p =>
    match p.curTok.Typ with
    | .VAR => parseVarStatement n p
    | .ID =>
      if p.nextTok.Typ = .ASSIGN then parseAssignStatement n p
      else parseExpressionStatement n p
    | .RETURN => parseReturnStatement n p
    | .FOR => parseForStatement n p
    | _ => parseExpressionStatement n p
/-- Go `(*Parser).parseVarStatement`; the Go result `nil` is `nilVarStatement` once it is
returned through `parseStatement` as an `ast.Statement`. -/
def parseVarStatement : Nat → PAct Statement
  | 0 => Act.outOfFuel
  | n + 1 => do
    let p0 ← Act.get
    let ok ← Parser.expectNext .ID
    if !ok then pure .nilVarStatement
    else do
      let p1 ← Act.get
      let ty ← (fun p =>
        if p.nextTokenIs .ID then
          (do Parser.Next; let p2 ← Act.get; pure (some p2.curIdentifier) : PAct _) p
        else .ok none p : PAct (Option Identifier))
      let ok ← Parser.expectNext .ASSIGN
      if !ok then pure .nilVarStatement
      else do
        Parser.Next
        let value ← parseExpression n LOWEST
        Parser.skipSemicolon
        pure (.VarStatement p0.curTok (.mk p1.curTok p1.curTok.Literal ty) value)
/-- Go `(*Parser).parseAssignStatement`. -/
def parseAssignStatement : Nat → PAct Statement
  | 0 => Act.outOfFuel
  | n + 1 => do
    let p0 ← Act.get
    let ok ← Parser.expectNext .ASSIGN
    if !ok then pure .nilAssignStatement
    else do
      Parser.Next
      let value ← parseExpression n LOWEST
      Parser.skipSemicolon
      pure (.AssignStatement p0.curTok p0.curIdentifier value)
/-- Go `(*Parser).parseReturnStatement`. -/
def parseReturnStatement : Nat → PAct Statement
  | 0 => Act.outOfFuel
  | n + 1 => do
    let p0 ← Act.get
    Parser.Next
    let value ← parseExpression n LOWEST
    Parser.skipSemicolon
    pure (.ReturnStatement p0.curTok value)
/-- Go `(*Parser).parseForStatement`. -/
def parseForStatement : Nat → PAct Statement
  | 0 => Act.outOfFuel
  | n + 1 => do
    let p0 ← Act.get
    Parser.Next
    let p1 ← Act.get
    if p1.curTokenIs .LBRACE then do
      let body ← parseBlockStatement n
      Parser.skipSemicolon
      pure (.ForStatement p0.curTok [] body)
    else do
      let stmts ← parseForHeader n []
      let body ← parseBlockStatement n
      Parser.skipSemicolon
      pure (.ForStatement p0.curTok stmts body)
/-- The header loop `for !p.curTokenIs(token.LBRACE) { ... }` of `parseForStatement`. -/
def parseForHeader : Nat → List Statement → PAct (List Statement)
  | 0, _ => Act.outOfFuel
  | n + 1, stmts => fun p =>
    if !p.curTokenIs .LBRACE then
      (do
        let stmt ← parseStatement n
        let stmts1 := match stmt with
          | .nil => stmts
          | stmt => stmts ++ [stmt]
        Parser.Next
        let p2 ← Act.get
        if p2.curTokenIs .SEMICOLON then Parser.Next
        parseForHeader n stmts1 : PAct _) p
    else .ok stmts p
/-- Go `(*Parser).parseExpressionStatement`. -/
def parseExpressionStatement : Nat → PAct Statement
  | 0 => Act.outOfFuel
  | n + 1 => do
    let p0 ← Act.get
    let e ← parseExpression n LOWEST
    Parser.skipSemicolon
    pure (.ExpressionStatement p0.curTok e)
/-- Go `(*Parser).parseExpression`; the lookup `p.prefixFNs[p.curTok.Type]` is the case
distinction on the token type. -/
def parseExpression : Nat → Nat → PAct Expression
  | 0, _ => Act.outOfFuel
  | n + 1, pb => fun p =>
    let go (prefixFN : PAct Expression) : Outcome Parser Expression :=
      (do let leftExp ← prefixFN; parseExpressionLoop n pb leftExp : PAct _) p
    match p.curTok.Typ with
    | .ID => go parseIdentifier
    | .INT => go parseIntegerLiteral
    | .BANG => go (parsePrefixExpression n)
    | .MINUS => go (parsePrefixExpression n)
    | .TRUE => go parseBoolean
    | .NIL => go parseNil
    | .FALSE => go parseBoolean
    | .LPAREN => go (parseGroupedExpression n)
    | .IF => go (parseIfExpression n)
    | .FUNC => go (parseFunctionLiteral n)
    | .STRING => go parseStringLiteral
    | t => (do Parser.noPrefixParseFnError t; pure Expression.nil : PAct _) p
/-- The loop `for !p.nextTokenIs(token.SEMICOLON) && pb < p.peekPowerBind() { ... }` of
`parseExpression`; the lookup `p.infixFNs[p.nextTok.Type]` is the case distinction. -/
def parseExpressionLoop : Nat → Nat → Expression → PAct Expression
  | 0, _, _ => Act.outOfFuel
  | n + 1, pb, leftExp => fun p =>
    if !p.nextTokenIs .SEMICOLON && pb < p.peekPowerBind then
      let go (infixFN : Expression → PAct Expression) : Outcome Parser Expression :=
        (do Parser.Next; let e ← infixFN leftExp; parseExpressionLoop n pb e : PAct _) p
      match p.nextTok.Typ with
      | .ASTERISK => go (parseInfixExpression n)
      | .MOD => go (parseInfixExpression n)
      | .LT => go (parseInfixExpression n)
      | .GT => go (parseInfixExpression n)
      | .SLASH => go (parseInfixExpression n)
      | .MINUS => go (parseInfixExpression n)
      | .PLUS => go (parseInfixExpression n)
      | .EQ => go (parseInfixExpression n)
      | .NEQ => go (parseInfixExpression n)
      | .LPAREN => go (parseCallExpression n)
      | _ => .ok leftExp p
    else .ok leftExp p
/-- Go `(*Parser).parsePrefixExpression`. -/
def parsePrefixExpression : Nat → PAct Expression
  | 0 => Act.outOfFuel
  | n + 1 => do
    let p0 ← Act.get
    Parser.Next
    let right ← parseExpression n PREFIX
    pure (.PrefixExpression p0.curTok p0.curTok.Literal right)
/-- Go `(*Parser).parseInfixExpression`. -/
def parseInfixExpression : Nat → Expression → PAct Expression
  | 0, _ => Act.outOfFuel
  | n + 1, left => do
    let p0 ← Act.get
    let precedence := p0.curPowerBind
    Parser.Next
    let right ← parseExpression n precedence
    pure (.InfixExpression p0.curTok p0.curTok.Literal left right)
/-- Go `(*Parser).parseGroupedExpression`. -/
def parseGroupedExpression : Nat → PAct Expression
  | 0 => Act.outOfFuel
  | n + 1 => do
    Parser.Next
    let exp ← parseExpression n LOWEST
    let ok ← Parser.expectNext .RPAREN
    if !ok then pure .nil else pure exp
/-- Go `(*Parser).parseIfExpression`. -/
def parseIfExpression : Nat → PAct Expression
  | 0 => Act.outOfFuel
  | n + 1 => do
    let p0 ← Act.get
    Parser.Next
    let cond ← parseExpression n LOWEST
    let ok ← Parser.expectNext .LBRACE
    if !ok then pure .nil
    else do
      let cons ← parseBlockStatement n
      let p1 ← Act.get
      if p1.nextTokenIs .ELSE then do
        Parser.Next
        let p2 ← Act.get
        if p2.nextTokenIs .IF then do
          Parser.Next
          match ← parseElifExpression n (.mk p0.curTok cond [] cons none) with
          | none => pure .nilIfExpression
          | some node => pure (.IfExpression node)
        else do
          let ok ← Parser.expectNext .LBRACE
          if !ok then pure .nil
          else do
            let alt ← parseBlockStatement n
            pure (.IfExpression (.mk p0.curTok cond [] cons (some alt)))
      else pure (.IfExpression (.mk p0.curTok cond [] cons none))
/-- Go `(*Parser).parseElifExpression`: `ifexp` is the outermost `if` node, which the Go
code updates in place; `none` is the Go result `nil`. -/
def parseElifExpression : Nat → IfExpression → PAct (Option IfExpression)
  | 0, _ => Act.outOfFuel
  | n + 1, ifexp => do
    let p0 ← Act.get
    Parser.Next
    let cond ← parseExpression n LOWEST
    let ok ← Parser.expectNext .LBRACE
    if !ok then pure none
    else do
      let cons ← parseBlockStatement n
      let expression := IfExpression.mk p0.curTok cond [] cons none
      let ifexp1 := match ifexp with
        | .mk t c opts k a => IfExpression.mk t c (opts ++ [expression]) k a
      let p1 ← Act.get
      if p1.nextTokenIs .ELSE then do
        Parser.Next
        let p2 ← Act.get
        if p2.nextTokenIs .IF then do
          Parser.Next
          parseElifExpression n ifexp1
        else do
          let ok ← Parser.expectNext .LBRACE
          if !ok then pure none
          else do
            let alt ← parseBlockStatement n
            match ifexp1 with
            | .mk t c opts k _ => pure (some (.mk t c opts k (some alt)))
      else pure (some ifexp1)
/-- Go `(*Parser).parseBlockStatement`. -/
def parseBlockStatement : Nat → PAct BlockStatement
  | 0 => Act.outOfFuel
  | n + 1 => do
    let p0 ← Act.get
    Parser.Next
    let stmts ← parseBlockLoop n []
    Parser.skipSemicolon
    pure (.mk p0.curTok stmts)
/-- The loop `for !p.curTokenIs(token.RBRACE) && !p.curTokenIs(token.EOF) { ... }` of
`parseBlockStatement`. -/
def parseBlockLoop : Nat → List Statement → PAct (List Statement)
  | 0, _ => Act.outOfFuel
  | n + 1, stmts => fun p =>
    if !p.curTokenIs .RBRACE && !p.curTokenIs .EOF then
      (do
        let stmt ← parseStatement n
        let stmts1 := match stmt with
          | .nil => stmts
          | stmt => stmts ++ [stmt]
        Parser.Next
        parseBlockLoop n stmts1 : PAct _) p
    else .ok stmts p
/-- Go `(*Parser).parseFunctionLiteral`. -/
def parseFunctionLiteral : Nat → PAct Expression
  | 0 => Act.outOfFuel
  | n + 1 => do
    let p0 ← Act.get
    let name ← (fun p =>
      if p.nextTokenIs .ID then
        (do Parser.Next; let p1 ← Act.get; pure (some p1.curIdentifier) : PAct _) p
      else .ok none p : PAct (Option Identifier))
    let ok ← Parser.expectNext .LPAREN
    if !ok then pure .nil
    else do
      let args ← parseFunctionArgs n
      let rt ← (fun p =>
        if p.nextTokenIs .ID then
          (do Parser.Next; let p1 ← Act.get; pure (some p1.curIdentifier) : PAct _) p
        else .ok none p : PAct (Option Identifier))
      let ok ← Parser.expectNext .LBRACE
      if !ok then pure .nil
      else do
        let body ← parseBlockStatement n
        pure (.FunctionLiteral p0.curTok name rt args body)
/-- Go `(*Parser).parseCallExpression`. -/
def parseCallExpression : Nat → Expression → PAct Expression
  | 0, _ => Act.outOfFuel
  | n + 1, function => do
    let p0 ← Act.get
    let args ← parseCallArguments n
    pure (.CallExpression p0.curTok function args)
/-- Go `(*Parser).parseCallArguments`; the result `nil` (a nil slice) is the empty list. -/
def parseCallArguments : Nat → PAct (List Expression)
  | 0 => Act.outOfFuel
  | n + 1 => fun p =>
    if p.nextTokenIs .RPAREN then (do Parser.Next; pure [] : PAct _) p
    else
      (do
        Parser.Next
        let first ← parseExpression n LOWEST
        let args ← parseCallArgumentsLoop n [first]
        let ok ← Parser.expectNext .RPAREN
        if !ok then pure [] else pure args : PAct _) p
/-- The loop `for p.nextTokenIs(token.COMMA) { ... }` of `parseCallArguments`. -/
def parseCallArgumentsLoop : Nat → List Expression → PAct (List Expression)
  | 0, _ => Act.outOfFuel
  | n + 1, args => fun p =>
    if p.nextTokenIs .COMMA then
      (do
        Parser.Next
        Parser.Next
        let e ← parseExpression n LOWEST
        parseCallArgumentsLoop n (args ++ [e]) : PAct _) p
    else .ok args p
end

/-- The loop `for !p.curTokenIs(token.EOF) { ... }` of `Parse`. -/
def parseLoop : Nat → List Statement → PAct (List Statement)
  | 0, _ => Act.outOfFuel
  | n + 1, stmts => fun p =>
    if !p.curTokenIs .EOF then
      (do
        let stmt ← parseStatement n
        let stmts1 := match stmt with
          | .nil => stmts
          | stmt => stmts ++ [stmt]
        Parser.Next
        parseLoop n stmts1 : PAct _) p
    else .ok stmts p

/-- Go `(*Parser).Parse`. -/
def Parser.Parse (fuel : Nat) : PAct Program := do
  let stmts ← parseLoop fuel []
  pure { Statements := stmts }

/-- The call `parser.New(l).Parse()` on a lexer `l`. -/
def parseLexer (fuel : Nat) (l : Lexer) : Outcome Parser Program :=
  match Parser.New l with
  | none => .panic
  | some p => Parser.Parse fuel p

/-- Lex and parse a source text: `parser.New(lexer.New(input)).Parse()`, as the drivers and
the tests call it. -/
def parseSource (fuel : Nat) (input : Str) : Outcome Parser Program :=
  parseLexer fuel (Lexer.New input)

/-! ## package meta

Every `meta.Meta` value is a pointer to an object. Objects that the evaluator mutates or
shares by reference live in the `World`: the `Int` objects (`strPlusInfixExp` decrements
`num.Value` in place), the `Func` objects and the `Env` frames; a pointer to one of them is
its index. The other objects are immutable; such a value carries the object's contents
together with the address `addr` it was allocated at, which is what `==` on two `meta.Meta`
values compares. `TRUE`, `FALSE`, `NIL` and the three builtins are allocated once, at
package initialisation, so they need no address. -/

/-- The Go type `meta.MetaType` restricted to its eight constants. -/
inductive MetaType where
  | INT | BOOL | STRING | NIL | FUNC | RETURN_VALUE | ERROR | BUILTIN
  deriving DecidableEq, Repr

/-- The Go string value of a `MetaType` constant (what `%s` prints). -/
def MetaType.text : MetaType → Str
  | .INT => str "INT" | .BOOL => str "BOOL" | .STRING => str "STRING" | .NIL => str "NIL"
  | .FUNC => str "FUNC" | .RETURN_VALUE => str "RETURN_VALUE" | .ERROR => str "ERROR"
  | .BUILTIN => str "BUILTIN"

/-- The keys of the Go map `builtins`. -/
inductive BuiltinFunc where
  | Len | Echo | Puts
  deriving DecidableEq, Repr

/-- A value of the Go interface `meta.Meta`. -/
inductive Meta where
  /-- the nil interface value (what `bangOpExp` returns by default) -/
  | nil
  /-- `*meta.Int`: the index of the object in `World.ints` -/
  | Int (ref : Nat)
  /-- `*meta.Bool`: one of the two objects `TRUE` and `FALSE` -/
  | Bool (Value : Bool)
  /-- `*meta.String` allocated at `addr` -/
  | String (addr : Nat) (Value : Str)
  /-- `*meta.Nil`: the object `NIL` -/
  | Nil
  /-- `*meta.ReturnValue` allocated at `addr` -/
  | ReturnValue (addr : Nat) (Value : Meta)
  /-- `*meta.Error` allocated at `addr` -/
  | Error (addr : Nat) (Msg : Str)
  /-- `*meta.Func`: the index of the object in `World.funcs` -/
  | Func (ref : Nat)
  /-- `*meta.Builtin`: one of the three objects of the map `builtins` -/
  | Builtin (Fn : BuiltinFunc)
  deriving DecidableEq, Repr

/-- Go `meta.Func` (`ReturnType` is never set by the evaluator). -/
structure Func where
  Name : Option Identifier
  Args : List Identifier
  Body : BlockStatement
  Env : Nat

/-- Go `meta.Env`: `store` is the map (at most one entry per key), `outer` the parent
frame. -/
structure Env where
  store : List (Str × Meta)
  outer : Option Nat
  deriving DecidableEq, Repr

/-- The heap of objects, and the bytes written to standard output (one entry per call of
`io.WriteString`). -/
structure World where
  ints : List Int
  funcs : List Func
  envs : List Env
  fresh : Nat
  out : List Str

/-- Computations of the evaluator. -/
abbrev EAct (α : Type) : Type := Act World α

/-- Go `==` on two `meta.Meta` values: same dynamic type and same pointer. -/
def samePointer : Meta → Meta → Bool
  | .nil, .nil => true
  | .Int a, .Int b => a == b
  | .Bool a, .Bool b => a == b
  | .String a _, .String b _ => a == b
  | .Nil, .Nil => true
  | .ReturnValue a _, .ReturnValue b _ => a == b
  | .Error a _, .Error b _ => a == b
  | .Func a, .Func b => a == b
  | .Builtin a, .Builtin b => a == b
  | _, _ => false

/-- Go `m.Type()`; `none` is the panic of a method call on the nil interface. -/
def Meta.Type : Meta → Option MetaType
  | .nil => none
  | .Int _ => some .INT
  | .Bool _ => some .BOOL
  | .String _ _ => some .STRING
  | .Nil => some .NIL
  | .ReturnValue _ _ => some .RETURN_VALUE
  | .Error _ _ => some .ERROR
  | .Func _ => some .FUNC
  | .Builtin _ => some .BUILTIN

/-- The method call `m.Type()` as a computation. -/
def typeOf (m : Meta) : EAct MetaType := fun w =>
  match m.Type with
  | none => .panic
  | some t => .ok t w

/-- Lookup in a Go map. -/
def mapGet (name : Str) : List (Str × Meta) → Option Meta
  | [] => none
  | (k, v) :: rest => if k = name then some v else mapGet name rest

/-- Assignment `m[name] = val` in a Go map. -/
def mapSet (name : Str) (val : Meta) : List (Str × Meta) → List (Str × Meta)
  | [] => [(name, val)]
  | (k, v) :: rest => if k = name then (k, val) :: rest else (k, v) :: mapSet name val rest

/-- Go `(*Env).Get`, following at most `n` parent links: `none` when the chain leaves the
heap, `some none` for "not found". -/
def getLoop (envs : List Env) (name : Str) : Nat → Nat → Option (Option Meta)
  | n, e =>
    match envs.get? e with
    | none => none
    | some env =>
      match mapGet name env.store with
      | some v => some (some v)
      | none =>
        match env.outer, n with
        | none, _ => some none
        | some _, 0 => some none
        | some o, n + 1 => getLoop envs name n o

/-- Go `(*Env).Get`. A frame's parent is allocated before the frame (`NewEnclosedEnv`), so a
chain of parents visits each frame at most once and `envs.length` links are enough. -/
def Env.Get (e : Nat) (name : Str) : EAct (Option Meta) := fun w =>
  match getLoop w.envs name w.envs.length e with
  | none => .panic
  | some r => .ok r w

/-- Go `(*Env).GetWithEnv`: the value found and the frame returned as its owner. -/
def Env.GetWithEnv (e : Nat) (name : Str) : EAct (Option Meta × Option Nat) := fun w =>
  match w.envs.get? e with
  | none => .panic
  | some env =>
    match mapGet name env.store, env.outer with
    | none, some o =>
      (do let one ← Env.Get o name; pure (one, some o) : EAct _) w
    | one, _ => .ok (one, none) w

/-- Go `(*Env).Set`. -/
def Env.Set (e : Nat) (name : Str) (val : Meta) : EAct Unit := fun w =>
  match w.envs.get? e with
  | none => .panic
  | some env => .ok () { w with envs := w.envs.set e { env with store := mapSet name val env.store } }

/-- Go `meta.NewEnv`. -/
def NewEnv : EAct Nat := fun w =>
  .ok w.envs.length { w with envs := w.envs ++ [{ store := [], outer := none }] }

/-- Go `meta.NewEnclosedEnv`. -/
def NewEnclosedEnv (outer : Nat) : EAct Nat := fun w =>
  .ok w.envs.length { w with envs := w.envs ++ [{ store := [], outer := some outer }] }

/-- The world a program starts in: no object allocated, nothing written. -/
def World.empty : World := { ints := [], funcs := [], envs := [], fresh := 0, out := [] }

/-- The allocation `&meta.Int{Value: v}`. -/
def newInt (v : Int) : EAct Meta := fun w =>
  .ok (.Int w.ints.length) { w with ints := w.ints ++ [v] }

/-- The allocation `&meta.String{Value: v}`. -/
def newString (v : Str) : EAct Meta := fun w =>
  .ok (.String w.fresh v) { w with fresh := w.fresh + 1 }

/-- The allocation `&meta.ReturnValue{Value: v}`. -/
def newReturnValue (v : Meta) : EAct Meta := fun w =>
  .ok (.ReturnValue w.fresh v) { w with fresh := w.fresh + 1 }

/-- Go `newError`, applied to the formatted message. -/
def newError (msg : Str) : EAct Meta := fun w =>
  .ok (.Error w.fresh msg) { w with fresh := w.fresh + 1 }

/-- The field read `i.Value` of a `*meta.Int`. -/
def intValue (ref : Nat) : EAct Int := fun w =>
  match w.ints.get? ref with
  | none => .panic
  | some v => .ok v w

/-- The field write `i.Value = v` of a `*meta.Int`. -/
def setIntValue (ref : Nat) (v : Int) : EAct Unit := fun w =>
  .ok () { w with ints := w.ints.set ref v }

/-- Dereference of a `*meta.Func`. -/
def funcOf (ref : Nat) : EAct Func := fun w =>
  match w.funcs.get? ref with
  | none => .panic
  | some f => .ok f w

/-- Go `io.WriteString(os.Stdout, s)`. -/
def writeString (s : Str) : EAct Unit :=
  Act.modify fun w => { w with out := w.out ++ [s] }

/-- The value of a Go `int64` expression: the mathematical result reduced to two's
complement on 64 bits. -/
def wrap64 (x : Int) : Int := (x + 2 ^ 63) % 2 ^ 64 - 2 ^ 63

/-- Go `fmt.Sprintf("%d", i)`. -/
def decimal (i : Int) : Str := str (toString i)

/-- Go `(*Func).Echo`; `none` is a nil-dereference panic. -/
def Func.Echo (f : Func) : Option Str := do
  let args ← f.Args.mapM fun p =>
    match p.Typ with
    | none => none
    | some t => some (p.Value ++ str " " ++ t.Token.Literal)
  let body ← f.Body.String
  let name := match f.Name with
    | none => []
    | some n => str " " ++ n.Token.Literal
  pure (str "func" ++ name ++ str "(" ++ join (str ", ") args ++ str ") \x7b\n" ++ body
    ++ str "\n\x7d")

/-- Go `m.Echo()`; `none` is a panic. -/
def Meta.Echo (w : World) : Meta → Option Str
  | .nil => none
  | .Int ref => (w.ints.get? ref).map decimal
  | .Bool b => some (if b then str "true" else str "false")
  | .String _ v => some v
  | .Nil => some (str "nil")
  | .ReturnValue _ v => Meta.Echo w v
  | .Error _ msg => some (str "syntax error: " ++ msg)
  | .Func ref => (w.funcs.get? ref).bind Func.Echo
  | .Builtin _ => some (str "builtin function")

/-! ## package eval -/

/-- Go `nativeBool`: the object `TRUE` or the object `FALSE`. -/
def nativeBool (b : Bool) : Meta := .Bool b

/-- Go `isError`. -/
def isError : Meta → Bool
  | .Error _ _ => true
  | _ => false

/-- Go `isTrue`. -/
def isTrue : Meta → Bool
  | .Bool true => true
  | .Bool false => false
  | .Nil => false
  | _ => true

/-- Go `unwrapReturnValue`. -/
def unwrapReturnValue : Meta → Meta
  | .ReturnValue _ v => v
  | m => m

/-- Go `bangOpExp`; the default case returns the nil interface. -/
def bangOpExp : Meta → Meta
  | .Bool true => .Bool false
  | .Bool false => .Bool true
  | .Nil => .Bool true
  | _ => .nil

/-- Go `minusOpExp`. -/
def minusOpExp (right : Meta) : EAct Meta := do
  let t ← typeOf right
  if t ≠ .INT then newError (str "unknown operator: -" ++ t.text)
  else
    match right with
    | .Int ref => do
      let val ← intValue ref
      newInt (wrap64 (-val))
    | _ => Act.panic

/-- Go `prefixExp`. -/
def prefixExp (op : Str) (right : Meta) : EAct Meta :=
  if op = str "!" then pure (bangOpExp right)
  else if op = str "-" then minusOpExp right
  else do
    let t ← typeOf right
    newError (str "unknown operator: " ++ op ++ str " " ++ t.text)

/-- Go `<` on strings: bytewise lexicographic order. -/
def strLess : Str → Str → Bool
  | [], [] => false
  | [], _ :: _ => true
  | _ :: _, [] => false
  | a :: as, b :: bs => a < b || (a == b && strLess as bs)

/-- The message `unknown operator: T1 op T2`. -/
def unknownOperator (op : Str) (left right : Meta) : EAct Meta := do
  let lt ← typeOf left
  let rt ← typeOf right
  newError (str "unknown operator: " ++ lt.text ++ str " " ++ op ++ str " " ++ rt.text)

/-- Go `intInfixExp`; division and remainder by zero panic. -/
def intInfixExp (op : Str) (left right : Meta) : EAct Meta :=
  match left, right with
  | .Int l, .Int r => do
    let lv ← intValue l
    let rv ← intValue r
    if op = str "+" then newInt (wrap64 (lv + rv))
    else if op = str "-" then newInt (wrap64 (lv - rv))
    else if op = str "*" then newInt (wrap64 (lv * rv))
    else if op = str "/" then
      if rv = 0 then Act.panic else newInt (wrap64 (Int.tdiv lv rv))
    else if op = str "%" then
      if rv = 0 then Act.panic else newInt (wrap64 (Int.tmod lv rv))
    else if op = str ">" then pure (nativeBool (decide (lv > rv)))
    else if op = str "<" then pure (nativeBool (decide (lv < rv)))
    else if op = str "!=" then pure (nativeBool (decide (lv ≠ rv)))
    else if op = str "==" then pure (nativeBool (decide (lv = rv)))
    else unknownOperator op left right
  | _, _ => Act.panic

/-- Go `strInfixExp`. -/
def strInfixExp (op : Str) (left right : Meta) : EAct Meta :=
  match left, right with
  | .String _ lv, .String _ rv =>
    if op = str "+" then newString (lv ++ rv)
    else if op = str ">" then pure (nativeBool (strLess rv lv))
    else if op = str "<" then pure (nativeBool (strLess lv rv))
    else if op = str "!=" then pure (nativeBool (decide (lv ≠ rv)))
    else if op = str "==" then pure (nativeBool (decide (lv = rv)))
    else unknownOperator op left right
  | _, _ => Act.panic

/-- The loop `for num.Value > 0 { res += str.Value; num.Value -= 1 }` of `strPlusInfixExp`,
at most `k` iterations; it writes to the `Int` object it was given. -/
def repeatLoop (s : Str) (ref : Nat) : Nat → Str → EAct Str
  | 0, res => pure res
  | k + 1, res => do
    let v ← intValue ref
    if v > 0 then do
      setIntValue ref (wrap64 (v - 1))
      repeatLoop s ref k (res ++ s)
    else pure res

/-- The loop of `strPlusInfixExp` run to its end: it iterates as many times as the value of
the `Int` object at its start. -/
def repeatString (s : Str) (ref : Nat) : EAct Meta := do
  let v ← intValue ref
  let res ← repeatLoop s ref v.toNat []
  newString res

/-- Go `strPlusInfixExp`. -/
def strPlusInfixExp (op : Str) (left right : Meta) : EAct Meta :=
  if op = str "*" then
    match left, right with
    | .String _ s, .Int ref => repeatString s ref
    | .Int ref, .String _ s => repeatString s ref
    | _, _ => unknownOperator op left right
  else unknownOperator op left right

/-- Go `infixExp`. The cases of the `switch` are tried in order, and `right.Type()` is
called only where the Go conditions reach it. -/
def infixExp (op : Str) (left right : Meta) : EAct Meta := do
  let lt ← typeOf left
  let tail : EAct Meta :=
    if op = str "==" then pure (nativeBool (samePointer left right))
    else if op = str "!=" then pure (nativeBool (!samePointer left right))
    else do
      let rt ← typeOf right
      if lt ≠ rt then
        newError (str "type mismatch: " ++ lt.text ++ str " " ++ op ++ str " " ++ rt.text)
      else
        newError (str "unknown operator: " ++ lt.text ++ str " " ++ op ++ str " " ++ rt.text)
  if lt = .INT then do
    let rt ← typeOf right
    if rt = .INT then intInfixExp op left right
    else if rt = .STRING then strPlusInfixExp op left right
    else tail
  else if lt = .STRING then do
    let rt ← typeOf right
    if rt = .STRING then strInfixExp op left right
    else if rt = .INT then strPlusInfixExp op left right
    else tail
  else tail

/-- Go `identifier`: the env chain, then the map `builtins`, then the error. -/
def identifier (m : Identifier) (e : Nat) : EAct Meta := do
  match ← Env.Get e m.Value with
  | some val => pure val
  | none =>
    if m.Value = str "len" then pure (.Builtin .Len)
    else if m.Value = str "echo" then pure (.Builtin .Echo)
    else if m.Value = str "puts" then pure (.Builtin .Puts)
    else newError (str "identifier not found: " ++ m.Value)

/-- Go `assign`, given the name `m.Name.Value`. -/
def assign (name : Str) (val : Meta) (e : Nat) : EAct Unit := do
  let (_, outer) ← Env.GetWithEnv e name
  Env.Set e name val
  match outer with
  | some o => Env.Set o name val
  | none => pure ()

/-- Go `function`, given the fields of the literal. -/
def function (name : Option Identifier) (args : List Identifier) (body : BlockStatement)
    (e : Nat) : EAct Meta := fun w =>
  let funcMeta := Meta.Func w.funcs.length
  let w1 := { w with funcs := w.funcs ++ [{ Name := name, Args := args, Body := body, Env := e }] }
  match name with
  | some n => (do Env.Set e n.Value funcMeta; pure funcMeta : EAct Meta) w1
  | none => .ok funcMeta w1

/-- The loop of `extendFunctionEnv`: `env.Set(arg.Value, args[i])` for each parameter. -/
def bindArgs (env : Nat) : List Identifier → List Meta → EAct Unit
  | [], _ => pure ()
  | _ :: _, [] => Act.panic
  | p :: ps, a :: as => do
    Env.Set env p.Value a
    bindArgs env ps as

/-- Go `extendFunctionEnv`; an argument list shorter than the parameter list panics with
"index out of range". -/
def extendFunctionEnv (fn : Func) (args : List Meta) : EAct Nat := do
  let env ← NewEnclosedEnv fn.Env
  bindArgs env fn.Args args
  pure env

/-- Go `Len`. -/
def Len (args : List Meta) : EAct Meta :=
  match args with
  | [arg] =>
    match arg with
    | .String _ v => newInt (wrap64 v.length)
    | arg => do
      let t ← typeOf arg
      newError (str "argument to " ++ [96] ++ str "len" ++ [96] ++ str " not supported yet, got "
        ++ t.text)
  | _ =>
    newError (str "wrong number of arguments. got=" ++ decimal args.length ++ str ", want="
      ++ decimal 1)

/-- The method call `arg.Echo()` as a computation. -/
def echoOf (arg : Meta) : EAct Str := fun w =>
  match Meta.Echo w arg with
  | none => .panic
  | some s => .ok s w

/-- Go `Puts`. -/
def Puts : List Meta → EAct Meta
  | [] => do
    writeString (str "\n")
    pure .Nil
  | arg :: rest => do
    let s ← echoOf arg
    writeString s
    Puts rest

/-- Go `Echo`. -/
def Echo : List Meta → EAct Meta
  | [] => pure .Nil
  | arg :: rest => do
    let s ← echoOf arg
    writeString s
    writeString (str "\n")
    Echo rest

/-- The call `fn.Fn(args...)` of a builtin. -/
def callBuiltin : BuiltinFunc → List Meta → EAct Meta
  | .Len, args => Len args
  | .Echo, args => Echo args
  | .Puts, args => Puts args

/-- The type test `stmt.(*ast.VarStatement)`; it succeeds for a nil pointer of that type. -/
def isVarStatement : Statement → Bool
  | .VarStatement _ _ _ => true
  | .nilVarStatement => true
  | _ => false

mutual
/-- Go `Eval` on an `ast.Expression`, in the frame `e`. A node type without a case of its
own (`NilLiteral`, the nil interface) falls through to `return NIL`. -/
def EvalExpression : Nat → Expression → Nat → EAct Meta
  | 0, _, _ => Act.outOfFuel
  | n + 1, node, e =>
    match node with
    | .nil => pure .Nil
    | .Identifier id => identifier id e
    | .IntegerLiteral _ v => newInt v
    | .BooleanLiteral _ b => pure (nativeBool b)
    | .NilLiteral _ _ => pure .Nil
    | .StringLiteral _ v => newString v
    | .PrefixExpression _ op right => do
      let r ← EvalExpression n right e
      if isError r then pure r else prefixExp op r
    | .InfixExpression _ op left right => do
      let l ← EvalExpression n left e
      if isError l then pure l
      else do
        let r ← EvalExpression n right e
        if isError r then pure r else infixExp op l r
    | .IfExpression m => do
      let cond ← EvalExpression n m.Condition e
      if isError cond then pure cond else ifExp n m e
    | .nilIfExpression => Act.panic
    | .FunctionLiteral _ name _ args body => function name args body e
    | .CallExpression _ f as => do
      let fn ← EvalExpression n f e
      if isError fn then pure fn
      else do
        let args ← expressions n as e []
        match args with
        | [a] => if isError a then pure a else applyFunction n fn args
        | _ => applyFunction n fn args
/-- Go `Eval` on an `ast.Statement`, in the frame `e`. -/
def EvalStatement : Nat → Statement → Nat → EAct Meta
  | 0, _, _ => Act.outOfFuel
  | n + 1, node, e =>
    match node with
    | .nil => pure .Nil
    | .ExpressionStatement _ x => EvalExpression n x e
    | .ReturnStatement _ rv => do
      let val ← EvalExpression n rv e
      if isError val then pure val else newReturnValue val
    | .VarStatement _ name value => do
      let val ← EvalExpression n value e
      if isError val then pure val
      else do
        Env.Set e name.Value val
        pure .Nil
    | .nilVarStatement => Act.panic
    | .AssignStatement _ name value => do
      let val ← EvalExpression n value e
      if isError val then pure val
      else do
        assign name.Value val e
        pure .Nil
    | .nilAssignStatement => Act.panic
    | .ForStatement _ cond body => forStatement n cond body e
/-- Go `blockStatement`. -/
def blockStatement : Nat → BlockStatement → Nat → EAct Meta
  | 0, _, _ => Act.outOfFuel
  | n + 1, b, e => blockLoop n b.Statements e .nil
/-- The loop of `blockStatement`; `res` is the Go variable of that name. -/
def blockLoop : Nat → List Statement → Nat → Meta → EAct Meta
  | 0, _, _, _ => Act.outOfFuel
  | _ + 1, [], _, res => pure res
  | n + 1, stmt :: rest, e, _ => do
    let res ← EvalStatement n stmt e
    match res with
    | .ReturnValue _ _ => pure res
    | .Error _ _ => pure res
    | _ => blockLoop n rest e res
/-- Go `forStatement`, given the fields of the statement. -/
def forStatement : Nat → List Statement → BlockStatement → Nat → EAct Meta
  | 0, _, _, _ => Act.outOfFuel
  | n + 1, cond, body, e =>
    match cond.getLast? with
    | none => forEver n body e
    | some last => do
      forHeader n true cond e
      forLoop n cond last body e .nil
/-- The loop `for { ... }` of `forStatement` (no header statement). -/
def forEver : Nat → BlockStatement → Nat → EAct Meta
  | 0, _, _ => Act.outOfFuel
  | n + 1, body, e => do
    let val ← blockStatement n body e
    match val with
    | .ReturnValue _ v => pure v
    | _ => forEver n body e
/-- The two loops over `f.Condition` of `forStatement`: with `vars = true` the one that
evaluates the `var` statements, with `vars = false` the one that evaluates the others. -/
def forHeader : Nat → Bool → List Statement → Nat → EAct Unit
  | 0, _, _, _ => Act.outOfFuel
  | _ + 1, _, [], _ => pure ()
  | n + 1, vars, stmt :: rest, e => do
    if isVarStatement stmt == vars then do
      let _ ← EvalStatement n stmt e
      forHeader n vars rest e
    else forHeader n vars rest e
/-- The loop `for isTrue(Eval(last, e)) { ... }` of `forStatement`; `val` is the Go variable
of that name. -/
def forLoop : Nat → List Statement → Statement → BlockStatement → Nat → Meta → EAct Meta
  | 0, _, _, _, _, _ => Act.outOfFuel
  | n + 1, cond, last, body, e, val => do
    let c ← EvalStatement n last e
    if isTrue c then do
      let val1 ← blockStatement n body e
      match val1 with
      | .ReturnValue _ v => pure v
      | _ => do
        forHeader n false cond e
        forLoop n cond last body e val1
    else pure val
/-- Go `ifExp`. -/
def ifExp : Nat → IfExpression → Nat → EAct Meta
  | 0, _, _ => Act.outOfFuel
  | n + 1, m, e => do
    let cond ← EvalExpression n m.Condition e
    if isTrue cond then blockStatement n m.Consequence e
    else if m.Options.length > 0 then do
      match ← ifOptions n m.Options e with
      | some res => pure res
      | none =>
        match m.Alternative with
        | some alt => blockStatement n alt e
        | none => pure .Nil
    else
      match m.Alternative with
      | some alt => blockStatement n alt e
      | none => pure .Nil
/-- The loop over `m.Options` of `ifExp`: `some res` when a branch returned `res`. -/
def ifOptions : Nat → List IfExpression → Nat → EAct (Option Meta)
  | 0, _, _ => Act.outOfFuel
  | _ + 1, [], _ => pure none
  | n + 1, o :: rest, e => do
    let c ← EvalExpression n o.Condition e
    if isTrue c then do
      let res ← blockStatement n o.Consequence e
      pure (some res)
    else ifOptions n rest e
/-- Go `expressions`; `result` is the Go variable of that name. -/
def expressions : Nat → List Expression → Nat → List Meta → EAct (List Meta)
  | 0, _, _, _ => Act.outOfFuel
  | _ + 1, [], _, result => pure result
  | n + 1, exp :: rest, e, result => do
    let res ← EvalExpression n exp e
    if isError res then pure [res]
    else expressions n rest e (result ++ [res])
/-- Go `applyFunction`. -/
def applyFunction : Nat → Meta → List Meta → EAct Meta
  | 0, _, _ => Act.outOfFuel
  | n + 1, fn, args =>
    match fn with
    | .Func ref => do
      let f ← funcOf ref
      let extendedEnv ← extendFunctionEnv f args
      let evaluated ← blockStatement n f.Body extendedEnv
      pure (unwrapReturnValue evaluated)
    | .Builtin b => callBuiltin b args
    | fn => do
      let t ← typeOf fn
      newError (str "not a function: " ++ t.text)
end

/-- The loop of Go `program`; `res` is the Go variable of that name. -/
def programLoop (fuel : Nat) : List Statement → Nat → Meta → EAct Meta
  | [], _, res => pure res
  | stmt :: rest, e, _ => do
    let res ← EvalStatement fuel stmt e
    match res with
    | .ReturnValue _ v => pure v
    | .Error _ _ => pure res
    | _ => programLoop fuel rest e res

/-- Go `program`, that is `Eval` on an `*ast.Program`. -/
def Eval (fuel : Nat) (program : Program) (e : Nat) : EAct Meta :=
  programLoop fuel program.Statements e .nil

/-- The helper `testEval` of `eval_test.go`, which is also what `repl.Eat` does with a
source file: lex, parse, evaluate in a new env. -/
def testEval (fuel : Nat) (input : Str) : Outcome World Meta :=
  match parseSource fuel input with
  | .ok program _ => (do let e ← NewEnv; Eval fuel program e : EAct Meta) World.empty
  | .panic => .panic
  | .fuel => .fuel

/-! ## Observations on outcomes and trees, used to state the theorems -/

/-- The value a computation returned, if it returned. -/
def Outcome.value? {σ α : Type} : Outcome σ α → Option α
  | .ok a _ => some a
  | _ => none

/-- The state a computation returned in, if it returned. -/
def Outcome.state? {σ α : Type} : Outcome σ α → Option σ
  | .ok _ s => some s
  | _ => none

/-- What a test can see of an evaluation that returned: the value, and the `Int` objects of
the heap (a value `Meta.Int ref` is read at index `ref`). -/
def observe (o : Outcome World Meta) : Option (Meta × List Int) :=
  match o with
  | .ok m w => some (m, w.ints)
  | _ => none

/-- The frames of the heap after a computation that returned. -/
def framesAfter {α : Type} (o : Outcome World α) : Option (List Env) :=
  match o with
  | .ok _ w => some w.envs
  | _ => none

/-- The messages `p.Errors()` after a parse that returned. -/
def errorsAfter {α : Type} (o : Outcome Parser α) : Option (List Str) :=
  match o with
  | .ok _ p => some p.errors
  | _ => none

/-- An `ast.Expression` that is the nil interface or holds a nil pointer. -/
def Expression.isNilNode : Expression → Bool
  | .nil => true
  | .nilIfExpression => true
  | _ => false

/-- An `ast.Statement` that is the nil interface or holds a nil pointer. -/
def Statement.isNilNode : Statement → Bool
  | .nil => true
  | .nilVarStatement => true
  | .nilAssignStatement => true
  | _ => false

mutual
/-- Every element of every statement list and of every argument list below the expression
is a non-nil node. -/
def Expression.listsNonNil : Expression → Bool
  | .nil => true
  | .Identifier _ => true
  | .IntegerLiteral _ _ => true
  | .BooleanLiteral _ _ => true
  | .NilLiteral _ _ => true
  | .StringLiteral _ _ => true
  | .PrefixExpression _ _ r => r.listsNonNil
  | .InfixExpression _ _ l r => l.listsNonNil && r.listsNonNil
  | .IfExpression node => node.listsNonNil
  | .nilIfExpression => true
  | .FunctionLiteral _ _ _ _ body => body.listsNonNil
  | .CallExpression _ f args => f.listsNonNil && Expression.argsNonNil args
/-- The elements of an argument list are non-nil nodes, and so on below them. -/
def Expression.argsNonNil : List Expression → Bool
  | [] => true
  | a :: rest => !a.isNilNode && a.listsNonNil && Expression.argsNonNil rest
/-- The lists below an `if` node hold non-nil nodes only. -/
def IfExpression.listsNonNil : IfExpression → Bool
  | .mk _ c opts cons alt =>
    c.listsNonNil && IfExpression.optionsNonNil opts && cons.listsNonNil &&
      (match alt with
        | none => true
        | some a => a.listsNonNil)
/-- The lists below each `else if` branch hold non-nil nodes only. -/
def IfExpression.optionsNonNil : List IfExpression → Bool
  | [] => true
  | o :: rest => o.listsNonNil && IfExpression.optionsNonNil rest
/-- The lists below a statement hold non-nil nodes only. -/
def Statement.listsNonNil : Statement → Bool
  | .nil => true
  | .VarStatement _ _ v => v.listsNonNil
  | .nilVarStatement => true
  | .AssignStatement _ _ v => v.listsNonNil
  | .nilAssignStatement => true
  | .ReturnStatement _ v => v.listsNonNil
  | .ExpressionStatement _ x => x.listsNonNil
  | .ForStatement _ cond body => Statement.belowNonNil cond && body.listsNonNil
/-- The lists below each statement of a `for` header hold non-nil nodes only. -/
def Statement.belowNonNil : List Statement → Bool
  | [] => true
  | s :: rest => s.listsNonNil && Statement.belowNonNil rest
/-- The elements of a statement list are non-nil nodes, and so on below them. -/
def Statement.allNonNil : List Statement → Bool
  | [] => true
  | s :: rest => !s.isNilNode && s.listsNonNil && Statement.allNonNil rest
/-- The statements of a block are non-nil nodes, and so on below them. -/
def BlockStatement.listsNonNil : BlockStatement → Bool
  | .mk _ ss => Statement.allNonNil ss
end

/-- Every element of `Program.Statements`, of every `BlockStatement.Statements` and of every
`CallExpression.Args` of the program is a non-nil node. -/
def Program.listsNonNil (p : Program) : Bool := Statement.allNonNil p.Statements

/-- Successive calls of `Next` on the lexer return exactly the tokens `ts`, in this order. -/
def Lexer.yields : Lexer → List Token → Bool
  | _, [] => true
  | l, t :: ts =>
    match l.Next with
    | some (t1, l1) => t1 == t && Lexer.yields l1 ts
    | none => false

/-- The token `EOF` as the lexer returns it. -/
def eofToken : Token := { Typ := .EOF, Literal := [] }

/-- The node of an atomic operand: an identifier token, or an `INT` token whose lexeme
`strconv.ParseInt` accepts. -/
def atomNode (t : Token) : Option Expression :=
  match t.Typ with
  | .ID => some (.Identifier (.mk t t.Literal none))
  | .INT => (ParseInt0 t.Literal).map fun v => .IntegerLiteral t v
  | _ => none

/-- The nine token types registered with `parseInfixExpression`. -/
def isInfixOperator (t : Token) : Bool :=
  match t.Typ with
  | .ASTERISK | .MOD | .LT | .GT | .SLASH | .MINUS | .PLUS | .EQ | .NEQ => true
  | _ => false

/-- The two token types registered with `parsePrefixExpression`. -/
def isPrefixOperator (t : Token) : Bool :=
  match t.Typ with
  | .BANG | .MINUS => true
  | _ => false

/-- The binding power of a token: `powerBind[t.Type]`, `LOWEST` when absent. -/
def power (t : Token) : Nat := (powerBind t.Typ).getD LOWEST

/-- The infix node the parser builds for the operator token `op`. -/
def infixNode (op : Token) (left right : Expression) : Expression :=
  .InfixExpression op op.Literal left right

/-- The prefix node the parser builds for the operator token `op`. -/
def prefixNode (op : Token) (right : Expression) : Expression :=
  .PrefixExpression op op.Literal right

/-- The program that consists of one expression statement. -/
def expressionProgram (first : Token) (e : Expression) : Program :=
  { Statements := [.ExpressionStatement first e] }

/-- The number that a run of ASCII digits denotes in base `b`. -/
def digitsValue (b : Nat) (ds : Str) : Nat := ds.foldl (fun n c => n * b + (c - 48)) 0

/-- A parser whose current token is `t` (the other fields play no part in
`parseIntegerLiteral`). -/
def parserAt (t : Token) : Parser :=
  { l := Lexer.New [], errors := [], curTok := t, nextTok := eofToken }

/-- The bytes written to standard output by a computation that returned. -/
def outputAfter {α : Type} (o : Outcome World α) : Option (List Str) :=
  match o with
  | .ok _ w => some w.out
  | _ => none

/-- The token of `(` as the lexer returns it. -/
def lparenToken : Token := Token.New .LPAREN 40

/-- The token of `)` as the lexer returns it. -/
def rparenToken : Token := Token.New .RPAREN 41

/-- The call node the parser builds at the token `(`. -/
def callNode (function : Expression) (args : List Expression) : Expression :=
  .CallExpression lparenToken function args

/-- The token of an identifier as the lexer returns it. -/
def idToken (name : String) : Token := { Typ := .ID, Literal := str name }

/-- The node of an identifier as `parseIdentifier` builds it. -/
def idNode (name : String) : Expression := .Identifier (.mk (idToken name) (str name) none)

/-- The lexer has consumed its input: the current byte is NUL and no byte is left. -/
def Lexer.AtEnd (l : Lexer) : Prop := l.ch = 0 ∧ l.input.length ≤ l.nextPos

/-- The parser has read the whole input: both tokens are `EOF` and the lexer is at its
end. -/
def Parser.Drained (p : Parser) : Prop :=
  p.curTok.Typ = .EOF ∧ p.nextTok.Typ = .EOF ∧ p.l.AtEnd

/-- A heap that holds nothing but the given frames. -/
def World.ofFrames (envs : List Env) : World :=
  { ints := [], funcs := [], envs := envs, fresh := 0, out := [] }

/-! ## Values, heaps and messages, used to state the theorems on operators -/

/-- The range of a Go `int64`. -/
def inInt64 (x : Int) : Prop := -2 ^ 63 ≤ x ∧ x < 2 ^ 63

/-- The heap after the allocation of an `Int` object with value `v`. -/
def World.withInt (w : World) (v : Int) : World := { w with ints := w.ints ++ [v] }

/-- The heap after the allocation of one immutable object (`String`, `ReturnValue`,
`Error`). -/
def World.withObject (w : World) : World := { w with fresh := w.fresh + 1 }

/-- The string `s` repeated `k` times. -/
def repeatStr : Nat → Str → Str
  | 0, _ => []
  | k + 1, s => s ++ repeatStr k s

/-- Whether a computation ended in a Go runtime panic. -/
def Outcome.panicked {σ α : Type} : Outcome σ α → Bool
  | .panic => true
  | _ => false

/-- The operators that `intInfixExp` defines. -/
def intOperators : List Str :=
  [str "+", str "-", str "*", str "/", str "%", str ">", str "<", str "!=", str "=="]

/-- The operators that `strInfixExp` defines. -/
def strOperators : List Str := [str "+", str ">", str "<", str "!=", str "=="]

/-- The infix operators defined for two operands of one type `t`. -/
def definedFor (t : MetaType) (op : Str) : Bool :=
  match t with
  | .INT => intOperators.contains op
  | .STRING => strOperators.contains op
  | _ => op == str "==" || op == str "!="

/-- An `Int` value points to an object of the heap (as every pointer of a Go program
does). -/
def liveIn (w : World) : Meta → Bool
  | .Int ref => ref < w.ints.length
  | _ => true

/-- The message `type mismatch: T1 op T2`. -/
def typeMismatchMsg (t1 : MetaType) (op : Str) (t2 : MetaType) : Str :=
  str "type mismatch: " ++ t1.text ++ str " " ++ op ++ str " " ++ t2.text

/-- The message `unknown operator: T1 op T2`. -/
def unknownOperatorMsg (t1 : MetaType) (op : Str) (t2 : MetaType) : Str :=
  str "unknown operator: " ++ t1.text ++ str " " ++ op ++ str " " ++ t2.text

/-- The heap after the loop of `strPlusInfixExp` has run on the `Int` object `ref` that held
`n`: a positive count is left at 0. -/
def World.counted (w : World) (ref : Nat) (n : Int) : World :=
  if 0 < n then { w with ints := w.ints.set ref 0 } else w

/-- The operand types for which `infixExp` reaches the cases after the first three: not two
`Int`s, not two `String`s, not an `Int` and a `String`. -/
def otherPair (lt rt : MetaType) : Prop :=
  ¬ (lt = .INT ∧ rt = .INT) ∧ ¬ (lt = .STRING ∧ rt = .STRING) ∧
    ¬ (lt = .STRING ∧ rt = .INT) ∧ ¬ (lt = .INT ∧ rt = .STRING)

/-- A heap that holds nothing but `Int` objects with the given values. -/
def World.ofInts (ints : List Int) : World :=
  { ints := ints, funcs := [], envs := [], fresh := 0, out := [] }

/-- The map of a frame after the loop of `extendFunctionEnv`, started from the map `st`. -/
def bindStore : List (Str × Meta) → List Identifier → List Meta → List (Str × Meta)
  | st, p :: ps, a :: as => bindStore (mapSet p.Value a st) ps as
  | st, _, _ => st

/-- The heap after `extendFunctionEnv fn args`: one more frame, which binds the parameters to
the arguments and has `fn.Env` as its parent. -/
def World.called (w : World) (fn : Func) (args : List Meta) : World :=
  { w with envs := w.envs ++ [{ store := bindStore [] fn.Args args, outer := some fn.Env }] }

/-- A `Func` object without parameters and with an empty body, captured in the frame `e`. -/
def emptyFunc (e : Nat) : Func :=
  { Name := none, Args := [], Body := .mk (Token.New .LBRACE 123) [], Env := e }

/-- The shape of an `if` node: the number of its `Options`, whether each of them is without
`Options` and `Alternative` of its own, and whether its `Alternative` is set. -/
def IfExpression.shape (m : IfExpression) : Nat × Bool × Bool :=
  (m.Options.length,
    m.Options.all (fun o => o.Options.isEmpty && o.Alternative.isNone),
    m.Alternative.isSome)

/-- The shape of the `if` node that is the only statement of the parsed input. -/
def ifShape (fuel : Nat) (input : Str) : Option (Nat × Bool × Bool) :=
  match parseSource fuel input with
  | .ok program _ =>
    match program.Statements with
    | [.ExpressionStatement _ (.IfExpression m)] => some m.shape
    | _ => none
  | _ => none

/-- The expression `x`, evaluated in the frame `e` and the heap `w`, returns `v` and leaves
the heap `w1`: so does `Eval` for every amount of fuel from some amount on. -/
def Expression.evaluatesTo (x : Expression) (e : Nat) (w : World) (v : Meta) (w1 : World) :
    Prop :=
  ∃ K, ∀ k, K ≤ k → EvalExpression k x e w = .ok v w1

/-- The block `b`, evaluated in the frame `e` and the heap `w`, returns `v` and leaves the
heap `w1`. -/
def BlockStatement.evaluatesTo (b : BlockStatement) (e : Nat) (w : World) (v : Meta)
    (w1 : World) : Prop :=
  ∃ K, ∀ k, K ≤ k → blockStatement k b e w = .ok v w1

/-- The else-if branches tried in source order, as the specification words it: the first
branch whose condition is truthy yields the value of its consequence (`some`); when no
branch is left, nothing is yielded (`none`). The heap is threaded through the conditions
that are evaluated. -/
inductive firstTruthy (e : Nat) : List IfExpression → World → Option Meta → World → Prop
  | done (w : World) : firstTruthy e [] w none w
  | hit (o : IfExpression) (rest : List IfExpression) (w w1 w2 : World) (c r : Meta) :
      o.Condition.evaluatesTo e w c w1 → isTrue c = true →
      o.Consequence.evaluatesTo e w1 r w2 → firstTruthy e (o :: rest) w (some r) w2
  | miss (o : IfExpression) (rest : List IfExpression) (w w1 w2 : World) (c : Meta)
      (res : Option Meta) :
      o.Condition.evaluatesTo e w c w1 → isTrue c = false →
      firstTruthy e rest w1 res w2 → firstTruthy e (o :: rest) w res w2

/-- The value of an `if` whose condition is not truthy, as the specification words it: the
value that the else-if branches yield, otherwise the value of the `else` block if there is
one, otherwise NIL. -/
inductive elseValue (e : Nat) (m : IfExpression) : World → Meta → World → Prop
  | option (w w1 : World) (r : Meta) :
      firstTruthy e m.Options w (some r) w1 → elseValue e m w r w1
  | alternative (w w1 w2 : World) (alt : BlockStatement) (r : Meta) :
      firstTruthy e m.Options w none w1 → m.Alternative = some alt →
      alt.evaluatesTo e w1 r w2 → elseValue e m w r w2
  | nothing (w w1 : World) :
      firstTruthy e m.Options w none w1 → m.Alternative = none → elseValue e m w .Nil w1

/-- The node `node` is the `if` node `ifexp` with else-if branches appended to its `Options`
(and possibly an `Alternative` set), each branch without `Options` and `Alternative` of its
own. -/
def IfExpression.extendedTo (ifexp node : IfExpression) : Prop :=
  ∃ more : List IfExpression, node.Options = ifexp.Options ++ more ∧
    node.Condition = ifexp.Condition ∧ node.Consequence = ifexp.Consequence ∧
    ∀ o ∈ more, o.Options = [] ∧ o.Alternative = none

/-- The node of `if false \x7b \x7d else if true \x7b \x7d`. -/
def emptyElif : IfExpression :=
  .mk (Token.New .IF 105) (.BooleanLiteral (Token.New .FALSE 102) false)
    [.mk (Token.New .IF 105) (.BooleanLiteral (Token.New .TRUE 116) true) []
      (.mk (Token.New .LBRACE 123) []) none]
    (.mk (Token.New .LBRACE 123) []) none

/-! ## Trees written as lists of numbers, and the closure program -/

/-- A string written with its length in front. -/
def Str.code (s : Str) : List Nat := s.length :: s

/-- A token written as its type and its lexeme. -/
def Token.code (t : Token) : List Nat := t.Typ.text.code ++ t.Literal.code

mutual
/-- An identifier node written as a list of numbers, token and type included. -/
def Identifier.code : Identifier → List Nat
  | .mk t v ty => t.code ++ v.code ++ Identifier.codeOption ty
/-- An optional identifier node written as a list of numbers. -/
def Identifier.codeOption : Option Identifier → List Nat
  | none => [0]
  | some a => 1 :: a.code
end

/-- A parameter list written as a list of numbers. -/
def Identifier.codeList (l : List Identifier) : List Nat :=
  l.length :: l.foldr (fun a acc => a.code ++ acc) []

mutual
/-- An expression node written as a list of numbers, from which the node can be read back:
a tag for the kind of node, then the fields, tokens included. -/
def Expression.code : Expression → List Nat
  | .nil => [0]
  | .Identifier a => 1 :: a.code
  | .IntegerLiteral t v => 2 :: t.code ++ [if v < 0 then 1 else 0, v.natAbs]
  | .BooleanLiteral t v => 3 :: t.code ++ [if v then 1 else 0]
  | .NilLiteral t v => 4 :: t.code ++ v.code
  | .StringLiteral t v => 5 :: t.code ++ v.code
  | .PrefixExpression t op r => 6 :: t.code ++ op.code ++ r.code
  | .InfixExpression t op l r => 7 :: t.code ++ op.code ++ l.code ++ r.code
  | .IfExpression m => 8 :: m.code
  | .nilIfExpression => [9]
  | .FunctionLiteral t name rt args body =>
    10 :: t.code ++ Identifier.codeOption name ++ Identifier.codeOption rt ++
      Identifier.codeList args ++ body.code
  | .CallExpression t f as => 11 :: t.code ++ f.code ++ Expression.codeList as
/-- An argument list written as a list of numbers: a mark in front of each element. -/
def Expression.codeList : List Expression → List Nat
  | [] => [0]
  | a :: as => 1 :: a.code ++ Expression.codeList as
/-- An `if` node written as a list of numbers. -/
def IfExpression.code : IfExpression → List Nat
  | .mk t c opts k a =>
    t.code ++ c.code ++ IfExpression.codeList opts ++ k.code ++ BlockStatement.codeOption a
/-- A list of else-if branches written as a list of numbers. -/
def IfExpression.codeList : List IfExpression → List Nat
  | [] => [0]
  | a :: as => 1 :: a.code ++ IfExpression.codeList as
/-- A statement node written as a list of numbers, tokens included. -/
def Statement.code : Statement → List Nat
  | .nil => [0]
  | .VarStatement t n v => 1 :: t.code ++ n.code ++ v.code
  | .nilVarStatement => [2]
  | .AssignStatement t n v => 3 :: t.code ++ n.code ++ v.code
  | .nilAssignStatement => [4]
  | .ReturnStatement t v => 5 :: t.code ++ v.code
  | .ExpressionStatement t v => 6 :: t.code ++ v.code
  | .ForStatement t c b => 7 :: t.code ++ Statement.codeList c ++ b.code
/-- A statement list written as a list of numbers. -/
def Statement.codeList : List Statement → List Nat
  | [] => [0]
  | a :: as => 1 :: a.code ++ Statement.codeList as
/-- A block written as a list of numbers. -/
def BlockStatement.code : BlockStatement → List Nat
  | .mk t ss => t.code ++ Statement.codeList ss
/-- An optional block written as a list of numbers. -/
def BlockStatement.codeOption : Option BlockStatement → List Nat
  | none => [0]
  | some a => 1 :: a.code
end

/-- The parser returns for the source `input`, without an error message, a program with the
statements `stmts` (compared as written by `Statement.codeList`). -/
def parsesTo (fuel : Nat) (input : Str) (stmts : List Statement) : Bool :=
  match parseSource fuel input with
  | .ok program p =>
    Statement.codeList program.Statements == Statement.codeList stmts && p.errors.isEmpty
  | _ => false


/-- The identifier node of the name `name`, without a type. -/
def ident (name : String) : Identifier := .mk (idToken name) (str name) none

/-- The token of an integer literal as the lexer returns it. -/
def intToken (v : Int) : Token := { Typ := .INT, Literal := decimal v }

/-- The node of the integer `v` written in decimal, as the parser builds it: a literal, under
a prefix `-` when `v` is negative. -/
def intLiteral (v : Int) : Expression :=
  if v < 0 then
    .PrefixExpression (Token.New .MINUS 45) (str "-") (.IntegerLiteral (intToken (-v)) (-v))
  else .IntegerLiteral (intToken v) v

/-- The node of the closure `func(x int) \x7b b = b + x; return b; \x7d`. -/
def adderLiteral : Expression :=
  .FunctionLiteral { Typ := .FUNC, Literal := str "func" } none none
    [.mk (idToken "x") (str "x") (some (ident "int"))]
    (.mk (Token.New .LBRACE 123)
      [.AssignStatement (idToken "b") (ident "b")
          (.InfixExpression (Token.New .PLUS 43) (str "+") (idNode "b") (idNode "x")),
        .ReturnStatement { Typ := .RETURN, Literal := str "return" } (idNode "b")])

/-- The body of `func a() \x7b var b = b0; return func(x int) \x7b b = b + x; return b; \x7d \x7d`. -/
def makerBody (b0 : Int) : BlockStatement :=
  .mk (Token.New .LBRACE 123)
    [.VarStatement { Typ := .VAR, Literal := str "var" } (ident "b")
        (intLiteral b0),
      .ReturnStatement { Typ := .RETURN, Literal := str "return" } adderLiteral]

/-- The statements of
`func a() \x7b var b = b0; return func(x int) \x7b b = b + x; return b; \x7d \x7d; var c = a()`. -/
def closureSetup (b0 : Int) : List Statement :=
  [.ExpressionStatement { Typ := .FUNC, Literal := str "func" }
      (.FunctionLiteral { Typ := .FUNC, Literal := str "func" } (some (ident "a")) none []
        (makerBody b0)),
    .VarStatement { Typ := .VAR, Literal := str "var" } (ident "c") (callNode (idNode "a") [])]

/-- The statement `c(d)`. -/
def closureCall (d : Int) : Statement :=
  .ExpressionStatement (idToken "c") (callNode (idNode "c") [intLiteral d])

/-- The program of the setup followed by `k` calls `c(d)`. -/
def closureProgram (b0 d : Int) (k : Nat) : Program :=
  { Statements := closureSetup b0 ++ List.replicate k (closureCall d) }


/-- The `Func` object of `a`. -/
def makerFunc (b0 : Int) : Func :=
  { Name := some (ident "a"), Args := [], Body := makerBody b0, Env := 0 }

/-- The `Func` object of the closure, captured in the frame 1 of the call `a()`. -/
def adderFunc : Func :=
  { Name := none, Args := [.mk (idToken "x") (str "x") (some (ident "int"))],
    Body := .mk (Token.New .LBRACE 123)
      [.AssignStatement (idToken "b") (ident "b")
          (.InfixExpression (Token.New .PLUS 43) (str "+") (idNode "b") (idNode "x")),
        .ReturnStatement { Typ := .RETURN, Literal := str "return" } (idNode "b")],
    Env := 1 }

/-- A heap after the setup and some calls of `c`: the top-level frame binds `a` and `c`, the
frame of the call `a()` binds `b` to the `Int` object `r`, and `frames` are the frames of
the calls of `c` so far. -/
def closureWorld (b0 : Int) (ints : List Int) (r : Nat) (frames : List Env) (fresh : Nat) :
    World :=
  { ints := ints, funcs := [makerFunc b0, adderFunc],
    envs := { store := [(str "a", .Func 0), (str "c", .Func 1)], outer := none } ::
      { store := [(str "b", .Int r)], outer := some 0 } :: frames,
    fresh := fresh, out := [] }

/-- The frame of a call `c(d)` after its body has run: `x` is the argument, `b` the sum. -/
def callFrame (x b : Nat) : Env :=
  { store := [(str "x", .Int x), (str "b", .Int b)], outer := some 1 }

/-- The lexer on `input` whose current byte is the byte at offset `p` (NUL past the end of
the input): the state of a `Lexer` after `New` and after every `eat`. -/
def Lexer.atPos (input : Str) (p : Nat) : Lexer :=
  { input := input, pos := p, nextPos := p + 1, ch := input.getD p 0 }

/-- The bytes of the maximal run of bytes satisfying `cond` that starts at offset `p`. -/
def runFrom (cond : Nat → Bool) (input : Str) (p : Nat) : Str :=
  (input.drop p).takeWhile cond

/-- A byte inside a string literal: any byte but `"` and NUL. -/
def isStringByte (ch : Nat) : Bool := !(ch == 34 || ch == 0)

/-- The result of the `k + 1`-th of successive calls of `Next`; `none` is a slice panic in
one of them. -/
def Lexer.nthNext : Nat → Lexer → Option (Token × Lexer)
  | 0, l => l.Next
  | k + 1, l =>
    match l.Next with
    | none => none
    | some (_, l1) => Lexer.nthNext k l1

/-- The ten entries of the Go map `keywords`. -/
def keywords : List (Str × TokenType) :=
  [(str "func", .FUNC), (str "var", .VAR), (str "if", .IF), (str "else", .ELSE),
    (str "true", .TRUE), (str "false", .FALSE), (str "nil", .NIL), (str "return", .RETURN),
    (str "break", .BREAK), (str "for", .FOR)]

/-- The message `wrong number of arguments. got=N, want=1`. -/
def wrongNumberMsg (n : Nat) : Str :=
  str "wrong number of arguments. got=" ++ decimal n ++ str ", want=1"

/-- The message of `len` for an argument of type `t`. -/
def lenNotSupportedMsg (t : MetaType) : Str :=
  str "argument to " ++ [96] ++ str "len" ++ [96] ++ str " not supported yet, got " ++ t.text

/-- The statement `s`, evaluated in the frame `e` and the heap `w`, returns `v` and leaves
the heap `w1`: so does `Eval` for every amount of fuel from some amount on. -/
def Statement.evaluatesTo (s : Statement) (e : Nat) (w : World) (v : Meta) (w1 : World) :
    Prop :=
  ∃ K, ∀ k, K ≤ k → EvalStatement k s e w = .ok v w1

/-- The values at which `program` and `blockStatement` stop: a `ReturnValue` or an
`Error`. -/
def stops : Meta → Bool
  | .ReturnValue _ _ => true
  | .Error _ _ => true
  | _ => false

/-- The statements of a list are evaluated one after the other, from the heap `w` to the
heap `w1`, and none of them yields a `ReturnValue` or an `Error`. -/
inductive runsThrough (e : Nat) : List Statement → World → World → Prop
  | done (w : World) : runsThrough e [] w w
  | step (s : Statement) (rest : List Statement) (w w1 w2 : World) (v : Meta) :
      s.evaluatesTo e w v w1 → stops v = false → runsThrough e rest w1 w2 →
      runsThrough e (s :: rest) w w2

/-- The statement `return 7`. -/
def returnSeven : Statement :=
  .ReturnStatement (Token.mk .RETURN (str "return")) (.IntegerLiteral (intToken 7) 7)

/-- The type test `val.(*meta.ReturnValue)`. -/
def isReturnValue : Meta → Bool
  | .ReturnValue _ _ => true
  | _ => false

/-- One of the two loops over the header of a `for` statement runs from the heap `w` to the
heap `w1`. -/
def headerRuns (vars : Bool) (cond : List Statement) (e : Nat) (w w1 : World) : Prop :=
  ∃ K, ∀ k, K ≤ k → forHeader k vars cond e w = .ok () w1

/-- The loop of a `for` statement with the condition `last` runs until the condition is no
longer truthy, and no evaluation of the body yields a `ReturnValue`; the list holds the
values of the body, one per iteration, in order. -/
inductive loopRuns (e : Nat) (cond : List Statement) (last : Statement) (body : BlockStatement) :
    World → List Meta → World → Prop
  | exit (w w1 : World) (c : Meta) :
      last.evaluatesTo e w c w1 → isTrue c = false → loopRuns e cond last body w [] w1
  | iterate (w w1 w2 w3 w4 : World) (c v : Meta) (vs : List Meta) :
      last.evaluatesTo e w c w1 → isTrue c = true → body.evaluatesTo e w1 v w2 →
      isReturnValue v = false → headerRuns false cond e w2 w3 →
      loopRuns e cond last body w3 vs w4 → loopRuns e cond last body w (v :: vs) w4

/-- The last value of a list, `val` for the empty list. -/
def lastValue : Meta → List Meta → Meta
  | val, [] => val
  | _, v :: vs => lastValue v vs

/-- The statement `false` of a header. -/
def falseStatement : Statement :=
  .ExpressionStatement (Token.mk .FALSE (str "false"))
    (.BooleanLiteral (Token.mk .FALSE (str "false")) false)

/-- The node of `name + 1`. -/
def plusOne (name : String) : Expression :=
  .InfixExpression (Token.New .PLUS 43) (str "+") (idNode name)
    (.IntegerLiteral (intToken 1) 1)

/-- The header `var i = 0; i = i + 1; i < n` of the counting loop. -/
def countHeader (n : Nat) : List Statement :=
  [.VarStatement (Token.mk .VAR (str "var")) (ident "i") (.IntegerLiteral (intToken 0) 0),
    .AssignStatement (idToken "i") (ident "i") (plusOne "i"),
    .ExpressionStatement (idToken "i")
      (.InfixExpression (Token.New .LT 60) (str "<") (idNode "i")
        (.IntegerLiteral (intToken n) n))]

/-- The condition `i < n` of the counting loop. -/
def countCondition (n : Nat) : Statement :=
  .ExpressionStatement (idToken "i")
    (.InfixExpression (Token.New .LT 60) (str "<") (idNode "i") (.IntegerLiteral (intToken n) n))

/-- The body `c = c + 1` of the counting loop. -/
def countBody : BlockStatement :=
  .mk (Token.New .LBRACE 123) [.AssignStatement (idToken "c") (ident "c") (plusOne "c")]

/-- The program
`var c = 0; for var i = 0; i = i + 1; i < n \x7b c = c + 1 \x7d; c`. -/
def countProgram (n : Nat) : Program :=
  { Statements :=
      [.VarStatement (Token.mk .VAR (str "var")) (ident "c") (.IntegerLiteral (intToken 0) 0),
        .ForStatement (Token.mk .FOR (str "for")) (countHeader n) countBody,
        .ExpressionStatement (idToken "c") (idNode "c")] }

/-- A heap of the counting program: the top-level frame binds `c` and `i` to the `Int`
objects `rc` and `ri`. -/
def countWorld (ints : List Int) (rc ri : Nat) : World :=
  { ints := ints, funcs := [],
    envs := [{ store := [(str "c", .Int rc), (str "i", .Int ri)], outer := none }],
    fresh := 0, out := [] }

/-- The parameter `x int`. -/
def xParam : Identifier := .mk (idToken "x") (str "x") (some (ident "int"))

/-- The body `\x7b x; \x7d`. -/
def xBody : BlockStatement :=
  .mk (Token.New .LBRACE 123) [.ExpressionStatement (idToken "x") (idNode "x")]

/-- The program `func ooxx(x int) \x7b x; \x7d; ooxx(ARG)` for an argument expression. -/
def ooxxProgram (arg : Expression) : Program :=
  { Statements :=
      [.ExpressionStatement (Token.mk .FUNC (str "func"))
          (.FunctionLiteral (Token.mk .FUNC (str "func")) (some (ident "ooxx")) none [xParam]
            xBody),
        .ExpressionStatement (idToken "ooxx") (callNode (idNode "ooxx") [arg])] }

/-- The `Func` object that `function` allocates for a literal with the name `name` in the
frame `e`. -/
def namedFunc (name : Identifier) (args : List Identifier) (body : BlockStatement) (e : Nat) :
    Func :=
  { Name := some name, Args := args, Body := body, Env := e }

/-- The heap after `function` on a literal with the name `name` in the frame `e`, whose
contents were `fr`: the `Func` object is allocated, and the frame binds the name to it. -/
def World.withNamedFunc (w : World) (name : Identifier) (args : List Identifier)
    (body : BlockStatement) (e : Nat) (fr : Env) : World :=
  { w with
    funcs := w.funcs ++ [namedFunc name args body e]
    envs := w.envs.set e { fr with store := mapSet name.Value (.Func w.funcs.length) fr.store } }

/-- A byte of the class that the `default` case of `Next` gives to `token.New(ILLEGAL, ch)`:
not a blank, not NUL, not `"`, not a letter or `_`, not a digit, and none of the operator and
delimiter bytes. -/
def isOtherByte (b : Nat) : Bool :=
  !isBlank b && b != 0 && b != 34 && !isLetter b && !isDigit b && b != 61 && b != 33 &&
    (punct b).isNone

/-- The source text that defines the counter closure `c` of claim C34. -/
def counterSource : String :=
  "func mk() \x7b var n = 0; return func() \x7b n = n + 1; return n \x7d \x7d; var c = mk(); "

/-- The loop `for \x7b ... \x7d` without a header reaches an evaluation of the body that yields
a `ReturnValue` with the inner value `v`, after evaluations that yield none. -/
inductive everReturns (e : Nat) (body : BlockStatement) : World → Meta → World → Prop
  | hit (w w1 : World) (a : Nat) (v : Meta) :
      body.evaluatesTo e w (.ReturnValue a v) w1 → everReturns e body w v w1
  | iterate (w w1 w2 : World) (x v : Meta) :
      body.evaluatesTo e w x w1 → isReturnValue x = false → everReturns e body w1 v w2 →
      everReturns e body w v w2

/-- The loop of a `for` statement with the condition `last` reaches an evaluation of the body
that yields a `ReturnValue` with the inner value `v`, after iterations that yield none. -/
inductive loopReturns (e : Nat) (cond : List Statement) (last : Statement)
    (body : BlockStatement) : World → Meta → World → Prop
  | hit (w w1 w2 : World) (c : Meta) (a : Nat) (v : Meta) :
      last.evaluatesTo e w c w1 → isTrue c = true →
      body.evaluatesTo e w1 (.ReturnValue a v) w2 → loopReturns e cond last body w v w2
  | iterate (w w1 w2 w3 w4 : World) (c x v : Meta) :
      last.evaluatesTo e w c w1 → isTrue c = true → body.evaluatesTo e w1 x w2 →
      isReturnValue x = false → headerRuns false cond e w2 w3 →
      loopReturns e cond last body w3 v w4 → loopReturns e cond last body w v w4

/-- The body of a `for` statement with the header `cond` is reached and yields a `ReturnValue`
with the inner value `v`; the statement was started in the heap `w` and the body leaves the
heap `w1`. -/
def forReturns (e : Nat) (cond : List Statement) (body : BlockStatement) (w : World) (v : Meta)
    (w1 : World) : Prop :=
  match cond.getLast? with
  | none => everReturns e body w v w1
  | some last => ∃ w0, headerRuns true cond e w w0 ∧ loopReturns e cond last body w0 v w1

/-- The body `\x7b return 1 \x7d`. -/
def returnOneBody : BlockStatement :=
  .mk (Token.New .LBRACE 123)
    [.ReturnStatement (Token.mk .RETURN (str "return")) (.IntegerLiteral (intToken 1) 1)]

/-- The lexeme of an identifier: letters and `_` only, at least one, and not a keyword. -/
def isName (v : Str) : Bool := !v.isEmpty && v.all isLetter && GetTokenType v == .ID

/-- The lexeme of a number: digits only, at least one. -/
def isNumber (v : Str) : Bool := !v.isEmpty && v.all isDigit

/-- The token of `,` as the lexer returns it. -/
def commaToken : Token := Token.New .COMMA 44

mutual
/-- An expression built from identifiers, integer, boolean and `nil` literals with prefix
operators, infix operators and calls, each node with the token and the fields that the parser
gives it. -/
def Expression.isPlain : Expression → Bool
  | .Identifier (.mk t v ty) => t == ⟨.ID, v⟩ && ty.isNone && isName v
  | .IntegerLiteral t v => t.Typ == .INT && isNumber t.Literal && ParseInt0 t.Literal == some v
  | .BooleanLiteral t b =>
    (t == ⟨.TRUE, str "true"⟩ && b) || (t == ⟨.FALSE, str "false"⟩ && !b)
  | .NilLiteral t v => t == ⟨.NIL, str "nil"⟩ && v == str "nil"
  | .PrefixExpression t op r =>
    isPrefixOperator t && t.Literal == t.Typ.text && op == t.Literal && r.isPlain
  | .InfixExpression t op l r =>
    isInfixOperator t && t.Literal == t.Typ.text && op == t.Literal && l.isPlain && r.isPlain
  | .CallExpression t f args => t == lparenToken && f.isPlain && Expression.allPlain args
  | _ => false
/-- All expressions of a list are plain. -/
def Expression.allPlain : List Expression → Bool
  | [] => true
  | a :: as => a.isPlain && Expression.allPlain as
end

mutual
/-- The tokens of the text that `String()` returns for a plain expression. -/
def Expression.tokens : Expression → List Token
  | .Identifier id => [id.Token]
  | .IntegerLiteral t _ => [t]
  | .BooleanLiteral t _ => [t]
  | .NilLiteral t _ => [t]
  | .PrefixExpression t _ r => lparenToken :: t :: r.tokens ++ [rparenToken]
  | .InfixExpression t _ l r => lparenToken :: l.tokens ++ t :: r.tokens ++ [rparenToken]
  | .CallExpression t f args =>
    f.tokens ++ t :: (Expression.argTokens args).drop 1 ++ [rparenToken]
  | _ => []
/-- The tokens of an argument list, with a `,` in front of each argument. -/
def Expression.argTokens : List Expression → List Token
  | [] => []
  | a :: as => commaToken :: a.tokens ++ Expression.argTokens as
end

mutual
/-- The text that `String()` returns for a plain expression. -/
def Expression.text : Expression → Str
  | .Identifier id => id.Value
  | .IntegerLiteral t _ => t.Literal
  | .BooleanLiteral t _ => t.Literal
  | .NilLiteral t _ => t.Literal
  | .PrefixExpression _ op r => str "(" ++ op ++ r.text ++ str ")"
  | .InfixExpression _ op l r => str "(" ++ l.text ++ str " " ++ op ++ str " " ++ r.text ++ str ")"
  | .CallExpression _ f args => f.text ++ str "(" ++ (Expression.argText args).drop 2 ++ str ")"
  | _ => []
/-- The texts of the arguments of a call, with `, ` in front of each. -/
def Expression.argText : List Expression → Str
  | [] => []
  | a :: as => str ", " ++ a.text ++ Expression.argText as
end

/-- The expression of the only statement of the program parsed from `input`. -/
def parsedExpression (fuel : Nat) (input : Str) : Option Expression :=
  match parseSource fuel input with
  | .ok program p =>
    if p.errors.isEmpty then
      match program.Statements with
      | [.ExpressionStatement _ e] => some e
      | _ => none
    else none
  | _ => none

mutual
/-- The number of operator and call nodes of a plain expression. -/
def Expression.size : Expression → Nat
  | .PrefixExpression _ _ r => r.size + 1
  | .InfixExpression _ _ l r => l.size + r.size + 1
  | .CallExpression _ f args => f.size + Expression.sizes args + 1
  | _ => 0
/-- The number of nodes of a list of plain expressions. -/
def Expression.sizes : List Expression → Nat
  | [] => 0
  | a :: as => a.size + Expression.sizes as + 1
end

/-- The number of calls at the end of an expression: 2 for `f(a)(b)`. -/
def Expression.calls : Expression → Nat
  | .CallExpression _ f _ => f.calls + 1
  | _ => 0

/-- The parser with the message list `es` that stands at the token number `i` of the tokens
`T`, which the lexers `L` return one after the other: its current token is `T i`, its next
token `T (i + 1)`. -/
def cursor (L : Nat → Lexer) (T : Nat → Token) (es : List Str) (i : Nat) : Parser :=
  { l := L (i + 2), errors := es, curTok := T i, nextTok := T (i + 1) }

/-- The tokens number `i`, `i + 1`, ... of `T` are the tokens of the list. -/
def reads (T : Nat → Token) : Nat → List Token → Prop
  | _, [] => True
  | i, t :: ts => T i = t ∧ reads T (i + 1) ts

/-- A token with which the text of a plain expression starts. -/
def startsPlain (t : Token) : Bool :=
  match t.Typ with
  | .ID | .INT | .TRUE | .FALSE | .NIL | .LPAREN => true
  | _ => false

/-- Successive calls of `Next`, from the offset `p` of `input`, return the tokens of the list
and reach the offset `q`. -/
def lexes (input : Str) : Nat → List Token → Nat → Prop
  | p, [], q => p = q
  | p, t :: ts, q =>
    ∃ p1, (Lexer.atPos input p).Next = some (t, Lexer.atPos input p1) ∧ lexes input p1 ts q

/-- The text after a name or a number does not go on with a letter or a digit. -/
def endsWord (suf : Str) : Bool := !isLetter (suf.headD 0) && !isDigit (suf.headD 0)

/-- The lexer after `j` calls of `Next`. -/
def lexerAt (l : Lexer) : Nat → Lexer
  | 0 => l
  | j + 1 =>
    match (lexerAt l j).Next with
    | some (_, l1) => l1
    | none => lexerAt l j

/-- The token that the call number `j + 1` of `Next` returns. -/
def tokenAt (l : Lexer) (j : Nat) : Token :=
  match (lexerAt l j).Next with
  | some (t, _) => t
  | none => eofToken

/-- The text that `Program.String` returns for the program parsed from `input`, when the
parser records no message. -/
def printed (fuel : Nat) (input : Str) : Option Str :=
  match parseSource fuel input with
  | .ok program p => if p.errors.isEmpty then program.String else none
  | _ => none

/-- The node of `a + 1`. -/
def aPlusOne : Expression :=
  infixNode (Token.New .PLUS 43) (idNode "a") (.IntegerLiteral (intToken 1) 1)

/-- The token of `=` as the lexer returns it. -/
def assignToken : Token := Token.New .ASSIGN 61

/-- The token of `;` as the lexer returns it. -/
def semicolonToken : Token := Token.New .SEMICOLON 59

/-- The token of the keyword `var`. -/
def varToken : Token := { Typ := .VAR, Literal := str "var" }

/-- The token of the keyword `return`. -/
def returnToken : Token := { Typ := .RETURN, Literal := str "return" }

/-- A `var` statement without a type, an assignment or a `return` statement, with a plain
expression as its value and with the tokens and names that the parser gives it. -/
def Statement.isPlain : Statement → Bool
  | .VarStatement t (.mk nt n ty) v =>
    t == varToken && nt == ⟨.ID, n⟩ && ty.isNone && isName n && v.isPlain
  | .AssignStatement t (.mk nt n ty) v =>
    t == ⟨.ID, n⟩ && nt == ⟨.ID, n⟩ && ty.isNone && isName n && v.isPlain
  | .ReturnStatement t v => t == returnToken && v.isPlain
  | _ => false

/-- The tokens of the text that `String()` returns for a plain statement. -/
def Statement.tokens : Statement → List Token
  | .VarStatement t name v => t :: name.Token :: assignToken :: v.tokens ++ [semicolonToken]
  | .AssignStatement t _ v => t :: assignToken :: v.tokens ++ [semicolonToken]
  | .ReturnStatement t v => t :: v.tokens ++ [semicolonToken]
  | _ => []

/-- The text that `String()` returns for a plain statement. -/
def Statement.text : Statement → Str
  | .VarStatement t name v =>
    t.Literal ++ str " " ++ name.Value ++ str " = " ++ v.text ++ str ";\n"
  | .AssignStatement _ name v => name.Value ++ str " = " ++ v.text ++ str ";"
  | .ReturnStatement t v => t.Literal ++ str " " ++ v.text ++ str ";"
  | _ => []

/-- The tokens of a list of plain statements. -/
def Statement.tokensOf : List Statement → List Token
  | [] => []
  | s :: rest => s.tokens ++ Statement.tokensOf rest

/-- The text of a list of plain statements. -/
def Statement.textOf : List Statement → Str
  | [] => []
  | s :: rest => s.text ++ Statement.textOf rest

/-- The statement of a final expression, when there is one. -/
def finalStatement (tok : Token) : Option Expression → List Statement
  | none => []
  | some e => [.ExpressionStatement tok e]

/-- The tokens of a final expression. -/
def finalTokens : Option Expression → List Token
  | none => []
  | some e => e.tokens

/-- The text of a final expression. -/
def finalText : Option Expression → Str
  | none => []
  | some e => e.text

/-- The program of the statements `l` and, when there is one, the final expression `e`. -/
def plainProgram (l : List Statement) (e : Option Expression) (tok : Token) : Program :=
  { Statements := l ++ finalStatement tok e }

/-- The statements of `var x = 1; x = x + 1; return x`, as the parser builds them. -/
def counterStatements : List Statement :=
  [.VarStatement varToken (ident "x") (intLiteral 1),
    .AssignStatement (idToken "x") (ident "x")
      (infixNode (Token.New .PLUS 43) (idNode "x") (intLiteral 1)),
    .ReturnStatement returnToken (idNode "x")]

/-! # Theorems -/

/-! ## Running a computation -/


/-- Sequencing runs the first computation and hands its value and state to the second;
a fault of the first is the fault of the whole. -/
theorem Act.bind_apply {σ α β : Type} (x : Act σ α) (f : α → Act σ β) (s : σ) :
    (x >>= f) s = match x s with
      | .ok a s1 => f a s1
      | .panic => .panic
      | .fuel => .fuel := rfl

/-- `pure` returns its value and leaves the state alone. -/
theorem Act.pure_apply {σ α : Type} (a : α) (s : σ) : (pure a : Act σ α) s = .ok a s := rfl


/-! ## The evaluator on concrete programs -/

/-- C1 (code defect): the value `Eval` returns for a program can be a `ReturnValue`.
`program` unwraps one `ReturnValue`, but the `ReturnStatement` case wraps whatever its
expression evaluates to: the program `return if true { return 1 }` parses without errors and
evaluates, in a new env, to a `ReturnValue` around the `Int` 1. -/
theorem return_of_return_value_reaches_driver :
    errorsAfter (parseSource 12 (str "return if true \x7b return 1 \x7d")) = some [] ∧
    observe (testEval 12 (str "return if true \x7b return 1 \x7d")) =
      some (.ReturnValue 0 (.Int 0), [1]) := by
  decide!

/-- C2 (code defect): the condition of an `else if` branch is not checked for an `Error`.
`foobar` alone evaluates to the Error `identifier not found: foobar`, but
`if false { 1 } else if foobar { 2 }` evaluates to the `Int` 2: `ifExp` passes the Error
to `isTrue`, which holds of it. -/
theorem else_if_error_condition_is_truthy :
    observe (testEval 12 (str "foobar")) =
      some (.Error 0 (str "identifier not found: foobar"), []) ∧
    observe (testEval 12 (str "if false \x7b 1 \x7d else if foobar \x7b 2 \x7d")) =
      some (.Int 0, [2]) := by
  decide!

/-- C3 (code defect): `forStatement` does not stop at an Error. With the condition `foobar`
(an Error) the body runs and `for foobar { return 1 }` evaluates to the `Int` 1; with a body
that ends in an Error the loop goes on, here for three iterations, each of which prints. -/
theorem for_statement_runs_past_errors :
    observe (testEval 12 (str "for foobar \x7b return 1 \x7d")) = some (.Int 0, [1]) ∧
    outputAfter (testEval 20
        (str "var x = 0; for x < 3 \x7b x = x + 1; echo(x); foobar \x7d")) =
      some [str "1", str "\n", str "2", str "\n", str "3", str "\n"] := by
  decide!

/-! ## The parser: termination -/
/-- A lexer at the end of its input stays there. -/
theorem Lexer.eat_atEnd {l : Lexer} (h : l.AtEnd) : l.eat.AtEnd := by
  obtain ⟨h1, h2⟩ := h
  refine ⟨?_, ?_⟩
  · simp [Lexer.eat, h2]
  · simp [Lexer.eat]; omega

/-- At the end of the input `Next` returns `EOF`. -/
theorem Lexer.Next_atEnd {l : Lexer} (h : l.AtEnd) :
    l.Next = some (⟨.EOF, []⟩, l.eat) := by
  obtain ⟨h1, h2⟩ := h
  have hb : l.eatBlank = l := by
    simp [Lexer.eatBlank, Lexer.eatWhile, h1, isBlank]
  simp [Lexer.Next, hb, h1]



/-- A drained parser stays drained under `Next`. -/
theorem Parser.Next_drained {p : Parser} (h : p.Drained) :
    ∃ p1, Parser.Next p = .ok () p1 ∧ p1.Drained ∧ p1.curTok.Typ = .EOF := by
  obtain ⟨h1, h2, h3⟩ := h
  refine ⟨{ p with curTok := p.nextTok, nextTok := ⟨.EOF, []⟩, l := p.l.eat }, ?_, ?_, ?_⟩
  · simp [Parser.Next, Lexer.Next_atEnd h3]
  · exact ⟨h2, rfl, Lexer.eat_atEnd h3⟩
  · exact h2

/-- On a drained parser `parseStatement` either runs out of fuel or returns an expression
statement (around a nil expression) and leaves the parser drained. -/
theorem parseStatement_drained {p : Parser} (h : p.Drained) (n : Nat) :
    parseStatement n p = .fuel ∨
      ∃ s p1, parseStatement n p = .ok s p1 ∧ p1.Drained ∧ s.isNilNode = false := by
  obtain ⟨h1, h2, h3⟩ := h
  rcases n with _ | _ | _ | n
  · left; rfl
  · left; simp [parseStatement, h1, parseExpressionStatement, Act.outOfFuel]
  · left
    simp [parseStatement, h1, parseExpressionStatement, parseExpression, Act.outOfFuel,
      Act.bind_apply, Act.get]
  · right
    refine ⟨.ExpressionStatement p.curTok .nil,
      { p with errors := p.errors ++
          [str "no prefix parse function for " ++ TokenType.EOF.text ++ str " found"] },
      ?_, ⟨h1, h2, h3⟩, rfl⟩
    simp [parseStatement, h1, parseExpressionStatement, parseExpression, Act.bind_apply, Act.get,
      Parser.noPrefixParseFnError, Parser.addError, Act.modify, Act.pure_apply, Parser.skipSemicolon,
      Parser.nextTokenIs, h2]



/-- On a drained parser the header loop of `parseForStatement` never returns. -/
theorem parseForHeader_drained (n : Nat) :
    ∀ (stmts : List Statement) (p : Parser), p.Drained → parseForHeader n stmts p = .fuel := by
  induction n with
  | zero => intro stmts p _; rfl
  | succ n ih =>
    intro stmts p h
    have hc : p.curTokenIs .LBRACE = false := by simp [Parser.curTokenIs, h.1]
    rcases parseStatement_drained h n with hs | ⟨s, p1, hs, hd, _⟩
    · simp [parseForHeader, hc, Act.bind_apply, hs]
    · obtain ⟨p2, hn, hd2, hcur⟩ := Parser.Next_drained hd
      have hsemi : p2.curTokenIs .SEMICOLON = false := by simp [Parser.curTokenIs, hcur]
      simp [parseForHeader, hc, Act.bind_apply, hs, hn, Act.get, hsemi, Act.pure_apply, ih _ p2 hd2]

/-- The parser state right after `for x`: the header statement `x` is current, the input is
used up. -/
theorem parseForHeader_last_statement (n : Nat) (stmts : List Statement) (p : Parser)
    (hcur : p.curTok.Typ = .ID) (hnext : p.nextTok.Typ = .EOF) (hl : p.l.AtEnd) :
    parseForHeader n stmts p = .fuel := by
  have hc : p.curTokenIs .LBRACE = false := by simp [Parser.curTokenIs, hcur]
  have hstmt : ∀ k, parseStatement k p = .fuel ∨ ∃ s, parseStatement k p = .ok s p := by
    intro k
    rcases k with _ | _ | _ | _ | k
    · left; rfl
    · left; simp [parseStatement, hcur, hnext, parseExpressionStatement, Act.outOfFuel]
    · left
      simp [parseStatement, hcur, hnext, parseExpressionStatement, parseExpression, Act.outOfFuel,
        Act.bind_apply, Act.get]
    · left
      simp [parseStatement, hcur, hnext, parseExpressionStatement, parseExpression, Act.outOfFuel,
        Act.bind_apply, Act.get, parseIdentifier, parseExpressionLoop]
    · right
      refine ⟨.ExpressionStatement p.curTok (.Identifier p.curIdentifier), ?_⟩
      simp [parseStatement, hcur, hnext, parseExpressionStatement, parseExpression,
        Act.bind_apply, Act.get, parseIdentifier, parseExpressionLoop, Parser.nextTokenIs,
        Parser.peekPowerBind, powerBind, LOWEST, Parser.skipSemicolon, Act.pure_apply]
  rcases n with _ | n
  · rfl
  · rcases hstmt n with hs | ⟨s, hs⟩
    · simp [parseForHeader, hc, Act.bind_apply, hs]
    · obtain ⟨p2, hn, hd2, hcur2⟩ := Parser.Next_drained (p := { p with curTok := p.nextTok }) ⟨hnext, hnext, hl⟩
      have hn2 : Parser.Next p = .ok () p2 := by
        simpa [Parser.Next] using hn
      have hsemi : p2.curTokenIs .SEMICOLON = false := by simp [Parser.curTokenIs, hcur2]
      simp [parseForHeader, hc, Act.bind_apply, hs, hn2, Act.get, hsemi, Act.pure_apply,
        parseForHeader_drained n _ p2 hd2]



/-- `Parse` never returns when the input ends in `for` and one identifier. -/
theorem parseLoop_for_header_open (fuel : Nat) (stmts : List Statement) (p : Parser)
    (hcur : p.curTok.Typ = .FOR) (hnext : p.nextTok.Typ = .ID) (hl : p.l.AtEnd) :
    parseLoop fuel stmts p = .fuel := by
  have hn1 : Parser.Next p =
      .ok () { p with curTok := p.nextTok, nextTok := ⟨.EOF, []⟩, l := p.l.eat } := by
    simp [Parser.Next, Lexer.Next_atEnd hl]
  have hfor : ∀ k, parseForStatement k p = .fuel := by
    intro k
    rcases k with _ | k
    · rfl
    · simp [parseForStatement, Act.bind_apply, Act.get, hn1, Parser.curTokenIs, hnext,
        parseForHeader_last_statement k []
          { p with curTok := p.nextTok, nextTok := ⟨.EOF, []⟩, l := p.l.eat }
          hnext rfl (Lexer.eat_atEnd hl)]
  have hstmt : ∀ k, parseStatement k p = .fuel := by
    intro k
    rcases k with _ | k
    · rfl
    · simp [parseStatement, hcur, hfor]
  rcases fuel with _ | n
  · rfl
  · have hc : p.curTokenIs .EOF = false := by simp [Parser.curTokenIs, hcur]
    simp [parseLoop, hc, Act.bind_apply, hstmt]

/-- The parser that `parser.New` builds on the input `for x`. -/
theorem New_for_x :
    Parser.New (Lexer.New (str "for x")) =
      some { l := ⟨str "for x", 5, 6, 0⟩, errors := [], curTok := ⟨.FOR, str "for"⟩,
             nextTok := ⟨.ID, str "x"⟩ } := by
  rfl

/-- C4 (code defect): `Parse()` does not return on the input `for x`. The header loop of
`parseForStatement` waits for a `\x7b` and, unlike the loops of `Parse` and of
`parseBlockStatement`, does not stop at `EOF`: with whatever fuel the embedding is run, the
parse of `for x` has not returned. -/
theorem parse_for_x_never_returns (fuel : Nat) : parseSource fuel (str "for x") = .fuel := by
  simp only [parseSource, parseLexer, New_for_x, Parser.Parse, Act.bind_apply]
  rw [parseLoop_for_header_open fuel [] _ rfl rfl ⟨rfl, by decide⟩]


/-! ## The parser: nil nodes -/

/-- C5 (code defect): nil nodes are appended. For `var = 5` the first of the three elements
of `Program.Statements` is a nil `*ast.VarStatement` (the test `stmt != nil` on the interface
value holds of it); for `f(])` the one statement is not nil, yet the program has a nil element
in a list, the argument that `parseCallArguments` appends unchecked. -/
theorem nil_nodes_are_appended :
    (parseSource 12 (str "var = 5")).value?.map
        (fun prog => (prog.Statements.map Statement.isNilNode, prog.listsNonNil)) =
      some ([true, false, false], false) ∧
    (parseSource 12 (str "f(])")).value?.map
        (fun prog => (prog.Statements.map Statement.isNilNode, prog.listsNonNil)) =
      some ([false], false) := by
  decide!

/-! ## The parser: integer literals -/

/-- `strconv.lower` leaves a digit alone. -/
theorem lower_digit {c : Nat} (h1 : 48 ≤ c) (h2 : c ≤ 57) : lower c = c := by
  unfold lower
  interval_cases c <;> rfl

/-- The digit loop of `ParseUint` on a run of digits below the base: it returns the value
the digits denote, as long as that value fits 64 bits. -/
theorem parseUintLoop_digits (b : Nat) (hb : 2 ≤ b) (hb10 : b ≤ 10) (ds : Str) :
    ∀ n : Nat, (∀ c ∈ ds, 48 ≤ c ∧ c < 48 + b) →
      ds.foldl (fun n c => n * b + (c - 48)) n ≤ 2 ^ 64 - 1 →
      parseUintLoop b ds n false = some (ds.foldl (fun n c => n * b + (c - 48)) n, false) := by
  induction ds with
  | nil => intro n _ _; rfl
  | cons c rest ih =>
    intro n hd hv
    have hc := hd c (List.mem_cons_self _ _)
    have hrest : ∀ c ∈ rest, 48 ≤ c ∧ c < 48 + b := fun c' h' => hd c' (List.mem_cons_of_mem _ h')
    simp only [List.foldl_cons] at hv ⊢
    have hmono : ∀ (es : Str) (m : Nat), m ≤ es.foldl (fun n c => n * b + (c - 48)) m := by
      intro es
      induction es with
      | nil => intro m; exact Nat.le_refl _
      | cons e es ihe =>
        intro m
        simp only [List.foldl_cons]
        refine Nat.le_trans ?_ (ihe _)
        nlinarith
    have hstep : n * b + (c - 48) ≤ 2 ^ 64 - 1 := Nat.le_trans (hmono rest _) hv
    have h95 : c ≠ 95 := by omega
    have hdig : 48 ≤ c ∧ c ≤ 57 := by omega
    have hcut : ¬ n ≥ (2 ^ 64 - 1) / b + 1 := by
      intro hge
      have h1 : (2 ^ 64 - 1) / b < n := by omega
      have h2 : 2 ^ 64 - 1 < n * b := by
        have := (Nat.div_lt_iff_lt_mul (by omega : 0 < b)).mp h1
        exact this
      omega
    rw [parseUintLoop]
    simp only [h95, if_false, hdig, and_self, if_true]
    have hlt : ¬ c - 48 ≥ b := by omega
    have hov : ¬ n * b + (c - 48) > 2 ^ 64 - 1 := by omega
    simp only [hlt, hcut, hov, if_false]
    exact ih _ hrest hv


/-- `ParseInt` with base 0 reads a run of digits without a leading zero in base 10. -/
theorem ParseInt0_decimal (lit : Str) (hne : lit ≠ [])
    (hd : ∀ c ∈ lit, isDigit c = true) (h0 : lit.head? ≠ some 48)
    (hv : digitsValue 10 lit ≤ 2 ^ 63 - 1) :
    ParseInt0 lit = some (digitsValue 10 lit : Int) := by
  obtain ⟨c, t, rfl⟩ := List.exists_cons_of_ne_nil hne
  have hc := hd c (List.mem_cons_self _ _)
  simp only [isDigit, Bool.and_eq_true, decide_eq_true_eq] at hc
  have hc48 : c ≠ 48 := by simpa using h0
  have hds : ∀ d ∈ c :: t, 48 ≤ d ∧ d < 48 + 10 := by
    intro d hdm
    have := hd d hdm
    simp only [isDigit, Bool.and_eq_true, decide_eq_true_eq] at this
    omega
  have hloop := parseUintLoop_digits 10 (by omega) (by omega) (c :: t) 0 hds
    (by unfold digitsValue at hv; omega)
  have hu : ParseUint0 (c :: t) = some (digitsValue 10 (c :: t)) := by
    simp only [ParseUint0, hc48, if_false, hloop, digitsValue]
    simp
  have h45 : c ≠ 45 := by omega
  have h43 : c ≠ 43 := by omega
  have hlt : digitsValue 10 (c :: t) < 9223372036854775808 := by omega
  simp only [ParseInt0, h45, h43, or_self, if_false, hu]
  simp [hlt]

/-- `ParseInt` with base 0 reads `0` followed by octal digits in base 8. -/
theorem ParseInt0_octal (ds : Str) (hd : ∀ c ∈ ds, 48 ≤ c ∧ c ≤ 55)
    (hv : digitsValue 8 ds ≤ 2 ^ 63 - 1) :
    ParseInt0 (48 :: ds) = some (digitsValue 8 ds : Int) := by
  have hds : ∀ d ∈ ds, 48 ≤ d ∧ d < 48 + 8 := by
    intro d hdm
    have := hd d hdm
    omega
  have hloop := parseUintLoop_digits 8 (by omega) (by omega) ds 0 hds
    (by unfold digitsValue at hv; omega)
  have hu : ParseUint0 (48 :: ds) = some (digitsValue 8 ds) := by
    cases ds with
    | nil => rfl
    | cons c1 t1 =>
      have hc1 := hd c1 (List.mem_cons_self _ _)
      have hl : lower c1 = c1 := lower_digit hc1.1 (by omega)
      have h98 : c1 ≠ 98 := by omega
      have h111 : c1 ≠ 111 := by omega
      have h120 : c1 ≠ 120 := by omega
      simp only [ParseUint0, if_true, hl, h98, h111, h120, and_false, if_false, hloop,
        digitsValue]
      simp
  have hlt : digitsValue 8 ds < 9223372036854775808 := by omega
  simp [ParseInt0, hu, hlt]

/-- C6 (amended): for a lexeme `ds` that is a non-empty run of digits not starting with `0`
and denoting a decimal number of at most `2^63 - 1`, `parseIntegerLiteral` returns the
`IntegerLiteral` of that number and leaves the parser, and so its error list, unchanged;
a lexeme `0` followed by digits `os` in `0..7` is read in base 8. -/
theorem parseIntegerLiteral_reads_digits (p q : Parser) (ds os : Str)
    (hp : p.curTok = ⟨.INT, ds⟩) (hq : q.curTok = ⟨.INT, 48 :: os⟩)
    (hd : ∀ c ∈ ds, isDigit c = true) (hne : ds ≠ []) (h0 : ds.head? ≠ some 48)
    (hv : digitsValue 10 ds ≤ 2 ^ 63 - 1)
    (ho : ∀ c ∈ os, 48 ≤ c ∧ c ≤ 55) (hov : digitsValue 8 os ≤ 2 ^ 63 - 1) :
    parseIntegerLiteral p = .ok (.IntegerLiteral p.curTok (digitsValue 10 ds)) p ∧
    parseIntegerLiteral q = .ok (.IntegerLiteral q.curTok (digitsValue 8 os)) q := by
  refine ⟨?_, ?_⟩
  · simp [parseIntegerLiteral, hp, ParseInt0_decimal ds hne hd h0 hv]
  · simp [parseIntegerLiteral, hq, ParseInt0_octal os ho hov]

/-- C6, an instance of the amended statement: the lexemes `10` and `010`. -/
theorem parseIntegerLiteral_reads_digits_witness :
    parseIntegerLiteral (parserAt ⟨.INT, str "10"⟩) =
        .ok (.IntegerLiteral ⟨.INT, str "10"⟩ (digitsValue 10 (str "10")))
          (parserAt ⟨.INT, str "10"⟩) ∧
    parseIntegerLiteral (parserAt ⟨.INT, str "010"⟩) =
        .ok (.IntegerLiteral ⟨.INT, str "010"⟩ (digitsValue 8 (str "10")))
          (parserAt ⟨.INT, str "010"⟩) :=
  parseIntegerLiteral_reads_digits (parserAt ⟨.INT, str "10"⟩) (parserAt ⟨.INT, str "010"⟩)
    (str "10") (str "10") rfl rfl (by decide) (by decide) (by decide) (by decide) (by decide)
    (by decide)

/-- C6 (counterexample): the lexeme `010` is a run of digits that denotes the decimal number
10, yet `parseIntegerLiteral` returns the literal 8 for it, and the program `010` evaluates
to the `Int` 8; the lexeme `08` is refused with an error. -/
theorem leading_zero_literal_is_octal :
    (∀ c ∈ str "010", isDigit c = true) ∧ digitsValue 10 (str "010") = 10 ∧
    parseIntegerLiteral (parserAt ⟨.INT, str "010"⟩) =
      .ok (.IntegerLiteral ⟨.INT, str "010"⟩ 8) (parserAt ⟨.INT, str "010"⟩) ∧
    observe (testEval 12 (str "010")) = some (.Int 0, [8]) ∧
    errorsAfter (parseSource 12 (str "08")) =
      some [str "could not parse \"08\" as integer"] :=
  ⟨by decide, by decide, rfl, by decide!, by decide!⟩

/-! ## The parser: binding powers -/

/-- The first of the tokens a lexer yields is what `Next` returns. -/
theorem Lexer.yields_cons {l : Lexer} {t : Token} {ts : List Token}
    (h : l.yields (t :: ts) = true) : ∃ l1, l.Next = some (t, l1) ∧ l1.yields ts = true := by
  unfold Lexer.yields at h
  cases hn : l.Next with
  | none => simp [hn] at h
  | some r =>
    obtain ⟨t1, l1⟩ := r
    simp [hn] at h
    exact ⟨l1, by rw [h.1], h.2⟩

/-- `Next` on a parser shifts the tokens and takes one from the lexer. -/
theorem Parser.Next_mk {l l1 : Lexer} {es : List Str} {c nx t : Token}
    (h : l.Next = some (t, l1)) :
    Parser.Next ⟨l, es, c, nx⟩ = .ok () ⟨l1, es, nx, t⟩ := by
  simp [Parser.Next, h]

/-- On an atomic operand `parseExpression` enters its loop with the operand's node. -/
theorem parseExpression_atom (n pb : Nat) (p : Parser) (a : Expression)
    (h : atomNode p.curTok = some a) :
    parseExpression (n + 1) pb p = parseExpressionLoop n pb a p := by
  unfold atomNode at h
  cases hT : p.curTok.Typ <;> simp [hT] at h
  · subst h
    simp [parseExpression, hT, parseIdentifier, Act.bind_apply, Parser.curIdentifier]
  · obtain ⟨v, hv, rfl⟩ := h
    simp [parseExpression, hT, parseIntegerLiteral, hv, Act.bind_apply]

/-- The expression loop stops before `;` and before a token that binds no tighter than
`pb`. -/
theorem parseExpressionLoop_stop (n pb : Nat) (left : Expression) (p : Parser)
    (h : p.nextTok.Typ = .SEMICOLON ∨ power p.nextTok ≤ pb) :
    parseExpressionLoop (n + 1) pb left p = .ok left p := by
  have hc : (!p.nextTokenIs .SEMICOLON && decide (pb < p.peekPowerBind)) = false := by
    rcases h with h | h
    · simp [Parser.nextTokenIs, h]
    · have : ¬ pb < p.peekPowerBind := by
        simp only [Parser.peekPowerBind, power] at *; omega
      simp [this]
  simp [parseExpressionLoop, hc]

/-- The expression loop before an infix operator that binds tighter than `pb`: it moves to
the operator and calls `parseInfixExpression`. -/
theorem parseExpressionLoop_operator (n pb : Nat) (left : Expression) (p p1 : Parser)
    (hop : isInfixOperator p.nextTok = true) (hpb : pb < power p.nextTok)
    (hn : Parser.Next p = .ok () p1) :
    parseExpressionLoop (n + 1) pb left p =
      (parseInfixExpression n left >>= fun e => parseExpressionLoop n pb e) p1 := by
  have hpb1 : pb < p.peekPowerBind := hpb
  unfold isInfixOperator at hop
  cases hT : p.nextTok.Typ <;> simp [hT] at hop <;>
    simp [parseExpressionLoop, Parser.nextTokenIs, hT, hpb1, Act.bind_apply, hn]

/-- `parseInfixExpression` parses its right operand with the power of the operator. -/
theorem parseInfixExpression_step (n : Nat) (left : Expression) (p p1 : Parser)
    (hn : Parser.Next p = .ok () p1) :
    parseInfixExpression (n + 1) left p =
      (parseExpression n (power p.curTok) >>= fun right =>
        pure (infixNode p.curTok left right)) p1 := by
  simp [parseInfixExpression, Act.bind_apply, Act.get, hn, infixNode, power, Parser.curPowerBind]



/-- `EOF` has the lowest binding power. -/
theorem power_eofToken : power eofToken = 1 := rfl

/-- The binding power of an infix operator lies between `EQUALS` and `PRODUCT`. -/
theorem power_of_operator {t : Token} (h : isInfixOperator t = true) : 2 ≤ power t ∧ power t ≤ 5 := by
  unfold isInfixOperator at h
  cases hT : t.Typ <;> simp [hT] at h <;> simp [power, powerBind, hT, EQUALS, LESSGREATER, SUM, PRODUCT]

/-- An atomic operand is an `ID` or an `INT` token. -/
theorem typ_of_atom {t : Token} {a : Expression} (h : atomNode t = some a) :
    t.Typ = .ID ∨ t.Typ = .INT := by
  unfold atomNode at h
  cases hT : t.Typ <;> simp [hT] at h <;> simp

/-- `parseStatement` on a token that starts an expression statement. -/
theorem parseStatement_expression (n : Nat) (p : Parser)
    (h : (p.curTok.Typ = .ID ∧ p.nextTok.Typ ≠ .ASSIGN) ∨ p.curTok.Typ = .INT ∨
      p.curTok.Typ = .BANG ∨ p.curTok.Typ = .MINUS) :
    parseStatement (n + 2) p =
      (parseExpression n LOWEST >>= fun e =>
        Parser.skipSemicolon >>= fun _ => pure (Statement.ExpressionStatement p.curTok e)) p := by
  rcases h with ⟨h1, h2⟩ | h1 | h1 | h1 <;>
    simp [parseStatement, parseExpressionStatement, h1, Act.bind_apply, Act.get, *]

/-- No semicolon is skipped before `EOF`. -/
theorem skipSemicolon_eof (p : Parser) (h : p.nextTok = eofToken) :
    Parser.skipSemicolon p = .ok () p := by
  simp [Parser.skipSemicolon, Parser.nextTokenIs, h, eofToken]

/-- The loop of `Parse` over a program of one statement. -/
theorem parseLoop_one (n : Nat) (p p1 p2 : Parser) (s : Statement)
    (hcur : p.curTok.Typ ≠ .EOF) (hs : parseStatement (n + 1) p = .ok s p1)
    (hnil : s.isNilNode = false) (hn : Parser.Next p1 = .ok () p2)
    (hend : p2.curTok.Typ = .EOF) :
    parseLoop (n + 2) [] p = .ok [s] p2 := by
  have h1 : p.curTokenIs .EOF = false := by simp [Parser.curTokenIs, hcur]
  have h2 : p2.curTokenIs .EOF = true := by simp [Parser.curTokenIs, hend]
  have h3 : parseLoop (n + 1) [s] p2 = .ok [s] p2 := by simp [parseLoop, h2]
  rw [parseLoop]
  cases s <;> simp [Statement.isNilNode] at hnil <;>
    simp [h1, Act.bind_apply, hs, hn, h3]


/-- An atomic operand followed by a token that binds no tighter than `pb` is the whole
expression. -/
theorem parseExpression_atom_stop (n pb : Nat) (p : Parser) (a : Expression)
    (ha : atomNode p.curTok = some a) (hstop : power p.nextTok ≤ pb) :
    parseExpression (n + 2) pb p = .ok a p := by
  rw [parseExpression_atom (n + 1) pb p a ha, parseExpressionLoop_stop n pb a p (Or.inr hstop)]

/-- One turn of the expression loop over `op b`, when the token after the atom `b` binds no
tighter than `op`. -/
theorem parseExpressionLoop_operator_atom (n pb : Nat) (left b : Expression) (l l1 l2 : Lexer)
    (es : List Str) (cur op tb tn : Token)
    (hop : isInfixOperator op = true) (hpb : pb < power op)
    (h1 : l.Next = some (tb, l1)) (h2 : l1.Next = some (tn, l2))
    (hb : atomNode tb = some b) (hstop : power tn ≤ power op) :
    parseExpressionLoop (n + 5) pb left ⟨l, es, cur, op⟩ =
      parseExpressionLoop (n + 4) pb (infixNode op left b) ⟨l2, es, tb, tn⟩ := by
  rw [parseExpressionLoop_operator (n + 4) pb left ⟨l, es, cur, op⟩ ⟨l1, es, op, tb⟩ hop hpb
    (Parser.Next_mk h1)]
  rw [Act.bind_apply, parseInfixExpression_step (n + 3) left ⟨l1, es, op, tb⟩ ⟨l2, es, tb, tn⟩
    (Parser.Next_mk h2)]
  rw [Act.bind_apply, parseExpression_atom_stop (n + 1) _ ⟨l2, es, tb, tn⟩ b hb hstop]


/-- A program that is one expression statement: the statement loop of `Parse` around an
expression that ends right before the end of the input. -/
theorem parseLexer_expression (n : Nat) (l l1 l2 l3 l4 : Lexer) (t1 t2 te : Token)
    (e : Expression)
    (h1 : l.Next = some (t1, l1)) (h2 : l1.Next = some (t2, l2))
    (hstart : (t1.Typ = .ID ∧ t2.Typ ≠ .ASSIGN) ∨ t1.Typ = .INT ∨ t1.Typ = .BANG ∨
      t1.Typ = .MINUS)
    (he : parseExpression (n + 1) LOWEST ⟨l2, [], t1, t2⟩ = .ok e ⟨l3, [], te, eofToken⟩)
    (h3 : l3.Next = some (eofToken, l4)) :
    parseLexer (n + 4) l = .ok (expressionProgram t1 e) ⟨l4, [], eofToken, eofToken⟩ := by
  have hnew : Parser.New l = some ⟨l2, [], t1, t2⟩ := by simp [Parser.New, h1, h2]
  have hcur : (⟨l2, [], t1, t2⟩ : Parser).curTok.Typ ≠ .EOF := by
    rcases hstart with ⟨h, _⟩ | h | h | h <;> simp [h]
  have hs : parseStatement (n + 3) ⟨l2, [], t1, t2⟩ =
      .ok (.ExpressionStatement t1 e) ⟨l3, [], te, eofToken⟩ := by
    rw [parseStatement_expression (n + 1) _ hstart, Act.bind_apply, he]
    simp [Act.bind_apply, skipSemicolon_eof, Act.pure_apply]
  have hloop := parseLoop_one (n + 2) ⟨l2, [], t1, t2⟩ ⟨l3, [], te, eofToken⟩
    ⟨l4, [], eofToken, eofToken⟩ (.ExpressionStatement t1 e) hcur hs rfl (Parser.Next_mk h3) rfl
  simp [parseLexer, hnew, Parser.Parse, Act.bind_apply, hloop, Act.pure_apply, expressionProgram]


/-- C7: the parser groups by the binding-power ladder. For atomic operands `a`, `b`, `c`
(identifiers or integer literals) and infix operators with `power op1 < power op2`, the
token sequence `a op1 b op2 c` parses to `Infix(op1, a, Infix(op2, b, c))` and
`a op2 b op1 c` parses to `Infix(op1, Infix(op2, a, b), c)`; for a prefix operator `pre`
(`-` or `!`) and any infix operator `op`, `pre a op b` parses to
`Infix(op, Prefix(pre, a), b)`. Each holds for every fuel of at least 12, and no error is
recorded. -/
theorem binding_power_grouping (n : Nat) (l1 l2 l3 : Lexer)
    (ta tb tc op1 op2 op pre : Token) (a b c : Expression)
    (ha : atomNode ta = some a) (hb : atomNode tb = some b) (hc : atomNode tc = some c)
    (h1 : isInfixOperator op1 = true) (h2 : isInfixOperator op2 = true)
    (hlt : power op1 < power op2)
    (hop : isInfixOperator op = true) (hpre : isPrefixOperator pre = true)
    (hl1 : l1.yields [ta, op1, tb, op2, tc, eofToken, eofToken] = true)
    (hl2 : l2.yields [ta, op2, tb, op1, tc, eofToken, eofToken] = true)
    (hl3 : l3.yields [pre, ta, op, tb, eofToken, eofToken] = true) :
    (∃ p, parseLexer (n + 12) l1 =
        .ok (expressionProgram ta (infixNode op1 a (infixNode op2 b c))) p ∧ p.errors = []) ∧
    (∃ p, parseLexer (n + 12) l2 =
        .ok (expressionProgram ta (infixNode op1 (infixNode op2 a b) c)) p ∧ p.errors = []) ∧
    (∃ p, parseLexer (n + 12) l3 =
        .ok (expressionProgram pre (infixNode op (prefixNode pre a) b)) p ∧ p.errors = []) := by
  have hp1 := power_of_operator h1
  have hp2 := power_of_operator h2
  have hp := power_of_operator hop
  have hta := typ_of_atom ha
  have hop1T : op1.Typ ≠ .ASSIGN := by
    intro h; simp [isInfixOperator, h] at h1
  have hop2T : op2.Typ ≠ .ASSIGN := by
    intro h; simp [isInfixOperator, h] at h2
  have hstartA : ∀ t : Token, t.Typ ≠ .ASSIGN →
      ((ta.Typ = .ID ∧ t.Typ ≠ .ASSIGN) ∨ ta.Typ = .INT ∨ ta.Typ = .BANG ∨ ta.Typ = .MINUS) := by
    intro t ht
    rcases hta with h | h
    · exact Or.inl ⟨h, ht⟩
    · exact Or.inr (Or.inl h)
  refine ⟨?_, ?_, ?_⟩
  · obtain ⟨m1, e1, hl1⟩ := Lexer.yields_cons hl1
    obtain ⟨m2, e2, hl1⟩ := Lexer.yields_cons hl1
    obtain ⟨m3, e3, hl1⟩ := Lexer.yields_cons hl1
    obtain ⟨m4, e4, hl1⟩ := Lexer.yields_cons hl1
    obtain ⟨m5, e5, hl1⟩ := Lexer.yields_cons hl1
    obtain ⟨m6, e6, hl1⟩ := Lexer.yields_cons hl1
    obtain ⟨m7, e7, -⟩ := Lexer.yields_cons hl1
    refine ⟨_, parseLexer_expression (n + 8) l1 m1 m2 m6 m7 ta op1 tc _ e1 e2 (hstartA op1 hop1T)
      ?_ e7, rfl⟩
    rw [parseExpression_atom (n + 8) LOWEST _ a ha]
    rw [parseExpressionLoop_operator (n + 7) LOWEST a ⟨m2, [], ta, op1⟩ ⟨m3, [], op1, tb⟩ h1
      (by simp only [LOWEST]; omega) (Parser.Next_mk e3)]
    rw [Act.bind_apply, parseInfixExpression_step (n + 6) a ⟨m3, [], op1, tb⟩ ⟨m4, [], tb, op2⟩
      (Parser.Next_mk e4)]
    rw [Act.bind_apply, parseExpression_atom (n + 5) _ ⟨m4, [], tb, op2⟩ b hb]
    rw [parseExpressionLoop_operator_atom n _ b c m4 m5 m6 [] tb op2 tc eofToken h2 hlt e5 e6 hc
      (by rw [power_eofToken]; omega)]
    rw [parseExpressionLoop_stop (n + 3) _ _ _ (Or.inr (by
      show power eofToken ≤ power op1
      rw [power_eofToken]; omega))]
    show (match (Outcome.ok (infixNode op1 a (infixNode op2 b c)) ⟨m6, [], tc, eofToken⟩ :
        Outcome Parser Expression) with
      | .ok e s1 => parseExpressionLoop (n + 7) LOWEST e s1
      | .panic => .panic
      | .fuel => .fuel) = _
    exact parseExpressionLoop_stop (n + 6) _ _ _ (Or.inr (by
      show power eofToken ≤ LOWEST
      rw [power_eofToken]; simp [LOWEST]))
  · obtain ⟨m1, e1, hl2⟩ := Lexer.yields_cons hl2
    obtain ⟨m2, e2, hl2⟩ := Lexer.yields_cons hl2
    obtain ⟨m3, e3, hl2⟩ := Lexer.yields_cons hl2
    obtain ⟨m4, e4, hl2⟩ := Lexer.yields_cons hl2
    obtain ⟨m5, e5, hl2⟩ := Lexer.yields_cons hl2
    obtain ⟨m6, e6, hl2⟩ := Lexer.yields_cons hl2
    obtain ⟨m7, e7, -⟩ := Lexer.yields_cons hl2
    refine ⟨_, parseLexer_expression (n + 8) l2 m1 m2 m6 m7 ta op2 tc _ e1 e2 (hstartA op2 hop2T)
      ?_ e7, rfl⟩
    rw [parseExpression_atom (n + 8) LOWEST _ a ha]
    rw [parseExpressionLoop_operator_atom (n + 3) LOWEST a b m2 m3 m4 [] ta op2 tb op1 h2
      (by simp only [LOWEST]; omega) e3 e4 hb (by omega)]
    rw [parseExpressionLoop_operator_atom (n + 2) LOWEST _ c m4 m5 m6 [] tb op1 tc eofToken h1
      (by simp only [LOWEST]; omega) e5 e6 hc (by rw [power_eofToken]; omega)]
    exact parseExpressionLoop_stop (n + 5) _ _ _ (Or.inr (by
      show power eofToken ≤ LOWEST
      rw [power_eofToken]; simp [LOWEST]))
  · obtain ⟨m1, e1, hl3⟩ := Lexer.yields_cons hl3
    obtain ⟨m2, e2, hl3⟩ := Lexer.yields_cons hl3
    obtain ⟨m3, e3, hl3⟩ := Lexer.yields_cons hl3
    obtain ⟨m4, e4, hl3⟩ := Lexer.yields_cons hl3
    obtain ⟨m5, e5, hl3⟩ := Lexer.yields_cons hl3
    obtain ⟨m6, e6, -⟩ := Lexer.yields_cons hl3
    have hpreT : pre.Typ = .BANG ∨ pre.Typ = .MINUS := by
      unfold isPrefixOperator at hpre
      cases hT : pre.Typ <;> simp [hT] at hpre <;> simp
    refine ⟨_, parseLexer_expression (n + 8) l3 m1 m2 m5 m6 pre ta tb _ e1 e2
      (Or.inr (Or.inr hpreT)) ?_ e6, rfl⟩
    have hpx : parseExpression (n + 9) LOWEST ⟨m2, [], pre, ta⟩ =
        (parsePrefixExpression (n + 8) >>= fun e => parseExpressionLoop (n + 8) LOWEST e)
          ⟨m2, [], pre, ta⟩ := by
      rcases hpreT with h | h <;> simp [parseExpression, h, Act.bind_apply]
    have hpf : parsePrefixExpression (n + 8) ⟨m2, [], pre, ta⟩ =
        .ok (prefixNode pre a) ⟨m3, [], ta, op⟩ := by
      rw [parsePrefixExpression]
      simp only [Act.bind_apply, Act.get, Parser.Next_mk e3]
      rw [parseExpression_atom_stop (n + 5) PREFIX ⟨m3, [], ta, op⟩ a ha
        (by show power op ≤ PREFIX; simp only [PREFIX]; omega)]
      rfl
    rw [hpx, Act.bind_apply, hpf]
    show parseExpressionLoop (n + 8) LOWEST (prefixNode pre a) ⟨m3, [], ta, op⟩ = _
    rw [parseExpressionLoop_operator_atom (n + 3) LOWEST _ b m3 m4 m5 [] ta op tb eofToken hop
      (by simp only [LOWEST]; omega) e4 e5 hb (by rw [power_eofToken]; omega)]
    exact parseExpressionLoop_stop (n + 6) _ _ _ (Or.inr (by
      show power eofToken ≤ LOWEST
      rw [power_eofToken]; simp [LOWEST]))


/-- One turn of the expression loop over `( x )` with an atomic argument `x`. -/
theorem parseExpressionLoop_call_atom (n pb : Nat) (left x : Expression) (l l1 l2 l3 : Lexer)
    (es : List Str) (cur tx tn : Token) (hpb : pb < CALL)
    (h1 : l.Next = some (tx, l1)) (h2 : l1.Next = some (rparenToken, l2))
    (h3 : l2.Next = some (tn, l3)) (hx : atomNode tx = some x) :
    parseExpressionLoop (n + 5) pb left ⟨l, es, cur, lparenToken⟩ =
      parseExpressionLoop (n + 4) pb (callNode left [x]) ⟨l3, es, rparenToken, tn⟩ := by
  have hxT := typ_of_atom hx
  have hnr : (⟨l1, es, lparenToken, tx⟩ : Parser).nextTokenIs .RPAREN = false := by
    rcases hxT with h | h <;> simp [Parser.nextTokenIs, h]
  have harg : parseExpression (n + 2) LOWEST ⟨l2, es, tx, rparenToken⟩ =
      .ok x ⟨l2, es, tx, rparenToken⟩ :=
    parseExpression_atom_stop n LOWEST ⟨l2, es, tx, rparenToken⟩ x hx
      (by show power rparenToken ≤ LOWEST; decide)
  have hargs : parseCallArguments (n + 3) ⟨l1, es, lparenToken, tx⟩ =
      .ok [x] ⟨l3, es, rparenToken, tn⟩ := by
    rw [parseCallArguments]
    simp only [hnr, Bool.false_eq_true, if_false, Act.bind_apply, Parser.Next_mk h2, harg]
    simp [parseCallArgumentsLoop, Parser.nextTokenIs, rparenToken, Token.New, Parser.expectNext,
      Act.bind_apply, Act.pure_apply]
    have := @Parser.Next_mk l2 l3 es tx rparenToken tn h3
    simp only [rparenToken, Token.New] at this
    simp [this, Act.pure_apply]
  have hcall : parseCallExpression (n + 4) left ⟨l1, es, lparenToken, tx⟩ =
      .ok (callNode left [x]) ⟨l3, es, rparenToken, tn⟩ := by
    rw [parseCallExpression]
    simp only [Act.bind_apply, Act.get, hargs]
    rfl
  have hloop : parseExpressionLoop (n + 5) pb left ⟨l, es, cur, lparenToken⟩ =
      (parseCallExpression (n + 4) left >>= fun e => parseExpressionLoop (n + 4) pb e)
        ⟨l1, es, lparenToken, tx⟩ := by
    have hp : pb < (⟨l, es, cur, lparenToken⟩ : Parser).peekPowerBind := hpb
    rw [parseExpressionLoop]
    simp [Parser.nextTokenIs, lparenToken, Token.New, hp, Act.bind_apply]
    have := @Parser.Next_mk l l1 es cur lparenToken tx h1
    simp only [lparenToken, Token.New] at this hp
    simp [this, hp]
  rw [hloop, Act.bind_apply, hcall]


/-- C8: infix operators are left-associative and calls chain to the left. For atomic
operands and infix operators of equal binding power, `a op1 b op2 c` parses to
`Infix(op2, Infix(op1, a, b), c)`, and `f(x)(y)` parses to `Call(Call(f, [x]), [y])`; each
holds for every fuel of at least 12, and no error is recorded. -/
theorem infix_and_calls_group_left (n : Nat) (l1 l2 : Lexer)
    (ta tb tc op1 op2 tf tx ty : Token) (a b c f x y : Expression)
    (ha : atomNode ta = some a) (hb : atomNode tb = some b) (hc : atomNode tc = some c)
    (hf : atomNode tf = some f) (hx : atomNode tx = some x) (hy : atomNode ty = some y)
    (h1 : isInfixOperator op1 = true) (h2 : isInfixOperator op2 = true)
    (heq : power op1 = power op2)
    (hl1 : l1.yields [ta, op1, tb, op2, tc, eofToken, eofToken] = true)
    (hl2 : l2.yields [tf, lparenToken, tx, rparenToken, lparenToken, ty, rparenToken,
      eofToken, eofToken] = true) :
    (∃ p, parseLexer (n + 12) l1 =
        .ok (expressionProgram ta (infixNode op2 (infixNode op1 a b) c)) p ∧ p.errors = []) ∧
    (∃ p, parseLexer (n + 12) l2 =
        .ok (expressionProgram tf (callNode (callNode f [x]) [y])) p ∧ p.errors = []) := by
  have hp1 := power_of_operator h1
  have hp2 := power_of_operator h2
  refine ⟨?_, ?_⟩
  · obtain ⟨m1, e1, hl1⟩ := Lexer.yields_cons hl1
    obtain ⟨m2, e2, hl1⟩ := Lexer.yields_cons hl1
    obtain ⟨m3, e3, hl1⟩ := Lexer.yields_cons hl1
    obtain ⟨m4, e4, hl1⟩ := Lexer.yields_cons hl1
    obtain ⟨m5, e5, hl1⟩ := Lexer.yields_cons hl1
    obtain ⟨m6, e6, hl1⟩ := Lexer.yields_cons hl1
    obtain ⟨m7, e7, -⟩ := Lexer.yields_cons hl1
    have hstart : (ta.Typ = .ID ∧ op1.Typ ≠ .ASSIGN) ∨ ta.Typ = .INT ∨ ta.Typ = .BANG ∨
        ta.Typ = .MINUS := by
      rcases typ_of_atom ha with h | h
      · exact Or.inl ⟨h, by intro h'; simp [isInfixOperator, h'] at h1⟩
      · exact Or.inr (Or.inl h)
    refine ⟨_, parseLexer_expression (n + 8) l1 m1 m2 m6 m7 ta op1 tc _ e1 e2 hstart ?_ e7, rfl⟩
    rw [parseExpression_atom (n + 8) LOWEST _ a ha]
    rw [parseExpressionLoop_operator_atom (n + 3) LOWEST a b m2 m3 m4 [] ta op1 tb op2 h1
      (by simp only [LOWEST]; omega) e3 e4 hb (by omega)]
    rw [parseExpressionLoop_operator_atom (n + 2) LOWEST _ c m4 m5 m6 [] tb op2 tc eofToken h2
      (by simp only [LOWEST]; omega) e5 e6 hc (by rw [power_eofToken]; omega)]
    exact parseExpressionLoop_stop (n + 5) _ _ _ (Or.inr (by
      show power eofToken ≤ LOWEST
      rw [power_eofToken]; simp [LOWEST]))
  · obtain ⟨m1, e1, hl2⟩ := Lexer.yields_cons hl2
    obtain ⟨m2, e2, hl2⟩ := Lexer.yields_cons hl2
    obtain ⟨m3, e3, hl2⟩ := Lexer.yields_cons hl2
    obtain ⟨m4, e4, hl2⟩ := Lexer.yields_cons hl2
    obtain ⟨m5, e5, hl2⟩ := Lexer.yields_cons hl2
    obtain ⟨m6, e6, hl2⟩ := Lexer.yields_cons hl2
    obtain ⟨m7, e7, hl2⟩ := Lexer.yields_cons hl2
    obtain ⟨m8, e8, hl2⟩ := Lexer.yields_cons hl2
    obtain ⟨m9, e9, -⟩ := Lexer.yields_cons hl2
    have hstart : (tf.Typ = .ID ∧ lparenToken.Typ ≠ .ASSIGN) ∨ tf.Typ = .INT ∨ tf.Typ = .BANG ∨
        tf.Typ = .MINUS := by
      rcases typ_of_atom hf with h | h
      · exact Or.inl ⟨h, by decide⟩
      · exact Or.inr (Or.inl h)
    refine ⟨_, parseLexer_expression (n + 8) l2 m1 m2 m8 m9 tf lparenToken rparenToken _ e1 e2
      hstart ?_ e9, rfl⟩
    rw [parseExpression_atom (n + 8) LOWEST _ f hf]
    rw [parseExpressionLoop_call_atom (n + 3) LOWEST f x m2 m3 m4 m5 [] tf tx lparenToken
      (by decide) e3 e4 e5 hx]
    rw [parseExpressionLoop_call_atom (n + 2) LOWEST _ y m5 m6 m7 m8 [] rparenToken ty eofToken
      (by decide) e6 e7 e8 hy]
    exact parseExpressionLoop_stop (n + 5) _ _ _ (Or.inr (by
      show power eofToken ≤ LOWEST
      rw [power_eofToken]; simp [LOWEST]))


/-- C7, an instance: `a + b * c`, `a * b + c` and `-a * b`. -/
theorem binding_power_grouping_witness :
    (∃ p, parseLexer 12 (Lexer.New (str "a + b * c")) =
        .ok (expressionProgram (idToken "a")
          (infixNode ⟨.PLUS, str "+"⟩ (idNode "a")
            (infixNode ⟨.ASTERISK, str "*"⟩ (idNode "b") (idNode "c")))) p ∧ p.errors = []) ∧
    (∃ p, parseLexer 12 (Lexer.New (str "a * b + c")) =
        .ok (expressionProgram (idToken "a")
          (infixNode ⟨.PLUS, str "+"⟩
            (infixNode ⟨.ASTERISK, str "*"⟩ (idNode "a") (idNode "b")) (idNode "c"))) p ∧
          p.errors = []) ∧
    (∃ p, parseLexer 12 (Lexer.New (str "-a * b")) =
        .ok (expressionProgram ⟨.MINUS, str "-"⟩
          (infixNode ⟨.ASTERISK, str "*"⟩ (prefixNode ⟨.MINUS, str "-"⟩ (idNode "a"))
            (idNode "b"))) p ∧ p.errors = []) :=
  binding_power_grouping 0 (Lexer.New (str "a + b * c")) (Lexer.New (str "a * b + c"))
    (Lexer.New (str "-a * b")) (idToken "a") (idToken "b") (idToken "c") ⟨.PLUS, str "+"⟩
    ⟨.ASTERISK, str "*"⟩ ⟨.ASTERISK, str "*"⟩ ⟨.MINUS, str "-"⟩ (idNode "a") (idNode "b")
    (idNode "c") rfl rfl rfl rfl rfl (by decide) rfl rfl (by decide!) (by decide!) (by decide!)

/-- C8, an instance: `a - b + c` and `f(x)(y)`. -/
theorem infix_and_calls_group_left_witness :
    (∃ p, parseLexer 12 (Lexer.New (str "a - b + c")) =
        .ok (expressionProgram (idToken "a")
          (infixNode ⟨.PLUS, str "+"⟩
            (infixNode ⟨.MINUS, str "-"⟩ (idNode "a") (idNode "b")) (idNode "c"))) p ∧
          p.errors = []) ∧
    (∃ p, parseLexer 12 (Lexer.New (str "f(x)(y)")) =
        .ok (expressionProgram (idToken "f")
          (callNode (callNode (idNode "f") [idNode "x"]) [idNode "y"])) p ∧ p.errors = []) :=
  infix_and_calls_group_left 0 (Lexer.New (str "a - b + c")) (Lexer.New (str "f(x)(y)"))
    (idToken "a") (idToken "b") (idToken "c") ⟨.MINUS, str "-"⟩ ⟨.PLUS, str "+"⟩
    (idToken "f") (idToken "x") (idToken "y") (idNode "a") (idNode "b") (idNode "c")
    (idNode "f") (idNode "x") (idNode "y") rfl rfl rfl rfl rfl rfl rfl rfl (by decide)
    (by decide!) (by decide!)

/-! ## Assignment -/

/-- C9 (code defect): an assignment does not reach a binding owned by a frame farther away
than the parent. `GetWithEnv` returns `e.outer`, not the frame that owns the name: with
`x` bound in the root frame 0 only and the chain 2 -> 1 -> 0, `assign` in frame 2 writes
`x` into the frames 2 and 1 and leaves the root's `x` as it was. So the program below, whose
assignment runs two calls deep, evaluates to the `Int` 1, while with the assignment one call
deep the same program evaluates to the `Int` 5. -/
theorem assign_misses_distant_owner :
    framesAfter (assign (str "x") (.Bool true) 2
        (World.ofFrames [⟨[(str "x", .Bool false)], none⟩, ⟨[], some 0⟩, ⟨[], some 1⟩])) =
      some [⟨[(str "x", .Bool false)], none⟩, ⟨[(str "x", .Bool true)], some 0⟩,
        ⟨[(str "x", .Bool true)], some 1⟩] ∧
    observe (testEval 20
        (str "var x = 1; func f() \x7b func g() \x7b x = 5 \x7d; g() \x7d; f(); x")) =
      some (.Int 0, [1, 5]) ∧
    observe (testEval 20 (str "var x = 1; func f() \x7b x = 5 \x7d; f(); x")) =
      some (.Int 1, [1, 5]) := by
  decide!

/-- C10 (code defect): an assignment to a name bound nowhere also writes into the parent
frame. `GetWithEnv` drops the `ok` of `e.outer.Get(name)` and returns `e.outer` whether or
not the name was found: with two empty frames 1 -> 0, `assign` in frame 1 binds `z` in both.
So after `func f() { z = 5 }; f()` the identifier `z` is found at top level, with the
`Int` 5, although `z` alone is not found. -/
theorem assign_to_new_name_writes_parent :
    framesAfter (assign (str "z") (.Bool true) 1
        (World.ofFrames [⟨[], none⟩, ⟨[], some 0⟩])) =
      some [⟨[(str "z", .Bool true)], none⟩, ⟨[(str "z", .Bool true)], some 0⟩] ∧
    observe (testEval 20 (str "func f() \x7b z = 5 \x7d; f(); z")) = some (.Int 0, [5]) ∧
    observe (testEval 20 (str "z")) = some (.Error 0 (str "identifier not found: z"), []) := by
  decide!

/-! ## Infix operators -/

theorem wrap64_of_inInt64 {x : Int} (h : inInt64 x) : wrap64 x = x := by
  unfold inInt64 at h
  unfold wrap64
  omega

theorem tdiv_inInt64 {a b : Int} (ha : inInt64 a) (hne : ¬ (a = -2 ^ 63 ∧ b = -1)) :
    inInt64 (Int.tdiv a b) := by
  have h1 : (Int.tdiv a b).natAbs = a.natAbs / b.natAbs := by
    rw [Int.natAbs_tdiv]; rfl
  have h2 : a.natAbs / b.natAbs ≤ a.natAbs := Nat.div_le_self _ _
  unfold inInt64 at ha ⊢
  by_cases hb1 : b = -1
  · subst hb1
    have : Int.tdiv a (-1) = -a := by
      rw [Int.tdiv_neg, Int.tdiv_one]
    rw [this]
    have : a ≠ -2 ^ 63 := fun h => hne ⟨h, rfl⟩
    omega
  · by_cases hb2 : b.natAbs ≤ 1
    · have hb3 : b = 0 ∨ b = 1 := by omega
      rcases hb3 with h | h
      · subst h; simp
      · subst h; simp; omega
    · have h3 : a.natAbs / b.natAbs ≤ a.natAbs / 2 :=
        Nat.div_le_div_left (by omega) (by omega)
      omega

theorem neg_tmod_eq (a b : Int) : (-a).tmod b = -(a.tmod b) := by
  rw [Int.tmod_def, Int.tmod_def, Int.neg_tdiv]
  simp only [Int.mul_neg]
  omega

theorem tmod_inInt64 {a b : Int} (ha : inInt64 a) (hb : inInt64 b) :
    inInt64 (Int.tmod a b) := by
  have key : ∀ x y : Int, 0 ≤ x → 0 < y → 0 ≤ Int.tmod x y ∧ Int.tmod x y < y :=
    fun x y hx hy => ⟨Int.tmod_nonneg _ hx, Int.tmod_lt_of_pos _ hy⟩
  unfold inInt64 at hb ha ⊢
  rcases Int.lt_trichotomy b 0 with hb0 | hb0 | hb0
  · rcases Int.le_total 0 a with ha0 | ha0
    · have := key a (-b) ha0 (by omega)
      rw [Int.tmod_neg] at this
      omega
    · have := key (-a) (-b) (by omega) (by omega)
      rw [Int.tmod_neg, neg_tmod_eq] at this
      omega
  · subst hb0
    simpa [inInt64] using ha
  · rcases Int.le_total 0 a with ha0 | ha0
    · have := key a b ha0 hb0
      omega
    · have := key (-a) b (by omega) hb0
      rw [neg_tmod_eq] at this
      omega


theorem intValue_of {w : World} {ref : Nat} {v : Int} (h : w.ints.get? ref = some v) :
    intValue ref w = .ok v w := by
  simp only [intValue, h]

/-- C13 (amended): on two `Int` operands that hold the 64-bit values `a` and `b`,
`intInfixExp` allocates for `+ - *` an `Int` with the mathematical result reduced to 64-bit
two's complement; for `b ≠ 0`, `/` gives the quotient truncated toward zero reduced to 64-bit
two's complement (the truncated quotient itself unless `a = -2^63` and `b = -1`) and `%` the
remainder of the truncated division, so that `(a / b) * b + (a % b) = a` holds exactly for
the truncated quotient and in 64-bit arithmetic for the returned one; `< > == !=` return the
Bool of the integer comparison and leave the heap as it is. -/
theorem intInfixExp_reference (w : World) (l r : Nat) (a b : Int)
    (hl : w.ints.get? l = some a) (hr : w.ints.get? r = some b)
    (ha : inInt64 a) (hb : inInt64 b) :
    intInfixExp (str "+") (.Int l) (.Int r) w =
      .ok (.Int w.ints.length) (w.withInt (wrap64 (a + b))) ∧
    intInfixExp (str "-") (.Int l) (.Int r) w =
      .ok (.Int w.ints.length) (w.withInt (wrap64 (a - b))) ∧
    intInfixExp (str "*") (.Int l) (.Int r) w =
      .ok (.Int w.ints.length) (w.withInt (wrap64 (a * b))) ∧
    (b ≠ 0 →
      intInfixExp (str "/") (.Int l) (.Int r) w =
        .ok (.Int w.ints.length) (w.withInt (wrap64 (Int.tdiv a b))) ∧
      intInfixExp (str "%") (.Int l) (.Int r) w =
        .ok (.Int w.ints.length) (w.withInt (Int.tmod a b)) ∧
      (¬ (a = -2 ^ 63 ∧ b = -1) → wrap64 (Int.tdiv a b) = Int.tdiv a b) ∧
      Int.tdiv a b * b + Int.tmod a b = a ∧
      wrap64 (wrap64 (Int.tdiv a b) * b + Int.tmod a b) = a) ∧
    intInfixExp (str "<") (.Int l) (.Int r) w = .ok (.Bool (decide (a < b))) w ∧
    intInfixExp (str ">") (.Int l) (.Int r) w = .ok (.Bool (decide (a > b))) w ∧
    intInfixExp (str "==") (.Int l) (.Int r) w = .ok (.Bool (decide (a = b))) w ∧
    intInfixExp (str "!=") (.Int l) (.Int r) w = .ok (.Bool (decide (a ≠ b))) w := by
  have hl1 := intValue_of hl
  have hr1 := intValue_of hr
  refine ⟨?_, ?_, ?_, ?_, ?_, ?_, ?_, ?_⟩
  · simp [intInfixExp, Act.bind_apply, hl1, hr1, newInt, World.withInt, str, utf8]
  · simp [intInfixExp, Act.bind_apply, hl1, hr1, newInt, World.withInt, str, utf8]
  · simp [intInfixExp, Act.bind_apply, hl1, hr1, newInt, World.withInt, str, utf8]
  · intro hb0
    have hident : Int.tdiv a b * b + Int.tmod a b = a := Int.tdiv_add_tmod' a b
    refine ⟨?_, ?_, ?_, hident, ?_⟩
    · simp [intInfixExp, Act.bind_apply, hl1, hr1, newInt, World.withInt, str, utf8, hb0]
    · simp [intInfixExp, Act.bind_apply, hl1, hr1, newInt, World.withInt, str, utf8, hb0,
        wrap64_of_inInt64 (tmod_inInt64 ha hb)]
    · intro hne
      exact wrap64_of_inInt64 (tdiv_inInt64 ha hne)
    · by_cases hne : a = -2 ^ 63 ∧ b = -1
      · obtain ⟨rfl, rfl⟩ := hne
        decide
      · rw [wrap64_of_inInt64 (tdiv_inInt64 ha hne), hident, wrap64_of_inInt64 ha]
  · simp [intInfixExp, Act.bind_apply, hl1, hr1, nativeBool, Act.pure_apply, str, utf8]
  · simp [intInfixExp, Act.bind_apply, hl1, hr1, nativeBool, Act.pure_apply, str, utf8]
  · simp [intInfixExp, Act.bind_apply, hl1, hr1, nativeBool, Act.pure_apply, str, utf8]
  · simp [intInfixExp, Act.bind_apply, hl1, hr1, nativeBool, Act.pure_apply, str, utf8]


theorem repeatLoop_spec (s : Str) (ref : Nat) (k : Nat) :
    ∀ (res : Str) (w : World), w.ints.get? ref = some (k : Int) → (k : Int) < 2 ^ 63 →
      repeatLoop s ref k res w = .ok (res ++ repeatStr k s) (w.counted ref k) := by
  induction k with
  | zero =>
    intro res w _ _
    simp [repeatLoop, repeatStr, World.counted, Act.pure_apply]
  | succ k ih =>
    intro res w hw hk
    have hlen : ref < w.ints.length := by
      rcases Nat.lt_or_ge ref w.ints.length with h | h
      · exact h
      · rw [List.get?_eq_none.mpr h] at hw; cases hw
    have hpos : ((k + 1 : Nat) : Int) > 0 := by omega
    have hwrap : wrap64 (((k + 1 : Nat) : Int) - 1) = (k : Int) := by
      unfold wrap64; omega
    have hw1 : ({ w with ints := w.ints.set ref (k : Int) } : World).ints.get? ref =
        some (k : Int) := by
      simp [List.get?_eq_getElem?, hlen]
    have := ih (res ++ s) { w with ints := w.ints.set ref (k : Int) } hw1 (by omega)
    rw [repeatLoop]
    simp only [Act.bind_apply, intValue_of hw, hpos, if_true, setIntValue, hwrap, this]
    simp only [repeatStr, List.append_assoc, World.counted]
    congr 1
    have h0 : (0 : Int) < ((k + 1 : Nat) : Int) := by omega
    simp only [h0, if_true]
    split
    · simp [List.set_set]
    · have : k = 0 := by omega
      subst this
      simp


theorem repeatString_spec (s : Str) (ref : Nat) (n : Int) (w : World)
    (hr : w.ints.get? ref = some n) (hn : inInt64 n) :
    repeatString s ref w =
      .ok (.String w.fresh (repeatStr n.toNat s)) (w.counted ref n).withObject := by
  unfold inInt64 at hn
  rcases Int.lt_or_le 0 n with hpos | hneg
  · obtain ⟨k, rfl⟩ : ∃ k : Nat, n = (k : Int) := ⟨n.toNat, by omega⟩
    have := repeatLoop_spec s ref k [] w hr (by omega)
    simp only [repeatString, Act.bind_apply, intValue_of hr, Int.toNat_ofNat, this, newString,
      List.nil_append, World.withObject, World.counted]
    split <;> rfl
  · have h0 : n.toNat = 0 := by omega
    have hc : w.counted ref n = w := by
      simp only [World.counted]
      rw [if_neg (by omega)]
    simp only [repeatString, Act.bind_apply, intValue_of hr, h0, repeatLoop, Act.pure_apply,
      newString, repeatStr, hc, World.withObject]

/-- C14: for every string `s` and every `Int` operand holding the 64-bit value `n`, both
`s * n` and `n * s` return a new String that is `s` repeated `max(n, 0)` times, the empty
string when `n ≤ 0` (the loop leaves a positive count at 0 in the `Int` object). -/
theorem string_times_int (w : World) (addr ref : Nat) (s : Str) (n : Int)
    (hr : w.ints.get? ref = some n) (hn : inInt64 n) :
    infixExp (str "*") (.String addr s) (.Int ref) w =
      .ok (.String w.fresh (repeatStr n.toNat s)) (w.counted ref n).withObject ∧
    infixExp (str "*") (.Int ref) (.String addr s) w =
      .ok (.String w.fresh (repeatStr n.toNat s)) (w.counted ref n).withObject ∧
    (n ≤ 0 → repeatStr n.toNat s = []) := by
  refine ⟨?_, ?_, ?_⟩
  · simp [infixExp, Act.bind_apply, typeOf, Meta.Type, strPlusInfixExp,
      repeatString_spec s ref n w hr hn]
  · simp [infixExp, Act.bind_apply, typeOf, Meta.Type, strPlusInfixExp,
      repeatString_spec s ref n w hr hn]
  · intro h
    have : n.toNat = 0 := by omega
    rw [this]; rfl


/-- C15 (amended): for a String operand and an Int operand, in either order, and every
operator other than `*`, `infixExp` returns an Error whose message is
`unknown operator: T1 op T2`, with `T1`, `T2` the operand type names in order. -/
theorem string_int_other_operator (w : World) (addr ref : Nat) (s : Str) (op : Str)
    (hop : op ≠ str "*") :
    infixExp op (.String addr s) (.Int ref) w =
      .ok (.Error w.fresh (unknownOperatorMsg .STRING op .INT)) w.withObject ∧
    infixExp op (.Int ref) (.String addr s) w =
      .ok (.Error w.fresh (unknownOperatorMsg .INT op .STRING)) w.withObject := by
  constructor <;>
    simp [infixExp, Act.bind_apply, typeOf, Meta.Type, strPlusInfixExp, hop, unknownOperator,
      newError, unknownOperatorMsg, World.withObject]

theorem intInfixExp_undefined (w : World) (l r : Nat) (op : Str)
    (hl : l < w.ints.length) (hr : r < w.ints.length)
    (hop : definedFor .INT op = false) :
    intInfixExp op (.Int l) (.Int r) w =
      .ok (.Error w.fresh (unknownOperatorMsg .INT op .INT)) w.withObject := by
  have h1 : intValue l w = .ok (w.ints[l]) w := by
    simp [intValue, List.get?_eq_getElem?, hl]
  have h2 : intValue r w = .ok (w.ints[r]) w := by
    simp [intValue, List.get?_eq_getElem?, hr]
  simp only [definedFor, intOperators, List.contains_eq_any_beq, List.any_cons, List.any_nil,
    Bool.or_false, Bool.or_eq_false_iff, beq_eq_false_iff_ne, ne_eq] at hop
  obtain ⟨h3, h4, h5, h6, h7, h8, h9, h10, h11⟩ := hop
  simp only [intInfixExp, Act.bind_apply, h1, h2]
  simp only [h3, h4, h5, h6, h7, h8, h9, h10, h11, if_false]
  simp [unknownOperator, Act.bind_apply, typeOf, Meta.Type, newError, unknownOperatorMsg,
    World.withObject]


theorem strInfixExp_undefined (w : World) (a b : Nat) (s t : Str) (op : Str)
    (hop : definedFor .STRING op = false) :
    strInfixExp op (.String a s) (.String b t) w =
      .ok (.Error w.fresh (unknownOperatorMsg .STRING op .STRING)) w.withObject := by
  simp only [definedFor, strOperators, List.contains_eq_any_beq, List.any_cons, List.any_nil,
    Bool.or_false, Bool.or_eq_false_iff, beq_eq_false_iff_ne, ne_eq] at hop
  obtain ⟨h3, h4, h5, h6, h7⟩ := hop
  simp only [strInfixExp, h3, h4, h5, h6, h7, if_false]
  simp [unknownOperator, Act.bind_apply, typeOf, Meta.Type, newError, unknownOperatorMsg,
    World.withObject]

theorem typeOf_of {m : Meta} {t : MetaType} (w : World) (h : m.Type = some t) :
    typeOf m w = .ok t w := by
  simp only [typeOf, h]


theorem infixExp_other (w : World) (op : Str) (left right : Meta) (lt rt : MetaType)
    (hl : left.Type = some lt) (hr : right.Type = some rt) (hp : otherPair lt rt) :
    infixExp op left right w =
      if op = str "==" then .ok (.Bool (samePointer left right)) w
      else if op = str "!=" then .ok (.Bool (!samePointer left right)) w
      else if lt ≠ rt then .ok (.Error w.fresh (typeMismatchMsg lt op rt)) w.withObject
      else .ok (.Error w.fresh (unknownOperatorMsg lt op rt)) w.withObject := by
  obtain ⟨h1, h2, h3, h4⟩ := hp
  have hL := typeOf_of w hl
  have hR := typeOf_of w hr
  have tailEq : (if op = str "==" then (pure (nativeBool (samePointer left right)) : EAct Meta)
      else if op = str "!=" then pure (nativeBool (!samePointer left right))
      else typeOf right >>= fun rt1 =>
        if lt ≠ rt1 then
          newError (str "type mismatch: " ++ lt.text ++ str " " ++ op ++ str " " ++ rt1.text)
        else
          newError (str "unknown operator: " ++ lt.text ++ str " " ++ op ++ str " " ++ rt1.text)) w =
      if op = str "==" then .ok (.Bool (samePointer left right)) w
      else if op = str "!=" then .ok (.Bool (!samePointer left right)) w
      else if lt ≠ rt then .ok (.Error w.fresh (typeMismatchMsg lt op rt)) w.withObject
      else .ok (.Error w.fresh (unknownOperatorMsg lt op rt)) w.withObject := by
    by_cases e1 : op = str "=="
    · rw [if_pos e1, if_pos e1]; rfl
    · by_cases e2 : op = str "!="
      · rw [if_neg e1, if_pos e2, if_neg e1, if_pos e2]; rfl
      · by_cases e3 : lt = rt
        · simp [e1, e2, e3, Act.bind_apply, hR, newError, unknownOperatorMsg, World.withObject]
        · simp [e1, e2, e3, Act.bind_apply, hR, newError, typeMismatchMsg, World.withObject]
  rw [← tailEq]
  simp only [infixExp, Act.bind_apply, hL]
  by_cases c1 : lt = .INT
  · have c2 : rt ≠ .INT := fun h => h1 ⟨c1, h⟩
    have c3 : rt ≠ .STRING := fun h => h4 ⟨c1, h⟩
    simp only [c1, if_true, Act.bind_apply, hR, c2, c3, if_false]
  · by_cases c4 : lt = .STRING
    · have c2 : rt ≠ .INT := fun h => h3 ⟨c4, h⟩
      have c3 : rt ≠ .STRING := fun h => h2 ⟨c4, h⟩
      subst c4
      have c5 : ¬ (MetaType.STRING = MetaType.INT) := by decide
      simp only [c5, if_true, Act.bind_apply, hR, c2, c3, if_false]
    · simp only [c1, c4, if_false]

/-- C16: for operands with a type that are not an Int/String mix and an operator other than
`==` and `!=`: if the operand types differ, `infixExp` returns the Error
`type mismatch: T1 op T2`; if the types are equal and the operator is not defined for that
type, it returns the Error `unknown operator: T op T`. -/
theorem infixExp_error_messages (w : World) (op : Str) (left right : Meta)
    (lt rt : MetaType) (hl : left.Type = some lt) (hr : right.Type = some rt)
    (hlive : liveIn w left = true ∧ liveIn w right = true)
    (hmix : ¬ (lt = .STRING ∧ rt = .INT) ∧ ¬ (lt = .INT ∧ rt = .STRING))
    (heq : op ≠ str "==") (hne : op ≠ str "!=") :
    (lt ≠ rt → infixExp op left right w =
      .ok (.Error w.fresh (typeMismatchMsg lt op rt)) w.withObject) ∧
    (lt = rt → definedFor lt op = false → infixExp op left right w =
      .ok (.Error w.fresh (unknownOperatorMsg lt op rt)) w.withObject) := by
  obtain ⟨hlv, hrv⟩ := hlive
  constructor
  · intro hd
    have hp : otherPair lt rt :=
      ⟨fun h => hd (h.1.trans h.2.symm), fun h => hd (h.1.trans h.2.symm), hmix.1, hmix.2⟩
    rw [infixExp_other w op left right lt rt hl hr hp]
    simp [heq, hne, hd]
  · intro he hdef
    subst he
    by_cases c1 : lt = .INT
    · subst c1
      cases left <;> simp [Meta.Type] at hl
      cases right <;> simp [Meta.Type] at hr
      simp only [liveIn, decide_eq_true_eq] at hlv hrv
      simp [infixExp, Act.bind_apply, typeOf, Meta.Type, intInfixExp_undefined w _ _ op hlv hrv hdef]
    · by_cases c2 : lt = .STRING
      · subst c2
        cases left <;> simp [Meta.Type] at hl
        cases right <;> simp [Meta.Type] at hr
        simp [infixExp, Act.bind_apply, typeOf, Meta.Type, strInfixExp_undefined w _ _ _ _ op hdef]
      · have hp : otherPair lt lt :=
          ⟨fun h => c1 h.1, fun h => c2 h.1, fun h => c2 h.1, fun h => c1 h.1⟩
        rw [infixExp_other w op left right lt lt hl hr hp]
        simp [heq, hne]

/-- C13 (counterexample): for `a = -2^63` and `b = -1` the quotient truncated toward zero is
`2^63`, and `intInfixExp` returns `-2^63`: in the heap of the two operands, and in the
program `(-9223372036854775807 - 1) / -1`. With the remainder `0` that the code returns, the
identity `(a / b) * b + (a % b) = a` holds for the returned quotient in 64-bit arithmetic
only. -/
theorem min_int_quotient_wraps :
    Int.tdiv (-2 ^ 63) (-1) = 2 ^ 63 ∧
    observe (intInfixExp (str "/") (.Int 0) (.Int 1) (World.ofInts [-2 ^ 63, -1])) =
      some (.Int 2, [-2 ^ 63, -1, -2 ^ 63]) ∧
    observe (intInfixExp (str "%") (.Int 0) (.Int 1) (World.ofInts [-2 ^ 63, -1])) =
      some (.Int 2, [-2 ^ 63, -1, 0]) ∧
    observe (testEval 20 (str "(-9223372036854775807 - 1) / -1")) =
      some (.Int 6, [9223372036854775807, -9223372036854775807, 1, -9223372036854775808, 1, -1,
        -9223372036854775808]) ∧
    (-2 ^ 63 : Int) * (-1) + 0 ≠ -2 ^ 63 := by
  decide!

theorem intInfixExp_reference_witness :
    inInt64 7 ∧ inInt64 (-2) ∧
    intInfixExp (str "/") (.Int 0) (.Int 1) (World.ofInts [7, -2]) =
      .ok (.Int 2) ((World.ofInts [7, -2]).withInt (wrap64 (Int.tdiv 7 (-2)))) ∧
    intInfixExp (str "<") (.Int 0) (.Int 1) (World.ofInts [7, -2]) =
      .ok (.Bool (decide ((7 : Int) < -2))) (World.ofInts [7, -2]) :=
  have h := intInfixExp_reference (World.ofInts [7, -2]) 0 1 7 (-2) rfl rfl
    (by unfold inInt64; decide) (by unfold inInt64; decide)
  ⟨by unfold inInt64; decide, by unfold inInt64; decide, (h.2.2.2.1 (by decide)).1,
    h.2.2.2.2.1⟩

theorem string_times_int_witness :
    inInt64 3 ∧
    infixExp (str "*") (.String 0 (str "ab")) (.Int 0) (World.ofInts [3]) =
      .ok (.String 0 (repeatStr 3 (str "ab"))) ((World.ofInts [3]).counted 0 3).withObject :=
  ⟨by unfold inInt64; decide,
    (string_times_int (World.ofInts [3]) 0 0 (str "ab") 3 rfl (by unfold inInt64; decide)).1⟩

/-- C15 (counterexample): `"a" + 1` evaluates to the Error `unknown operator: STRING + INT`,
`1 - "a"` to `unknown operator: INT - STRING`, and `"a" == 1` to
`unknown operator: STRING == INT`; none is a `type mismatch`. -/
theorem string_int_mix_is_unknown_operator :
    observe (testEval 20 (str "\"a\" + 1")) =
      some (.Error 1 (str "unknown operator: STRING + INT"), [1]) ∧
    observe (testEval 20 (str "1 - \"a\"")) =
      some (.Error 1 (str "unknown operator: INT - STRING"), [1]) ∧
    observe (testEval 20 (str "\"a\" == 1")) =
      some (.Error 1 (str "unknown operator: STRING == INT"), [1]) := by
  decide!

theorem string_int_other_operator_witness :
    str "+" ≠ str "*" ∧
    infixExp (str "+") (.String 0 (str "a")) (.Int 0) (World.ofInts [1]) =
      .ok (.Error 0 (unknownOperatorMsg .STRING (str "+") .INT)) (World.ofInts [1]).withObject :=
  ⟨by decide, (string_int_other_operator (World.ofInts [1]) 0 0 (str "a") (str "+")
    (by decide)).1⟩

theorem infixExp_error_messages_witness :
    infixExp (str "+") (.Int 0) (.Bool true) (World.ofInts [5]) =
      .ok (.Error 0 (typeMismatchMsg .INT (str "+") .BOOL)) (World.ofInts [5]).withObject ∧
    infixExp (str "+") (.Bool true) (.Bool false) World.empty =
      .ok (.Error 0 (unknownOperatorMsg .BOOL (str "+") .BOOL)) World.empty.withObject :=
  ⟨(infixExp_error_messages (World.ofInts [5]) (str "+") (.Int 0) (.Bool true) .INT .BOOL rfl rfl
      ⟨by decide, rfl⟩ ⟨by decide, by decide⟩ (by decide) (by decide)).1 (by decide),
    (infixExp_error_messages World.empty (str "+") (.Bool true) (.Bool false) .BOOL .BOOL rfl rfl
      ⟨rfl, rfl⟩ ⟨by decide, by decide⟩ (by decide) (by decide)).2 rfl (by decide)⟩

/-- C17: for operands with a type that are neither two `Int`s, nor two `String`s, nor an
`Int` and a `String`, `==` returns TRUE exactly when the two operands are the same object
(Go `==` on the two interface values) and `!=` returns the negation, in an unchanged heap.
Hence two Bools are `==` iff they are equal, `nil == nil` is TRUE, and a Bool compared with
an Int or with Nil is FALSE. -/
theorem identity_comparison (w : World) (a b : Meta) (ta tb : MetaType)
    (ha : a.Type = some ta) (hb : b.Type = some tb) (hp : otherPair ta tb) :
    infixExp (str "==") a b w = .ok (.Bool (samePointer a b)) w ∧
    infixExp (str "!=") a b w = .ok (.Bool (!samePointer a b)) w ∧
    (∀ x y : Bool, infixExp (str "==") (.Bool x) (.Bool y) w = .ok (.Bool (x == y)) w) ∧
    infixExp (str "==") .Nil .Nil w = .ok (.Bool true) w ∧
    (∀ (x : Bool) (ref : Nat),
      infixExp (str "==") (.Bool x) (.Int ref) w = .ok (.Bool false) w ∧
      infixExp (str "==") (.Int ref) (.Bool x) w = .ok (.Bool false) w ∧
      infixExp (str "==") (.Bool x) .Nil w = .ok (.Bool false) w ∧
      infixExp (str "==") .Nil (.Bool x) w = .ok (.Bool false) w) := by
  have hne : str "!=" ≠ str "==" := by decide
  have key : ∀ (a b : Meta) (ta tb : MetaType), a.Type = some ta → b.Type = some tb →
      otherPair ta tb → infixExp (str "==") a b w = .ok (.Bool (samePointer a b)) w := by
    intro a b ta tb ha hb hp
    rw [infixExp_other w (str "==") a b ta tb ha hb hp, if_pos rfl]
  refine ⟨key a b ta tb ha hb hp, ?_, ?_, ?_, ?_⟩
  · rw [infixExp_other w (str "!=") a b ta tb ha hb hp, if_neg hne, if_pos rfl]
  · intro x y
    exact key (.Bool x) (.Bool y) .BOOL .BOOL rfl rfl (by unfold otherPair; decide)
  · exact key .Nil .Nil .NIL .NIL rfl rfl (by unfold otherPair; decide)
  · intro x ref
    exact ⟨key (.Bool x) (.Int ref) .BOOL .INT rfl rfl (by unfold otherPair; decide),
      key (.Int ref) (.Bool x) .INT .BOOL rfl rfl (by unfold otherPair; decide),
      key (.Bool x) .Nil .BOOL .NIL rfl rfl (by unfold otherPair; decide),
      key .Nil (.Bool x) .NIL .BOOL rfl rfl (by unfold otherPair; decide)⟩

theorem identity_comparison_witness :
    otherPair .FUNC .FUNC ∧
    infixExp (str "==") (.Func 0) (.Func 1) World.empty = .ok (.Bool false) World.empty ∧
    infixExp (str "!=") (.Func 0) (.Func 1) World.empty = .ok (.Bool true) World.empty :=
  have h := identity_comparison World.empty (.Func 0) (.Func 1) .FUNC .FUNC rfl rfl
    (by unfold otherPair; decide)
  ⟨by unfold otherPair; decide, h.1, h.2.1⟩

/-- C18: `!` on a value other than TRUE, FALSE and NIL returns the nil interface value, which
is not the object NIL: `!5`, `!"a"`, `!len` and `!func() \x7b 1 \x7d` evaluate to it. It
differs from NIL in what follows: `!!5` is again the nil interface where `!nil` is TRUE, and
`echo(!5)` ends in a runtime panic where `echo(nil)` prints `nil`. On the three objects
`!` is as claimed, and `!!b` is `b` for both Bools. -/
theorem bang_of_other_value_is_not_Nil :
    (∀ ref, bangOpExp (.Int ref) = .nil) ∧
    (∀ addr s, bangOpExp (.String addr s) = .nil) ∧
    (∀ ref, bangOpExp (.Func ref) = .nil) ∧
    (∀ fn, bangOpExp (.Builtin fn) = .nil) ∧
    Meta.nil ≠ Meta.Nil ∧
    observe (testEval 20 (str "!5")) = some (.nil, [5]) ∧
    observe (testEval 20 (str "!\"a\"")) = some (.nil, []) ∧
    observe (testEval 20 (str "!len")) = some (.nil, []) ∧
    observe (testEval 20 (str "!func() \x7b 1 \x7d")) = some (.nil, []) ∧
    observe (testEval 20 (str "!!5")) = some (.nil, [5]) ∧
    observe (testEval 20 (str "!nil")) = some (.Bool true, []) ∧
    (testEval 20 (str "echo(!5)")).panicked = true ∧
    outputAfter (testEval 20 (str "echo(nil)")) = some [str "nil", str "\n"] ∧
    bangOpExp (.Bool true) = .Bool false ∧ bangOpExp (.Bool false) = .Bool true ∧
    bangOpExp .Nil = .Bool true ∧
    (∀ b : Bool, bangOpExp (bangOpExp (.Bool b)) = .Bool b) ∧
    observe (testEval 20 (str "!!true")) = some (.Bool true, []) ∧
    observe (testEval 20 (str "!!false")) = some (.Bool false, []) := by
  refine ⟨fun _ => rfl, fun _ _ => rfl, fun _ => rfl, fun _ => rfl, by decide, ?_, ?_, ?_, ?_,
    ?_, ?_, ?_, ?_, rfl, rfl, rfl, ?_, ?_, ?_⟩
  · decide!
  · decide!
  · decide!
  · decide!
  · decide!
  · decide!
  · decide!
  · decide!
  · intro b; cases b <;> rfl
  · decide!
  · decide!

/-! ## Truthiness -/

/-- C19: `isTrue v` is false if and only if `v` is the Bool FALSE or NIL. `ifExp` and the
loop of `forStatement` decide by it: a condition that evaluates to FALSE or NIL sends `if` to
its other branches and ends the loop, any other value selects the consequence and runs the
body. So the conditions `0`, `""`, `!5` and `len` select the consequence of an `if` and run
the body of a `for`, and the conditions `nil` and `false` select the else branch and end the
loop at once. -/
theorem truthiness (n : Nat) (m : IfExpression) (cond : List Statement) (last : Statement)
    (body : BlockStatement) (e : Nat) (val : Meta) (w : World) :
    (∀ v, isTrue v = false ↔ v = .Bool false ∨ v = .Nil) ∧
    ifExp (n + 1) m e w =
      (match EvalExpression n m.Condition e w with
        | .ok v w1 =>
          if v = .Bool false ∨ v = .Nil then
            (if m.Options.length > 0 then do
              match ← ifOptions n m.Options e with
              | some res => pure res
              | none =>
                match m.Alternative with
                | some alt => blockStatement n alt e
                | none => pure .Nil
            else
              match m.Alternative with
              | some alt => blockStatement n alt e
              | none => pure .Nil : EAct Meta) w1
          else blockStatement n m.Consequence e w1
        | .panic => .panic
        | .fuel => .fuel) ∧
    forLoop (n + 1) cond last body e val w =
      (match EvalStatement n last e w with
        | .ok v w1 =>
          if v = .Bool false ∨ v = .Nil then .ok val w1
          else
            (do
              let val1 ← blockStatement n body e
              match val1 with
              | .ReturnValue _ v => pure v
              | _ => do
                forHeader n false cond e
                forLoop n cond last body e val1 : EAct Meta) w1
        | .panic => .panic
        | .fuel => .fuel) ∧
    observe (testEval 20 (str "if 0 \x7b 10 \x7d")) = some (.Int 2, [0, 0, 10]) ∧
    observe (testEval 20 (str "if \"\" \x7b 10 \x7d")) = some (.Int 0, [10]) ∧
    observe (testEval 20 (str "if !5 \x7b 10 \x7d else \x7b 20 \x7d")) = some (.Int 2, [5, 5, 10]) ∧
    observe (testEval 20 (str "if len \x7b 10 \x7d else \x7b 20 \x7d")) = some (.Int 0, [10]) ∧
    observe (testEval 20 (str "if nil \x7b 10 \x7d else \x7b 20 \x7d")) = some (.Int 0, [20]) ∧
    observe (testEval 20 (str "if false \x7b 10 \x7d else \x7b 20 \x7d")) = some (.Int 0, [20]) ∧
    observe (testEval 20 (str "for 0 \x7b return 7 \x7d")) = some (.Int 1, [0, 7]) ∧
    observe (testEval 20 (str "for \"\" \x7b return 7 \x7d")) = some (.Int 0, [7]) ∧
    observe (testEval 20 (str "for !5 \x7b return 7 \x7d")) = some (.Int 1, [5, 7]) ∧
    observe (testEval 20 (str "for nil \x7b return 7 \x7d")) = some (.nil, []) ∧
    observe (testEval 20 (str "for false \x7b return 7 \x7d")) = some (.nil, []) := by
  have hT : ∀ v, isTrue v = false ↔ v = .Bool false ∨ v = .Nil := by
    intro v
    cases v with
    | Bool b => cases b <;> simp [isTrue]
    | _ => simp [isTrue]
  have hT2 : ∀ v, isTrue v = true ↔ ¬ (v = .Bool false ∨ v = .Nil) := by
    intro v
    rw [← hT v]; simp
  refine ⟨hT, ?_, ?_, ?_, ?_, ?_, ?_, ?_, ?_, ?_, ?_, ?_, ?_, ?_⟩
  · rw [ifExp]
    simp only [Act.bind_apply]
    cases hc : EvalExpression n m.Condition e w with
    | ok v w1 =>
      by_cases hv : v = .Bool false ∨ v = .Nil
      · simp only [hv, if_true, (hT v).2 hv]
        rfl
      · simp only [hv, if_false, (hT2 v).2 hv, if_true]
    | panic => rfl
    | fuel => rfl
  · rw [forLoop]
    simp only [Act.bind_apply]
    cases hc : EvalStatement n last e w with
    | ok v w1 =>
      by_cases hv : v = .Bool false ∨ v = .Nil
      · simp only [hv, if_true, (hT v).2 hv]
        rfl
      · simp only [hv, if_false, (hT2 v).2 hv, if_true]
        rfl
    | panic => rfl
    | fuel => rfl
  all_goals decide!

/-! ## Function calls -/

theorem bindArgs_spec (pre : List Env) (o : Option Nat) (ps : List Identifier) :
    ∀ (as : List Meta) (st : List (Str × Meta)) (w : World),
      w.envs = pre ++ [⟨st, o⟩] → ps.length ≤ as.length →
      bindArgs pre.length ps as w =
        .ok () { w with envs := pre ++ [⟨bindStore st ps as, o⟩] } := by
  induction ps with
  | nil =>
    intro as st w h _
    simp only [bindArgs, Act.pure_apply, bindStore, ← h]
  | cons p ps ih =>
    intro as st w h hlen
    cases as with
    | nil => simp at hlen
    | cons a as =>
      have hget : w.envs.get? pre.length = some ⟨st, o⟩ := by simp [h]
      have hset : Env.Set pre.length p.Value a w =
          .ok () { w with envs := pre ++ [⟨mapSet p.Value a st, o⟩] } := by
        simp only [Env.Set, hget]
        simp [h]
      simp only [bindArgs, Act.bind_apply, hset]
      rw [ih as (mapSet p.Value a st) _ rfl (by simpa using hlen)]
      rfl

theorem extendFunctionEnv_spec (fn : Func) (args : List Meta) (w : World)
    (hlen : fn.Args.length ≤ args.length) :
    extendFunctionEnv fn args w = .ok w.envs.length (w.called fn args) := by
  simp only [extendFunctionEnv, Act.bind_apply, NewEnclosedEnv]
  rw [bindArgs_spec w.envs (some fn.Env) fn.Args args [] _ rfl hlen]
  rfl

/-- C12: `function` stores in the `Func` object the frame `e` in which the literal is
evaluated. `applyFunction` on a `Func` object with enough arguments allocates a frame whose
parent is that stored frame and which binds the parameters, evaluates the body in the new
frame and unwraps the result; no frame of the caller takes part. So in
`var x = 1; func f() \x7b x \x7d; func g() \x7b var x = 2; f() \x7d; g()` the body of `f`, called
from the frame of `g` where `x` is 2, reads the `x` of the top level: the program evaluates to
the `Int` object that holds 1. -/
theorem call_frame_extends_captured_env (n : Nat) (w : World) (ref : Nat) (fn : Func)
    (args : List Meta) (hf : w.funcs.get? ref = some fn) (hlen : fn.Args.length ≤ args.length) :
    applyFunction (n + 1) (.Func ref) args w =
      (do
        let evaluated ← blockStatement n fn.Body w.envs.length
        pure (unwrapReturnValue evaluated) : EAct Meta) (w.called fn args) ∧
    (w.called fn args).envs.get? w.envs.length =
      some { store := bindStore [] fn.Args args, outer := some fn.Env } ∧
    (∀ (tok : Token) (name rt : Option Identifier) (ps : List Identifier) (body : BlockStatement)
      (e : Nat) (fr : Env), w.envs.get? e = some fr →
      ∃ w1, EvalExpression (n + 1) (.FunctionLiteral tok name rt ps body) e w =
          .ok (.Func w.funcs.length) w1 ∧
        (w1.funcs.get? w.funcs.length).map Func.Env = some e) ∧
    observe (testEval 30
      (str "var x = 1; func f() \x7b x \x7d; func g() \x7b var x = 2; f() \x7d; g()")) =
      some (.Int 0, [1, 2]) := by
  refine ⟨?_, ?_, ?_, ?_⟩
  · rw [applyFunction]
    simp only [Act.bind_apply, funcOf, hf, extendFunctionEnv_spec fn args w hlen]
  · simp [World.called]
  · intro tok name rt ps body e fr hfr
    rw [EvalExpression]
    cases name with
    | none => exact ⟨_, rfl, by simp⟩
    | some nm =>
      simp only [function, Act.bind_apply, Env.Set, hfr, Act.pure_apply]
      exact ⟨_, rfl, by simp⟩
  · decide!

theorem call_frame_extends_captured_env_witness :
    applyFunction 2 (.Func 0) [] { World.empty with funcs := [emptyFunc 7] } =
      (do
        let evaluated ← blockStatement 1 (emptyFunc 7).Body 0
        pure (unwrapReturnValue evaluated) : EAct Meta)
        (World.called { World.empty with funcs := [emptyFunc 7] } (emptyFunc 7) []) :=
  (call_frame_extends_captured_env 1 { World.empty with funcs := [emptyFunc 7] } 0 (emptyFunc 7)
    [] rfl (Nat.le_refl 0)).1

/-! ## The if expression -/

theorem ifOptions_of_firstTruthy (e : Nat) (opts : List IfExpression) (w w1 : World)
    (res : Option Meta) (h : firstTruthy e opts w res w1) :
    ∃ K, ∀ k, K ≤ k → ifOptions k opts e w = .ok res w1 := by
  induction h with
  | done w =>
    refine ⟨1, fun k hk => ?_⟩
    obtain ⟨n, rfl⟩ : ∃ n, k = n + 1 := ⟨k - 1, by omega⟩
    rw [ifOptions]; rfl
  | hit o rest w w1 w2 c r hc ht hb =>
    obtain ⟨K1, h1⟩ := hc
    obtain ⟨K2, h2⟩ := hb
    refine ⟨max K1 K2 + 1, fun k hk => ?_⟩
    obtain ⟨n, rfl⟩ : ∃ n, k = n + 1 := ⟨k - 1, by omega⟩
    have hn1 : K1 ≤ n := by omega
    have hn2 : K2 ≤ n := by omega
    rw [ifOptions]
    simp only [Act.bind_apply, h1 n hn1, ht, if_true, h2 n hn2, Act.pure_apply]
  | miss o rest w w1 w2 c res hc ht _ ih =>
    obtain ⟨K1, h1⟩ := hc
    obtain ⟨K2, h2⟩ := ih
    refine ⟨max K1 K2 + 1, fun k hk => ?_⟩
    obtain ⟨n, rfl⟩ : ∃ n, k = n + 1 := ⟨k - 1, by omega⟩
    have hn1 : K1 ≤ n := by omega
    have hn2 : K2 ≤ n := by omega
    rw [ifOptions]
    simp only [Act.bind_apply, h1 n hn1, ht, Bool.false_eq_true, if_false, h2 n hn2]

theorem extendedTo_append (t : Token) (c : Expression) (opts : List IfExpression)
    (k : BlockStatement) (a a1 : Option BlockStatement) (tk : Token) (cond : Expression)
    (cons : BlockStatement) :
    (IfExpression.mk t c opts k a).extendedTo
      (.mk t c (opts ++ [.mk tk cond [] cons none]) k a1) :=
  ⟨[.mk tk cond [] cons none], rfl, rfl, rfl, by
    intro o ho
    simp only [List.mem_singleton] at ho
    subst ho
    exact ⟨rfl, rfl⟩⟩

theorem extendedTo_of_append (t : Token) (c : Expression) (opts : List IfExpression)
    (k : BlockStatement) (a a1 : Option BlockStatement) (tk : Token) (cond : Expression)
    (cons : BlockStatement) (node : IfExpression)
    (h : (IfExpression.mk t c (opts ++ [.mk tk cond [] cons none]) k a1).extendedTo node) :
    (IfExpression.mk t c opts k a).extendedTo node := by
  obtain ⟨more, h1, h2, h3, h4⟩ := h
  refine ⟨.mk tk cond [] cons none :: more, ?_, h2, h3, ?_⟩
  · rw [h1]
    simp [IfExpression.Options]
  · intro o ho
    rcases List.mem_cons.1 ho with rfl | ho
    · exact ⟨rfl, rfl⟩
    · exact h4 o ho

theorem parseElifExpression_appends (n : Nat) :
    ∀ (ifexp node : IfExpression) (p p1 : Parser),
      parseElifExpression n ifexp p = .ok (some node) p1 → ifexp.extendedTo node := by
  induction n with
  | zero =>
    intro ifexp node p p1 h
    simp [parseElifExpression, Act.outOfFuel] at h
  | succ n ih =>
    intro ifexp node p p1 h
    rw [parseElifExpression] at h
    simp only [Act.bind_apply, Act.get] at h
    repeat' split at h
    all_goals try (simp [Act.pure_apply] at h; done)
    simp only [Act.bind_apply, Act.get] at h
    repeat' split at h
    all_goals try (simp [Act.pure_apply] at h; done)
    · simp only [Act.bind_apply, Act.get] at h
      repeat' split at h
      all_goals try (simp [Act.pure_apply] at h; done)
      · simp only [Act.bind_apply, Act.get] at h
        repeat' split at h
        all_goals try (simp [Act.pure_apply] at h)
        exact extendedTo_of_append _ _ _ _ _ _ _ _ _ _ (ih _ _ _ _ h)
      · simp only [Act.bind_apply, Act.get] at h
        repeat' split at h
        all_goals try (simp [Act.pure_apply] at h)
        simp only [Act.bind_apply, Act.get] at h
        repeat' split at h
        all_goals try (simp [Act.pure_apply] at h; done)
        simp only [Act.pure_apply, Outcome.ok.injEq, Option.some.injEq] at h
        obtain ⟨rfl, _⟩ := h
        exact extendedTo_append _ _ _ _ _ _ _ _ _
    · simp only [Act.pure_apply, Outcome.ok.injEq, Option.some.injEq] at h
      obtain ⟨rfl, _⟩ := h
      exact extendedTo_append _ _ _ _ _ _ _ _ _

theorem parseIfExpression_flat (n : Nat) (p p1 : Parser) (node : IfExpression)
    (h : parseIfExpression n p = .ok (.IfExpression node) p1) :
    ∀ o ∈ node.Options, o.Options = [] ∧ o.Alternative = none := by
  cases n with
  | zero => simp [parseIfExpression, Act.outOfFuel] at h
  | succ n =>
    rw [parseIfExpression] at h
    simp only [Act.bind_apply, Act.get] at h
    repeat' split at h
    all_goals try (simp [Act.pure_apply] at h; done)
    simp only [Act.bind_apply, Act.get] at h
    repeat' split at h
    all_goals try (simp [Act.pure_apply] at h; done)
    · simp only [Act.bind_apply, Act.get] at h
      repeat' split at h
      all_goals try (simp [Act.pure_apply] at h; done)
      · simp only [Act.bind_apply, Act.get] at h
        repeat' split at h
        all_goals try (simp [Act.pure_apply] at h; done)
        simp only [Act.pure_apply, Outcome.ok.injEq, Expression.IfExpression.injEq] at h
        obtain ⟨rfl, _⟩ := h
        have hel := parseElifExpression_appends _ _ _ _ _ (by assumption)
        obtain ⟨more, h1, _, _, h4⟩ := hel
        intro o ho
        rw [h1] at ho
        exact h4 o (by simpa [IfExpression.Options] using ho)
      · simp only [Act.bind_apply, Act.get] at h
        repeat' split at h
        all_goals try (simp [Act.pure_apply] at h)
        simp only [Act.bind_apply, Act.get] at h
        repeat' split at h
        all_goals try (simp [Act.pure_apply] at h; done)
        simp only [Act.pure_apply, Outcome.ok.injEq, Expression.IfExpression.injEq] at h
        obtain ⟨rfl, _⟩ := h
        intro o ho
        simp [IfExpression.Options] at ho
    · simp only [Act.pure_apply, Outcome.ok.injEq, Expression.IfExpression.injEq] at h
      obtain ⟨rfl, _⟩ := h
      intro o ho
      simp [IfExpression.Options] at ho

theorem evaluatesTo_boolean (t : Token) (b : Bool) (e : Nat) (w : World) :
    (Expression.BooleanLiteral t b).evaluatesTo e w (.Bool b) w := by
  refine ⟨1, fun k hk => ?_⟩
  obtain ⟨n, rfl⟩ : ∃ n, k = n + 1 := ⟨k - 1, by omega⟩
  rw [EvalExpression]
  rfl

theorem evaluatesTo_empty_block (t : Token) (e : Nat) (w : World) :
    (BlockStatement.mk t []).evaluatesTo e w .nil w := by
  refine ⟨2, fun k hk => ?_⟩
  obtain ⟨n, rfl⟩ : ∃ n, k = n + 2 := ⟨k - 2, by omega⟩
  rw [blockStatement]
  simp only [BlockStatement.Statements]
  rw [blockLoop]
  rfl

/-- C20: let the condition of an `if` node evaluate to a value that is no Error (`Eval`
evaluates it once for this test) and then to `v` (`ifExp` evaluates it again). If `v` is
truthy, the node evaluates to the value of its consequence. Otherwise it evaluates to the
value of the consequence of the first else-if branch of `Options`, in source order, whose
condition is truthy; to the value of the `Alternative` if no branch is truthy and there is
one; and to NIL if there is none. The parser records every else-if branch in the `Options`
of the outermost node: the branches it appends have no `Options` and no `Alternative` of
their own, and a source with three else-if branches and an `else` yields three `Options`
and the `Alternative`. -/
theorem if_chain_selects_first_truthy (m : IfExpression) (e : Nat) (w w1 w2 : World)
    (v0 v : Meta) (h0 : m.Condition.evaluatesTo e w v0 w1) (herr : isError v0 = false)
    (h1 : m.Condition.evaluatesTo e w1 v w2) :
    (isTrue v = true → ∀ r w3, m.Consequence.evaluatesTo e w2 r w3 →
      (Expression.IfExpression m).evaluatesTo e w r w3) ∧
    (isTrue v = false → ∀ r w3, elseValue e m w2 r w3 →
      (Expression.IfExpression m).evaluatesTo e w r w3) ∧
    (∀ (n : Nat) (p p1 : Parser) (node : IfExpression),
      parseIfExpression n p = .ok (.IfExpression node) p1 →
      ∀ o ∈ node.Options, o.Options = [] ∧ o.Alternative = none) ∧
    ifShape 30 (str
      "if a \x7b 1 \x7d else if b \x7b 2 \x7d else if c \x7b 3 \x7d else if d \x7b 4 \x7d else \x7b 5 \x7d")
      = some (3, true, true) ∧
    ifShape 30 (str "if a \x7b 1 \x7d else if b \x7b 2 \x7d else if c \x7b 3 \x7d") =
      some (2, true, false) ∧
    observe (testEval 30 (str
      "if 1 > 2 \x7b 10 \x7d else if 3 > 4 \x7b 20 \x7d else if 1 < 4 \x7b 7 + 3 * 6 - 4 \x7d")) =
      some (.Int 14, [1, 2, 1, 2, 3, 4, 1, 4, 7, 3, 6, 18, 25, 4, 21]) ∧
    observe (testEval 30 (str
      "if false \x7b 1 \x7d else if true \x7b 2 \x7d else if true \x7b 3 \x7d else \x7b 4 \x7d")) =
      some (.Int 0, [2]) ∧
    observe (testEval 30 (str "if false \x7b 1 \x7d else if false \x7b 2 \x7d else \x7b 3 \x7d")) =
      some (.Int 0, [3]) ∧
    observe (testEval 30 (str "if false \x7b 1 \x7d else if false \x7b 2 \x7d")) =
      some (.Nil, []) ∧
    observe (testEval 30 (str "if true \x7b 1 \x7d else if true \x7b 2 \x7d else \x7b 3 \x7d")) =
      some (.Int 0, [1]) := by
  obtain ⟨K0, h0⟩ := h0
  obtain ⟨K1, h1⟩ := h1
  refine ⟨?_, ?_, fun n p p1 node h => parseIfExpression_flat n p p1 node h,
    by decide!, by decide!, by decide!, by decide!, by decide!, by decide!, by decide!⟩
  · intro ht r w3 hb
    obtain ⟨K2, h2⟩ := hb
    refine ⟨max K0 (max K1 K2) + 2, fun k hk => ?_⟩
    obtain ⟨n, rfl⟩ : ∃ n, k = n + 2 := ⟨k - 2, by omega⟩
    rw [EvalExpression]
    simp only [Act.bind_apply, h0 (n + 1) (by omega), herr, Bool.false_eq_true, if_false]
    rw [ifExp]
    simp only [Act.bind_apply, h1 n (by omega), ht, if_true, h2 n (by omega)]
  · intro ht r w3 hel
    have step : ∀ K, (∀ k, K ≤ k →
        (if m.Options.length > 0 then do
              match ← ifOptions k m.Options e with
              | some res => pure res
              | none =>
                match m.Alternative with
                | some alt => blockStatement k alt e
                | none => pure .Nil
            else
              match m.Alternative with
              | some alt => blockStatement k alt e
              | none => pure .Nil : EAct Meta) w2 = .ok r w3) →
        (Expression.IfExpression m).evaluatesTo e w r w3 := by
      intro K hK
      refine ⟨max K0 (max K1 K) + 2, fun k hk => ?_⟩
      obtain ⟨n, rfl⟩ : ∃ n, k = n + 2 := ⟨k - 2, by omega⟩
      rw [EvalExpression]
      simp only [Act.bind_apply, h0 (n + 1) (by omega), herr, Bool.false_eq_true, if_false]
      rw [ifExp]
      simp only [Act.bind_apply, h1 n (by omega), ht, Bool.false_eq_true, if_false]
      exact hK n (by omega)
    cases hel
    case option hf =>
      obtain ⟨K, hK⟩ := ifOptions_of_firstTruthy e _ _ _ _ hf
      have hpos : m.Options.length > 0 := by
        cases hm : m.Options with
        | nil => rw [hm] at hf; cases hf
        | cons _ _ => simp
      refine step K fun k hk => ?_
      simp only [hpos, if_true, Act.bind_apply, hK k hk, Act.pure_apply]
    case alternative w4 alt hf ha hb =>
      obtain ⟨K, hK⟩ := ifOptions_of_firstTruthy e _ _ _ _ hf
      obtain ⟨K2, hK2⟩ := hb
      refine step (max K K2) fun k hk => ?_
      by_cases hpos : m.Options.length > 0
      · simp only [hpos, if_true, Act.bind_apply, hK k (by omega), ha, hK2 k (by omega)]
      · have hnil : m.Options = [] := by
          cases hm : m.Options with
          | nil => rfl
          | cons _ _ => rw [hm] at hpos; simp at hpos
        rw [hnil] at hf
        cases hf
        simp only [hpos, if_false, ha, hK2 k (by omega)]
    case nothing ha hf =>
      obtain ⟨K, hK⟩ := ifOptions_of_firstTruthy e _ _ _ _ hf
      refine step K fun k hk => ?_
      by_cases hpos : m.Options.length > 0
      · simp only [hpos, if_true, Act.bind_apply, hK k (by omega), ha, Act.pure_apply]
      · have hnil : m.Options = [] := by
          cases hm : m.Options with
          | nil => rfl
          | cons _ _ => rw [hm] at hpos; simp at hpos
        rw [hnil] at hf
        cases hf
        simp only [hpos, if_false, ha, Act.pure_apply]

theorem if_chain_selects_first_truthy_witness :
    (Expression.IfExpression emptyElif).evaluatesTo 0 World.empty .nil World.empty :=
  (if_chain_selects_first_truthy emptyElif 0 World.empty World.empty World.empty
    (.Bool false) (.Bool false) (evaluatesTo_boolean _ _ _ _) rfl
    (evaluatesTo_boolean _ _ _ _)).2.1 rfl .nil World.empty
    (elseValue.option World.empty World.empty .nil
      (firstTruthy.hit _ [] World.empty World.empty World.empty (.Bool true) .nil
        (evaluatesTo_boolean _ _ _ _) rfl (evaluatesTo_empty_block _ _ _)))

/-! ## Closures -/

theorem getLoop_succ (envs : List Env) (name : Str) (n e : Nat) :
    getLoop envs name (n + 1) e =
      match envs.get? e with
      | none => none
      | some env =>
        match mapGet name env.store with
        | some v => some (some v)
        | none =>
          match env.outer with
          | none => some none
          | some o => getLoop envs name n o := by
  delta getLoop
  simp only [Nat.brecOn, Nat.rec_add_one]
  cases envs.get? e with
  | none => rfl
  | some env =>
    dsimp only
    cases mapGet name env.store with
    | some v => rfl
    | none =>
      dsimp only
      cases env.outer <;> rfl

theorem getElem?_append_add {α : Type} (l xs : List α) (i : Nat) :
    (l ++ xs)[l.length + i]? = xs[i]? := by
  rw [List.getElem?_append_right (by omega)]
  congr 1
  omega

theorem closureCall_step (n : Nat) (b0 d v : Int) (ints : List Int) (r : Nat)
    (frames : List Env) (fresh : Nat) (hr : ints.get? r = some v) (hd : inInt64 d) :
    ∃ ints1 r1 frames1 fresh1,
      EvalStatement (n + 8) (closureCall d) 0 (closureWorld b0 ints r frames fresh) =
        .ok (.Int r1) (closureWorld b0 ints1 r1 frames1 fresh1) ∧
      ints1.get? r1 = some (wrap64 (v + d)) := by
  have hxb : str "x" ≠ str "b" := by decide
  have hbx : str "b" ≠ str "x" := by decide
  have hac : str "a" ≠ str "c" := by decide
  have hlt : r < ints.length := by
    rcases Nat.lt_or_ge r ints.length with h | h
    · exact h
    · rw [List.get?_eq_none.2 h] at hr; cases hr
  by_cases hneg : d < 0
  · have h1 : (ints ++ [-d, d])[r]? = some v := by
      rw [List.getElem?_append_left hlt]; simpa using hr
    have h2 : (ints ++ [-d, d])[ints.length + 1]? = some d := by
      rw [getElem?_append_add]; rfl
    have h3 : (ints ++ [-d])[ints.length]? = some (-d) := by simp
    have hmb : str "-" ≠ str "!" := by decide
    refine ⟨ints ++ [-d, d, wrap64 (v + d)], ints.length + 2,
      frames ++ [callFrame (ints.length + 1) (ints.length + 2)], fresh + 1, ?_, ?_⟩
    swap
    · rw [List.get?_eq_getElem?, getElem?_append_add]; rfl
    simp [closureCall, callNode, idNode, EvalStatement, EvalExpression, Act.bind_apply,
      identifier, Env.Get, getLoop_succ, closureWorld, mapGet, hac, hxb, hbx, Identifier.Value,
      Act.pure_apply, isError, expressions, newInt, applyFunction, funcOf, adderFunc,
      extendFunctionEnv, NewEnclosedEnv, bindArgs, Env.Set, mapSet, blockStatement,
      BlockStatement.Statements, blockLoop, infixExp, typeOf, Meta.Type, intInfixExp, intValue,
      h1, h2, h3, assign, Env.GetWithEnv, newReturnValue, unwrapReturnValue, ident, callFrame,
      intLiteral, hneg, hmb, prefixExp, minusOpExp, wrap64_of_inInt64 hd]
  · have h1 : (ints ++ [d])[r]? = some v := by
      rw [List.getElem?_append_left hlt]; simpa using hr
    have h2 : (ints ++ [d])[ints.length]? = some d := by simp
    refine ⟨ints ++ [d, wrap64 (v + d)], ints.length + 1,
      frames ++ [callFrame ints.length (ints.length + 1)], fresh + 1, ?_, ?_⟩
    swap
    · rw [List.get?_eq_getElem?, getElem?_append_add]; rfl
    simp [closureCall, callNode, idNode, EvalStatement, EvalExpression, Act.bind_apply,
      identifier, Env.Get, getLoop_succ, closureWorld, mapGet, hac, hxb, hbx, Identifier.Value,
      Act.pure_apply, isError, expressions, newInt, applyFunction, funcOf, adderFunc,
      extendFunctionEnv, NewEnclosedEnv, bindArgs, Env.Set, mapSet, blockStatement,
      BlockStatement.Statements, blockLoop, infixExp, typeOf, Meta.Type, intInfixExp, intValue,
      h1, h2, assign, Env.GetWithEnv, newReturnValue, unwrapReturnValue, ident, callFrame,
      intLiteral, hneg]

theorem wrap64_add_wrap64 (x y : Int) : wrap64 (wrap64 x + y) = wrap64 (x + y) := by
  unfold wrap64
  omega

theorem closureCalls_spec (n : Nat) (b0 d : Int) (hd : inInt64 d) (k : Nat) :
    ∀ (j : Nat) (ints : List Int) (r : Nat) (frames : List Env) (fresh : Nat) (res : Meta),
      ints.get? r = some (wrap64 (b0 + j * d)) →
      ∃ ints1 r1 frames1 fresh1,
        programLoop (n + 8) (List.replicate (k + 1) (closureCall d)) 0 res
            (closureWorld b0 ints r frames fresh) =
          .ok (.Int r1) (closureWorld b0 ints1 r1 frames1 fresh1) ∧
        ints1.get? r1 = some (wrap64 (b0 + (j + k + 1 : Nat) * d)) := by
  induction k with
  | zero =>
    intro j ints r frames fresh res hr
    obtain ⟨ints1, r1, frames1, fresh1, h1, h2⟩ :=
      closureCall_step n b0 d _ ints r frames fresh hr hd
    refine ⟨ints1, r1, frames1, fresh1, ?_, ?_⟩
    · simp only [List.replicate, programLoop, Act.bind_apply, h1, Act.pure_apply]
    · rw [h2, wrap64_add_wrap64]
      congr 2
      push_cast
      ring
  | succ k ih =>
    intro j ints r frames fresh res hr
    obtain ⟨ints1, r1, frames1, fresh1, h1, h2⟩ :=
      closureCall_step n b0 d _ ints r frames fresh hr hd
    have h3 : ints1.get? r1 = some (wrap64 (b0 + ((j + 1 : Nat) : Int) * d)) := by
      rw [h2, wrap64_add_wrap64]
      congr 2
      push_cast
      ring
    obtain ⟨ints2, r2, frames2, fresh2, h4, h5⟩ := ih (j + 1) ints1 r1 frames1 fresh1 (.Int r1) h3
    refine ⟨ints2, r2, frames2, fresh2, ?_, ?_⟩
    · rw [List.replicate_succ, programLoop]
      simp only [Act.bind_apply, h1]
      exact h4
    · rw [h5]
      have e : j + 1 + k + 1 = j + (k + 1) + 1 := by omega
      rw [e]

theorem closureSetup_spec (n : Nat) (b0 : Int) (hb : inInt64 b0) (rest : List Statement) :
    ∃ ints r frames fresh,
      (do let e ← NewEnv; Eval (n + 8) { Statements := closureSetup b0 ++ rest } e : EAct Meta)
          World.empty =
        programLoop (n + 8) rest 0 .Nil (closureWorld b0 ints r frames fresh) ∧
      ints.get? r = some b0 := by
  have hac : str "a" ≠ str "c" := by decide
  have hca : str "c" ≠ str "a" := by decide
  by_cases hneg : b0 < 0
  · have hmb : str "-" ≠ str "!" := by decide
    refine ⟨[-b0, b0], 1, [], 1, ?_, rfl⟩
    simp [closureSetup, Eval, programLoop, NewEnv, World.empty, callNode, idNode, EvalStatement,
      EvalExpression, Act.bind_apply, identifier, Env.Get, getLoop_succ, closureWorld, mapGet,
      hac, hca, Identifier.Value, Act.pure_apply, isError, expressions, newInt, applyFunction,
      funcOf, adderFunc, makerFunc, makerBody, adderLiteral, function, extendFunctionEnv,
      NewEnclosedEnv, bindArgs, Env.Set, mapSet, blockStatement, BlockStatement.Statements,
      blockLoop, typeOf, Meta.Type, intValue, newReturnValue, unwrapReturnValue, ident,
      intLiteral, hneg, hmb, prefixExp, minusOpExp, wrap64_of_inInt64 hb]
  · refine ⟨[b0], 0, [], 1, ?_, rfl⟩
    simp [closureSetup, Eval, programLoop, NewEnv, World.empty, callNode, idNode, EvalStatement,
      EvalExpression, Act.bind_apply, identifier, Env.Get, getLoop_succ, closureWorld, mapGet,
      hac, hca, Identifier.Value, Act.pure_apply, isError, expressions, newInt, applyFunction,
      funcOf, adderFunc, makerFunc, makerBody, adderLiteral, function, extendFunctionEnv,
      NewEnclosedEnv, bindArgs, Env.Set, mapSet, blockStatement, BlockStatement.Statements,
      blockLoop, typeOf, Meta.Type, intValue, newReturnValue, unwrapReturnValue, ident,
      intLiteral, hneg]


/-- C11: let `b0` and `d` be 64-bit integers, written in the source as decimal literals (under
a prefix `-` when negative), and `k ≥ 1`. The program
`func a() \x7b var b = b0; return func(x int) \x7b b = b + x; return b; \x7d \x7d; var c = a()`
followed by `k` calls `c(d)`, evaluated in a new env with fuel 8 or more, returns the value
of the `k`-th call: an `Int` object that holds `b0 + k * d` reduced to 64-bit two's
complement. The trees of the theorem are the ones the parser returns (checked on two
sources), and the test of `eval_test.go` evaluates to 3. -/
theorem closure_mutations_accumulate (b0 d : Int) (k fuel : Nat) (hb : inInt64 b0)
    (hd : inInt64 d) (hk : 1 ≤ k) (hf : 8 ≤ fuel) :
    (∃ r w, (do let e ← NewEnv; Eval fuel (closureProgram b0 d k) e : EAct Meta) World.empty =
        .ok (.Int r) w ∧
      w.ints.get? r = some (wrap64 (b0 + k * d))) ∧
    parsesTo 60 (str "func a() \x7b var b = 1; return func(x int) \x7b b = b + x; return b;\x7d\x7d; var c = a(); c(1); c(1)") (closureProgram 1 1 2).Statements = true ∧
    parsesTo 60 (str "func a() \x7b var b = -5; return func(x int) \x7b b = b + x; return b;\x7d\x7d; var c = a(); c(-3); c(-3); c(-3)") (closureProgram (-5) (-3) 3).Statements = true ∧
    observe (testEval 60 (str "func a() \x7b var b = 1; return func(x int) \x7b b = b + x; return b;\x7d\x7d; var c = a(); c(1); c(1)")) = some (.Int 4, [1, 1, 2, 1, 3]) ∧
    observe (testEval 60 (str "func a() \x7b var b = -5; return func(x int) \x7b b = b + x; return b;\x7d\x7d; var c = a(); c(-3); c(-3); c(-3)")) =
      some (.Int 10, [5, -5, 3, -3, -8, 3, -3, -11, 3, -3, -14]) := by
  refine ⟨?_, by decide!, by decide!, by decide!, by decide!⟩
  obtain ⟨n, rfl⟩ : ∃ n, fuel = n + 8 := ⟨fuel - 8, by omega⟩
  obtain ⟨k1, rfl⟩ : ∃ k1, k = k1 + 1 := ⟨k - 1, by omega⟩
  obtain ⟨ints, r, frames, fresh, h1, h2⟩ :=
    closureSetup_spec n b0 hb (List.replicate (k1 + 1) (closureCall d))
  have h3 : ints.get? r = some (wrap64 (b0 + (0 : Nat) * d)) := by
    rw [h2]
    simp [wrap64_of_inInt64 hb]
  obtain ⟨ints1, r1, frames1, fresh1, h4, h5⟩ :=
    closureCalls_spec n b0 d hd k1 0 ints r frames fresh .Nil h3
  refine ⟨r1, closureWorld b0 ints1 r1 frames1 fresh1, ?_, ?_⟩
  · unfold closureProgram
    rw [h1, h4]
  · simp only [closureWorld]
    rw [h5]
    congr 3
    simp

theorem closure_mutations_accumulate_witness :
    ∃ r w, (do let e ← NewEnv; Eval 8 (closureProgram 1 1 2) e : EAct Meta) World.empty =
        .ok (.Int r) w ∧
      w.ints.get? r = some (wrap64 (1 + (2 : Nat) * 1)) :=
  (closure_mutations_accumulate 1 1 2 8 (by unfold inInt64; decide) (by unfold inInt64; decide)
    (by decide) (by decide)).1

/-! ## The lexer -/

theorem Lexer.New_eq (input : Str) : Lexer.New input = Lexer.atPos input 0 := by
  simp only [Lexer.New, Lexer.eat, Lexer.atPos]
  by_cases h : 0 ≥ input.length
  · have : input = [] := List.length_eq_zero.1 (by omega)
    subst this
    simp
  · simp [h]

theorem Lexer.eat_atPos (input : Str) (p : Nat) :
    (Lexer.atPos input p).eat = Lexer.atPos input (p + 1) := by
  simp only [Lexer.eat, Lexer.atPos]
  by_cases h : p + 1 ≥ input.length
  · rw [if_pos h, List.getD_eq_default _ _ h]
  · rw [if_neg h]

theorem runFrom_length_le (cond : Nat → Bool) (input : Str) (p : Nat) :
    p + (runFrom cond input p).length ≤ max p input.length := by
  have h1 : (runFrom cond input p).length ≤ (input.drop p).length :=
    (List.takeWhile_sublist cond).length_le
  rw [List.length_drop] at h1
  omega

theorem runFrom_of_not (cond : Nat → Bool) (input : Str) (p : Nat)
    (h : cond (input.getD p 0) = false) : runFrom cond input p = [] := by
  unfold runFrom
  cases hd : input.drop p with
  | nil => rfl
  | cons a rest =>
    have hp : p < input.length := by
      by_contra hc
      rw [List.drop_eq_nil_of_le (by omega)] at hd
      cases hd
    have ha : input.getD p 0 = a := by
      have := List.drop_eq_getElem_cons hp
      rw [hd] at this
      simp only [List.cons.injEq] at this
      rw [List.getD_eq_getElem _ _ hp]
      exact this.1.symm
    rw [ha] at h
    simp [List.takeWhile, h]

theorem runFrom_of_cond (cond : Nat → Bool) (input : Str) (p : Nat) (h0 : cond 0 = false)
    (h : cond (input.getD p 0) = true) :
    p < input.length ∧
      runFrom cond input p = input.getD p 0 :: runFrom cond input (p + 1) := by
  have hp : p < input.length := by
    by_contra hc
    rw [List.getD_eq_default _ _ (by omega), h0] at h
    cases h
  refine ⟨hp, ?_⟩
  unfold runFrom
  rw [List.drop_eq_getElem_cons hp, List.getD_eq_getElem _ _ hp]
  rw [List.getD_eq_getElem _ _ hp] at h
  simp only [List.takeWhile, h]

theorem Lexer.eatWhile_atPos (cond : Nat → Bool) (h0 : cond 0 = false) (input : Str) :
    ∀ (n p : Nat), (runFrom cond input p).length ≤ n →
      Lexer.eatWhile cond n (Lexer.atPos input p) =
        Lexer.atPos input (p + (runFrom cond input p).length) := by
  intro n
  induction n with
  | zero =>
    intro p h
    have : (runFrom cond input p).length = 0 := by omega
    rw [this]
    rfl
  | succ n ih =>
    intro p h
    rw [Lexer.eatWhile]
    by_cases hc : cond (Lexer.atPos input p).ch = true
    · have hc1 : cond (input.getD p 0) = true := hc
      obtain ⟨_, hr⟩ := runFrom_of_cond cond input p h0 hc1
      rw [if_pos hc, Lexer.eat_atPos, ih (p + 1) (by rw [hr] at h; simp at h; omega), hr]
      simp only [List.length_cons]
      congr 1
      omega
    · have hc1 : cond (input.getD p 0) = false := by
        simpa [Lexer.atPos] using hc
      rw [if_neg hc, runFrom_of_not cond input p hc1]
      rfl

theorem slice_runFrom (cond : Nat → Bool) (input : Str) (p : Nat) (hp : p ≤ input.length) :
    slice input p (p + (runFrom cond input p).length) = some (runFrom cond input p) := by
  have h1 := runFrom_length_le cond input p
  have h2 : p + (runFrom cond input p).length ≤ input.length := by omega
  unfold slice
  rw [if_pos ⟨by omega, h2⟩]
  congr 1
  have : p + (runFrom cond input p).length - p = (runFrom cond input p).length := by omega
  rw [this]
  unfold runFrom
  exact (List.prefix_iff_eq_take.1 (List.takeWhile_prefix cond)).symm

theorem runFrom_maximal (cond : Nat → Bool) (h0 : cond 0 = false) (input : Str) :
    ∀ (n p : Nat), (runFrom cond input p).length ≤ n →
      cond (input.getD (p + (runFrom cond input p).length) 0) = false := by
  intro n
  induction n with
  | zero =>
    intro p h
    by_cases hc : cond (input.getD p 0) = true
    · obtain ⟨_, hr⟩ := runFrom_of_cond cond input p h0 hc
      rw [hr] at h
      simp at h
    · have hc1 : cond (input.getD p 0) = false := by simpa using hc
      rw [runFrom_of_not cond input p hc1]
      simpa using hc1
  | succ n ih =>
    intro p h
    by_cases hc : cond (input.getD p 0) = true
    · obtain ⟨_, hr⟩ := runFrom_of_cond cond input p h0 hc
      have := ih (p + 1) (by rw [hr] at h; simp at h; omega)
      rw [hr]
      simp only [List.length_cons]
      have e : p + ((runFrom cond input (p + 1)).length + 1) =
          p + 1 + (runFrom cond input (p + 1)).length := by omega
      rw [e]
      exact this
    · have hc1 : cond (input.getD p 0) = false := by simpa using hc
      rw [runFrom_of_not cond input p hc1]
      simpa using hc1

theorem Lexer.readStringLoop_atPos (input : Str) :
    ∀ (n p : Nat), (runFrom isStringByte input (p + 1)).length < n →
      Lexer.readStringLoop n (Lexer.atPos input p) =
        Lexer.atPos input (p + 1 + (runFrom isStringByte input (p + 1)).length) := by
  intro n
  induction n with
  | zero => intro p h; omega
  | succ n ih =>
    intro p h
    rw [Lexer.readStringLoop]
    simp only [Lexer.eat_atPos]
    by_cases hc : isStringByte (input.getD (p + 1) 0) = true
    · obtain ⟨_, hr⟩ := runFrom_of_cond isStringByte input (p + 1) rfl hc
      have hc2 : ((Lexer.atPos input (p + 1)).ch == 34 || (Lexer.atPos input (p + 1)).ch == 0)
          = false := by
        simpa [isStringByte, Lexer.atPos] using hc
      rw [hc2]
      simp only [Bool.false_eq_true, if_false]
      rw [ih (p + 1) (by rw [hr] at h; simp at h; omega), hr]
      simp only [List.length_cons]
      congr 1
      omega
    · have hc1 : isStringByte (input.getD (p + 1) 0) = false := by simpa using hc
      have hc2 : ((Lexer.atPos input (p + 1)).ch == 34 || (Lexer.atPos input (p + 1)).ch == 0)
          = true := by
        have : (input.getD (p + 1) 0 == 34 || input.getD (p + 1) 0 == 0) = true := by
          cases hb : (input.getD (p + 1) 0 == 34 || input.getD (p + 1) 0 == 0) with
          | true => rfl
          | false => rw [isStringByte, hb] at hc1; cases hc1
        exact this
      rw [hc2, runFrom_of_not isStringByte input (p + 1) hc1]
      rfl

theorem Lexer.eatBlank_atPos (input : Str) (p : Nat) :
    (Lexer.atPos input p).eatBlank =
      Lexer.atPos input (p + (runFrom isBlank input p).length) := by
  have h := runFrom_length_le isBlank input p
  exact Lexer.eatWhile_atPos isBlank rfl input _ p (by simp only [Lexer.atPos]; omega)

theorem Lexer.eatBlank_of_not (input : Str) (p : Nat) (h : isBlank (input.getD p 0) = false) :
    (Lexer.atPos input p).eatBlank = Lexer.atPos input p := by
  rw [Lexer.eatBlank_atPos, runFrom_of_not isBlank input p h]
  rfl

/-- The call `Next` skips the blanks in front of the token. -/
theorem Lexer.Next_skips_blanks (input : Str) (p : Nat) :
    (Lexer.atPos input p).Next =
      (Lexer.atPos input (p + (runFrom isBlank input p).length)).Next := by
  have hm := runFrom_maximal isBlank rfl input _ p (Nat.le_refl _)
  unfold Lexer.Next
  rw [Lexer.eatBlank_atPos, Lexer.eatBlank_of_not input _ hm]

theorem letter_facts : ∀ c, c < 123 → isLetter c = true →
    isBlank c = false ∧ c ≠ 61 ∧ c ≠ 33 ∧ c ≠ 34 ∧ c ≠ 0 ∧ punct c = none ∧
      isDigit c = false := by
  decide!

theorem digit_facts : ∀ c, c < 58 → isDigit c = true →
    isBlank c = false ∧ c ≠ 61 ∧ c ≠ 33 ∧ c ≠ 34 ∧ c ≠ 0 ∧ punct c = none ∧
      isLetter c = false := by
  decide!

theorem isLetter_lt {c : Nat} (h : isLetter c = true) : c < 123 := by
  unfold isLetter at h
  simp at h
  omega

theorem isDigit_lt {c : Nat} (h : isDigit c = true) : c < 58 := by
  unfold isDigit at h
  simp at h
  omega

/-- At a letter `Next` returns the maximal run of letters, classified by the keyword table. -/
theorem Lexer.Next_letter (input : Str) (p : Nat) (h : isLetter (input.getD p 0) = true) :
    (Lexer.atPos input p).Next =
      some ({ Typ := GetTokenType (runFrom isLetter input p),
              Literal := runFrom isLetter input p },
        Lexer.atPos input (p + (runFrom isLetter input p).length)) := by
  obtain ⟨hb, h61, h33, h34, h0, hp, _⟩ := letter_facts _ (isLetter_lt h) h
  obtain ⟨hlt, _⟩ := runFrom_of_cond isLetter input p rfl h
  have hrun := runFrom_length_le isLetter input p
  have hch : (Lexer.atPos input p).ch = input.getD p 0 := rfl
  unfold Lexer.Next
  rw [Lexer.eatBlank_of_not input p hb]
  simp only [hch, h61, h33, h34, h0, hp, h, if_false, if_true, Lexer.eatID]
  rw [Lexer.eatWhile_atPos isLetter rfl input _ p (by simp only [Lexer.atPos]; omega)]
  have hs := slice_runFrom isLetter input p (by omega)
  simp only [Lexer.atPos] at hs ⊢
  rw [hs]
  rfl

/-- At a digit `Next` returns the maximal run of digits as an `INT` token. -/
theorem Lexer.Next_digit (input : Str) (p : Nat) (h : isDigit (input.getD p 0) = true) :
    (Lexer.atPos input p).Next =
      some ({ Typ := .INT, Literal := runFrom isDigit input p },
        Lexer.atPos input (p + (runFrom isDigit input p).length)) := by
  obtain ⟨hb, h61, h33, h34, h0, hp, hl⟩ := digit_facts _ (isDigit_lt h) h
  obtain ⟨hlt, _⟩ := runFrom_of_cond isDigit input p rfl h
  have hrun := runFrom_length_le isDigit input p
  have hch : (Lexer.atPos input p).ch = input.getD p 0 := rfl
  unfold Lexer.Next
  rw [Lexer.eatBlank_of_not input p hb]
  simp only [hch, h61, h33, h34, h0, hp, hl, h, if_false, if_true, Lexer.eatNumber]
  rw [Lexer.eatWhile_atPos isDigit rfl input _ p (by simp only [Lexer.atPos]; omega)]
  have hs := slice_runFrom isDigit input p (by omega)
  simp only [Lexer.atPos] at hs ⊢
  rw [hs]
  rfl

/-- At a `"` `Next` returns the bytes up to the next `"` or NUL byte (or the end of the
input) as a `STRING` token, and goes on after that byte. -/
theorem Lexer.Next_quote (input : Str) (p : Nat) (h : input.getD p 0 = 34) :
    (Lexer.atPos input p).Next =
      some ({ Typ := .STRING, Literal := runFrom isStringByte input (p + 1) },
        Lexer.atPos input (p + 1 + (runFrom isStringByte input (p + 1)).length + 1)) := by
  have hb : isBlank (input.getD p 0) = false := by rw [h]; rfl
  have hlt : p < input.length := by
    by_contra hc
    rw [List.getD_eq_default _ _ (by omega)] at h
    cases h
  have hrun := runFrom_length_le isStringByte input (p + 1)
  have hch : (Lexer.atPos input p).ch = input.getD p 0 := rfl
  unfold Lexer.Next
  rw [Lexer.eatBlank_of_not input p hb]
  simp only [hch, h, Lexer.readString]
  rw [Lexer.readStringLoop_atPos input _ p (by simp only [Lexer.atPos]; omega)]
  have hs : slice (Lexer.atPos input p).input ((Lexer.atPos input p).pos + 1)
      (Lexer.atPos input (p + 1 + (runFrom isStringByte input (p + 1)).length)).pos =
        some (runFrom isStringByte input (p + 1)) :=
    slice_runFrom isStringByte input (p + 1) (by omega)
  rw [hs]
  simp only [Option.map, Lexer.eat_atPos]
  rw [if_neg (by decide), if_neg (by decide), if_pos trivial]

/-- At a NUL byte, and past the end of the input, `Next` returns `EOF`. -/
theorem Lexer.Next_nul (input : Str) (p : Nat) (h : input.getD p 0 = 0) :
    (Lexer.atPos input p).Next = some (eofToken, Lexer.atPos input (p + 1)) := by
  have hb : isBlank (input.getD p 0) = false := by rw [h]; rfl
  have hch : (Lexer.atPos input p).ch = input.getD p 0 := rfl
  unfold Lexer.Next
  rw [Lexer.eatBlank_of_not input p hb]
  simp only [hch, h, Lexer.eat_atPos]
  rfl

theorem Lexer.Next_at_nonblank (input : Str) (q : Nat)
    (hb : isBlank (input.getD q 0) = false) :
    ∃ t p1, (Lexer.atPos input q).Next = some (t, Lexer.atPos input p1) ∧ q < p1 ∧
      (input.getD q 0 = 0 → t = eofToken) := by
  have hch : (Lexer.atPos input q).ch = input.getD q 0 := rfl
  by_cases h0 : input.getD q 0 = 0
  · exact ⟨_, _, Lexer.Next_nul input q h0, by omega, fun _ => rfl⟩
  by_cases h34 : input.getD q 0 = 34
  · exact ⟨_, _, Lexer.Next_quote input q h34, by omega, fun h => absurd h h0⟩
  by_cases hl : isLetter (input.getD q 0) = true
  · obtain ⟨_, hr⟩ := runFrom_of_cond isLetter input q rfl hl
    refine ⟨_, _, Lexer.Next_letter input q hl, ?_, fun h => absurd h h0⟩
    rw [hr]; simp
  by_cases hd : isDigit (input.getD q 0) = true
  · obtain ⟨_, hr⟩ := runFrom_of_cond isDigit input q rfl hd
    refine ⟨_, _, Lexer.Next_digit input q hd, ?_, fun h => absurd h h0⟩
    rw [hr]; simp
  have key : ∀ p1, q < p1 →
      (∃ t, (Lexer.atPos input q).Next = some (t, Lexer.atPos input p1)) →
      ∃ t p1, (Lexer.atPos input q).Next = some (t, Lexer.atPos input p1) ∧ q < p1 ∧
        (input.getD q 0 = 0 → t = eofToken) :=
    fun p1 hlt ⟨t, ht⟩ => ⟨t, p1, ht, hlt, fun h => absurd h h0⟩
  by_cases h61 : input.getD q 0 = 61
  · by_cases hp : (Lexer.atPos input q).peak = 61
    · refine key (q + 1 + 1) (by omega) ?_
      unfold Lexer.Next
      rw [Lexer.eatBlank_of_not input q hb]
      simp only [hch, h61, hp, if_true, Lexer.eat_atPos]
      exact ⟨_, rfl⟩
    · refine key (q + 1) (by omega) ?_
      unfold Lexer.Next
      rw [Lexer.eatBlank_of_not input q hb]
      simp only [hch, h61, hp, if_true, if_false, Lexer.eat_atPos]
      exact ⟨_, rfl⟩
  by_cases h33 : input.getD q 0 = 33
  · by_cases hp : (Lexer.atPos input q).peak = 61
    · refine key (q + 1 + 1) (by omega) ?_
      unfold Lexer.Next
      rw [Lexer.eatBlank_of_not input q hb]
      simp only [hch, h33, hp, if_true, Lexer.eat_atPos]
      rw [if_neg (by decide)]
      exact ⟨_, rfl⟩
    · refine key (q + 1) (by omega) ?_
      unfold Lexer.Next
      rw [Lexer.eatBlank_of_not input q hb]
      simp only [hch, h33, hp, if_true, if_false, Lexer.eat_atPos]
      rw [if_neg (by decide)]
      exact ⟨_, rfl⟩
  cases hpu : punct (input.getD q 0) with
  | some tt =>
    refine key (q + 1) (by omega) ?_
    unfold Lexer.Next
    rw [Lexer.eatBlank_of_not input q hb]
    simp only [hch, h61, h33, h34, h0, hpu, if_false, Lexer.eat_atPos]
    exact ⟨_, rfl⟩
  | none =>
    refine key (q + 1) (by omega) ?_
    unfold Lexer.Next
    rw [Lexer.eatBlank_of_not input q hb]
    simp only [hch, h61, h33, h34, h0, hpu, hl, hd, if_false, Lexer.eat_atPos]
    exact ⟨_, rfl⟩

/-- Every call of `Next` returns a token and moves on by at least one byte; at the end of the
input the token is `EOF`. -/
theorem Lexer.Next_progress (input : Str) (p : Nat) :
    ∃ t p1, (Lexer.atPos input p).Next = some (t, Lexer.atPos input p1) ∧ p < p1 ∧
      (input.length ≤ p → t = eofToken) := by
  have hm := runFrom_maximal isBlank rfl input _ p (Nat.le_refl _)
  obtain ⟨t, p1, h1, h2, h3⟩ := Lexer.Next_at_nonblank input _ hm
  refine ⟨t, p1, ?_, by omega, ?_⟩
  · rw [Lexer.Next_skips_blanks, h1]
  · intro hlen
    apply h3
    exact List.getD_eq_default _ _ (by omega)

theorem Lexer.nthNext_progress (input : Str) :
    ∀ (k p : Nat), ∃ t p1, Lexer.nthNext k (Lexer.atPos input p) =
        some (t, Lexer.atPos input p1) ∧ p + k < p1 ∧ (input.length ≤ p + k → t = eofToken) := by
  intro k
  induction k with
  | zero =>
    intro p
    exact Lexer.Next_progress input p
  | succ k ih =>
    intro p
    obtain ⟨t, p1, h1, h2, _⟩ := Lexer.Next_progress input p
    obtain ⟨t2, p2, h4, h5, h6⟩ := ih p1
    refine ⟨t2, p2, ?_, by omega, fun h => h6 (by omega)⟩
    rw [Lexer.nthNext, h1]
    exact h4

theorem takeWhile_congr_mem {α : Type} (f g : α → Bool) :
    ∀ (l : List α), (∀ b ∈ l, f b = g b) → l.takeWhile f = l.takeWhile g := by
  intro l
  induction l with
  | nil => intro _; rfl
  | cons a rest ih =>
    intro h
    have ha := h a (List.mem_cons_self a rest)
    have hr := ih fun b hb => h b (List.mem_cons_of_mem a hb)
    simp only [List.takeWhile, ha, hr]

/-- C27: for every input, the call of `Next` number `len(input) + 1` and every later call
return the token `(EOF, "")`; from a lexer that has consumed all bytes of the input, every
call returns `(EOF, "")`. -/
theorem tokens_reach_EOF (input : Str) :
    (∀ k, input.length ≤ k →
      (Lexer.nthNext k (Lexer.New input)).map Prod.fst = some eofToken) ∧
    (∀ p, input.length ≤ p →
      (Lexer.atPos input p).Next = some (eofToken, Lexer.atPos input (p + 1)) ∧
      ∀ j, (Lexer.nthNext j (Lexer.atPos input p)).map Prod.fst = some eofToken) ∧
    (Lexer.New (str "a b")).yields [⟨.ID, str "a"⟩, ⟨.ID, str "b"⟩, eofToken, eofToken] = true := by
  refine ⟨?_, ?_, by decide!⟩
  · intro k hk
    rw [Lexer.New_eq]
    obtain ⟨t, p1, h1, _, h3⟩ := Lexer.nthNext_progress input k 0
    rw [h1, h3 (by omega)]
    rfl
  · intro p hp
    refine ⟨Lexer.Next_nul input p (List.getD_eq_default _ _ hp), fun j => ?_⟩
    obtain ⟨t, p1, h1, _, h3⟩ := Lexer.nthNext_progress input j p
    rw [h1, h3 (by omega)]
    rfl

/-- C28: for every input and every number of earlier calls, `Next` returns a token and
leaves a lexer whose current byte is the byte at its offset. In such a lexer the slice
bounds of `eatID`, `eatNumber` and `readString` are in order and within the input. -/
theorem lexer_never_fails (input : Str) :
    (∀ k, ∃ t p, Lexer.nthNext k (Lexer.New input) = some (t, Lexer.atPos input p)) ∧
    (∀ p, isLetter (Lexer.atPos input p).ch = true →
      (Lexer.atPos input p).pos ≤
          (Lexer.eatWhile isLetter (input.length + 1) (Lexer.atPos input p)).pos ∧
        (Lexer.eatWhile isLetter (input.length + 1) (Lexer.atPos input p)).pos ≤ input.length ∧
        ((Lexer.atPos input p).eatID).isSome = true) ∧
    (∀ p, isDigit (Lexer.atPos input p).ch = true →
      (Lexer.atPos input p).pos ≤
          (Lexer.eatWhile isDigit (input.length + 1) (Lexer.atPos input p)).pos ∧
        (Lexer.eatWhile isDigit (input.length + 1) (Lexer.atPos input p)).pos ≤ input.length ∧
        ((Lexer.atPos input p).eatNumber).isSome = true) ∧
    (∀ p, (Lexer.atPos input p).ch = 34 →
      (Lexer.atPos input p).pos + 1 ≤
          (Lexer.readStringLoop (input.length + 1) (Lexer.atPos input p)).pos ∧
        (Lexer.readStringLoop (input.length + 1) (Lexer.atPos input p)).pos ≤ input.length ∧
        ((Lexer.atPos input p).readString).isSome = true) := by
  refine ⟨?_, ?_, ?_, ?_⟩
  · intro k
    rw [Lexer.New_eq]
    obtain ⟨t, p1, h1, _, _⟩ := Lexer.nthNext_progress input k 0
    exact ⟨t, p1, h1⟩
  · intro p h
    have hc : isLetter (input.getD p 0) = true := h
    obtain ⟨hlt, _⟩ := runFrom_of_cond isLetter input p rfl hc
    have hrun := runFrom_length_le isLetter input p
    have he := Lexer.eatWhile_atPos isLetter rfl input (input.length + 1) p (by omega)
    have hs := slice_runFrom isLetter input p (by omega)
    have hpos : (Lexer.atPos input (p + (runFrom isLetter input p).length)).pos =
        p + (runFrom isLetter input p).length := rfl
    refine ⟨?_, ?_, ?_⟩
    · rw [he, hpos]; exact Nat.le_add_right _ _
    · rw [he, hpos]; omega
    · have : (Lexer.atPos input p).eatID =
          some (runFrom isLetter input p,
            Lexer.atPos input (p + (runFrom isLetter input p).length)) := by
        unfold Lexer.eatID
        have hi : (Lexer.atPos input p).input = input := rfl
        simp only [hi, he]
        rw [hpos]
        have hq : (Lexer.atPos input p).pos = p := rfl
        rw [hq, hs]
        rfl
      rw [this]; rfl
  · intro p h
    have hc : isDigit (input.getD p 0) = true := h
    obtain ⟨hlt, _⟩ := runFrom_of_cond isDigit input p rfl hc
    have hrun := runFrom_length_le isDigit input p
    have he := Lexer.eatWhile_atPos isDigit rfl input (input.length + 1) p (by omega)
    have hs := slice_runFrom isDigit input p (by omega)
    have hpos : (Lexer.atPos input (p + (runFrom isDigit input p).length)).pos =
        p + (runFrom isDigit input p).length := rfl
    refine ⟨?_, ?_, ?_⟩
    · rw [he, hpos]; exact Nat.le_add_right _ _
    · rw [he, hpos]; omega
    · have : (Lexer.atPos input p).eatNumber =
          some (runFrom isDigit input p,
            Lexer.atPos input (p + (runFrom isDigit input p).length)) := by
        unfold Lexer.eatNumber
        have hi : (Lexer.atPos input p).input = input := rfl
        simp only [hi, he]
        rw [hpos]
        have hq : (Lexer.atPos input p).pos = p := rfl
        rw [hq, hs]
        rfl
      rw [this]; rfl
  · intro p h
    have hc : input.getD p 0 = 34 := h
    have hlt : p < input.length := by
      by_contra hn
      rw [List.getD_eq_default _ _ (by omega)] at hc
      cases hc
    have hrun := runFrom_length_le isStringByte input (p + 1)
    have he := Lexer.readStringLoop_atPos input (input.length + 1) p (by omega)
    have hs := slice_runFrom isStringByte input (p + 1) (by omega)
    have hpos : (Lexer.atPos input (p + 1 + (runFrom isStringByte input (p + 1)).length)).pos =
        p + 1 + (runFrom isStringByte input (p + 1)).length := rfl
    have hq : (Lexer.atPos input p).pos = p := rfl
    refine ⟨?_, ?_, ?_⟩
    · rw [he, hpos, hq]; exact Nat.le_add_right _ _
    · rw [he, hpos]; omega
    · have : (Lexer.atPos input p).readString =
          some (runFrom isStringByte input (p + 1),
            Lexer.atPos input (p + 1 + (runFrom isStringByte input (p + 1)).length)) := by
        unfold Lexer.readString
        have hi : (Lexer.atPos input p).input = input := rfl
        simp only [hi, he]
        rw [hpos, hq, hs]
        rfl
      rw [this]; rfl

/-- C29: at a byte of `[A-Za-z_]`, `Next` returns the maximal run of such bytes as lexeme
(the run is not empty, and the byte after it is not in `[A-Za-z_]`), with the type the table
`keywords` gives for the lexeme and `ID` for a lexeme that is not in the table; at a digit it
returns the maximal run of digits as an `INT` token. A digit is not in `[A-Za-z_]`, so `a1`
lexes as `(ID, "a")`, `(INT, "1")`. -/
theorem identifier_and_number_tokens (input : Str) (p : Nat) :
    (isLetter (input.getD p 0) = true →
      (Lexer.atPos input p).Next =
        some ({ Typ := GetTokenType (runFrom isLetter input p),
                Literal := runFrom isLetter input p },
          Lexer.atPos input (p + (runFrom isLetter input p).length)) ∧
      runFrom isLetter input p ≠ [] ∧
      (∀ b ∈ runFrom isLetter input p, isLetter b = true) ∧
      isLetter (input.getD (p + (runFrom isLetter input p).length) 0) = false) ∧
    (isDigit (input.getD p 0) = true →
      (Lexer.atPos input p).Next =
        some ({ Typ := .INT, Literal := runFrom isDigit input p },
          Lexer.atPos input (p + (runFrom isDigit input p).length)) ∧
      runFrom isDigit input p ≠ [] ∧
      (∀ b ∈ runFrom isDigit input p, isDigit b = true) ∧
      isDigit (input.getD (p + (runFrom isDigit input p).length) 0) = false) ∧
    (∀ st ∈ keywords, GetTokenType st.1 = st.2) ∧
    (∀ s, s ∉ keywords.map Prod.fst → GetTokenType s = .ID) ∧
    (∀ b, isLetter b = true ↔ (97 ≤ b ∧ b ≤ 122) ∨ (65 ≤ b ∧ b ≤ 90) ∨ b = 95) ∧
    (∀ b, isDigit b = true ↔ 48 ≤ b ∧ b ≤ 57) ∧
    (∀ b, isDigit b = true → isLetter b = false) ∧
    (Lexer.New (str "a1")).yields [⟨.ID, str "a"⟩, ⟨.INT, str "1"⟩, eofToken] = true ∧
    (Lexer.New (str "for1x_y 007")).yields
      [⟨.FOR, str "for"⟩, ⟨.INT, str "1"⟩, ⟨.ID, str "x_y"⟩, ⟨.INT, str "007"⟩, eofToken] =
      true := by
  refine ⟨?_, ?_, by decide!, ?_, ?_, ?_, ?_, by decide!, by decide!⟩
  · intro h
    obtain ⟨_, hr⟩ := runFrom_of_cond isLetter input p rfl h
    refine ⟨Lexer.Next_letter input p h, ?_, ?_,
      runFrom_maximal isLetter rfl input _ p (Nat.le_refl _)⟩
    · rw [hr]; exact List.cons_ne_nil _ _
    · intro b hb
      exact List.mem_takeWhile_imp hb
  · intro h
    obtain ⟨_, hr⟩ := runFrom_of_cond isDigit input p rfl h
    refine ⟨Lexer.Next_digit input p h, ?_, ?_,
      runFrom_maximal isDigit rfl input _ p (Nat.le_refl _)⟩
    · rw [hr]; exact List.cons_ne_nil _ _
    · intro b hb
      exact List.mem_takeWhile_imp hb
  · intro s h
    simp only [keywords, List.map, List.mem_cons, List.mem_singleton, not_or,
      List.not_mem_nil, or_false] at h
    obtain ⟨h1, h2, h3, h4, h5, h6, h7, h8, h9, h10⟩ := h
    simp only [GetTokenType, h1, h2, h3, h4, h5, h6, h7, h8, h9, h10, if_false]
  · intro b
    unfold isLetter
    simp only [Bool.or_eq_true, Bool.and_eq_true, decide_eq_true_eq, beq_iff_eq, or_assoc]
  · intro b
    unfold isDigit
    simp only [Bool.and_eq_true, decide_eq_true_eq]
  · intro b h
    exact (digit_facts b (isDigit_lt h) h).2.2.2.2.2.2

theorem identifier_and_number_tokens_witness :
    (Lexer.atPos (str "a1") 0).Next =
      some ({ Typ := GetTokenType (runFrom isLetter (str "a1") 0),
              Literal := runFrom isLetter (str "a1") 0 },
        Lexer.atPos (str "a1") (0 + (runFrom isLetter (str "a1") 0).length)) ∧
    (Lexer.atPos (str "a1") 1).Next =
      some ({ Typ := .INT, Literal := runFrom isDigit (str "a1") 1 },
        Lexer.atPos (str "a1") (1 + (runFrom isDigit (str "a1") 1).length)) :=
  ⟨((identifier_and_number_tokens (str "a1") 0).1 (by decide)).1,
    ((identifier_and_number_tokens (str "a1") 1).2.1 (by decide)).1⟩

/-- C30 (counterexample): in the input `"a`, NUL, `b"` the bytes between the first quote and
the next quote are `a`, NUL, `b`, and `Next` returns `(STRING, "a")`: the lexeme ends at the
NUL byte. Lexing goes on after the NUL byte with `(ID, "b")`, and the closing quote opens a
second string. -/
theorem string_token_ends_at_NUL :
    (Lexer.New [34, 97, 0, 98, 34]).Next.map Prod.fst = some ⟨.STRING, [97]⟩ ∧
    ([34, 97, 0, 98, 34].drop 1).takeWhile (fun b => b != 34) = [97, 0, 98] ∧
    (Lexer.New [34, 97, 0, 98, 34]).yields
      [⟨.STRING, [97]⟩, ⟨.ID, [98]⟩, ⟨.STRING, []⟩, eofToken] = true := by
  decide!

/-- C30 (amended): at a `"`, `Next` returns `(STRING, c)` where `c` is the run of bytes after
that quote up to the first `"` or NUL byte, or up to the end of the input; no byte of `c` is
changed (no escape sequence is read), a token is returned in every case, and lexing goes on
after the byte that ended the run. In an input without a NUL byte `c` is exactly the bytes up
to the next `"`, and all bytes to the end of the input when there is no further `"`. -/
theorem string_token (input : Str) (p : Nat) (h : input.getD p 0 = 34) :
    (Lexer.atPos input p).Next =
      some ({ Typ := .STRING, Literal := runFrom isStringByte input (p + 1) },
        Lexer.atPos input (p + 1 + (runFrom isStringByte input (p + 1)).length + 1)) ∧
    runFrom isStringByte input (p + 1) =
      (input.drop (p + 1)).take (runFrom isStringByte input (p + 1)).length ∧
    (input.getD (p + 1 + (runFrom isStringByte input (p + 1)).length) 0 = 34 ∨
      input.getD (p + 1 + (runFrom isStringByte input (p + 1)).length) 0 = 0) ∧
    ((∀ b ∈ input, b ≠ 0) →
      runFrom isStringByte input (p + 1) =
        (input.drop (p + 1)).takeWhile (fun b => b != 34)) ∧
    ((∀ b ∈ input.drop (p + 1), b ≠ 34 ∧ b ≠ 0) →
      runFrom isStringByte input (p + 1) = input.drop (p + 1)) ∧
    (Lexer.New (str "\"a\\n\" x")).yields
      [⟨.STRING, [97, 92, 110]⟩, ⟨.ID, str "x"⟩, eofToken] = true ∧
    (Lexer.New (str "\"abc")).yields [⟨.STRING, str "abc"⟩, eofToken, eofToken] = true := by
  refine ⟨Lexer.Next_quote input p h, ?_, ?_, ?_, ?_, by decide!, by decide!⟩
  · exact List.prefix_iff_eq_take.1 (List.takeWhile_prefix isStringByte)
  · have hm := runFrom_maximal isStringByte rfl input _ (p + 1) (Nat.le_refl _)
    generalize input.getD (p + 1 + (runFrom isStringByte input (p + 1)).length) 0 = c at hm
    by_cases h1 : c = 34
    · exact Or.inl h1
    · by_cases h2 : c = 0
      · exact Or.inr h2
      · simp [isStringByte, h1, h2] at hm
  · intro hn
    unfold runFrom
    apply takeWhile_congr_mem
    intro b hb
    have hb0 : b ≠ 0 := hn b (List.mem_of_mem_drop hb)
    have e2 : (b == 0) = false := beq_false_of_ne hb0
    by_cases h1 : b = 34
    · subst h1; rfl
    · have e1 : (b == 34) = false := beq_false_of_ne h1
      simp only [isStringByte, bne, e1, e2, Bool.or_false]
  · intro hn
    unfold runFrom
    rw [List.takeWhile_eq_self_iff]
    intro b hb
    obtain ⟨h1, h2⟩ := hn b hb
    simp [isStringByte, h1, h2]

theorem string_token_witness :
    (Lexer.atPos (str "\"ab\" c") 0).Next =
      some ({ Typ := .STRING, Literal := runFrom isStringByte (str "\"ab\" c") (0 + 1) },
        Lexer.atPos (str "\"ab\" c")
          (0 + 1 + (runFrom isStringByte (str "\"ab\" c") (0 + 1)).length + 1)) :=
  (string_token (str "\"ab\" c") 0 (by decide)).1

/-! ## The empty program -/

theorem Lexer.Next_of_blanks (input : Str) (hb : ∀ b ∈ input, isBlank b = true) :
    (Lexer.New input).Next = some (eofToken, Lexer.atPos input (input.length + 1)) := by
  have hrun : runFrom isBlank input 0 = input := by
    unfold runFrom
    rw [List.drop_zero, List.takeWhile_eq_self_iff]
    exact hb
  rw [Lexer.New_eq, Lexer.Next_skips_blanks, hrun, Nat.zero_add]
  exact Lexer.Next_nul input _ (List.getD_eq_default _ _ (Nat.le_refl _))

theorem parseSource_of_blanks (input : Str) (hb : ∀ b ∈ input, isBlank b = true) (n : Nat) :
    parseSource (n + 1) input =
      .ok { Statements := [] }
        { l := Lexer.atPos input (input.length + 1 + 1), errors := [], curTok := eofToken,
          nextTok := eofToken } := by
  have h2 : (Lexer.atPos input (input.length + 1)).Next =
      some (eofToken, Lexer.atPos input (input.length + 1 + 1)) :=
    Lexer.Next_nul input _ (List.getD_eq_default _ _ (by omega))
  simp only [parseSource, parseLexer, Parser.New, Lexer.Next_of_blanks input hb, h2,
    Parser.Parse, Act.bind_apply]
  rw [parseLoop]
  rfl

/-- C23 (counterexample): the empty input and an input of blanks evaluate to the nil
interface value, which is not the object NIL. -/
theorem empty_program_value_is_not_Nil :
    observe (testEval 1 (str "")) = some (.nil, []) ∧
    observe (testEval 1 (str " \n\t\r ")) = some (.nil, []) ∧
    Meta.nil ≠ Meta.Nil := by
  decide!

/-- C23 (amended): for the empty input and every input that consists of blanks only (space,
newline, tab, carriage return), `Parse` returns, without an error message, a program whose
list of statements is empty; `Eval` of a program without statements returns the nil
interface value (no value, not the object NIL) and leaves the heap as it is. -/
theorem blank_input_has_no_statements (input : Str) (fuel : Nat)
    (hb : ∀ b ∈ input, isBlank b = true) (hf : 1 ≤ fuel) :
    (∃ p, parseSource fuel input = .ok { Statements := [] } p ∧ p.errors = []) ∧
    (∀ (k e : Nat) (w : World), Eval k { Statements := [] } e w = .ok .nil w) ∧
    testEval fuel input = .ok .nil { World.empty with envs := [{ store := [], outer := none }] } ∧
    Meta.nil ≠ Meta.Nil := by
  obtain ⟨n, rfl⟩ : ∃ n, fuel = n + 1 := ⟨fuel - 1, by omega⟩
  refine ⟨⟨_, parseSource_of_blanks input hb n, rfl⟩, fun k e w => rfl, ?_, by decide⟩
  simp only [testEval, parseSource_of_blanks input hb n]
  rfl

theorem blank_input_has_no_statements_witness :
    ∃ p, parseSource 1 (str " \n") = .ok { Statements := [] } p ∧ p.errors = [] :=
  (blank_input_has_no_statements (str " \n") 1 (by decide) (by decide)).1

/-! ## The builtin len -/

/-- C25: `Len` on an argument list of length `N ≠ 1` returns the Error
`wrong number of arguments. got=N, want=1`; on a single String it allocates an Int that holds
the number of bytes of the string; on a single argument of another type `T` it returns the
Error that says `len` is not supported for `T`. The programs of `TestBuiltinFunctions`
evaluate accordingly. -/
theorem len_builtin (args : List Meta) (w : World) :
    (args.length ≠ 1 →
      Len args w = .ok (.Error w.fresh (wrongNumberMsg args.length)) w.withObject) ∧
    (∀ (addr : Nat) (s : Str), s.length < 2 ^ 63 →
      Len [.String addr s] w = .ok (.Int w.ints.length) (w.withInt s.length)) ∧
    (∀ (arg : Meta) (t : MetaType), arg.Type = some t → t ≠ .STRING →
      Len [arg] w = .ok (.Error w.fresh (lenNotSupportedMsg t)) w.withObject) ∧
    wrongNumberMsg 2 = str "wrong number of arguments. got=2, want=1" ∧
    observe (testEval 20 (str "len(\"\")")) = some (.Int 0, [0]) ∧
    observe (testEval 20 (str "len(\"four\")")) = some (.Int 0, [4]) ∧
    observe (testEval 20 (str "len(\"hello world\")")) = some (.Int 0, [11]) ∧
    observe (testEval 20 (str "len(1)")) =
      some (.Error 0 (lenNotSupportedMsg .INT), [1]) ∧
    observe (testEval 20 (str "len(\"one\", \"two\")")) =
      some (.Error 2 (str "wrong number of arguments. got=2, want=1"), []) ∧
    observe (testEval 20 (str "len()")) =
      some (.Error 0 (str "wrong number of arguments. got=0, want=1"), []) := by
  refine ⟨?_, ?_, ?_, by decide!, by decide!, by decide!, by decide!, by decide!, by decide!,
    by decide!⟩
  · intro h
    have h1 : decimal 1 = str "1" := by decide!
    have h2 : str ", want=" ++ str "1" = str ", want=1" := by decide
    match args, h with
    | [], _ =>
      simp only [Len, newError, wrongNumberMsg, World.withObject, h1, List.append_assoc, h2]
    | [_], h => exact absurd rfl h
    | _ :: _ :: _, _ =>
      simp only [Len, newError, wrongNumberMsg, World.withObject, h1, List.append_assoc, h2]
  · intro addr s hs
    have hw : wrap64 (s.length : Int) = s.length := by
      unfold wrap64
      omega
    simp only [Len, newInt, hw, World.withInt]
  · intro arg t ht hne
    cases arg with
    | String addr v => simp [Meta.Type] at ht; exact absurd ht.symm hne
    | nil => simp [Meta.Type] at ht
    | _ =>
      simp only [Meta.Type, Option.some.injEq] at ht
      subst ht
      simp [Len, Act.bind_apply, typeOf, Meta.Type, newError, lenNotSupportedMsg,
        World.withObject]

theorem len_builtin_witness :
    Len [] World.empty = .ok (.Error 0 (wrongNumberMsg 0)) World.empty.withObject ∧
    Len [.String 0 (str "four")] World.empty = .ok (.Int 0) (World.empty.withInt 4) ∧
    Len [.Bool true] World.empty =
      .ok (.Error 0 (lenNotSupportedMsg .BOOL)) World.empty.withObject :=
  ⟨(len_builtin [] World.empty).1 (by decide),
    (len_builtin [] World.empty).2.1 0 (str "four") (by decide),
    (len_builtin [] World.empty).2.2.1 (.Bool true) .BOOL rfl (by decide)⟩

/-! ## Return and Error stop a program and a block -/

theorem programLoop_stops (e : Nat) (pre : List Statement) (w w1 w2 : World)
    (stmt : Statement) (v : Meta) (hpre : runsThrough e pre w w1)
    (hs : stmt.evaluatesTo e w1 v w2) (hv : stops v = true) :
    ∃ K, ∀ k, K ≤ k → ∀ (rest : List Statement) (res : Meta),
      programLoop k (pre ++ stmt :: rest) e res w = .ok (unwrapReturnValue v) w2 := by
  induction hpre with
  | done w =>
    obtain ⟨K, hK⟩ := hs
    refine ⟨K, fun k hk rest res => ?_⟩
    rw [List.nil_append, programLoop]
    simp only [Act.bind_apply, hK k hk]
    cases v <;> simp [stops] at hv <;> rfl
  | step s pre1 w w3 w4 v1 h1 hv1 _ ih =>
    obtain ⟨K1, hK1⟩ := h1
    obtain ⟨K2, hK2⟩ := ih hs
    refine ⟨max K1 K2, fun k hk rest res => ?_⟩
    rw [List.cons_append, programLoop]
    simp only [Act.bind_apply, hK1 k (by omega)]
    have := hK2 k (by omega) rest v1
    cases v1 <;> simp [stops] at hv1 <;> exact this

theorem blockLoop_stops (e : Nat) (pre : List Statement) (w w1 w2 : World)
    (stmt : Statement) (v : Meta) (hpre : runsThrough e pre w w1)
    (hs : stmt.evaluatesTo e w1 v w2) (hv : stops v = true) :
    ∃ K, ∀ k, K ≤ k → ∀ (rest : List Statement) (res : Meta),
      blockLoop k (pre ++ stmt :: rest) e res w = .ok v w2 := by
  induction hpre with
  | done w =>
    obtain ⟨K, hK⟩ := hs
    refine ⟨K + 1, fun k hk rest res => ?_⟩
    obtain ⟨n, rfl⟩ : ∃ n, k = n + 1 := ⟨k - 1, by omega⟩
    rw [List.nil_append, blockLoop]
    simp only [Act.bind_apply, hK n (by omega)]
    cases v <;> simp [stops] at hv <;> rfl
  | step s pre1 w w3 w4 v1 h1 hv1 _ ih =>
    obtain ⟨K1, hK1⟩ := h1
    obtain ⟨K2, hK2⟩ := ih hs
    refine ⟨max K1 K2 + 1, fun k hk rest res => ?_⟩
    obtain ⟨n, rfl⟩ : ∃ n, k = n + 1 := ⟨k - 1, by omega⟩
    rw [List.cons_append, blockLoop]
    simp only [Act.bind_apply, hK1 n (by omega)]
    have := hK2 n (by omega) rest v1
    cases v1 <;> simp [stops] at hv1 <;> exact this

theorem ifStatement_consequence (e : Nat) (tok : Token) (m : IfExpression)
    (w wa wb w2 : World) (c0 c v : Meta) (h0 : m.Condition.evaluatesTo e w c0 wa)
    (herr : isError c0 = false) (h1 : m.Condition.evaluatesTo e wa c wb)
    (ht : isTrue c = true) (hb : m.Consequence.evaluatesTo e wb v w2) :
    (Statement.ExpressionStatement tok (.IfExpression m)).evaluatesTo e w v w2 := by
  obtain ⟨K0, h0⟩ := h0
  obtain ⟨K1, h1⟩ := h1
  obtain ⟨K2, h2⟩ := hb
  refine ⟨max K0 (max K1 K2) + 3, fun k hk => ?_⟩
  obtain ⟨n, rfl⟩ : ∃ n, k = n + 3 := ⟨k - 3, by omega⟩
  rw [EvalStatement]
  rw [EvalExpression]
  simp only [Act.bind_apply, h0 (n + 1) (by omega), herr, Bool.false_eq_true, if_false]
  rw [ifExp]
  simp only [Act.bind_apply, h1 n (by omega), ht, if_true, h2 n (by omega)]

theorem evaluatesTo_return_literal (tok t : Token) (i : Int) (e : Nat) (w : World) :
    (Statement.ReturnStatement tok (.IntegerLiteral t i)).evaluatesTo e w
      (.ReturnValue w.fresh (.Int w.ints.length)) (w.withInt i).withObject := by
  refine ⟨2, fun k hk => ?_⟩
  obtain ⟨n, rfl⟩ : ∃ n, k = n + 2 := ⟨k - 2, by omega⟩
  rw [EvalStatement]
  rw [EvalExpression]
  rfl

/-- C24: let the statements `pre` be evaluated without a `ReturnValue` or an `Error`, and
let the statement after them yield the value `v` that is a `ReturnValue` or an `Error`. Then
`program` returns the inner value of `v` (or the Error `v`) and `blockStatement` returns `v`
itself, still wrapped, both in the heap the statement left, whatever statements follow: they
are not evaluated. An `if` whose chosen block yields `v` yields `v` as a statement, so the
block around it stops with `v` as well. The programs of `TestReturnStatements` evaluate to
10, and `echo(1); return 2; echo(3)` prints 1 only. -/
theorem return_stops_following_statements (e : Nat) (pre : List Statement) (w w1 w2 : World)
    (stmt : Statement) (v : Meta) (hpre : runsThrough e pre w w1)
    (hs : stmt.evaluatesTo e w1 v w2) (hv : stops v = true) :
    (∃ K, ∀ k, K ≤ k → ∀ (rest : List Statement),
      Eval k { Statements := pre ++ stmt :: rest } e w = .ok (unwrapReturnValue v) w2) ∧
    (∀ (tok : Token) (rest : List Statement),
      (BlockStatement.mk tok (pre ++ stmt :: rest)).evaluatesTo e w v w2) ∧
    (∀ (tok tok2 : Token) (rest : List Statement) (m : IfExpression) (w0 wa wb : World)
      (c0 c : Meta),
      m.Condition.evaluatesTo e w0 c0 wa → isError c0 = false →
      m.Condition.evaluatesTo e wa c wb → isTrue c = true →
      m.Consequence = BlockStatement.mk tok2 (pre ++ stmt :: rest) → wb = w →
      (Statement.ExpressionStatement tok (.IfExpression m)).evaluatesTo e w0 v w2) ∧
    (∀ a x, unwrapReturnValue (.ReturnValue a x) = x) ∧
    (∀ a msg, unwrapReturnValue (.Error a msg) = .Error a msg) ∧
    observe (testEval 30 (str "return 10;")) = some (.Int 0, [10]) ∧
    observe (testEval 30 (str "return 10; 9;")) = some (.Int 0, [10]) ∧
    observe (testEval 30 (str "return 2 * 5; 9;")) = some (.Int 2, [2, 5, 10]) ∧
    observe (testEval 30 (str "9; return 2 * 5; 9;")) = some (.Int 3, [9, 2, 5, 10]) ∧
    observe (testEval 30 (str
      "\nif (10 > 1) \x7b\n  if (10 > 1) \x7b\n    return 10;\n  \x7d\n\n  return 1;\n\x7d\n")) =
      some (.Int 8, [10, 1, 10, 1, 10, 1, 10, 1, 10]) ∧
    observe (testEval 30 (str "5 + true; 5;")) =
      some (.Error 0 (str "type mismatch: INT + BOOL"), [5]) ∧
    outputAfter (testEval 30 (str "echo(1); return 2; echo(3)")) = some [str "1", str "\n"] ∧
    outputAfter (testEval 30 (str "echo(1); foobar; echo(3)")) = some [str "1", str "\n"] := by
  refine ⟨?_, ?_, ?_, fun _ _ => rfl, fun _ _ => rfl, by decide!, by decide!, by decide!,
    by decide!, by decide!, by decide!, by decide!, by decide!⟩
  · obtain ⟨K, hK⟩ := programLoop_stops e pre w w1 w2 stmt v hpre hs hv
    exact ⟨K, fun k hk rest => hK k hk rest .nil⟩
  · intro tok rest
    obtain ⟨K, hK⟩ := blockLoop_stops e pre w w1 w2 stmt v hpre hs hv
    refine ⟨K + 1, fun k hk => ?_⟩
    obtain ⟨n, rfl⟩ : ∃ n, k = n + 1 := ⟨k - 1, by omega⟩
    rw [blockStatement]
    exact hK n (by omega) rest .nil
  · intro tok tok2 rest m w0 wa wb c0 c h0 herr h1 ht hm hw
    subst hw
    refine ifStatement_consequence e tok m w0 wa wb w2 c0 c v h0 herr h1 ht ?_
    rw [hm]
    obtain ⟨K, hK⟩ := blockLoop_stops e pre wb w1 w2 stmt v hpre hs hv
    refine ⟨K + 1, fun k hk => ?_⟩
    obtain ⟨n, rfl⟩ : ∃ n, k = n + 1 := ⟨k - 1, by omega⟩
    rw [blockStatement]
    exact hK n (by omega) rest .nil

theorem return_stops_following_statements_witness :
    ∃ K, ∀ k, K ≤ k → ∀ (rest : List Statement),
      Eval k { Statements := [] ++ returnSeven :: rest } 0 World.empty =
        .ok (unwrapReturnValue (.ReturnValue 0 (.Int 0))) (World.empty.withInt 7).withObject :=
  (return_stops_following_statements 0 [] World.empty World.empty
    (World.empty.withInt 7).withObject returnSeven _ (runsThrough.done World.empty)
    (evaluatesTo_return_literal _ _ 7 0 World.empty) rfl).1

/-! ## The for statement -/

theorem lastValue_eq_getLast (val : Meta) (vs : List Meta) (h : vs ≠ []) :
    lastValue val vs = vs.getLast h := by
  induction vs generalizing val with
  | nil => exact absurd rfl h
  | cons v rest ih =>
    cases rest with
    | nil => rfl
    | cons v2 rest2 =>
      rw [lastValue, ih v (List.cons_ne_nil _ _), List.getLast_cons (List.cons_ne_nil _ _)]

theorem forLoop_of_loopRuns (e : Nat) (cond : List Statement) (last : Statement)
    (body : BlockStatement) (w w1 : World) (vs : List Meta)
    (h : loopRuns e cond last body w vs w1) :
    ∃ K, ∀ k, K ≤ k → ∀ val, forLoop k cond last body e val w = .ok (lastValue val vs) w1 := by
  induction h with
  | exit w w1 c hc ht =>
    obtain ⟨K, hK⟩ := hc
    refine ⟨K + 1, fun k hk val => ?_⟩
    obtain ⟨n, rfl⟩ : ∃ n, k = n + 1 := ⟨k - 1, by omega⟩
    rw [forLoop]
    simp only [Act.bind_apply, hK n (by omega), ht, Bool.false_eq_true, if_false]
    rfl
  | iterate w w1 w2 w3 w4 c v vs hc ht hb hv hh _ ih =>
    obtain ⟨K1, h1⟩ := hc
    obtain ⟨K2, h2⟩ := hb
    obtain ⟨K3, h3⟩ := hh
    obtain ⟨K4, h4⟩ := ih
    refine ⟨max (max K1 K2) (max K3 K4) + 1, fun k hk val => ?_⟩
    obtain ⟨n, rfl⟩ : ∃ n, k = n + 1 := ⟨k - 1, by omega⟩
    rw [forLoop]
    simp only [Act.bind_apply, h1 n (by omega), ht, if_true, h2 n (by omega)]
    have h5 := h4 n (by omega) v
    have h6 := h3 n (by omega)
    cases v <;> simp [isReturnValue] at hv <;>
      simp only [Act.bind_apply, h6, h5, lastValue]

theorem evaluatesTo_boolean_statement (tok t : Token) (b : Bool) (e : Nat) (w : World) :
    (Statement.ExpressionStatement tok (.BooleanLiteral t b)).evaluatesTo e w (.Bool b) w := by
  refine ⟨2, fun k hk => ?_⟩
  obtain ⟨n, rfl⟩ : ∃ n, k = n + 2 := ⟨k - 2, by omega⟩
  rw [EvalStatement]
  rw [EvalExpression]
  rfl

theorem headerRuns_expression (tok : Token) (x : Expression) (e : Nat) (w : World) :
    headerRuns true [Statement.ExpressionStatement tok x] e w w := by
  refine ⟨2, fun k hk => ?_⟩
  obtain ⟨n, rfl⟩ : ∃ n, k = n + 2 := ⟨k - 2, by omega⟩
  rw [forHeader]
  simp only [isVarStatement, Bool.false_eq_true, beq_iff_eq, if_false]
  rw [forHeader]
  rfl

/-- C21 (counterexample): `for false \x7b 1 \x7d`, and a three-part loop whose condition is
false at once, evaluate to the nil interface value, which is not the object NIL: a function
whose body is such a loop returns it, and `echo` of the result ends in a runtime panic, where
the result NIL of an `if` without a branch is printed as `nil`. -/
theorem unexecuted_loop_value_is_not_Nil :
    observe (testEval 30 (str "for false \x7b 1 \x7d")) = some (.nil, []) ∧
    observe (testEval 30 (str "for var i = 0; i = i + 1; i < 0 \x7b 1 \x7d")) =
      some (.nil, [0, 0]) ∧
    Meta.nil ≠ Meta.Nil ∧
    (testEval 40 (str "func f() \x7b for false \x7b 1 \x7d \x7d; echo(f())")).panicked = true ∧
    outputAfter (testEval 40 (str "func f() \x7b if false \x7b 1 \x7d \x7d; echo(f())")) =
      some [str "nil", str "\n"] := by
  decide!

/-- C21 (amended): for a `for` statement with a header (of 1, 3 or any other number of
statements; the last one is the condition) whose loop ends because the condition is no
longer truthy, no evaluation of the body having yielded a `ReturnValue`: `forStatement`
returns the value of the last evaluation of the body, and the nil interface value (not the
object NIL) when the body was never executed. -/
theorem for_statement_value (e : Nat) (tok : Token) (cond : List Statement) (last : Statement)
    (body : BlockStatement) (w w0 w1 : World) (vs : List Meta)
    (hlast : cond.getLast? = some last) (hinit : headerRuns true cond e w w0)
    (hloop : loopRuns e cond last body w0 vs w1) :
    (Statement.ForStatement tok cond body).evaluatesTo e w (lastValue .nil vs) w1 ∧
    (vs = [] → lastValue .nil vs = .nil) ∧
    (∀ h : vs ≠ [], lastValue .nil vs = vs.getLast h) ∧
    Meta.nil ≠ Meta.Nil ∧
    observe (testEval 40 (str "var x = 0; for x < 3 \x7b x = x + 1; x \x7d")) =
      some (.Int 11, [0, 3, 1, 1, 3, 3, 1, 2, 3, 3, 1, 3, 3, 3]) ∧
    observe (testEval 40 (str "for var i = 0; i = i + 1; i < 3 \x7b i * 10 \x7d")) =
      some (.Int 15, [0, 3, 10, 0, 1, 1, 3, 3, 10, 10, 1, 2, 3, 3, 10, 20, 1, 3, 3, 3]) := by
  refine ⟨?_, fun h => by rw [h]; rfl, ?_, by decide, by decide!, by decide!⟩
  · obtain ⟨K1, h1⟩ := hinit
    obtain ⟨K2, h2⟩ := forLoop_of_loopRuns e cond last body w0 w1 vs hloop
    refine ⟨max K1 K2 + 2, fun k hk => ?_⟩
    obtain ⟨n, rfl⟩ : ∃ n, k = n + 2 := ⟨k - 2, by omega⟩
    rw [EvalStatement]
    rw [forStatement]
    simp only [hlast, Act.bind_apply, h1 n (by omega), h2 n (by omega)]
  · intro h
    exact lastValue_eq_getLast .nil vs h

theorem for_statement_value_witness :
    (Statement.ForStatement (Token.mk .FOR (str "for")) [falseStatement]
      (.mk (Token.New .LBRACE 123) [])).evaluatesTo 0 World.empty .nil World.empty :=
  (for_statement_value 0 (Token.mk .FOR (str "for")) [falseStatement] falseStatement
    (.mk (Token.New .LBRACE 123) []) World.empty World.empty World.empty [] rfl
    (headerRuns_expression _ _ 0 World.empty)
    (loopRuns.exit World.empty World.empty (.Bool false)
      (evaluatesTo_boolean_statement _ _ false 0 World.empty) rfl)).1

/-! ## The counting loop -/

theorem count_exit (M n j : Nat) (ints : List Int) (rc ri : Nat) (val : Meta)
    (hi : ints.get? ri = some (j : Int)) (hj : n ≤ j) :
    forLoop (M + 4) (countHeader n) (countCondition n) countBody 0 val
        (countWorld ints rc ri) =
      .ok val (countWorld (ints ++ [(n : Int)]) rc ri) := by
  have hic : str "i" ≠ str "c" := by decide
  have hci : str "c" ≠ str "i" := by decide
  have o1 : str "<" ≠ str "+" := by decide
  have o2 : str "<" ≠ str "-" := by decide
  have o3 : str "<" ≠ str "*" := by decide
  have o4 : str "<" ≠ str "/" := by decide
  have o5 : str "<" ≠ str "%" := by decide
  have o6 : str "<" ≠ str ">" := by decide
  have hlt : ri < ints.length := by
    rcases Nat.lt_or_ge ri ints.length with h | h
    · exact h
    · rw [List.get?_eq_none.2 h] at hi; cases hi
  have h1 : (ints ++ [(n : Int)])[ri]? = some (j : Int) := by
    rw [List.getElem?_append_left hlt]; simpa using hi
  have hnot : ¬ ((j : Int) < (n : Int)) := by omega
  rw [forLoop]
  simp [countCondition, idNode, EvalStatement, EvalExpression, Act.bind_apply, identifier,
    Env.Get, getLoop_succ, countWorld, mapGet, hic, Identifier.Value, Act.pure_apply, isError,
    newInt, infixExp, typeOf, Meta.Type, intInfixExp, intValue, h1, hnot, nativeBool, isTrue,
    hci, o1, o2, o3, o4, o5, o6]

theorem getElem?_append_length {α : Type} (l xs : List α) :
    (l ++ xs)[l.length]? = xs[0]? := by
  have := getElem?_append_add l xs 0
  simpa using this

theorem count_step (M n j : Nat) (ints : List Int) (rc ri : Nat) (val : Meta)
    (hc : ints.get? rc = some (j : Int)) (hi : ints.get? ri = some (j : Int)) (hj : j < n)
    (hn : n < 2 ^ 63) :
    forLoop (M + 7) (countHeader n) (countCondition n) countBody 0 val
        (countWorld ints rc ri) =
      forLoop (M + 6) (countHeader n) (countCondition n) countBody 0 .Nil
        (countWorld (ints ++ [(n : Int), 1, (j : Int) + 1, 1, (j : Int) + 1, (n : Int)])
          (ints.length + 2) (ints.length + 4)) := by
  have hic : str "i" ≠ str "c" := by decide
  have hci : str "c" ≠ str "i" := by decide
  have o1 : str "<" ≠ str "+" := by decide
  have o2 : str "<" ≠ str "-" := by decide
  have o3 : str "<" ≠ str "*" := by decide
  have o4 : str "<" ≠ str "/" := by decide
  have o5 : str "<" ≠ str "%" := by decide
  have o6 : str "<" ≠ str ">" := by decide
  have hlti : ri < ints.length := by
    rcases Nat.lt_or_ge ri ints.length with h | h
    · exact h
    · rw [List.get?_eq_none.2 h] at hi; cases hi
  have hltc : rc < ints.length := by
    rcases Nat.lt_or_ge rc ints.length with h | h
    · exact h
    · rw [List.get?_eq_none.2 h] at hc; cases hc
  have hc1 : ints[rc]? = some (j : Int) := by simpa using hc
  have hi1 : ints[ri]? = some (j : Int) := by simpa using hi
  have hlt : (j : Int) < (n : Int) := by omega
  have hw : wrap64 ((j : Int) + 1) = (j : Int) + 1 := by
    unfold wrap64
    omega
  have hlt2 : ¬ ((n : Int) ≤ (j : Int)) := by omega
  rw [forLoop]
  simp [countCondition, countHeader, countBody, plusOne, idNode, ident, EvalStatement,
    EvalExpression, Act.bind_apply, identifier, Env.Get, getLoop_succ, countWorld, mapGet,
    mapSet, hic, hci, Identifier.Value, Act.pure_apply, isError, newInt, infixExp, typeOf,
    Meta.Type, intInfixExp, intValue, nativeBool, isTrue, o1, o2, o3, o4, o5, o6,
    blockStatement, blockLoop, BlockStatement.Statements, assign, Env.GetWithEnv, Env.Set,
    forHeader, isVarStatement, List.getElem?_append_left, hlti, hltc, hc1, hi1, hlt, hw,
    getElem?_append_add, getElem?_append_length, -List.getElem?_eq_getElem,
    List.getElem?_cons_zero, List.getElem?_cons_succ]

theorem count_loop (n : Nat) (hn : n < 2 ^ 63) (N : Nat) :
    ∀ (m j : Nat) (ints : List Int) (rc ri : Nat) (val : Meta), j + m = n →
      ints.get? rc = some (j : Int) → ints.get? ri = some (j : Int) →
      ∃ ints1 rc1 ri1 v,
        forLoop (N + m + 6) (countHeader n) (countCondition n) countBody 0 val
            (countWorld ints rc ri) = .ok v (countWorld ints1 rc1 ri1) ∧
        ints1.get? rc1 = some (n : Int) ∧ (v = val ∨ v = .Nil) := by
  intro m
  induction m with
  | zero =>
    intro j ints rc ri val hjm hc hi
    have hlt : rc < ints.length := by
      rcases Nat.lt_or_ge rc ints.length with h | h
      · exact h
      · rw [List.get?_eq_none.2 h] at hc; cases hc
    refine ⟨ints ++ [(n : Int)], rc, ri, val, ?_, ?_, Or.inl rfl⟩
    · exact count_exit (N + 2) n j ints rc ri val hi (by omega)
    · have hjn : j = n := by omega
      rw [List.get?_eq_getElem?, List.getElem?_append_left hlt, ← List.get?_eq_getElem?, hc,
        hjn]
  | succ m ih =>
    intro j ints rc ri val hjm hc hi
    have hstep := count_step (N + m) n j ints rc ri val hc hi (by omega) hn
    have e1 : N + (m + 1) + 6 = N + m + 7 := by omega
    rw [e1, hstep]
    have hc2 : (ints ++ [(n : Int), 1, (j : Int) + 1, 1, (j : Int) + 1, (n : Int)]).get?
        (ints.length + 2) = some (((j + 1 : Nat) : Int)) := by
      rw [List.get?_eq_getElem?, getElem?_append_add]
      simp
    have hi2 : (ints ++ [(n : Int), 1, (j : Int) + 1, 1, (j : Int) + 1, (n : Int)]).get?
        (ints.length + 4) = some (((j + 1 : Nat) : Int)) := by
      rw [List.get?_eq_getElem?, getElem?_append_add]
      simp
    obtain ⟨ints1, rc1, ri1, v, h1, h2, h3⟩ :=
      ih (j + 1) _ (ints.length + 2) (ints.length + 4) .Nil (by omega) hc2 hi2
    exact ⟨ints1, rc1, ri1, v, h1, h2, Or.inr (by rcases h3 with h | h <;> exact h)⟩

theorem count_setup (G n : Nat) :
    ∃ ints rc ri, ints.get? rc = some ((0 : Nat) : Int) ∧ ints.get? ri = some ((0 : Nat) : Int) ∧
      ∀ (rest : List Statement) (res : Meta),
        programLoop (G + 6)
          (Statement.VarStatement (Token.mk .VAR (str "var")) (ident "c")
              (.IntegerLiteral (intToken 0) 0) ::
            Statement.ForStatement (Token.mk .FOR (str "for")) (countHeader n) countBody :: rest)
          0 res { World.empty with envs := [{ store := [], outer := none }] } =
        (do
          let v ← forLoop (G + 4) (countHeader n) (countCondition n) countBody 0 .nil
          match v with
          | .ReturnValue _ x => pure x
          | .Error _ _ => pure v
          | _ => programLoop (G + 6) rest 0 v : EAct Meta) (countWorld ints rc ri) := by
  refine ⟨[0, 0], 0, 1, rfl, rfl, fun rest res => ?_⟩
  rw [programLoop]
  have h1 : EvalStatement (G + 6)
      (Statement.VarStatement (Token.mk .VAR (str "var")) (ident "c")
        (.IntegerLiteral (intToken 0) 0)) 0
      { World.empty with envs := [{ store := [], outer := none }] } =
      .ok .Nil { World.empty with
        ints := [0], envs := [{ store := [(str "c", .Int 0)], outer := none }] } := by
    simp [EvalStatement, EvalExpression, Act.bind_apply, newInt, isError, Env.Set, mapSet,
      World.empty, ident, Identifier.Value, Act.pure_apply]
  simp only [Act.bind_apply, h1]
  rw [programLoop]
  have hic : str "i" ≠ str "c" := by decide
  have hci : str "c" ≠ str "i" := by decide
  have h2 : EvalStatement (G + 6)
      (Statement.ForStatement (Token.mk .FOR (str "for")) (countHeader n) countBody) 0
      { World.empty with
        ints := [0], envs := [{ store := [(str "c", .Int 0)], outer := none }] } =
      forLoop (G + 4) (countHeader n) (countCondition n) countBody 0 .nil
        (countWorld [0, 0] 0 1) := by
    rw [EvalStatement, forStatement]
    have hl : (countHeader n).getLast? = some (countCondition n) := rfl
    simp only [hl]
    have hh : forHeader (G + 4) true (countHeader n) 0
        { World.empty with
          ints := [0], envs := [{ store := [(str "c", .Int 0)], outer := none }] } =
        .ok () (countWorld [0, 0] 0 1) := by
      simp [countHeader, forHeader, isVarStatement, EvalStatement, EvalExpression,
        Act.bind_apply, newInt, isError, Env.Set, mapSet, World.empty, ident, Identifier.Value,
        Act.pure_apply, countWorld, hic, hci]
    simp only [Act.bind_apply, hh]
  simp only [Act.bind_apply, h2]; try rfl

theorem count_result (G : Nat) (ints : List Int) (rc ri : Nat) (res : Meta) :
    programLoop (G + 2) [Statement.ExpressionStatement (idToken "c") (idNode "c")] 0 res
        (countWorld ints rc ri) = .ok (.Int rc) (countWorld ints rc ri) := by
  have hci : str "c" ≠ str "i" := by decide
  simp [programLoop, idNode, EvalStatement, EvalExpression, Act.bind_apply, identifier, Env.Get,
    getLoop_succ, countWorld, mapGet, hci, Identifier.Value, Act.pure_apply]

/-- C22: for every `n` with `0 ≤ n < 2^63`, the program
`var c = 0; for var i = 0; i = i + 1; i < n \x7b c = c + 1 \x7d; c`, evaluated in a new
env with fuel `n + 8` or more, returns an `Int` object that holds `n`: the body has run `n`
times. The tree of the theorem is the one the parser returns (checked for `n = 3` and
`n = 0`), and the source with `n = 3` evaluates to 3. -/
theorem counting_loop_runs_n_times (n fuel : Nat) (hn : n < 2 ^ 63) (hf : n + 8 ≤ fuel) :
    (∃ r w, (do let e ← NewEnv; Eval fuel (countProgram n) e : EAct Meta) World.empty =
        .ok (.Int r) w ∧
      w.ints.get? r = some (n : Int)) ∧
    parsesTo 60 (str "var c = 0; for var i = 0; i = i + 1; i < 3 \x7b c = c + 1 \x7d; c") (countProgram 3).Statements = true ∧
    parsesTo 60 (str "var c = 0; for var i = 0; i = i + 1; i < 0 \x7b c = c + 1 \x7d; c") (countProgram 0).Statements = true ∧
    observe (testEval 60 (str "var c = 0; for var i = 0; i = i + 1; i < 3 \x7b c = c + 1 \x7d; c")) =
      some (.Int 16, [0, 0, 3, 1, 1, 1, 1, 3, 3, 1, 2, 1, 2, 3, 3, 1, 3, 1, 3, 3, 3]) ∧
    observe (testEval 60 (str "var c = 0; for var i = 0; i = i + 1; i < 0 \x7b c = c + 1 \x7d; c")) = some (.Int 0, [0, 0, 0]) := by
  refine ⟨?_, by decide!, by decide!, by decide!, by decide!⟩
  obtain ⟨N, rfl⟩ : ∃ N, fuel = N + n + 8 := ⟨fuel - n - 8, by omega⟩
  obtain ⟨ints, rc, ri, hc, hi, hsetup⟩ := count_setup (N + n + 2) n
  obtain ⟨ints1, rc1, ri1, v, h1, h2, h3⟩ :=
    count_loop n hn N n 0 ints rc ri .nil (by omega) hc hi
  refine ⟨rc1, countWorld ints1 rc1 ri1, ?_, h2⟩
  have e1 : N + n + 8 = N + n + 2 + 6 := by omega
  have e2 : N + n + 2 + 4 = N + n + 6 := by omega
  have hres := count_result (N + n + 6) ints1 rc1 ri1 v
  have e3 : N + n + 6 + 2 = N + n + 2 + 6 := by omega
  rw [e3] at hres
  have hnew : (NewEnv : EAct Nat) World.empty =
      .ok 0 { World.empty with envs := [{ store := [], outer := none }] } := rfl
  simp only [Act.bind_apply, hnew, Eval, countProgram]
  rw [e1, hsetup, Act.bind_apply, e2, h1]
  rcases h3 with h | h <;> subst h <;> exact hres

theorem counting_loop_runs_n_times_witness :
    ∃ r w, (do let e ← NewEnv; Eval 11 (countProgram 3) e : EAct Meta) World.empty =
        .ok (.Int r) w ∧
      w.ints.get? r = some ((3 : Nat) : Int) :=
  (counting_loop_runs_n_times 3 11 (by decide) (by decide)).1

/-! ## Named functions -/

theorem mapGet_mapSet_self (name : Str) (v : Meta) (store : List (Str × Meta)) :
    mapGet name (mapSet name v store) = some v := by
  induction store with
  | nil => simp [mapSet, mapGet]
  | cons kv rest ih =>
    obtain ⟨k, x⟩ := kv
    by_cases h : k = name
    · simp [mapSet, mapGet, h]
    · simp [mapSet, mapGet, h, ih]

theorem function_named (e : Nat) (w : World) (fr : Env) (hfr : w.envs.get? e = some fr)
    (name : Identifier) (args : List Identifier) (body : BlockStatement) :
    function (some name) args body e w =
      .ok (.Func w.funcs.length) (w.withNamedFunc name args body e fr) := by
  simp only [function, Act.bind_apply, Env.Set, hfr, Act.pure_apply]
  rfl

theorem Env.Get_withNamedFunc (e : Nat) (w : World) (fr : Env) (hfr : w.envs.get? e = some fr)
    (name : Identifier) (args : List Identifier) (body : BlockStatement) :
    Env.Get e name.Value (w.withNamedFunc name args body e fr) =
      .ok (some (.Func w.funcs.length)) (w.withNamedFunc name args body e fr) := by
  have hlt : e < w.envs.length := by
    rcases Nat.lt_or_ge e w.envs.length with h | h
    · exact h
    · rw [List.get?_eq_none.2 h] at hfr; cases hfr
  have hlen : (w.withNamedFunc name args body e fr).envs.length = (w.envs.length - 1) + 1 := by
    simp only [World.withNamedFunc, List.length_set]
    omega
  have hget : (w.withNamedFunc name args body e fr).envs.get? e =
      some { fr with store := mapSet name.Value (.Func w.funcs.length) fr.store } := by
    simp [World.withNamedFunc, hlt]
  simp only [Env.Get]
  rw [hlen, getLoop_succ, hget]
  simp only [mapGet_mapSet_self]

theorem Env.Get_called (w : World) (f : Func) (p : Identifier) (v : Meta)
    (hf : f.Args = [p]) :
    Env.Get w.envs.length p.Value (w.called f [v]) = .ok (some v) (w.called f [v]) := by
  have hlen : (w.called f [v]).envs.length = w.envs.length + 1 := by
    simp [World.called]
  have hget : (w.called f [v]).envs.get? w.envs.length =
      some { store := [(p.Value, v)], outer := some f.Env } := by
    simp [World.called, hf, bindStore, mapSet]
  simp only [Env.Get]
  rw [hlen, getLoop_succ, hget]
  simp [mapGet]

theorem Env.Get_from_called (e : Nat) (w2 : World) (fr : Env) (f : Func) (vs : List Meta)
    (name : Str) (v : Meta) (hfe : f.Env = e) (hget : w2.envs.get? e = some fr)
    (hfound : mapGet name fr.store = some v)
    (hfree : mapGet name (bindStore [] f.Args vs) = none) :
    Env.Get w2.envs.length name (w2.called f vs) = .ok (some v) (w2.called f vs) := by
  have hlt : e < w2.envs.length := by
    rcases Nat.lt_or_ge e w2.envs.length with h | h
    · exact h
    · rw [List.get?_eq_none.2 h] at hget; cases hget
  have hlen : (w2.called f vs).envs.length = (w2.envs.length - 1) + 1 + 1 := by
    simp only [World.called, List.length_append, List.length_singleton]
    omega
  have htop : (w2.called f vs).envs.get? w2.envs.length =
      some { store := bindStore [] f.Args vs, outer := some f.Env } := by
    simp [World.called]
  have hold : (w2.called f vs).envs.get? e = some fr := by
    simp only [World.called, List.get?_eq_getElem?]
    rw [List.getElem?_append_left hlt, ← List.get?_eq_getElem?, hget]
  simp only [Env.Get]
  rw [hlen, getLoop_succ, htop]
  simp only [hfree, hfe]
  rw [getLoop_succ, hold]
  simp only [hfound]

theorem ooxx_call (e : Nat) (w w2 : World) (fr : Env) (arg : Expression) (v : Meta)
    (hfr : w.envs.get? e = some fr)
    (harg : arg.evaluatesTo e (w.withNamedFunc (ident "ooxx") [xParam] xBody e fr) v w2)
    (hv : isError v = false) (hr : isReturnValue v = false)
    (hlive : w2.funcs.get? w.funcs.length = some (namedFunc (ident "ooxx") [xParam] xBody e)) :
    ∃ K, ∀ k, K ≤ k → Eval k (ooxxProgram arg) e w =
      .ok v (w2.called (namedFunc (ident "ooxx") [xParam] xBody e) [v]) := by
  obtain ⟨K, hK⟩ := harg
  refine ⟨K + 7, fun k hk => ?_⟩
  obtain ⟨n, rfl⟩ : ∃ n, k = n + 7 := ⟨k - 7, by omega⟩
  have hn : K ≤ n + 4 := by omega
  have h1 : EvalStatement (n + 7) (.ExpressionStatement (Token.mk .FUNC (str "func"))
      (.FunctionLiteral (Token.mk .FUNC (str "func")) (some (ident "ooxx")) none [xParam] xBody))
      e w = .ok (.Func w.funcs.length) (w.withNamedFunc (ident "ooxx") [xParam] xBody e fr) := by
    rw [EvalStatement, EvalExpression]
    exact function_named e w fr hfr _ _ _
  have h2 : EvalExpression (n + 5) (idNode "ooxx") e
      (w.withNamedFunc (ident "ooxx") [xParam] xBody e fr) =
      .ok (.Func w.funcs.length) (w.withNamedFunc (ident "ooxx") [xParam] xBody e fr) := by
    rw [idNode, EvalExpression]
    simp only [identifier, Act.bind_apply]
    have := Env.Get_withNamedFunc e w fr hfr (ident "ooxx") [xParam] xBody
    simp only [ident, Identifier.Value] at this ⊢
    rw [this]
    rfl
  have h3 : expressions (n + 5) [arg] e []
      (w.withNamedFunc (ident "ooxx") [xParam] xBody e fr) = .ok [v] w2 := by
    rw [expressions]
    simp only [Act.bind_apply, hK (n + 4) hn, hv]
    rw [expressions]
    rfl
  have h4 : applyFunction (n + 5) (.Func w.funcs.length) [v] w2 =
      .ok v (w2.called (namedFunc (ident "ooxx") [xParam] xBody e) [v]) := by
    rw [applyFunction]
    simp only [Act.bind_apply, funcOf, hlive]
    rw [extendFunctionEnv_spec _ _ _ (by simp [namedFunc])]
    have hx := Env.Get_called w2 (namedFunc (ident "ooxx") [xParam] xBody e) xParam v rfl
    have hb : blockStatement (n + 4) xBody w2.envs.length
        (w2.called (namedFunc (ident "ooxx") [xParam] xBody e) [v]) =
        .ok v (w2.called (namedFunc (ident "ooxx") [xParam] xBody e) [v]) := by
      have hst : xBody.Statements = [.ExpressionStatement (idToken "x") (idNode "x")] := rfl
      rw [blockStatement, hst, blockLoop, EvalStatement, idNode, EvalExpression]
      simp only [identifier, Act.bind_apply]
      simp only [xParam, Identifier.Value, ident] at hx ⊢
      rw [hx]
      simp only [Act.pure_apply]
      cases v <;> simp [isError, isReturnValue] at hv hr <;>
        simp [blockLoop, Act.pure_apply]
    simp only [namedFunc] at hb ⊢
    rw [hb]
    cases v <;> simp [isError, isReturnValue] at hv hr <;>
      simp [unwrapReturnValue, Act.pure_apply]
  rw [Eval, ooxxProgram, programLoop]
  simp only [Act.bind_apply, h1]
  rw [programLoop, EvalStatement, callNode, EvalExpression]
  simp only [Act.bind_apply, h2, isError, h3]
  cases v <;> simp [isError, isReturnValue] at hv hr <;>
    simp [isError, h4, programLoop, Act.pure_apply, Act.bind_apply, h3]

theorem evaluatesTo_integer (t : Token) (i : Int) (e : Nat) (w : World) :
    (Expression.IntegerLiteral t i).evaluatesTo e w (.Int w.ints.length) (w.withInt i) := by
  refine ⟨1, fun k hk => ?_⟩
  obtain ⟨n, rfl⟩ : ∃ n, k = n + 1 := ⟨k - 1, by omega⟩
  rw [EvalExpression]
  rfl

/-- C26: in a live frame `e`, a function literal with the name `name` evaluates to a new
`Func` object that holds `e`, and the heap it leaves binds `name` in the frame `e` to that
same object, so the identifier `name` evaluated in `e` finds it. The frame of any later call
of the object has `e` as its parent, so the body finds `name` too, unless a parameter has
that name: this is what a recursive call uses. A literal without a name allocates the object
and leaves every frame as it was. For an argument expression that evaluates to a value `v`
that is neither an `Error` nor a `ReturnValue` wrapper, the program
`func ooxx(x int) \x7b x; \x7d; ooxx(arg)` evaluates to `v`; a wrapper is unwrapped by the
call, so `ooxx(if true \x7b return 1 \x7d)` evaluates to 1. The recursive function `sum`
called with 4 evaluates to 10. -/
theorem named_function_binds_its_name (e : Nat) (w : World) (fr : Env) (name : Identifier)
    (args : List Identifier) (body : BlockStatement) (hfr : w.envs.get? e = some fr) :
    (∀ (n : Nat) (tok : Token) (rt : Option Identifier),
      EvalExpression (n + 1) (.FunctionLiteral tok (some name) rt args body) e w =
        .ok (.Func w.funcs.length) (w.withNamedFunc name args body e fr)) ∧
    ((w.withNamedFunc name args body e fr).funcs.get? w.funcs.length).map Func.Env = some e ∧
    Env.Get e name.Value (w.withNamedFunc name args body e fr) =
      .ok (some (.Func w.funcs.length)) (w.withNamedFunc name args body e fr) ∧
    (∀ (w2 : World) (fr2 : Env) (vs : List Meta), w2.envs.get? e = some fr2 →
      mapGet name.Value fr2.store = some (.Func w.funcs.length) →
      mapGet name.Value (bindStore [] args vs) = none →
      Env.Get w2.envs.length name.Value (w2.called (namedFunc name args body e) vs) =
        .ok (some (.Func w.funcs.length)) (w2.called (namedFunc name args body e) vs)) ∧
    (∀ (n : Nat) (tok : Token) (rt : Option Identifier),
      EvalExpression (n + 1) (.FunctionLiteral tok none rt args body) e w =
        .ok (.Func w.funcs.length)
          { w with funcs := w.funcs ++ [{ Name := none, Args := args, Body := body, Env := e }] }) ∧
    (∀ (arg : Expression) (v : Meta) (w2 : World),
      arg.evaluatesTo e (w.withNamedFunc (ident "ooxx") [xParam] xBody e fr) v w2 →
      isError v = false → isReturnValue v = false →
      w2.funcs.get? w.funcs.length = some (namedFunc (ident "ooxx") [xParam] xBody e) →
      ∃ K, ∀ k, K ≤ k → Eval k (ooxxProgram arg) e w =
        .ok v (w2.called (namedFunc (ident "ooxx") [xParam] xBody e) [v])) ∧
    parsesTo 60 (str "func ooxx(x int) \x7b x; \x7d; ooxx(5)")
      (ooxxProgram (intLiteral 5)).Statements = true ∧
    observe (testEval 60 (str "func ooxx(x int) \x7b x; \x7d; ooxx(5)")) = some (.Int 0, [5]) ∧
    observe (testEval 60 (str "func ooxx(x int) \x7b x; \x7d; ooxx(true)")) =
      some (.Bool true, []) ∧
    observe (testEval 60 (str "func ooxx(x int) \x7b x; \x7d; ooxx(if true \x7b return 1 \x7d)")) =
      some (.Int 0, [1]) ∧
    observe (testEval 60
      (str "func sum(n int) \x7b if n < 1 \x7b return 0 \x7d return n + sum(n - 1) \x7d; sum(4)")) =
      some (.Int 23, [4, 1, 1, 1, 3, 1, 1, 1, 2, 1, 1, 1, 1, 1, 1, 1, 0, 1, 1, 0, 1, 3, 6, 10]) ∧
    framesAfter (testEval 60 (str "func ooxx(x int) \x7b x; \x7d")) =
      some [{ store := [(str "ooxx", .Func 0)], outer := none }] ∧
    framesAfter (testEval 60 (str "func(x int) \x7b x; \x7d")) =
      some [{ store := [], outer := none }] := by
  refine ⟨?_, ?_, ?_, ?_, ?_, ?_, ?_, ?_, ?_, ?_, ?_, ?_, ?_⟩
  · intro n tok rt
    rw [EvalExpression]
    exact function_named e w fr hfr name args body
  · simp [World.withNamedFunc, namedFunc]
  · exact Env.Get_withNamedFunc e w fr hfr name args body
  · intro w2 fr2 vs h2 hfound hfree
    exact Env.Get_from_called e w2 fr2 (namedFunc name args body e) vs name.Value _ rfl h2
      hfound hfree
  · intro n tok rt
    rw [EvalExpression]
    rfl
  · intro arg v w2 harg hv hr hlive
    exact ooxx_call e w w2 fr arg v hfr harg hv hr hlive
  · decide!
  · decide!
  · decide!
  · decide!
  · decide!
  · decide!
  · decide!

theorem named_function_binds_its_name_witness :
    ∃ K, ∀ k, K ≤ k →
      Eval k (ooxxProgram (.IntegerLiteral (intToken 5) 5)) 0
        { World.empty with envs := [{ store := [], outer := none }] } =
      .ok (.Int 0)
        { World.empty with
          ints := [5]
          funcs := [namedFunc (ident "ooxx") [xParam] xBody 0]
          envs := [{ store := [(str "ooxx", .Func 0)], outer := none },
            { store := [(str "x", .Int 0)], outer := some 0 }] } :=
  (named_function_binds_its_name 0 { World.empty with envs := [{ store := [], outer := none }] }
    { store := [], outer := none } (ident "ooxx") [xParam] xBody rfl).2.2.2.2.2.1
    (.IntegerLiteral (intToken 5) 5) (.Int 0) _ (evaluatesTo_integer _ 5 0 _) rfl rfl rfl

/-! ## Illegal bytes -/

theorem Lexer.Next_other (input : Str) (p : Nat) (h : isOtherByte (input.getD p 0) = true) :
    (Lexer.atPos input p).Next =
      some ({ Typ := .ILLEGAL, Literal := utf8 (input.getD p 0) }, Lexer.atPos input (p + 1)) := by
  simp only [isOtherByte, Bool.and_eq_true, Bool.not_eq_true', bne_iff_ne, ne_eq,
    Option.isNone_iff_eq_none] at h
  obtain ⟨⟨⟨⟨⟨⟨⟨hb, h0⟩, h34⟩, hl⟩, hd⟩, h61⟩, h33⟩, hpu⟩ := h
  have hch : (Lexer.atPos input p).ch = input.getD p 0 := rfl
  unfold Lexer.Next
  rw [Lexer.eatBlank_of_not input p hb]
  simp only [hch, h61, h33, h34, h0, hpu, hl, hd, if_false, Lexer.eat_atPos]
  rfl

theorem utf8_of_high_byte (b : Nat) (h1 : 128 ≤ b) (h2 : b < 256) :
    utf8 b = [192 + b / 64, 128 + b % 64] ∧ utf8 b ≠ [b] := by
  have e : utf8 b = [192 + b / 64, 128 + b % 64] := by
    unfold utf8
    rw [if_neg (by omega), if_pos (by omega)]
  exact ⟨e, by rw [e]; simp⟩

theorem isOtherByte_of_high_byte (b : Nat) (h1 : 128 ≤ b) : isOtherByte b = true := by
  have hp : punct b = none := by
    unfold punct
    repeat rw [if_neg (by omega)]
  have hl : isLetter b = false := by
    simp only [isLetter, Bool.or_eq_false_iff, Bool.and_eq_false_iff, decide_eq_false_iff_not,
      beq_eq_false_iff_ne, ne_eq]
    omega
  have hd : isDigit b = false := by
    simp only [isDigit, Bool.and_eq_false_iff, decide_eq_false_iff_not]
    omega
  have hb : isBlank b = false := by
    simp only [isBlank, Bool.or_eq_false_iff, beq_eq_false_iff_ne, ne_eq]
    omega
  simp only [isOtherByte, hp, hl, hd, hb, Bool.not_false, Bool.true_and, Option.isNone_none,
    Bool.and_true, Bool.and_eq_true, bne_iff_ne, ne_eq]
  omega

/-- C31: at a byte `b` of the class of the claim, `Next` returns a token of type `ILLEGAL`
and consumes exactly that byte. The lexeme is `string(b)` of Go, the UTF-8 encoding of the
code point `b`: the one byte `b` when `b < 0x80`, and the two bytes `0xC0 + b / 64`,
`0x80 + b % 64` when `b ≥ 0x80`, which is not the one-byte string of `b`. Every byte from
`0x80` on is in the class. So the input of the single byte `0xE4` gives the lexeme
`0xC3 0xA4`, and the two bytes of `é` give two tokens of two bytes each. -/
theorem illegal_token (input : Str) (p : Nat) (h : isOtherByte (input.getD p 0) = true) :
    (Lexer.atPos input p).Next =
      some ({ Typ := .ILLEGAL, Literal := utf8 (input.getD p 0) }, Lexer.atPos input (p + 1)) ∧
    (input.getD p 0 < 128 → utf8 (input.getD p 0) = [input.getD p 0]) ∧
    (128 ≤ input.getD p 0 → input.getD p 0 < 256 →
      utf8 (input.getD p 0) = [192 + input.getD p 0 / 64, 128 + input.getD p 0 % 64] ∧
      utf8 (input.getD p 0) ≠ [input.getD p 0]) ∧
    (∀ b, 128 ≤ b → isOtherByte b = true) ∧
    (Lexer.New [0xE4]).yields [⟨.ILLEGAL, [0xC3, 0xA4]⟩, eofToken] = true ∧
    (Lexer.New (str "é")).yields
      [⟨.ILLEGAL, [0xC3, 0x83]⟩, ⟨.ILLEGAL, [0xC2, 0xA9]⟩, eofToken] = true ∧
    str "é" = [0xC3, 0xA9] ∧
    (Lexer.New (str "a @ b")).yields
      [⟨.ID, str "a"⟩, ⟨.ILLEGAL, [64]⟩, ⟨.ID, str "b"⟩, eofToken] = true := by
  refine ⟨Lexer.Next_other input p h, ?_, fun h1 h2 => utf8_of_high_byte _ h1 h2,
    isOtherByte_of_high_byte, by decide!, by decide!, by decide!, by decide!⟩
  intro hlt
  unfold utf8
  rw [if_pos hlt]

theorem illegal_token_witness :
    (Lexer.atPos [0xE4] 0).Next =
      some ({ Typ := .ILLEGAL, Literal := utf8 0xE4 }, Lexer.atPos [0xE4] 1) ∧
    utf8 0xE4 = [0xC3, 0xA4] :=
  ⟨(illegal_token [0xE4] 0 (by decide)).1, by decide⟩

/-! ## String repetition and its integer operand -/

theorem Env.Get_of_envs (e : Nat) (name : Str) (w w1 : World) (r : Option Meta)
    (h : Env.Get e name w = .ok r w) (henvs : w1.envs = w.envs) :
    Env.Get e name w1 = .ok r w1 := by
  simp only [Env.Get] at h ⊢
  rw [henvs]
  cases hg : getLoop w.envs name w.envs.length e with
  | none => rw [hg] at h; cases h
  | some x =>
    rw [hg] at h
    simp only [Outcome.ok.injEq] at h
    rw [h.1]

theorem infixExp_times (w : World) (addr ref : Nat) (s : Str) (n : Int)
    (hr : w.ints.get? ref = some n) (hn : inInt64 n) :
    infixExp (str "*") (.String addr s) (.Int ref) w =
      .ok (.String w.fresh (repeatStr n.toNat s)) (w.counted ref n).withObject ∧
    infixExp (str "*") (.Int ref) (.String addr s) w =
      .ok (.String w.fresh (repeatStr n.toNat s)) (w.counted ref n).withObject := by
  constructor <;>
    simp [infixExp, Act.bind_apply, typeOf, Meta.Type, strPlusInfixExp,
      repeatString_spec s ref n w hr hn]

theorem counted_get (w : World) (ref : Nat) (k : Int) (hk : w.ints.get? ref = some k)
    (hpos : 0 < k) : (w.counted ref k).ints.get? ref = some 0 := by
  have hlen : ref < w.ints.length := by
    rcases Nat.lt_or_ge ref w.ints.length with h | h
    · exact h
    · rw [List.get?_eq_none.mpr h] at hk; cases hk
  simp [World.counted, hpos, List.get?_eq_getElem?, hlen]

theorem counted_envs (w : World) (ref : Nat) (k : Int) : (w.counted ref k).envs = w.envs := by
  unfold World.counted
  split <;> rfl

/-- C33: let the variable `name` be bound, in the frame `e` or a frame above it, to the `Int`
object `ref` that holds the 64-bit value `k`. Both `s * name` and `name * s` (with a string
literal `s`) evaluate to the string `s` repeated `max(k, 0)` times, and they leave the value
0 in the object `ref` when `k` was positive: the loop of `strPlusInfixExp` counts the
operand itself down. The variable is still bound to the object `ref`, so it now evaluates to
0, not to `k`. The program `var n = 3; var s = "ab" * n; n` evaluates to 0, a second
`"ab" * n` to the empty string, and a variable `m` set by `var m = n` is 0 as well. -/
theorem repetition_counts_its_operand_down (e : Nat) (w : World) (name : Identifier)
    (ref : Nat) (k : Int) (s : Str) (tok t : Token) (n : Nat)
    (hget : Env.Get e name.Value w = .ok (some (.Int ref)) w)
    (hk : w.ints.get? ref = some k) (hin : inInt64 k) :
    EvalExpression (n + 2)
        (.InfixExpression tok (str "*") (.StringLiteral t s) (.Identifier name)) e w =
      .ok (.String (w.fresh + 1) (repeatStr k.toNat s)) (w.withObject.counted ref k).withObject ∧
    EvalExpression (n + 2)
        (.InfixExpression tok (str "*") (.Identifier name) (.StringLiteral t s)) e w =
      .ok (.String (w.fresh + 1) (repeatStr k.toNat s)) (w.withObject.counted ref k).withObject ∧
    EvalExpression (n + 1) (.Identifier name) e (w.withObject.counted ref k).withObject =
      .ok (.Int ref) (w.withObject.counted ref k).withObject ∧
    (0 < k → (w.withObject.counted ref k).withObject.ints.get? ref = some 0) ∧
    (k ≤ 0 → (w.withObject.counted ref k).withObject.ints.get? ref = some k) ∧
    observe (testEval 30 (str "var n = 3; var s = \"ab\" * n; n")) = some (.Int 0, [0]) ∧
    observe (testEval 30 (str "var n = 3; var s = n * \"ab\"; n")) = some (.Int 0, [0]) ∧
    observe (testEval 30 (str "var n = 3; var s = \"ab\" * n; s")) =
      some (.String 1 (str "ababab"), [0]) ∧
    observe (testEval 30 (str "var n = 3; \"ab\" * n; \"ab\" * n")) =
      some (.String 3 [], [0]) ∧
    observe (testEval 30 (str "var n = 3; var m = n; \"ab\" * n; m")) = some (.Int 0, [0]) := by
  have hk1 : w.withObject.ints.get? ref = some k := hk
  have hget1 : Env.Get e name.Value w.withObject = .ok (some (.Int ref)) w.withObject :=
    Env.Get_of_envs e name.Value w _ _ hget rfl
  have hget2 : Env.Get e name.Value (w.withObject.counted ref k).withObject =
      .ok (some (.Int ref)) (w.withObject.counted ref k).withObject :=
    Env.Get_of_envs e name.Value w _ _ hget (counted_envs w.withObject ref k)
  have hlit : ∀ m (w0 : World), EvalExpression (m + 1) (.StringLiteral t s) e w0 =
      .ok (.String w0.fresh s) w0.withObject := by
    intro m w0
    rw [EvalExpression]
    rfl
  have hid : ∀ m (w0 : World), Env.Get e name.Value w0 = .ok (some (.Int ref)) w0 →
      EvalExpression (m + 1) (.Identifier name) e w0 = .ok (.Int ref) w0 := by
    intro m w0 h0
    rw [EvalExpression]
    simp only [identifier, Act.bind_apply, h0]
    rfl
  refine ⟨?_, ?_, hid n _ hget2, ?_, ?_, by decide!, by decide!, by decide!, by decide!,
    by decide!⟩
  · rw [EvalExpression]
    simp only [Act.bind_apply, hlit, isError, hid n _ hget1, Bool.false_eq_true, if_false]
    rw [(infixExp_times w.withObject w.fresh ref s k hk1 hin).1]
    rfl
  · rw [EvalExpression]
    simp only [Act.bind_apply, hid n _ hget, isError, hlit, Bool.false_eq_true, if_false]
    rw [(infixExp_times w.withObject w.fresh ref s k hk1 hin).2]
    rfl
  · intro hpos
    exact counted_get w.withObject ref k hk1 hpos
  · intro hle
    have hc : w.withObject.counted ref k = w.withObject := by
      simp only [World.counted]
      rw [if_neg (by omega)]
    rw [hc]
    exact hk

theorem repetition_counts_its_operand_down_witness :
    (World.counted (World.withObject { World.empty with
        ints := [3], envs := [{ store := [(str "n", .Int 0)], outer := none }] })
      0 3).withObject.ints.get? 0 = some 0 :=
  (repetition_counts_its_operand_down 0
    { World.empty with ints := [3], envs := [{ store := [(str "n", .Int 0)], outer := none }] }
    (ident "n") 0 3 (str "ab") (Token.New .ASTERISK 42) ⟨.STRING, str "ab"⟩ 0 rfl rfl
    (by unfold inInt64; decide)).2.2.2.1 (by decide)

/-! ## The condition of an if expression -/

/-- C34: `Eval` on an `if` node evaluates the condition, tests the value for an Error, and
calls `ifExp`, which evaluates the condition again. So when the first evaluation goes from
the heap `w` to `wa` with a value that is no Error, and the second one from `wa` to `wb`
with the value `c`, the node takes its branch by `c` and from the heap `wb`: the effects of
the condition are applied twice. After `if c() > 100 \x7b 0 \x7d` on the counter closure of
the claim the next call `c()` returns 3, where it returns 2 after a single call `c()`; and
`if echo(1) \x7b 2 \x7d` prints 1 twice. -/
theorem if_condition_is_evaluated_twice (e : Nat) (m : IfExpression) (w wa wb : World)
    (c0 c : Meta) (h0 : m.Condition.evaluatesTo e w c0 wa) (herr : isError c0 = false)
    (h1 : m.Condition.evaluatesTo e wa c wb) :
    (isTrue c = true → ∀ (v : Meta) (w2 : World), m.Consequence.evaluatesTo e wb v w2 →
      (Expression.IfExpression m).evaluatesTo e w v w2) ∧
    (isTrue c = false → m.Options = [] → m.Alternative = none →
      (Expression.IfExpression m).evaluatesTo e w .Nil wb) ∧
    observe (testEval 60 (str (counterSource ++ "if c() > 100 \x7b 0 \x7d; c()"))) =
      some (.Int 8, [0, 1, 1, 100, 1, 2, 100, 1, 3]) ∧
    observe (testEval 60 (str (counterSource ++ "c(); c()"))) = some (.Int 4, [0, 1, 1, 1, 2]) ∧
    outputAfter (testEval 60 (str "if echo(1) \x7b 2 \x7d")) =
      some [str "1", str "\n", str "1", str "\n"] := by
  obtain ⟨K0, h0⟩ := h0
  obtain ⟨K1, h1⟩ := h1
  refine ⟨?_, ?_, by decide!, by decide!, by decide!⟩
  · intro ht v w2 hb
    obtain ⟨K2, h2⟩ := hb
    refine ⟨max K0 (max K1 K2) + 2, fun k hk => ?_⟩
    obtain ⟨n, rfl⟩ : ∃ n, k = n + 2 := ⟨k - 2, by omega⟩
    rw [EvalExpression]
    simp only [Act.bind_apply, h0 (n + 1) (by omega), herr, Bool.false_eq_true, if_false]
    rw [ifExp]
    simp only [Act.bind_apply, h1 n (by omega), ht, if_true, h2 n (by omega)]
  · intro hf hopts halt
    refine ⟨max K0 K1 + 2, fun k hk => ?_⟩
    obtain ⟨n, rfl⟩ : ∃ n, k = n + 2 := ⟨k - 2, by omega⟩
    rw [EvalExpression]
    simp only [Act.bind_apply, h0 (n + 1) (by omega), herr, Bool.false_eq_true, if_false]
    rw [ifExp]
    simp only [Act.bind_apply, h1 n (by omega), hf, hopts, halt, List.length_nil,
      Bool.false_eq_true, if_false, gt_iff_lt, lt_self_iff_false]
    rfl

theorem if_condition_is_evaluated_twice_witness :
    (Expression.IfExpression (.mk (Token.New .IF 105) (.IntegerLiteral (intToken 5) 5) []
        (.mk (Token.New .LBRACE 123) []) none)).evaluatesTo 0 World.empty .nil
      ((World.empty.withInt 5).withInt 5) :=
  (if_condition_is_evaluated_twice 0
    (.mk (Token.New .IF 105) (.IntegerLiteral (intToken 5) 5) [] (.mk (Token.New .LBRACE 123) [])
      none)
    World.empty (World.empty.withInt 5) ((World.empty.withInt 5).withInt 5) (.Int 0) (.Int 1)
    (evaluatesTo_integer _ 5 0 _) rfl (evaluatesTo_integer _ 5 0 _)).1 rfl .nil _
    (evaluatesTo_empty_block _ 0 _)

/-! ## Calls with too few arguments -/

theorem bindArgs_short (env : Nat) (ps : List Identifier) :
    ∀ (as : List Meta) (w : World), as.length < ps.length → bindArgs env ps as w = .panic := by
  induction ps with
  | nil => intro as w h; simp at h
  | cons p ps ih =>
    intro as w h
    cases as with
    | nil => rfl
    | cons a as =>
      simp only [bindArgs, Act.bind_apply]
      cases hs : Env.Set env p.Value a w with
      | ok u w1 => exact ih as w1 (by simpa using h)
      | panic => rfl
      | fuel =>
        simp only [Env.Set] at hs
        split at hs <;> cases hs

/-- C35: `extendFunctionEnv` returns the new frame when there are at least as many arguments
as parameters (further arguments are not read), and ends in the runtime panic of `args[i]`
out of range when there are fewer; so does `applyFunction` on such a `Func` object, whatever
its body. The program `func f(x int) \x7b x \x7d; f()` ends in that panic, not in a value or
an Error, while `len()` returns the Error on the number of arguments and `f(1, 2)` evaluates
to 1. -/
theorem too_few_arguments_panic (fn : Func) (args : List Meta) (w : World) :
    (fn.Args.length ≤ args.length →
      extendFunctionEnv fn args w = .ok w.envs.length (w.called fn args)) ∧
    (args.length < fn.Args.length → extendFunctionEnv fn args w = .panic) ∧
    (args.length < fn.Args.length → ∀ (n ref : Nat), w.funcs.get? ref = some fn →
      applyFunction (n + 1) (.Func ref) args w = .panic) ∧
    (testEval 30 (str "func f(x int) \x7b x \x7d; f()")).panicked = true ∧
    (testEval 30 (str "func f(x int, y int) \x7b x \x7d; f(1)")).panicked = true ∧
    observe (testEval 30 (str "func f(x int) \x7b x \x7d; f(1, 2)")) = some (.Int 0, [1, 2]) ∧
    observe (testEval 30 (str "len()")) =
      some (.Error 0 (str "wrong number of arguments. got=0, want=1"), []) := by
  refine ⟨extendFunctionEnv_spec fn args w, ?_, ?_, by decide!, by decide!, by decide!,
    by decide!⟩
  · intro h
    simp only [extendFunctionEnv, Act.bind_apply, NewEnclosedEnv]
    rw [bindArgs_short _ fn.Args args _ h]
  · intro h n ref hf
    have hx : extendFunctionEnv fn args w = .panic := by
      simp only [extendFunctionEnv, Act.bind_apply, NewEnclosedEnv]
      rw [bindArgs_short _ fn.Args args _ h]
    rw [applyFunction]
    simp only [Act.bind_apply, funcOf, hf, hx]

theorem too_few_arguments_panic_witness :
    extendFunctionEnv (namedFunc (ident "f") [xParam] xBody 0) [] World.empty = .panic :=
  (too_few_arguments_panic (namedFunc (ident "f") [xParam] xBody 0) [] World.empty).2.1
    (by decide)

/-! ## Return inside a for loop -/

theorem forEver_of_everReturns (e : Nat) (body : BlockStatement) (w w1 : World) (v : Meta)
    (h : everReturns e body w v w1) :
    ∃ K, ∀ k, K ≤ k → forEver k body e w = .ok v w1 := by
  induction h with
  | hit w w1 a v hb =>
    obtain ⟨K, hK⟩ := hb
    refine ⟨K + 1, fun k hk => ?_⟩
    obtain ⟨n, rfl⟩ : ∃ n, k = n + 1 := ⟨k - 1, by omega⟩
    rw [forEver]
    simp only [Act.bind_apply, hK n (by omega)]
    rfl
  | iterate w w1 w2 x v hb hx _ ih =>
    obtain ⟨K1, h1⟩ := hb
    obtain ⟨K2, h2⟩ := ih
    refine ⟨max K1 K2 + 1, fun k hk => ?_⟩
    obtain ⟨n, rfl⟩ : ∃ n, k = n + 1 := ⟨k - 1, by omega⟩
    rw [forEver]
    simp only [Act.bind_apply, h1 n (by omega)]
    have h3 := h2 n (by omega)
    cases x <;> simp [isReturnValue] at hx <;> exact h3

theorem forLoop_of_loopReturns (e : Nat) (cond : List Statement) (last : Statement)
    (body : BlockStatement) (w w1 : World) (v : Meta)
    (h : loopReturns e cond last body w v w1) :
    ∃ K, ∀ k, K ≤ k → ∀ val, forLoop k cond last body e val w = .ok v w1 := by
  induction h with
  | hit w w1 w2 c a v hc ht hb =>
    obtain ⟨K1, h1⟩ := hc
    obtain ⟨K2, h2⟩ := hb
    refine ⟨max K1 K2 + 1, fun k hk val => ?_⟩
    obtain ⟨n, rfl⟩ : ∃ n, k = n + 1 := ⟨k - 1, by omega⟩
    rw [forLoop]
    simp only [Act.bind_apply, h1 n (by omega), ht, if_true, h2 n (by omega)]
    rfl
  | iterate w w1 w2 w3 w4 c x v hc ht hb hx hh _ ih =>
    obtain ⟨K1, h1⟩ := hc
    obtain ⟨K2, h2⟩ := hb
    obtain ⟨K3, h3⟩ := hh
    obtain ⟨K4, h4⟩ := ih
    refine ⟨max (max K1 K2) (max K3 K4) + 1, fun k hk val => ?_⟩
    obtain ⟨n, rfl⟩ : ∃ n, k = n + 1 := ⟨k - 1, by omega⟩
    rw [forLoop]
    simp only [Act.bind_apply, h1 n (by omega), ht, if_true, h2 n (by omega)]
    have h5 := h4 n (by omega) x
    have h6 := h3 n (by omega)
    cases x <;> simp [isReturnValue] at hx <;>
      simp only [Act.bind_apply, h6, h5]

theorem forStatement_of_forReturns (e : Nat) (tok : Token) (cond : List Statement)
    (body : BlockStatement) (w w1 : World) (v : Meta) (h : forReturns e cond body w v w1) :
    (Statement.ForStatement tok cond body).evaluatesTo e w v w1 := by
  unfold forReturns at h
  cases hl : cond.getLast? with
  | none =>
    rw [hl] at h
    obtain ⟨K, hK⟩ := forEver_of_everReturns e body w w1 v h
    refine ⟨K + 2, fun k hk => ?_⟩
    obtain ⟨n, rfl⟩ : ∃ n, k = n + 2 := ⟨k - 2, by omega⟩
    rw [EvalStatement]
    rw [forStatement]
    simp only [hl, hK n (by omega)]
  | some last =>
    rw [hl] at h
    obtain ⟨w0, ⟨K1, h1⟩, h2⟩ := h
    obtain ⟨K2, h2⟩ := forLoop_of_loopReturns e cond last body w0 w1 v h2
    refine ⟨max K1 K2 + 2, fun k hk => ?_⟩
    obtain ⟨n, rfl⟩ : ∃ n, k = n + 2 := ⟨k - 2, by omega⟩
    rw [EvalStatement]
    rw [forStatement]
    simp only [hl, Act.bind_apply, h1 n (by omega), h2 n (by omega)]

theorem evaluatesTo_returnOneBody (e : Nat) (w : World) :
    returnOneBody.evaluatesTo e w (.ReturnValue w.fresh (.Int w.ints.length))
      (w.withInt 1).withObject := by
  refine ⟨4, fun k hk => ?_⟩
  obtain ⟨n, rfl⟩ : ∃ n, k = n + 4 := ⟨k - 4, by omega⟩
  have hst : returnOneBody.Statements =
      [.ReturnStatement (Token.mk .RETURN (str "return")) (.IntegerLiteral (intToken 1) 1)] :=
    rfl
  rw [blockStatement, hst, blockLoop, EvalStatement, EvalExpression]
  rfl

/-- C36 (counterexample): a `return` in the body of a `for` statement does not end the call
of the enclosing function. The call of `func f() \x7b for \x7b return 1 \x7d; return 2 \x7d`
returns the `Int` object number 1 of the heap `[1, 2]`, which is 2 and not 1: the statement
after the loop is evaluated. The same holds with a header (`for true`), and an `echo(7)`
between the loop and the second `return` is run. -/
theorem return_in_loop_does_not_end_the_call :
    observe (testEval 40 (str "func f() \x7b for \x7b return 1 \x7d; return 2 \x7d; f()")) =
      some (.Int 1, [1, 2]) ∧
    observe (testEval 40 (str "func f() \x7b for true \x7b return 1 \x7d; return 2 \x7d; f()")) =
      some (.Int 1, [1, 2]) ∧
    outputAfter (testEval 40
      (str "func f() \x7b for \x7b return 1 \x7d; echo(7); return 2 \x7d; f()")) =
      some [str "7", str "\n"] ∧
    observe (testEval 40
      (str "func f() \x7b for \x7b return 1 \x7d; echo(7); return 2 \x7d; f()")) =
      some (.Int 2, [1, 7, 2]) := by
  decide!

/-- C36 (amended): a `return` in the body of a `for` statement ends the loop, and the value
of the statement is the returned value. When the body of a `for` statement is reached and
yields a `ReturnValue` with the inner value `v`, `forStatement` returns `v` itself, without
the wrapper. A block that holds the statement therefore does not stop there (unless `v` is an
Error or a wrapper again): it goes on with the statements after the loop, and its value is
theirs; only when the loop is the last statement is the value `v`. So the call of
`func f() \x7b for \x7b return 1 \x7d; return 2 \x7d` evaluates to 2 and not to 1, with a
header (`for true`) as well, and an `echo(7)` after the loop is run; with `if true` in the
place of `for` the call evaluates to 1. -/
theorem return_in_loop_ends_the_loop_only (e : Nat) (tok : Token) (cond : List Statement)
    (body : BlockStatement) (w w1 : World) (v : Meta)
    (hret : forReturns e cond body w v w1) (hv : stops v = false) :
    (Statement.ForStatement tok cond body).evaluatesTo e w v w1 ∧
    (∀ (tok2 : Token) (s : Statement) (rest : List Statement) (r : Meta) (w2 : World),
      (BlockStatement.mk tok2 (s :: rest)).evaluatesTo e w1 r w2 →
      (BlockStatement.mk tok2 (.ForStatement tok cond body :: s :: rest)).evaluatesTo e w r w2) ∧
    (∀ tok2 : Token,
      (BlockStatement.mk tok2 [.ForStatement tok cond body]).evaluatesTo e w v w1) ∧
    observe (testEval 40 (str "func f() \x7b for \x7b return 1 \x7d; return 2 \x7d; f()")) =
      some (.Int 1, [1, 2]) ∧
    observe (testEval 40 (str "func f() \x7b for true \x7b return 1 \x7d; return 2 \x7d; f()")) =
      some (.Int 1, [1, 2]) ∧
    observe (testEval 40 (str "func f() \x7b if true \x7b return 1 \x7d; return 2 \x7d; f()")) =
      some (.Int 0, [1]) ∧
    observe (testEval 40 (str "func f() \x7b for \x7b return 1 \x7d \x7d; f()")) =
      some (.Int 0, [1]) ∧
    outputAfter (testEval 40
      (str "func f() \x7b for \x7b return 1 \x7d; echo(7); return 2 \x7d; f()")) =
      some [str "7", str "\n"] := by
  have hfor := forStatement_of_forReturns e tok cond body w w1 v hret
  refine ⟨hfor, ?_, ?_, by decide!, by decide!, by decide!, by decide!, by decide!⟩
  · intro tok2 s rest r w2 hb
    obtain ⟨K1, h1⟩ := hfor
    obtain ⟨K2, h2⟩ := hb
    refine ⟨max K1 K2 + 2, fun k hk => ?_⟩
    obtain ⟨n, rfl⟩ : ∃ n, k = n + 2 := ⟨k - 2, by omega⟩
    rw [blockStatement]
    simp only [BlockStatement.Statements]
    rw [blockLoop]
    simp only [Act.bind_apply, h1 n (by omega)]
    have h4 : blockLoop n (s :: rest) e v w1 = .ok r w2 := by
      have h5 := h2 (n + 1) (by omega)
      rw [blockStatement] at h5
      simp only [BlockStatement.Statements] at h5
      cases n with
      | zero => rw [blockLoop] at h5; cases h5
      | succ m =>
        rw [blockLoop] at h5 ⊢
        exact h5
    cases v <;> simp [stops] at hv <;> exact h4
  · intro tok2
    obtain ⟨K1, h1⟩ := hfor
    refine ⟨K1 + 3, fun k hk => ?_⟩
    obtain ⟨n, rfl⟩ : ∃ n, k = n + 3 := ⟨k - 3, by omega⟩
    rw [blockStatement]
    simp only [BlockStatement.Statements]
    rw [blockLoop]
    simp only [Act.bind_apply, h1 (n + 1) (by omega)]
    cases v <;> simp [stops] at hv <;> simp [blockLoop, Act.pure_apply]

theorem return_in_loop_ends_the_loop_only_witness :
    (Statement.ForStatement (Token.mk .FOR (str "for")) [] returnOneBody).evaluatesTo 0
      World.empty (.Int 0) (World.empty.withInt 1).withObject :=
  (return_in_loop_ends_the_loop_only 0 (Token.mk .FOR (str "for")) [] returnOneBody World.empty
    (World.empty.withInt 1).withObject (.Int 0)
    (everReturns.hit _ _ 0 _ (evaluatesTo_returnOneBody 0 World.empty)) rfl).1

/-! ## Printing and parsing again -/

theorem reads_append (T : Nat → Token) (a b : List Token) :
    ∀ i, reads T i (a ++ b) ↔ reads T i a ∧ reads T (i + a.length) b := by
  induction a with
  | nil => intro i; simp [reads]
  | cons t ts ih =>
    intro i
    have e : i + (t :: ts).length = i + 1 + ts.length := by
      simp only [List.length_cons]; omega
    rw [e]
    show (T i = t ∧ reads T (i + 1) (ts ++ b)) ↔ (T i = t ∧ reads T (i + 1) ts) ∧ _
    rw [ih (i + 1), and_assoc]

theorem Parser.Next_cursor (L : Nat → Lexer) (T : Nat → Token)
    (hLT : ∀ j, (L j).Next = some (T j, L (j + 1))) (es : List Str) (i : Nat) :
    Parser.Next (cursor L T es i) = .ok () (cursor L T es (i + 1)) :=
  Parser.Next_mk (hLT (i + 2))

theorem isPlain_identifier {id : Identifier} (h : (Expression.Identifier id).isPlain = true) :
    ∃ v, id = .mk ⟨.ID, v⟩ v none ∧ isName v = true := by
  obtain ⟨t, v, ty⟩ := id
  simp only [Expression.isPlain, Bool.and_eq_true, beq_iff_eq, Option.isNone_iff_eq_none] at h
  obtain ⟨⟨h1, h2⟩, h3⟩ := h
  subst h1 h2
  exact ⟨v, rfl, h3⟩

theorem isPlain_integer {t : Token} {v : Int} (h : (Expression.IntegerLiteral t v).isPlain = true) :
    t.Typ = .INT ∧ isNumber t.Literal = true ∧ ParseInt0 t.Literal = some v := by
  simp only [Expression.isPlain, Bool.and_eq_true, beq_iff_eq] at h
  exact ⟨h.1.1, h.1.2, h.2⟩

theorem isPlain_boolean {t : Token} {b : Bool} (h : (Expression.BooleanLiteral t b).isPlain = true) :
    (t = ⟨.TRUE, str "true"⟩ ∧ b = true) ∨ (t = ⟨.FALSE, str "false"⟩ ∧ b = false) := by
  simpa [Expression.isPlain] using h

theorem isPlain_nil {t : Token} {v : Str} (h : (Expression.NilLiteral t v).isPlain = true) :
    t = ⟨.NIL, str "nil"⟩ ∧ v = str "nil" := by
  simpa [Expression.isPlain] using h

theorem isPlain_prefixExpression {t : Token} {op : Str} {r : Expression}
    (h : (Expression.PrefixExpression t op r).isPlain = true) :
    isPrefixOperator t = true ∧ t.Literal = t.Typ.text ∧ op = t.Literal ∧ r.isPlain = true := by
  simp only [Expression.isPlain, Bool.and_eq_true, beq_iff_eq] at h
  exact ⟨h.1.1.1, h.1.1.2, h.1.2, h.2⟩

theorem isPlain_infixExpression {t : Token} {op : Str} {l r : Expression}
    (h : (Expression.InfixExpression t op l r).isPlain = true) :
    isInfixOperator t = true ∧ t.Literal = t.Typ.text ∧ op = t.Literal ∧ l.isPlain = true ∧
      r.isPlain = true := by
  simp only [Expression.isPlain, Bool.and_eq_true, beq_iff_eq] at h
  exact ⟨h.1.1.1.1, h.1.1.1.2, h.1.1.2, h.1.2, h.2⟩

theorem isPlain_call {t : Token} {f : Expression} {args : List Expression}
    (h : (Expression.CallExpression t f args).isPlain = true) :
    t = lparenToken ∧ f.isPlain = true ∧ Expression.allPlain args = true := by
  simp only [Expression.isPlain, Bool.and_eq_true, beq_iff_eq] at h
  exact ⟨h.1.1, h.1.2, h.2⟩

theorem tokens_head (E : Expression) (h : E.isPlain = true) :
    ∃ t ts, E.tokens = t :: ts ∧ startsPlain t = true := by
  generalize hn : E.calls = n
  induction n generalizing E with
  | zero =>
    cases E <;> simp only [Expression.calls] at hn
    case Identifier id =>
      obtain ⟨v, rfl, _⟩ := isPlain_identifier h
      exact ⟨_, _, rfl, rfl⟩
    case IntegerLiteral t v =>
      obtain ⟨h1, _, _⟩ := isPlain_integer h
      exact ⟨t, [], rfl, by simp [startsPlain, h1]⟩
    case BooleanLiteral t b =>
      rcases isPlain_boolean h with ⟨rfl, _⟩ | ⟨rfl, _⟩ <;> exact ⟨_, _, rfl, rfl⟩
    case NilLiteral t v =>
      obtain ⟨rfl, _⟩ := isPlain_nil h
      exact ⟨_, _, rfl, rfl⟩
    case PrefixExpression t op r => exact ⟨_, _, rfl, rfl⟩
    case InfixExpression t op l r => exact ⟨_, _, rfl, rfl⟩
    all_goals first | (simp [Expression.isPlain] at h; done) | omega
  | succ n ih =>
    cases E <;> simp only [Expression.calls] at hn
    case CallExpression t f args =>
      obtain ⟨_, hf, _⟩ := isPlain_call h
      obtain ⟨t1, ts, e1, h1⟩ := ih f hf (by omega)
      refine ⟨t1, ts ++ t :: (Expression.argTokens args).drop 1 ++ [rparenToken], ?_, h1⟩
      simp only [Expression.tokens, e1, List.cons_append, List.append_assoc]
    all_goals omega

theorem tokens_length_pos (E : Expression) (h : E.isPlain = true) : 0 < E.tokens.length := by
  obtain ⟨t, ts, e, _⟩ := tokens_head E h
  rw [e]
  simp

theorem parseExpression_identifier (L : Nat → Lexer) (T : Nat → Token) (es : List Str)
    (n pb i : Nat) (v : Str) (h : T i = ⟨.ID, v⟩) :
    parseExpression (n + 1) pb (cursor L T es i) =
      parseExpressionLoop n pb (.Identifier (.mk ⟨.ID, v⟩ v none)) (cursor L T es i) := by
  have hc : (cursor L T es i).curTok = ⟨.ID, v⟩ := h
  simp [parseExpression, hc, parseIdentifier, Act.bind_apply, Parser.curIdentifier]

theorem parseExpression_integer (L : Nat → Lexer) (T : Nat → Token) (es : List Str)
    (n pb i : Nat) (t : Token) (v : Int) (h : T i = t)
    (ht : t.Typ = .INT) (hv : ParseInt0 t.Literal = some v) :
    parseExpression (n + 1) pb (cursor L T es i) =
      parseExpressionLoop n pb (.IntegerLiteral t v) (cursor L T es i) := by
  have hc : (cursor L T es i).curTok = t := h
  simp [parseExpression, hc, ht, parseIntegerLiteral, hv, Act.bind_apply]

theorem parseExpression_true (L : Nat → Lexer) (T : Nat → Token) (es : List Str)
    (n pb i : Nat) (h : T i = ⟨.TRUE, str "true"⟩) :
    parseExpression (n + 1) pb (cursor L T es i) =
      parseExpressionLoop n pb (.BooleanLiteral ⟨.TRUE, str "true"⟩ true) (cursor L T es i) := by
  have hc : (cursor L T es i).curTok = ⟨.TRUE, str "true"⟩ := h
  simp [parseExpression, hc, parseBoolean, Act.bind_apply, Parser.curTokenIs]

theorem parseExpression_false (L : Nat → Lexer) (T : Nat → Token) (es : List Str)
    (n pb i : Nat) (h : T i = ⟨.FALSE, str "false"⟩) :
    parseExpression (n + 1) pb (cursor L T es i) =
      parseExpressionLoop n pb (.BooleanLiteral ⟨.FALSE, str "false"⟩ false)
        (cursor L T es i) := by
  have hc : (cursor L T es i).curTok = ⟨.FALSE, str "false"⟩ := h
  simp [parseExpression, hc, parseBoolean, Act.bind_apply, Parser.curTokenIs]
  rfl

theorem parseExpression_nilLiteral (L : Nat → Lexer) (T : Nat → Token) (es : List Str)
    (n pb i : Nat) (h : T i = ⟨.NIL, str "nil"⟩) :
    parseExpression (n + 1) pb (cursor L T es i) =
      parseExpressionLoop n pb (.NilLiteral ⟨.NIL, str "nil"⟩ (str "nil")) (cursor L T es i) := by
  have hc : (cursor L T es i).curTok = ⟨.NIL, str "nil"⟩ := h
  simp [parseExpression, hc, parseNil, Act.bind_apply]

/-- A prefix operator in front of an operand that is parsed with the power `PREFIX`. -/
theorem parseExpression_prefixOperator (L : Nat → Lexer) (T : Nat → Token)
    (hLT : ∀ j, (L j).Next = some (T j, L (j + 1))) (es : List Str)
    (n pb i j : Nat) (t : Token) (r : Expression)
    (h : T i = t) (ht : isPrefixOperator t = true)
    (hr : parseExpression n PREFIX (cursor L T es (i + 1)) = .ok r (cursor L T es j)) :
    parseExpression (n + 2) pb (cursor L T es i) =
      parseExpressionLoop (n + 1) pb (.PrefixExpression t t.Literal r) (cursor L T es j) := by
  have hc : (cursor L T es i).curTok = t := h
  have hpf : parsePrefixExpression (n + 1) (cursor L T es i) =
      .ok (.PrefixExpression t t.Literal r) (cursor L T es j) := by
    rw [parsePrefixExpression]
    simp only [Act.bind_apply, Act.get, Parser.Next_cursor L T hLT es i, hr, hc]
    rfl
  unfold isPrefixOperator at ht
  rw [parseExpression]
  cases hT : t.Typ <;> simp [hT] at ht <;> simp [hc, hT, Act.bind_apply, hpf]

/-- A parenthesised expression. -/
theorem parseExpression_grouped (L : Nat → Lexer) (T : Nat → Token)
    (hLT : ∀ j, (L j).Next = some (T j, L (j + 1))) (es : List Str)
    (n pb i j : Nat) (x : Expression) (h : T i = lparenToken)
    (hx : parseExpression n LOWEST (cursor L T es (i + 1)) = .ok x (cursor L T es j))
    (hj : T (j + 1) = rparenToken) :
    parseExpression (n + 2) pb (cursor L T es i) =
      parseExpressionLoop (n + 1) pb x (cursor L T es (j + 1)) := by
  have hc : (cursor L T es i).curTok = lparenToken := h
  have hnx : (cursor L T es j).nextTok = rparenToken := hj
  have hg : parseGroupedExpression (n + 1) (cursor L T es i) = .ok x (cursor L T es (j + 1)) := by
    rw [parseGroupedExpression]
    simp only [Act.bind_apply, Parser.Next_cursor L T hLT es i, hx, Parser.expectNext,
      Parser.nextTokenIs, hnx, rparenToken, Token.New, beq_self_eq_true, if_true,
      Parser.Next_cursor L T hLT es j]
    rfl
  rw [parseExpression]
  simp [hc, lparenToken, Token.New, Act.bind_apply, hg]

/-- One turn of the expression loop at an infix operator. -/
theorem parseExpressionLoop_infixOperator (L : Nat → Lexer) (T : Nat → Token)
    (hLT : ∀ j, (L j).Next = some (T j, L (j + 1))) (es : List Str)
    (n pb j k : Nat) (t : Token) (l r : Expression)
    (h : T (j + 1) = t) (ht : isInfixOperator t = true) (hpb : pb < power t)
    (hr : parseExpression n (power t) (cursor L T es (j + 2)) = .ok r (cursor L T es k)) :
    parseExpressionLoop (n + 2) pb l (cursor L T es j) =
      parseExpressionLoop (n + 1) pb (.InfixExpression t t.Literal l r) (cursor L T es k) := by
  have hnx : (cursor L T es j).nextTok = t := h
  have hc : (cursor L T es (j + 1)).curTok = t := h
  rw [parseExpressionLoop_operator (n + 1) pb l (cursor L T es j) (cursor L T es (j + 1))
    (by rw [hnx]; exact ht) (by rw [hnx]; exact hpb) (Parser.Next_cursor L T hLT es j)]
  rw [Act.bind_apply, parseInfixExpression_step n l (cursor L T es (j + 1))
    (cursor L T es (j + 2)) (Parser.Next_cursor L T hLT es (j + 1))]
  rw [Act.bind_apply, hc, hr]
  rfl

/-- One turn of the expression loop at the `(` of a call. -/
theorem parseExpressionLoop_call (L : Nat → Lexer) (T : Nat → Token)
    (hLT : ∀ j, (L j).Next = some (T j, L (j + 1))) (es : List Str)
    (n pb j k : Nat) (f : Expression) (args : List Expression)
    (h : T (j + 1) = lparenToken) (hpb : pb < CALL)
    (ha : parseCallArguments n (cursor L T es (j + 1)) = .ok args (cursor L T es k)) :
    parseExpressionLoop (n + 2) pb f (cursor L T es j) =
      parseExpressionLoop (n + 1) pb (.CallExpression lparenToken f args) (cursor L T es k) := by
  have hnx : (cursor L T es j).nextTok = lparenToken := h
  have hc : (cursor L T es (j + 1)).curTok = lparenToken := h
  have hce : parseCallExpression (n + 1) f (cursor L T es (j + 1)) =
      .ok (.CallExpression lparenToken f args) (cursor L T es k) := by
    rw [parseCallExpression]
    simp only [Act.bind_apply, Act.get, ha, hc]
    rfl
  have hp : pb < (cursor L T es j).peekPowerBind := by
    simp only [Parser.peekPowerBind, hnx, lparenToken, Token.New, powerBind, Option.getD_some]
    exact hpb
  rw [parseExpressionLoop]
  simp [Parser.nextTokenIs, hnx, lparenToken, Token.New, hp, Act.bind_apply,
    Parser.Next_cursor L T hLT es j, hce]

theorem power_rparenToken : power rparenToken = LOWEST := rfl

theorem power_commaToken : power commaToken = LOWEST := rfl

/-- An expression followed by a token that binds no tighter than `pb` is parsed to its
end. -/
theorem parseExpression_stop (pb c : Nat) (E : Expression) (P Q : Parser)
    (h : ∃ K, ∀ m, K ≤ m → parseExpression (m + 1 + c) pb P = parseExpressionLoop m pb E Q)
    (hn : power Q.nextTok ≤ pb) :
    ∃ K, ∀ f, K ≤ f → parseExpression f pb P = .ok E Q := by
  obtain ⟨K, hK⟩ := h
  refine ⟨K + c + 2, fun f hf => ?_⟩
  obtain ⟨m, rfl⟩ : ∃ m, f = (m + 1) + 1 + c := ⟨f - c - 2, by omega⟩
  rw [hK (m + 1) (by omega)]
  exact parseExpressionLoop_stop m pb E Q (Or.inr hn)

theorem argTokens_head (rest : List Expression) :
    ∃ t ts, Expression.argTokens rest ++ [rparenToken] = t :: ts ∧
      (t = commaToken ∨ t = rparenToken) := by
  cases rest with
  | nil => exact ⟨_, _, rfl, Or.inr rfl⟩
  | cons a as => exact ⟨_, _, rfl, Or.inl rfl⟩

theorem reads_head (T : Nat → Token) (i : Nat) (t : Token) (ts : List Token)
    (h : reads T i (t :: ts)) : T i = t := h.1

/-- The loop of `parseCallArguments` over the arguments that follow the first one. -/
theorem parseCallArgumentsLoop_plain (L : Nat → Lexer) (T : Nat → Token)
    (hLT : ∀ j, (L j).Next = some (T j, L (j + 1))) (es : List Str) :
    ∀ (rest : List Expression),
      (∀ a ∈ rest, a.isPlain = true ∧ ∀ i, reads T i a.tokens →
        power (T (i + a.tokens.length)) ≤ LOWEST →
        ∃ K, ∀ f, K ≤ f → parseExpression f LOWEST (cursor L T es i) =
          .ok a (cursor L T es (i + (a.tokens.length - 1)))) →
      ∀ (acc : List Expression) (j : Nat),
        reads T (j + 1) (Expression.argTokens rest ++ [rparenToken]) →
        ∃ K, ∀ f, K ≤ f → parseCallArgumentsLoop f acc (cursor L T es j) =
          .ok (acc ++ rest) (cursor L T es (j + (Expression.argTokens rest).length)) := by
  intro rest
  induction rest with
  | nil =>
    intro _ acc j hr
    have hnx : (cursor L T es j).nextTok = rparenToken := hr.1
    refine ⟨1, fun f hf => ?_⟩
    obtain ⟨m, rfl⟩ : ∃ m, f = m + 1 := ⟨f - 1, by omega⟩
    rw [parseCallArgumentsLoop]
    simp [Parser.nextTokenIs, hnx, rparenToken, Token.New, Expression.argTokens]
  | cons a rest ih =>
    intro hall acc j hr
    obtain ⟨hpa, ha⟩ := hall a (List.mem_cons_self a rest)
    have hlen := tokens_length_pos a hpa
    have hr1 : reads T (j + 1) (commaToken :: (a.tokens ++
        (Expression.argTokens rest ++ [rparenToken]))) := by
      simpa [Expression.argTokens, List.append_assoc] using hr
    have hcomma : T (j + 1) = commaToken := hr1.1
    have hr2 := (reads_append T a.tokens _ (j + 1 + 1)).1 hr1.2
    obtain ⟨t, ts, e, ht⟩ := argTokens_head rest
    have hnext : T (j + 1 + 1 + a.tokens.length) = t := by
      have := hr2.2
      rw [e] at this
      exact this.1
    have hpow : power (T (j + 1 + 1 + a.tokens.length)) ≤ LOWEST := by
      rw [hnext]
      rcases ht with rfl | rfl
      · exact Nat.le_of_eq power_commaToken
      · exact Nat.le_of_eq power_rparenToken
    obtain ⟨K1, h1⟩ := ha (j + 1 + 1) hr2.1 hpow
    have hidx : j + 1 + 1 + (a.tokens.length - 1) + 1 = j + 1 + 1 + a.tokens.length := by omega
    obtain ⟨K2, h2⟩ := ih (fun b hb => hall b (List.mem_cons_of_mem a hb)) (acc ++ [a])
      (j + 1 + 1 + (a.tokens.length - 1)) (by rw [hidx]; exact hr2.2)
    have hnx : (cursor L T es j).nextTok = commaToken := hcomma
    refine ⟨max K1 K2 + 1, fun f hf => ?_⟩
    obtain ⟨m, rfl⟩ : ∃ m, f = m + 1 := ⟨f - 1, by omega⟩
    rw [parseCallArgumentsLoop]
    simp only [Parser.nextTokenIs, hnx, commaToken, Token.New, beq_self_eq_true, if_true,
      Act.bind_apply, Parser.Next_cursor L T hLT es j, Parser.Next_cursor L T hLT es (j + 1),
      h1 m (by omega), h2 m (by omega)]
    have e1 : acc ++ [a] ++ rest = acc ++ a :: rest := by simp
    have e2 : j + 1 + 1 + (a.tokens.length - 1) + (Expression.argTokens rest).length =
        j + (Expression.argTokens (a :: rest)).length := by
      simp only [Expression.argTokens, List.length_cons, List.length_append]
      omega
    rw [e1, e2]

/-- The argument list of a call, from the `(` to the `)`. -/
theorem parseCallArguments_plain (L : Nat → Lexer) (T : Nat → Token)
    (hLT : ∀ j, (L j).Next = some (T j, L (j + 1))) (es : List Str) (args : List Expression)
    (hall : ∀ a ∈ args, a.isPlain = true ∧ ∀ i, reads T i a.tokens →
      power (T (i + a.tokens.length)) ≤ LOWEST →
      ∃ K, ∀ f, K ≤ f → parseExpression f LOWEST (cursor L T es i) =
        .ok a (cursor L T es (i + (a.tokens.length - 1))))
    (c : Nat) (hr : reads T (c + 1) ((Expression.argTokens args).drop 1 ++ [rparenToken])) :
    ∃ K, ∀ f, K ≤ f → parseCallArguments f (cursor L T es c) =
      .ok args (cursor L T es (c + ((Expression.argTokens args).drop 1).length + 1)) := by
  cases args with
  | nil =>
    have hnx : (cursor L T es c).nextTok = rparenToken := hr.1
    refine ⟨1, fun f hf => ?_⟩
    obtain ⟨m, rfl⟩ : ∃ m, f = m + 1 := ⟨f - 1, by omega⟩
    rw [parseCallArguments]
    simp only [Parser.nextTokenIs, hnx, rparenToken, Token.New, beq_self_eq_true, if_true,
      Act.bind_apply, Parser.Next_cursor L T hLT es c]
    rfl
  | cons a rest =>
    obtain ⟨hpa, ha⟩ := hall a (List.mem_cons_self a rest)
    have hlen := tokens_length_pos a hpa
    have hr1 : reads T (c + 1) (a.tokens ++ (Expression.argTokens rest ++ [rparenToken])) := by
      simpa [Expression.argTokens, List.append_assoc] using hr
    have hr2 := (reads_append T a.tokens _ (c + 1)).1 hr1
    obtain ⟨t0, ts0, e0, hs0⟩ := tokens_head a hpa
    have hfirst : T (c + 1) = t0 := by
      have := hr2.1
      rw [e0] at this
      exact this.1
    have hnot : ((cursor L T es c).nextTok.Typ == TokenType.RPAREN) = false := by
      have hn : (cursor L T es c).nextTok = t0 := hfirst
      rw [hn]
      unfold startsPlain at hs0
      cases hT : t0.Typ <;> simp [hT] at hs0 <;> rfl
    obtain ⟨t, ts, e, ht⟩ := argTokens_head rest
    have hnext : T (c + 1 + a.tokens.length) = t := by
      have := hr2.2
      rw [e] at this
      exact this.1
    have hpow : power (T (c + 1 + a.tokens.length)) ≤ LOWEST := by
      rw [hnext]
      rcases ht with rfl | rfl
      · exact Nat.le_of_eq power_commaToken
      · exact Nat.le_of_eq power_rparenToken
    obtain ⟨K1, h1⟩ := ha (c + 1) hr2.1 hpow
    have hidx : c + 1 + (a.tokens.length - 1) + 1 = c + 1 + a.tokens.length := by omega
    have hr3 : reads T (c + 1 + (a.tokens.length - 1) + 1)
        (Expression.argTokens rest ++ [rparenToken]) := by
      rw [hidx]; exact hr2.2
    obtain ⟨K2, h2⟩ := parseCallArgumentsLoop_plain L T hLT es rest
      (fun b hb => hall b (List.mem_cons_of_mem a hb)) [a] (c + 1 + (a.tokens.length - 1)) hr3
    have hend : T (c + 1 + (a.tokens.length - 1) + (Expression.argTokens rest).length + 1) =
        rparenToken := by
      have := ((reads_append T (Expression.argTokens rest) [rparenToken] _).1 hr3).2.1
      rw [← this]
      congr 1
      omega
    have hnx : (cursor L T es
        (c + 1 + (a.tokens.length - 1) + (Expression.argTokens rest).length)).nextTok =
        rparenToken := hend
    refine ⟨max K1 K2 + 1, fun f hf => ?_⟩
    obtain ⟨m, rfl⟩ : ∃ m, f = m + 1 := ⟨f - 1, by omega⟩
    have hd : (Expression.argTokens (a :: rest)).drop 1 =
        a.tokens ++ Expression.argTokens rest := by
      simp [Expression.argTokens]
    have e2 : c + 1 + (a.tokens.length - 1) + (Expression.argTokens rest).length + 1 =
        c + ((Expression.argTokens (a :: rest)).drop 1).length + 1 := by
      rw [hd, List.length_append]
      omega
    rw [parseCallArguments]
    simp only [Parser.nextTokenIs, hnot, Bool.false_eq_true, if_false, Act.bind_apply,
      Parser.Next_cursor L T hLT es c, h1 m (by omega), h2 m (by omega), Parser.expectNext,
      hnx, rparenToken, Token.New, beq_self_eq_true, if_true,
      Parser.Next_cursor L T hLT es _]
    rw [← e2]
    simp [Act.pure_apply]

theorem size_lt_sizes (args : List Expression) : ∀ a ∈ args, a.size < Expression.sizes args := by
  induction args with
  | nil => intro a h; cases h
  | cons b rest ih =>
    intro a h
    simp only [Expression.sizes]
    rcases List.mem_cons.1 h with rfl | h1
    · omega
    · have := ih a h1
      omega

theorem isPlain_of_allPlain (args : List Expression) (h : Expression.allPlain args = true) :
    ∀ a ∈ args, a.isPlain = true := by
  induction args with
  | nil => intro a h; cases h
  | cons b rest ih =>
    intro a ha
    simp only [Expression.allPlain, Bool.and_eq_true] at h
    rcases List.mem_cons.1 ha with rfl | h1
    · exact h.1
    · exact ih h.2 a h1

/-- The parser on the tokens of a plain expression: `parseExpression` reaches its loop with
the node of the expression, at the last token of the expression. -/
theorem parseExpression_plain (L : Nat → Lexer) (T : Nat → Token)
    (hLT : ∀ j, (L j).Next = some (T j, L (j + 1))) (es : List Str) :
    ∀ (n : Nat) (E : Expression), E.size < n → E.isPlain = true →
      ∀ (i pb : Nat), pb < CALL → reads T i E.tokens →
      ∃ K, ∀ m, K ≤ m → parseExpression (m + 1 + E.calls) pb (cursor L T es i) =
        parseExpressionLoop m pb E (cursor L T es (i + (E.tokens.length - 1))) := by
  intro n
  induction n with
  | zero => intro E h; omega
  | succ n ih =>
    intro E hs hp i pb hpb hr
    cases E
    case Identifier id =>
      obtain ⟨v, rfl, _⟩ := isPlain_identifier hp
      exact ⟨0, fun m _ => parseExpression_identifier L T es m pb i v hr.1⟩
    case IntegerLiteral t v =>
      obtain ⟨h1, _, h3⟩ := isPlain_integer hp
      exact ⟨0, fun m _ => parseExpression_integer L T es m pb i t v hr.1 h1 h3⟩
    case BooleanLiteral t b =>
      rcases isPlain_boolean hp with ⟨rfl, rfl⟩ | ⟨rfl, rfl⟩
      · exact ⟨0, fun m _ => parseExpression_true L T es m pb i hr.1⟩
      · exact ⟨0, fun m _ => parseExpression_false L T es m pb i hr.1⟩
    case NilLiteral t v =>
      obtain ⟨rfl, rfl⟩ := isPlain_nil hp
      exact ⟨0, fun m _ => parseExpression_nilLiteral L T es m pb i hr.1⟩
    case PrefixExpression t op r =>
      obtain ⟨ht, _, rfl, hrp⟩ := isPlain_prefixExpression hp
      have hsr : r.size < n := by simp only [Expression.size] at hs; omega
      have hlen := tokens_length_pos r hrp
      have hr0 : reads T i (lparenToken :: t :: (r.tokens ++ [rparenToken])) := by
        simpa [Expression.tokens] using hr
      have h1 : T i = lparenToken := hr0.1
      have h2 : T (i + 1) = t := hr0.2.1
      have hr3 := (reads_append T r.tokens [rparenToken] (i + 1 + 1)).1 hr0.2.2
      have hend : T (i + 1 + 1 + r.tokens.length) = rparenToken := hr3.2.1
      have hloop := ih r hsr hrp (i + 1 + 1) PREFIX (by decide) hr3.1
      have hnx : T (i + 1 + 1 + (r.tokens.length - 1) + 1) = rparenToken := by
        rw [← hend]; congr 1; omega
      obtain ⟨K1, hK1⟩ := parseExpression_stop PREFIX r.calls r _ _ hloop
        (by show power (T _) ≤ _; rw [hnx]; decide)
      refine ⟨K1 + 3, fun m hm => ?_⟩
      obtain ⟨f, rfl⟩ : ∃ f, m = f + 3 := ⟨m - 3, by omega⟩
      have hin : parseExpression (f + 2) LOWEST (cursor L T es (i + 1)) =
          .ok (.PrefixExpression t t.Literal r)
            (cursor L T es (i + 1 + 1 + (r.tokens.length - 1))) := by
        rw [parseExpression_prefixOperator L T hLT es f LOWEST (i + 1) _ t r h2 ht
          (hK1 f (by omega))]
        exact parseExpressionLoop_stop f LOWEST _ _
          (Or.inr (by show power (T _) ≤ _; rw [hnx]; decide))
      have hg := parseExpression_grouped L T hLT es (f + 2) pb i _ _ h1 hin hnx
      have hj : i + ((Expression.PrefixExpression t t.Literal r).tokens.length - 1) =
          i + 1 + 1 + (r.tokens.length - 1) + 1 := by
        simp only [Expression.tokens, List.length_cons, List.length_append, List.length_nil]
        omega
      rw [hj]
      exact hg
    case InfixExpression t op l r =>
      obtain ⟨ht, _, rfl, hlp, hrp⟩ := isPlain_infixExpression hp
      have hsl : l.size < n := by simp only [Expression.size] at hs; omega
      have hsr : r.size < n := by simp only [Expression.size] at hs; omega
      have hlenl := tokens_length_pos l hlp
      have hlenr := tokens_length_pos r hrp
      have hpw := power_of_operator ht
      have hr0 : reads T i (lparenToken :: (l.tokens ++ (t :: (r.tokens ++ [rparenToken])))) := by
        simpa [Expression.tokens] using hr
      have h1 : T i = lparenToken := hr0.1
      have hr1 := (reads_append T l.tokens _ (i + 1)).1 hr0.2
      have h2 : T (i + 1 + l.tokens.length) = t := hr1.2.1
      have hr3 := (reads_append T r.tokens [rparenToken] (i + 1 + l.tokens.length + 1)).1 hr1.2.2
      have hend : T (i + 1 + l.tokens.length + 1 + r.tokens.length) = rparenToken := hr3.2.1
      obtain ⟨Kl, hKl⟩ := ih l hsl hlp (i + 1) LOWEST (by decide) hr1.1
      have e1 : i + 1 + (l.tokens.length - 1) + 1 = i + 1 + l.tokens.length := by omega
      have e2 : i + 1 + (l.tokens.length - 1) + 2 = i + 1 + l.tokens.length + 1 := by omega
      have h2a : T (i + 1 + (l.tokens.length - 1) + 1) = t := by rw [e1]; exact h2
      have hloopr := ih r hsr hrp (i + 1 + (l.tokens.length - 1) + 2) (power t)
        (by simp only [CALL]; omega) (by rw [e2]; exact hr3.1)
      have hnx : T (i + 1 + (l.tokens.length - 1) + 2 + (r.tokens.length - 1) + 1) =
          rparenToken := by
        rw [← hend]; congr 1; omega
      obtain ⟨Kr, hKr⟩ := parseExpression_stop (power t) r.calls r _ _ hloopr
        (by show power (T _) ≤ _; rw [hnx, power_rparenToken]; simp only [LOWEST]; omega)
      refine ⟨max Kl Kr + 4 + l.calls, fun m hm => ?_⟩
      obtain ⟨f, rfl⟩ : ∃ f, m = f + 4 + l.calls := ⟨m - 4 - l.calls, by omega⟩
      have hin : parseExpression (f + 3 + l.calls) LOWEST (cursor L T es (i + 1)) =
          .ok (.InfixExpression t t.Literal l r)
            (cursor L T es (i + 1 + (l.tokens.length - 1) + 2 + (r.tokens.length - 1))) := by
        have e3 : f + 3 + l.calls = (f + 2) + 1 + l.calls := by omega
        rw [e3, hKl (f + 2) (by omega)]
        rw [parseExpressionLoop_infixOperator L T hLT es f LOWEST _ _ t l r h2a ht
          (by simp only [LOWEST]; omega) (hKr f (by omega))]
        exact parseExpressionLoop_stop f LOWEST _ _
          (Or.inr (by show power (T _) ≤ _; rw [hnx]; decide))
      have hg := parseExpression_grouped L T hLT es (f + 3 + l.calls) pb i _ _ h1 hin hnx
      have hj : i + ((Expression.InfixExpression t t.Literal l r).tokens.length - 1) =
          i + 1 + (l.tokens.length - 1) + 2 + (r.tokens.length - 1) + 1 := by
        simp only [Expression.tokens, List.length_cons, List.length_append, List.length_nil]
        omega
      have e4 : f + 4 + l.calls + 1 + (Expression.InfixExpression t t.Literal l r).calls =
          f + 3 + l.calls + 2 := by
        simp only [Expression.calls]
        omega
      have e5 : f + 4 + l.calls = f + 3 + l.calls + 1 := by omega
      rw [hj, e4]
      rw [e5]
      exact hg
    case CallExpression t F args =>
      obtain ⟨rfl, hFp, hap⟩ := isPlain_call hp
      have hsF : F.size < n := by simp only [Expression.size] at hs; omega
      have hsa : ∀ a ∈ args, a.size < n := by
        intro a ha
        have := size_lt_sizes args a ha
        simp only [Expression.size] at hs
        omega
      have hlenF := tokens_length_pos F hFp
      have hr0 : reads T i (F.tokens ++ (lparenToken ::
          ((Expression.argTokens args).drop 1 ++ [rparenToken]))) := by
        simpa [Expression.tokens] using hr
      have hr1 := (reads_append T F.tokens _ i).1 hr0
      have h2 : T (i + F.tokens.length) = lparenToken := hr1.2.1
      have e1 : i + (F.tokens.length - 1) + 1 = i + F.tokens.length := by omega
      have h2a : T (i + (F.tokens.length - 1) + 1) = lparenToken := by rw [e1]; exact h2
      obtain ⟨KF, hKF⟩ := ih F hsF hFp i pb hpb hr1.1
      have hall : ∀ a ∈ args, a.isPlain = true ∧ ∀ i, reads T i a.tokens →
          power (T (i + a.tokens.length)) ≤ LOWEST →
          ∃ K, ∀ f, K ≤ f → parseExpression f LOWEST (cursor L T es i) =
            .ok a (cursor L T es (i + (a.tokens.length - 1))) := by
        intro a ha
        have hpa := isPlain_of_allPlain args hap a ha
        refine ⟨hpa, fun i1 hr1 hpow => ?_⟩
        have hla := tokens_length_pos a hpa
        refine parseExpression_stop LOWEST a.calls a _ _
          (ih a (hsa a ha) hpa i1 LOWEST (by decide) hr1) ?_
        show power (T (i1 + (a.tokens.length - 1) + 1)) ≤ _
        have : i1 + (a.tokens.length - 1) + 1 = i1 + a.tokens.length := by omega
        rw [this]
        exact hpow
      obtain ⟨Ka, hKa⟩ := parseCallArguments_plain L T hLT es args hall
        (i + (F.tokens.length - 1) + 1) (by
          have e6 : i + (F.tokens.length - 1) + 1 + 1 = i + F.tokens.length + 1 := by omega
          rw [e6]; exact hr1.2.2)
      refine ⟨max KF Ka + 1, fun m hm => ?_⟩
      obtain ⟨f, rfl⟩ : ∃ f, m = f + 1 := ⟨m - 1, by omega⟩
      have e7 : f + 1 + 1 + (Expression.CallExpression lparenToken F args).calls =
          (f + 2) + 1 + F.calls := by
        simp only [Expression.calls]
        omega
      rw [e7, hKF (f + 2) (by omega)]
      rw [parseExpressionLoop_call L T hLT es f pb _ _ F args h2a hpb (hKa f (by omega))]
      have hj : i + ((Expression.CallExpression lparenToken F args).tokens.length - 1) =
          i + (F.tokens.length - 1) + 1 + ((Expression.argTokens args).drop 1).length + 1 := by
        simp only [Expression.tokens, List.length_cons, List.length_append, List.length_nil]
        omega
      rw [hj]
    all_goals simp [Expression.isPlain] at hp

theorem tokens_after_identifier (E : Expression) (h : E.isPlain = true) (t : Token)
    (ts : List Token) (e : E.tokens = t :: ts) (ht : t.Typ = .ID) :
    ts = [] ∨ ∃ ts1, ts = lparenToken :: ts1 := by
  generalize hn : E.calls = n
  induction n generalizing E ts with
  | zero =>
    cases E <;> simp only [Expression.calls] at hn
    case Identifier id =>
      simp only [Expression.tokens, List.cons.injEq] at e
      exact Or.inl e.2.symm
    case IntegerLiteral t1 v =>
      simp only [Expression.tokens, List.cons.injEq] at e
      exact Or.inl e.2.symm
    case BooleanLiteral t1 b =>
      simp only [Expression.tokens, List.cons.injEq] at e
      exact Or.inl e.2.symm
    case NilLiteral t1 v =>
      simp only [Expression.tokens, List.cons.injEq] at e
      exact Or.inl e.2.symm
    case PrefixExpression t1 op r =>
      simp only [Expression.tokens, List.cons_append, List.cons.injEq] at e
      rw [← e.1] at ht
      cases ht
    case InfixExpression t1 op l r =>
      simp only [Expression.tokens, List.cons_append, List.cons.injEq] at e
      rw [← e.1] at ht
      cases ht
    all_goals first | (simp [Expression.isPlain] at h; done) | omega
  | succ n ih =>
    cases E <;> simp only [Expression.calls] at hn
    case CallExpression t1 F args =>
      obtain ⟨_, hF, _⟩ := isPlain_call h
      obtain ⟨t0, ts0, e0, _⟩ := tokens_head F hF
      simp only [Expression.tokens, e0, List.cons_append, List.cons.injEq] at e
      obtain ⟨rfl, rfl⟩ := e
      rcases ih F hF ts0 e0 (by omega) with rfl | ⟨ts1, rfl⟩
      · subst_vars
        exact Or.inr ⟨_, rfl⟩
      · exact Or.inr ⟨_, rfl⟩
    all_goals omega

/-- The statement that starts with a token of a plain expression is an expression
statement. -/
theorem parseStatement_plain (n : Nat) (p : Parser) (h : startsPlain p.curTok = true)
    (hid : p.curTok.Typ = .ID → p.nextTok.Typ ≠ .ASSIGN) :
    parseStatement (n + 2) p =
      (parseExpression n LOWEST >>= fun e =>
        Parser.skipSemicolon >>= fun _ => pure (Statement.ExpressionStatement p.curTok e)) p := by
  unfold startsPlain at h
  cases hT : p.curTok.Typ <;> simp [hT] at h hid <;>
    simp [parseStatement, parseExpressionStatement, hT, Act.bind_apply, Act.get, *]

/-- The parser on a lexer that returns the tokens of a plain expression and then `EOF`:
the program is one expression statement with that expression, and no message is recorded. -/
theorem parseLexer_plain (L : Nat → Lexer) (T : Nat → Token)
    (hLT : ∀ j, (L j).Next = some (T j, L (j + 1))) (E : Expression) (hp : E.isPlain = true)
    (hr : reads T 0 (E.tokens ++ [eofToken])) :
    ∃ K, ∀ f, K ≤ f → parseLexer f (L 0) =
      .ok { Statements := [.ExpressionStatement (T 0) E] } (cursor L T [] E.tokens.length) := by
  have hlen := tokens_length_pos E hp
  have hr1 := (reads_append T E.tokens [eofToken] 0).1 hr
  have hend : T (0 + E.tokens.length) = eofToken := hr1.2.1
  obtain ⟨t0, ts0, e0, hs0⟩ := tokens_head E hp
  have hfirst : T 0 = t0 := by
    have := hr1.1
    rw [e0] at this
    exact this.1
  have hnew : Parser.New (L 0) = some (cursor L T [] 0) := by
    simp only [Parser.New, hLT 0, hLT 1]
    rfl
  have hnx : T (0 + (E.tokens.length - 1) + 1) = eofToken := by
    rw [← hend]; congr 1; omega
  obtain ⟨K, hK⟩ := parseExpression_stop LOWEST E.calls E _ _
    (parseExpression_plain L T hLT [] (E.size + 1) E (by omega) hp 0 LOWEST (by decide) hr1.1)
    (by show power (T _) ≤ _; rw [hnx]; decide)
  have hstart : startsPlain (cursor L T [] 0).curTok = true := by
    show startsPlain (T 0) = true
    rw [hfirst]; exact hs0
  have hid : (cursor L T [] 0).curTok.Typ = .ID → (cursor L T [] 0).nextTok.Typ ≠ .ASSIGN := by
    intro h
    have h0 : t0.Typ = .ID := by rw [← hfirst]; exact h
    show (T (0 + 1)).Typ ≠ _
    have hr2 : reads T (0 + 1) (ts0 ++ [eofToken]) := by
      have := hr
      rw [e0] at this
      exact this.2
    rcases tokens_after_identifier E hp t0 ts0 e0 h0 with rfl | ⟨ts1, rfl⟩
    · rw [hr2.1]; decide
    · rw [hr2.1]; decide
  refine ⟨K + 3, fun f hf => ?_⟩
  obtain ⟨m, rfl⟩ : ∃ m, f = m + 3 := ⟨f - 3, by omega⟩
  have hcurE : (cursor L T [] (0 + (E.tokens.length - 1))).nextTok = eofToken := hnx
  have hs : parseStatement (m + 2) (cursor L T [] 0) =
      .ok (.ExpressionStatement (T 0) E) (cursor L T [] (0 + (E.tokens.length - 1))) := by
    rw [parseStatement_plain m _ hstart hid, Act.bind_apply, hK m (by omega)]
    simp only [Act.bind_apply, skipSemicolon_eof _ hcurE, Act.pure_apply]
    rfl
  have hcur : (cursor L T [] 0).curTok.Typ ≠ .EOF := by
    show (T 0).Typ ≠ _
    rw [hfirst]
    unfold startsPlain at hs0
    cases hT : t0.Typ <;> simp [hT] at hs0 <;> simp
  have hloop := parseLoop_one (m + 1) (cursor L T [] 0) _
    (cursor L T [] (0 + (E.tokens.length - 1) + 1)) (.ExpressionStatement (T 0) E) hcur hs rfl
    (Parser.Next_cursor L T hLT [] _) (by
      show (T (0 + (E.tokens.length - 1) + 1)).Typ = _
      rw [hnx]; rfl)
  have hidx : 0 + (E.tokens.length - 1) + 1 = E.tokens.length := by omega
  rw [hidx] at hloop
  simp only [parseLexer, hnew, Parser.Parse, Act.bind_apply, hloop, Act.pure_apply]

theorem lexes_append (input : Str) (a b : List Token) (q r : Nat) :
    ∀ p, lexes input p a q → lexes input q b r → lexes input p (a ++ b) r := by
  induction a with
  | nil =>
    intro p h1 h2
    have : p = q := h1
    subst this
    exact h2
  | cons t ts ih =>
    intro p h1 h2
    obtain ⟨p1, hn, h3⟩ := h1
    exact ⟨p1, hn, ih p1 h3 h2⟩

theorem getD_of_drop (input : Str) (p b : Nat) (rest : Str) (h : input.drop p = b :: rest) :
    input.getD p 0 = b := by
  have hp : p < input.length := by
    by_contra hc
    rw [List.drop_eq_nil_of_le (by omega)] at h
    cases h
  have := List.drop_eq_getElem_cons hp
  rw [h] at this
  rw [List.getD_eq_getElem _ _ hp]
  exact (List.cons.inj this).1.symm

theorem drop_add_of_drop (input : Str) (p : Nat) (s suf : Str) (h : input.drop p = s ++ suf) :
    input.drop (p + s.length) = suf := by
  rw [← List.drop_drop, h, List.drop_left]

theorem getD_after (input : Str) (p : Nat) (s suf : Str) (h : input.drop p = s ++ suf) :
    input.getD (p + s.length) 0 = suf.headD 0 := by
  have h1 := drop_add_of_drop input p s suf h
  cases suf with
  | nil =>
    have : input.length ≤ p + s.length := by
      have := congrArg List.length h1
      simp only [List.length_drop, List.length_nil] at this
      omega
    rw [List.getD_eq_default _ _ this]
    rfl
  | cons b rest => exact getD_of_drop input _ b rest h1

/-- A blank in front of a token is skipped. -/
theorem lexes_blank (input : Str) (p q : Nat) (t : Token) (ts : List Token)
    (hb : isBlank (input.getD p 0) = true) (h : lexes input (p + 1) (t :: ts) q) :
    lexes input p (t :: ts) q := by
  obtain ⟨p1, hn, h1⟩ := h
  refine ⟨p1, ?_, h1⟩
  obtain ⟨_, hr⟩ := runFrom_of_cond isBlank input p rfl hb
  rw [Lexer.Next_skips_blanks, hr, ← hn, Lexer.Next_skips_blanks input (p + 1)]
  congr 2
  simp only [List.length_cons]
  omega

theorem takeWhile_append_stop (c : Nat → Bool) (v suf : Str) (hv : v.all c = true)
    (hs : c (suf.headD 0) = false) : (v ++ suf).takeWhile c = v := by
  induction v with
  | nil =>
    cases suf with
    | nil => rfl
    | cons b rest =>
      have : c b = false := hs
      simp [List.takeWhile, this]
  | cons a rest ih =>
    simp only [List.all_cons, Bool.and_eq_true] at hv
    simp only [List.cons_append, List.takeWhile, hv.1]
    show a :: List.takeWhile c (rest ++ suf) = _
    rw [ih hv.2]

/-- A run of letters that ends before a byte that is no letter is one token. -/
theorem Lexer.Next_word (input : Str) (p : Nat) (v suf : Str) (h : input.drop p = v ++ suf)
    (hne : v ≠ []) (hv : v.all isLetter = true) (hs : isLetter (suf.headD 0) = false) :
    (Lexer.atPos input p).Next =
      some ({ Typ := GetTokenType v, Literal := v }, Lexer.atPos input (p + v.length)) := by
  have hrun : runFrom isLetter input p = v := by
    unfold runFrom
    rw [h]
    exact takeWhile_append_stop isLetter v suf hv hs
  obtain ⟨a, rest, rfl⟩ := List.exists_cons_of_ne_nil hne
  have hfirst : isLetter (input.getD p 0) = true := by
    rw [getD_of_drop input p a (rest ++ suf) h]
    simp only [List.all_cons, Bool.and_eq_true] at hv
    exact hv.1
  rw [Lexer.Next_letter input p hfirst, hrun]

/-- A run of digits that ends before a byte that is no digit is one `INT` token. -/
theorem Lexer.Next_number (input : Str) (p : Nat) (v suf : Str) (h : input.drop p = v ++ suf)
    (hne : v ≠ []) (hv : v.all isDigit = true) (hs : isDigit (suf.headD 0) = false) :
    (Lexer.atPos input p).Next =
      some ({ Typ := .INT, Literal := v }, Lexer.atPos input (p + v.length)) := by
  have hrun : runFrom isDigit input p = v := by
    unfold runFrom
    rw [h]
    exact takeWhile_append_stop isDigit v suf hv hs
  obtain ⟨a, rest, rfl⟩ := List.exists_cons_of_ne_nil hne
  have hfirst : isDigit (input.getD p 0) = true := by
    rw [getD_of_drop input p a (rest ++ suf) h]
    simp only [List.all_cons, Bool.and_eq_true] at hv
    exact hv.1
  rw [Lexer.Next_digit input p hfirst, hrun]

theorem punct_facts : ∀ c, c < 126 → (punct c).isSome = true →
    isBlank c = false ∧ c ≠ 61 ∧ c ≠ 33 ∧ c ≠ 34 ∧ c ≠ 0 := by
  decide!

theorem punct_lt {c : Nat} {tt : TokenType} (h : punct c = some tt) : c < 126 := by
  by_contra hc
  have : punct c = none := by
    unfold punct
    repeat rw [if_neg (by omega)]
  rw [this] at h
  cases h

/-- A single-byte operator or delimiter is one token. -/
theorem Lexer.Next_punct (input : Str) (p : Nat) (tt : TokenType)
    (h : punct (input.getD p 0) = some tt) :
    (Lexer.atPos input p).Next =
      some (Token.New tt (input.getD p 0), Lexer.atPos input (p + 1)) := by
  obtain ⟨hb, h61, h33, h34, h0⟩ := punct_facts _ (punct_lt h) (by rw [h]; rfl)
  have hch : (Lexer.atPos input p).ch = input.getD p 0 := rfl
  unfold Lexer.Next
  rw [Lexer.eatBlank_of_not input p hb]
  simp only [hch, h61, h33, h34, h0, h, if_false, Lexer.eat_atPos]

theorem Lexer.peak_atPos (input : Str) (p : Nat) :
    (Lexer.atPos input p).peak = input.getD (p + 1) 0 := by
  simp only [Lexer.peak, Lexer.atPos]
  by_cases h : p + 1 ≥ input.length
  · rw [if_pos h, List.getD_eq_default _ _ h]
  · rw [if_neg h]

/-- The two bytes `==` are one token. -/
theorem Lexer.Next_eq (input : Str) (p : Nat) (h1 : input.getD p 0 = 61)
    (h2 : input.getD (p + 1) 0 = 61) :
    (Lexer.atPos input p).Next = some (⟨.EQ, str "=="⟩, Lexer.atPos input (p + 1 + 1)) := by
  have hb : isBlank (input.getD p 0) = false := by rw [h1]; rfl
  have hch : (Lexer.atPos input p).ch = input.getD p 0 := rfl
  have hch1 : (Lexer.atPos input (p + 1)).ch = input.getD (p + 1) 0 := rfl
  unfold Lexer.Next
  rw [Lexer.eatBlank_of_not input p hb]
  simp only [hch, h1, Lexer.peak_atPos, h2, if_true, Lexer.eat_atPos, hch1]
  rfl

/-- The two bytes `!=` are one token. -/
theorem Lexer.Next_neq (input : Str) (p : Nat) (h1 : input.getD p 0 = 33)
    (h2 : input.getD (p + 1) 0 = 61) :
    (Lexer.atPos input p).Next = some (⟨.NEQ, str "!="⟩, Lexer.atPos input (p + 1 + 1)) := by
  have hb : isBlank (input.getD p 0) = false := by rw [h1]; rfl
  have hch : (Lexer.atPos input p).ch = input.getD p 0 := rfl
  have hch1 : (Lexer.atPos input (p + 1)).ch = input.getD (p + 1) 0 := rfl
  unfold Lexer.Next
  rw [Lexer.eatBlank_of_not input p hb]
  simp only [hch, h1, Lexer.peak_atPos, h2, if_true, Lexer.eat_atPos, hch1]
  rw [if_neg (by decide)]
  rfl

/-- A `!` that is not followed by `=` is the token `BANG`. -/
theorem Lexer.Next_bang (input : Str) (p : Nat) (h1 : input.getD p 0 = 33)
    (h2 : input.getD (p + 1) 0 ≠ 61) :
    (Lexer.atPos input p).Next = some (Token.New .BANG 33, Lexer.atPos input (p + 1)) := by
  have hb : isBlank (input.getD p 0) = false := by rw [h1]; rfl
  have hch : (Lexer.atPos input p).ch = input.getD p 0 := rfl
  unfold Lexer.Next
  rw [Lexer.eatBlank_of_not input p hb]
  simp only [hch, h1, Lexer.peak_atPos, h2, if_false, Lexer.eat_atPos]
  rw [if_neg (by decide)]
  rfl

/-- The text of an infix operator is one token. -/
theorem Lexer.Next_infixOperator (input : Str) (p : Nat) (t : Token) (suf : Str)
    (ht : isInfixOperator t = true) (hlit : t.Literal = t.Typ.text)
    (h : input.drop p = t.Literal ++ suf) :
    (Lexer.atPos input p).Next = some (t, Lexer.atPos input (p + t.Literal.length)) := by
  obtain ⟨ty, lit⟩ := t
  simp only at hlit h ⊢
  subst hlit
  unfold isInfixOperator at ht
  cases ty <;> simp at ht
  case EQ =>
    have h1 := getD_of_drop input p 61 (61 :: suf) h
    have h2 := getD_of_drop input (p + 1) 61 suf (drop_add_of_drop input p [61] (61 :: suf) h)
    exact Lexer.Next_eq input p h1 h2
  case NEQ =>
    have h1 := getD_of_drop input p 33 (61 :: suf) h
    have h2 := getD_of_drop input (p + 1) 61 suf (drop_add_of_drop input p [33] (61 :: suf) h)
    exact Lexer.Next_neq input p h1 h2
  all_goals
    have h1 := getD_of_drop input p _ suf h
    have h2 := Lexer.Next_punct input p _ (by rw [h1]; rfl)
    rw [h1] at h2
    exact h2

/-- The text of a prefix operator in front of a byte other than `=` is one token. -/
theorem Lexer.Next_prefixOperator (input : Str) (p : Nat) (t : Token) (suf : Str)
    (ht : isPrefixOperator t = true) (hlit : t.Literal = t.Typ.text)
    (h : input.drop p = t.Literal ++ suf) (hs : suf.headD 0 ≠ 61) :
    (Lexer.atPos input p).Next = some (t, Lexer.atPos input (p + 1)) := by
  obtain ⟨ty, lit⟩ := t
  simp only at hlit h ⊢
  subst hlit
  unfold isPrefixOperator at ht
  cases ty <;> simp at ht
  case BANG =>
    have h1 := getD_of_drop input p 33 suf h
    have h2 : input.getD (p + 1) 0 = suf.headD 0 := getD_after input p [33] suf h
    exact Lexer.Next_bang input p h1 (by rw [h2]; exact hs)
  case MINUS =>
    have h1 := getD_of_drop input p 45 suf h
    have h2 := Lexer.Next_punct input p .MINUS (by rw [h1]; rfl)
    rw [h1] at h2
    exact h2

theorem lexes_one (input : Str) (p q : Nat) (t : Token)
    (h : (Lexer.atPos input p).Next = some (t, Lexer.atPos input q)) : lexes input p [t] q :=
  ⟨q, h, rfl⟩

theorem lexes_lparen (input : Str) (p : Nat) (rest : Str) (h : input.drop p = 40 :: rest) :
    lexes input p [lparenToken] (p + 1) := by
  have h1 := getD_of_drop input p 40 rest h
  have h2 := Lexer.Next_punct input p .LPAREN (by rw [h1]; rfl)
  rw [h1] at h2
  exact lexes_one input p _ _ h2

theorem lexes_rparen (input : Str) (p : Nat) (rest : Str) (h : input.drop p = 41 :: rest) :
    lexes input p [rparenToken] (p + 1) := by
  have h1 := getD_of_drop input p 41 rest h
  have h2 := Lexer.Next_punct input p .RPAREN (by rw [h1]; rfl)
  rw [h1] at h2
  exact lexes_one input p _ _ h2

theorem lexes_comma (input : Str) (p : Nat) (rest : Str) (h : input.drop p = 44 :: rest) :
    lexes input p [commaToken] (p + 1) := by
  have h1 := getD_of_drop input p 44 rest h
  have h2 := Lexer.Next_punct input p .COMMA (by rw [h1]; rfl)
  rw [h1] at h2
  exact lexes_one input p _ _ h2

theorem isName_head {v : Str} (h : isName v = true) :
    v ≠ [] ∧ v.all isLetter = true ∧ GetTokenType v = .ID := by
  simp only [isName, Bool.and_eq_true, Bool.not_eq_true', List.isEmpty_eq_false, beq_iff_eq] at h
  exact ⟨h.1.1, h.1.2, h.2⟩

theorem isNumber_head {v : Str} (h : isNumber v = true) : v ≠ [] ∧ v.all isDigit = true := by
  simp only [isNumber, Bool.and_eq_true, Bool.not_eq_true', List.isEmpty_eq_false] at h
  exact h

/-- The text of a plain expression starts with a letter, a digit or `(`. -/
theorem text_head (E : Expression) (h : E.isPlain = true) :
    ∃ b rest, E.text = b :: rest ∧ (isLetter b = true ∨ isDigit b = true ∨ b = 40) := by
  generalize hn : E.calls = n
  induction n generalizing E with
  | zero =>
    cases E <;> simp only [Expression.calls] at hn
    case Identifier id =>
      obtain ⟨v, rfl, hv⟩ := isPlain_identifier h
      obtain ⟨h1, h2, _⟩ := isName_head hv
      obtain ⟨a, rest, rfl⟩ := List.exists_cons_of_ne_nil h1
      simp only [List.all_cons, Bool.and_eq_true] at h2
      exact ⟨a, rest, rfl, Or.inl h2.1⟩
    case IntegerLiteral t v =>
      obtain ⟨_, hv, _⟩ := isPlain_integer h
      obtain ⟨h1, h2⟩ := isNumber_head hv
      obtain ⟨a, rest, e⟩ := List.exists_cons_of_ne_nil h1
      rw [e] at h2
      simp only [List.all_cons, Bool.and_eq_true] at h2
      exact ⟨a, rest, e, Or.inr (Or.inl h2.1)⟩
    case BooleanLiteral t b =>
      rcases isPlain_boolean h with ⟨rfl, _⟩ | ⟨rfl, _⟩
      · exact ⟨116, _, rfl, Or.inl rfl⟩
      · exact ⟨102, _, rfl, Or.inl rfl⟩
    case NilLiteral t v =>
      obtain ⟨rfl, _⟩ := isPlain_nil h
      exact ⟨110, _, rfl, Or.inl rfl⟩
    case PrefixExpression t op r => exact ⟨40, _, rfl, Or.inr (Or.inr rfl)⟩
    case InfixExpression t op l r => exact ⟨40, _, rfl, Or.inr (Or.inr rfl)⟩
    all_goals first | (simp [Expression.isPlain] at h; done) | omega
  | succ n ih =>
    cases E <;> simp only [Expression.calls] at hn
    case CallExpression t f args =>
      obtain ⟨_, hf, _⟩ := isPlain_call h
      obtain ⟨b, rest, e1, h1⟩ := ih f hf (by omega)
      refine ⟨b, rest ++ (str "(" ++ (Expression.argText args).drop 2 ++ str ")"), ?_, h1⟩
      simp only [Expression.text, e1, List.cons_append, List.append_assoc]
    all_goals omega

theorem argText_head (rest : List Expression) (suf : Str) :
    endsWord (Expression.argText rest ++ 41 :: suf) = true := by
  cases rest with
  | nil => rfl
  | cons a as => rfl

theorem operator_literal_length {t : Token} (ht : isPrefixOperator t = true)
    (hlit : t.Literal = t.Typ.text) : t.Literal.length = 1 := by
  rw [hlit]
  unfold isPrefixOperator at ht
  cases hT : t.Typ <;> simp [hT] at ht <;> rfl

theorem lexes_cons_of_blank (input : Str) (p q : Nat) (ts : List Token) (hne : ts ≠ [])
    (hb : isBlank (input.getD p 0) = true) (h : lexes input (p + 1) ts q) :
    lexes input p ts q := by
  obtain ⟨t, rest, rfl⟩ := List.exists_cons_of_ne_nil hne
  exact lexes_blank input p q t rest hb h

/-- The lexer on the arguments of a call after the first one. -/
theorem lexes_arguments (input : Str) (suf : Str) :
    ∀ (rest : List Expression),
      (∀ a ∈ rest, a.isPlain = true ∧ ∀ (p : Nat) (s : Str), input.drop p = a.text ++ s →
        endsWord s = true → lexes input p a.tokens (p + a.text.length)) →
      ∀ q, input.drop q = Expression.argText rest ++ 41 :: suf →
        lexes input q (Expression.argTokens rest) (q + (Expression.argText rest).length) := by
  intro rest
  induction rest with
  | nil =>
    intro _ q _
    show q = q + 0
    rfl
  | cons a rest ih =>
    intro hall q h
    obtain ⟨hpa, ha⟩ := hall a (List.mem_cons_self a rest)
    have h0 : input.drop q = 44 :: 32 :: (a.text ++ (Expression.argText rest ++ 41 :: suf)) := by
      rw [h]
      simp only [Expression.argText, List.append_assoc]
      rfl
    have hc := lexes_comma input q _ h0
    have h1 : input.drop (q + 1) = 32 :: (a.text ++ (Expression.argText rest ++ 41 :: suf)) :=
      drop_add_of_drop input q [44] _ h0
    have hb : isBlank (input.getD (q + 1) 0) = true := by
      rw [getD_of_drop input (q + 1) 32 _ h1]; rfl
    have h2 : input.drop (q + 1 + 1) = a.text ++ (Expression.argText rest ++ 41 :: suf) :=
      drop_add_of_drop input (q + 1) [32] _ h1
    have hla := ha (q + 1 + 1) _ h2 (argText_head rest suf)
    have hne : a.tokens ≠ [] := by
      obtain ⟨t, ts, e, _⟩ := tokens_head a hpa
      rw [e]; simp
    have hla1 := lexes_cons_of_blank input (q + 1) _ a.tokens hne hb hla
    have h3 : input.drop (q + 1 + 1 + a.text.length) = Expression.argText rest ++ 41 :: suf :=
      drop_add_of_drop input (q + 1 + 1) a.text _ h2
    have hrest := ih (fun b hb => hall b (List.mem_cons_of_mem a hb)) _ h3
    have := lexes_append input _ _ _ _ q hc
      (lexes_append input _ _ _ _ (q + 1) hla1 hrest)
    have e : q + (Expression.argText (a :: rest)).length =
        q + 1 + 1 + a.text.length + (Expression.argText rest).length := by
      have hl : (str ", ").length = 2 := rfl
      simp only [Expression.argText, List.length_append, hl]
      omega
    rw [e]
    exact this

/-- The lexer on the text of a plain expression returns the tokens of the expression. -/
theorem lexes_plain :
    ∀ (n : Nat) (E : Expression), E.size < n → E.isPlain = true →
      ∀ (input : Str) (p : Nat) (suf : Str), input.drop p = E.text ++ suf →
        endsWord suf = true → lexes input p E.tokens (p + E.text.length) := by
  intro n
  induction n with
  | zero => intro E h; omega
  | succ n ih =>
    intro E hs hp input p suf h hsuf
    have hsuf1 : isLetter (suf.headD 0) = false ∧ isDigit (suf.headD 0) = false := by
      simpa [endsWord] using hsuf
    cases E
    case Identifier id =>
      obtain ⟨v, rfl, hv⟩ := isPlain_identifier hp
      obtain ⟨h1, h2, h3⟩ := isName_head hv
      have := Lexer.Next_word input p v suf h h1 h2 hsuf1.1
      rw [h3] at this
      exact lexes_one input p _ _ this
    case IntegerLiteral t v =>
      obtain ⟨h0, hv, _⟩ := isPlain_integer hp
      obtain ⟨h1, h2⟩ := isNumber_head hv
      have := Lexer.Next_number input p t.Literal suf h h1 h2 hsuf1.2
      have et : t = ⟨.INT, t.Literal⟩ := by
        obtain ⟨ty, lit⟩ := t
        simp only at h0
        rw [h0]
      rw [← et] at this
      exact lexes_one input p _ _ this
    case BooleanLiteral t b =>
      rcases isPlain_boolean hp with ⟨rfl, rfl⟩ | ⟨rfl, rfl⟩
      · exact lexes_one input p _ _
          (Lexer.Next_word input p (str "true") suf h (by decide) (by decide) hsuf1.1)
      · exact lexes_one input p _ _
          (Lexer.Next_word input p (str "false") suf h (by decide) (by decide) hsuf1.1)
    case NilLiteral t v =>
      obtain ⟨rfl, rfl⟩ := isPlain_nil hp
      exact lexes_one input p _ _
        (Lexer.Next_word input p (str "nil") suf h (by decide) (by decide) hsuf1.1)
    case PrefixExpression t op r =>
      obtain ⟨ht, hlit, rfl, hrp⟩ := isPlain_prefixExpression hp
      have hsr : r.size < n := by simp only [Expression.size] at hs; omega
      have hl1 := operator_literal_length ht hlit
      have h0 : input.drop p = 40 :: (t.Literal ++ (r.text ++ 41 :: suf)) := by
        rw [h]
        simp only [Expression.text, List.append_assoc]
        rfl
      have s1 := lexes_lparen input p _ h0
      have h1 : input.drop (p + 1) = t.Literal ++ (r.text ++ 41 :: suf) :=
        drop_add_of_drop input p [40] _ h0
      obtain ⟨b, rest, eb, hb⟩ := text_head r hrp
      have hne : (r.text ++ 41 :: suf).headD 0 ≠ 61 := by
        rw [eb]
        show b ≠ 61
        rcases hb with hb | hb | hb
        · intro e; rw [e] at hb; cases hb
        · intro e; rw [e] at hb; cases hb
        · omega
      have s2 := lexes_one input (p + 1) _ _
        (Lexer.Next_prefixOperator input (p + 1) t _ ht hlit h1 hne)
      have h2 : input.drop (p + 1 + 1) = r.text ++ 41 :: suf := by
        have := drop_add_of_drop input (p + 1) t.Literal _ h1
        rw [hl1] at this
        exact this
      have s3 := ih r hsr hrp input (p + 1 + 1) _ h2 rfl
      have h3 : input.drop (p + 1 + 1 + r.text.length) = 41 :: suf :=
        drop_add_of_drop input (p + 1 + 1) r.text _ h2
      have s4 := lexes_rparen input _ _ h3
      have := lexes_append input _ _ _ _ p s1
        (lexes_append input _ _ _ _ (p + 1) s2 (lexes_append input _ _ _ _ _ s3 s4))
      have e : p + (Expression.PrefixExpression t t.Literal r).text.length =
          p + 1 + 1 + r.text.length + 1 := by
        have hl : (str "(").length = 1 := rfl
        have hr : (str ")").length = 1 := rfl
        simp only [Expression.text, List.length_append, hl, hr, hl1]
        omega
      rw [e]
      exact this
    case InfixExpression t op l r =>
      obtain ⟨ht, hlit, rfl, hlp, hrp⟩ := isPlain_infixExpression hp
      have hsl : l.size < n := by simp only [Expression.size] at hs; omega
      have hsr : r.size < n := by simp only [Expression.size] at hs; omega
      have h0 : input.drop p =
          40 :: (l.text ++ 32 :: (t.Literal ++ 32 :: (r.text ++ 41 :: suf))) := by
        rw [h]
        simp only [Expression.text, List.append_assoc]
        rfl
      have s1 := lexes_lparen input p _ h0
      have h1 : input.drop (p + 1) = l.text ++ 32 :: (t.Literal ++ 32 :: (r.text ++ 41 :: suf)) :=
        drop_add_of_drop input p [40] _ h0
      have s2 := ih l hsl hlp input (p + 1) _ h1 rfl
      have h2 : input.drop (p + 1 + l.text.length) =
          32 :: (t.Literal ++ 32 :: (r.text ++ 41 :: suf)) :=
        drop_add_of_drop input (p + 1) l.text _ h1
      have hb2 : isBlank (input.getD (p + 1 + l.text.length) 0) = true := by
        rw [getD_of_drop input _ 32 _ h2]; rfl
      have h3 : input.drop (p + 1 + l.text.length + 1) =
          t.Literal ++ 32 :: (r.text ++ 41 :: suf) :=
        drop_add_of_drop input _ [32] _ h2
      have s3 := lexes_blank input _ _ t [] hb2
        (lexes_one input _ _ _ (Lexer.Next_infixOperator input _ t _ ht hlit h3))
      have h4 : input.drop (p + 1 + l.text.length + 1 + t.Literal.length) =
          32 :: (r.text ++ 41 :: suf) :=
        drop_add_of_drop input _ t.Literal _ h3
      have hb4 : isBlank (input.getD (p + 1 + l.text.length + 1 + t.Literal.length) 0) = true := by
        rw [getD_of_drop input _ 32 _ h4]; rfl
      have h5 : input.drop (p + 1 + l.text.length + 1 + t.Literal.length + 1) =
          r.text ++ 41 :: suf :=
        drop_add_of_drop input _ [32] _ h4
      have hne : r.tokens ≠ [] := by
        obtain ⟨t0, ts, e, _⟩ := tokens_head r hrp
        rw [e]; simp
      have s4 := lexes_cons_of_blank input _ _ r.tokens hne hb4
        (ih r hsr hrp input _ _ h5 rfl)
      have h6 : input.drop (p + 1 + l.text.length + 1 + t.Literal.length + 1 + r.text.length) =
          41 :: suf :=
        drop_add_of_drop input _ r.text _ h5
      have s5 := lexes_rparen input _ _ h6
      have := lexes_append input _ _ _ _ p s1
        (lexes_append input _ _ _ _ _ s2
          (lexes_append input _ _ _ _ _ s3 (lexes_append input _ _ _ _ _ s4 s5)))
      have e : p + (Expression.InfixExpression t t.Literal l r).text.length =
          p + 1 + l.text.length + 1 + t.Literal.length + 1 + r.text.length + 1 := by
        have hl : (str "(").length = 1 := rfl
        have hr : (str ")").length = 1 := rfl
        have hsp : (str " ").length = 1 := rfl
        simp only [Expression.text, List.length_append, hl, hr, hsp]
        omega
      rw [e]
      have et : (Expression.InfixExpression t t.Literal l r).tokens =
          [lparenToken] ++ (l.tokens ++ ([t] ++ (r.tokens ++ [rparenToken]))) := by
        simp [Expression.tokens]
      rw [et]
      exact this
    case CallExpression t F args =>
      obtain ⟨rfl, hFp, hap⟩ := isPlain_call hp
      have hsF : F.size < n := by simp only [Expression.size] at hs; omega
      have hsa : ∀ a ∈ args, a.size < n := by
        intro a ha
        have := size_lt_sizes args a ha
        simp only [Expression.size] at hs
        omega
      have hall : ∀ a ∈ args, a.isPlain = true ∧ ∀ (p : Nat) (s : Str),
          input.drop p = a.text ++ s → endsWord s = true →
          lexes input p a.tokens (p + a.text.length) := by
        intro a ha
        have hpa := isPlain_of_allPlain args hap a ha
        exact ⟨hpa, fun p1 s hd hs1 => ih a (hsa a ha) hpa input p1 s hd hs1⟩
      have h0 : input.drop p = F.text ++ 40 :: ((Expression.argText args).drop 2 ++ 41 :: suf) := by
        rw [h]
        simp only [Expression.text, List.append_assoc]
        rfl
      have s1 := ih F hsF hFp input p _ h0 rfl
      have h1 : input.drop (p + F.text.length) =
          40 :: ((Expression.argText args).drop 2 ++ 41 :: suf) :=
        drop_add_of_drop input p F.text _ h0
      have s2 := lexes_lparen input _ _ h1
      have h2 : input.drop (p + F.text.length + 1) =
          (Expression.argText args).drop 2 ++ 41 :: suf :=
        drop_add_of_drop input _ [40] _ h1
      have s3 : lexes input (p + F.text.length + 1) ((Expression.argTokens args).drop 1)
          (p + F.text.length + 1 + ((Expression.argText args).drop 2).length) := by
        cases args with
        | nil => exact (rfl : _ = _)
        | cons a rest =>
          obtain ⟨hpa, ha⟩ := hall a (List.mem_cons_self a rest)
          have hd2 : (Expression.argText (a :: rest)).drop 2 =
              a.text ++ Expression.argText rest := rfl
          have hd1 : (Expression.argTokens (a :: rest)).drop 1 =
              a.tokens ++ Expression.argTokens rest := rfl
          rw [hd2, List.append_assoc] at h2
          have sa := ha _ _ h2 (argText_head rest suf)
          have h3 := drop_add_of_drop input _ a.text _ h2
          have sr := lexes_arguments input suf rest
            (fun b hb => hall b (List.mem_cons_of_mem a hb)) _ h3
          rw [hd1, hd2, List.length_append, ← Nat.add_assoc]
          exact lexes_append input _ _ _ _ _ sa sr
      have h4 : input.drop (p + F.text.length + 1 + ((Expression.argText args).drop 2).length) =
          41 :: suf :=
        drop_add_of_drop input _ _ _ h2
      have s4 := lexes_rparen input _ _ h4
      have := lexes_append input _ _ _ _ p s1
        (lexes_append input _ _ _ _ _ s2 (lexes_append input _ _ _ _ _ s3 s4))
      have e : p + (Expression.CallExpression lparenToken F args).text.length =
          p + F.text.length + 1 + ((Expression.argText args).drop 2).length + 1 := by
        have hl : (str "(").length = 1 := rfl
        have hr : (str ")").length = 1 := rfl
        simp only [Expression.text, List.length_append, hl, hr]
        omega
      rw [e]
      have et : (Expression.CallExpression lparenToken F args).tokens =
          F.tokens ++ ([lparenToken] ++ ((Expression.argTokens args).drop 1 ++ [rparenToken])) := by
        simp [Expression.tokens]
      rw [et]
      exact this
    all_goals simp [Expression.isPlain] at hp

theorem lexerAt_atPos (input : Str) (p : Nat) :
    ∀ j, ∃ q, lexerAt (Lexer.atPos input p) j = Lexer.atPos input q := by
  intro j
  induction j with
  | zero => exact ⟨p, rfl⟩
  | succ j ih =>
    obtain ⟨q, hq⟩ := ih
    obtain ⟨t, q1, h1, _, _⟩ := Lexer.Next_progress input q
    refine ⟨q1, ?_⟩
    simp only [lexerAt, hq, h1]

theorem lexerAt_Next (input : Str) (p : Nat) (j : Nat) :
    (lexerAt (Lexer.atPos input p) j).Next =
      some (tokenAt (Lexer.atPos input p) j, lexerAt (Lexer.atPos input p) (j + 1)) := by
  obtain ⟨q, hq⟩ := lexerAt_atPos input p j
  obtain ⟨t, q1, h1, _, _⟩ := Lexer.Next_progress input q
  simp only [tokenAt, lexerAt, hq, h1]

theorem reads_of_lexes (input : Str) (p0 : Nat) (ts : List Token) (q : Nat) :
    ∀ (j p : Nat), lexerAt (Lexer.atPos input p0) j = Lexer.atPos input p →
      lexes input p ts q →
      reads (tokenAt (Lexer.atPos input p0)) j ts ∧
        lexerAt (Lexer.atPos input p0) (j + ts.length) = Lexer.atPos input q := by
  induction ts with
  | nil =>
    intro j p hj h
    have : p = q := h
    subst this
    exact ⟨trivial, hj⟩
  | cons t ts ih =>
    intro j p hj h
    obtain ⟨p1, hn, h1⟩ := h
    have ht : tokenAt (Lexer.atPos input p0) j = t := by
      simp only [tokenAt, hj, hn]
    have hl : lexerAt (Lexer.atPos input p0) (j + 1) = Lexer.atPos input p1 := by
      simp only [lexerAt, hj, hn]
    obtain ⟨h2, h3⟩ := ih (j + 1) p1 hl h1
    refine ⟨⟨ht, h2⟩, ?_⟩
    have e : j + (t :: ts).length = j + 1 + ts.length := by
      simp only [List.length_cons]; omega
    rw [e]
    exact h3

theorem tokenAt_end (input : Str) (p0 j q : Nat)
    (hj : lexerAt (Lexer.atPos input p0) j = Lexer.atPos input q) (hq : input.length ≤ q) :
    tokenAt (Lexer.atPos input p0) j = eofToken := by
  have := Lexer.Next_nul input q (List.getD_eq_default _ _ hq)
  simp only [tokenAt, hj, this]

/-- The text of a plain expression, parsed as a source text: the program is one expression
statement that holds the expression, and no message is recorded. -/
theorem parseSource_text (E : Expression) (hp : E.isPlain = true) :
    ∃ K, ∀ f, K ≤ f → ∃ p, parseSource f E.text =
      .ok { Statements := [.ExpressionStatement (E.tokens.headD eofToken) E] } p ∧
      p.errors = [] := by
  have hl : lexes E.text 0 E.tokens (0 + E.text.length) :=
    lexes_plain (E.size + 1) E (by omega) hp E.text 0 [] (by simp) rfl
  obtain ⟨hr, hend⟩ := reads_of_lexes E.text 0 E.tokens _ 0 0 rfl hl
  have heof : tokenAt (Lexer.atPos E.text 0) (0 + E.tokens.length) = eofToken :=
    tokenAt_end E.text 0 _ _ hend (by omega)
  have hr2 : reads (tokenAt (Lexer.atPos E.text 0)) 0 (E.tokens ++ [eofToken]) :=
    (reads_append _ E.tokens [eofToken] 0).2 ⟨hr, heof, trivial⟩
  obtain ⟨K, hK⟩ := parseLexer_plain (lexerAt (Lexer.atPos E.text 0))
    (tokenAt (Lexer.atPos E.text 0)) (lexerAt_Next E.text 0) E hp hr2
  obtain ⟨t0, ts0, e0, _⟩ := tokens_head E hp
  have hfirst : tokenAt (Lexer.atPos E.text 0) 0 = E.tokens.headD eofToken := by
    have := hr
    rw [e0] at this ⊢
    exact this.1
  refine ⟨K, fun f hf =>
    ⟨cursor (lexerAt (Lexer.atPos E.text 0)) (tokenAt (Lexer.atPos E.text 0)) [] E.tokens.length,
      ?_, rfl⟩⟩
  rw [parseSource, Lexer.New_eq, ← hfirst]
  exact hK f hf

theorem join_texts (args : List Expression) :
    join (str ", ") (args.map Expression.text) = (Expression.argText args).drop 2 := by
  induction args with
  | nil => rfl
  | cons a rest ih =>
    cases rest with
    | nil =>
      have e : (Expression.argText [a]).drop 2 = a.text ++ [] := rfl
      rw [e, List.append_nil]
      rfl
    | cons b rest1 =>
      have e1 : join (str ", ") ((a :: b :: rest1).map Expression.text) =
          a.text ++ str ", " ++ join (str ", ") ((b :: rest1).map Expression.text) := rfl
      have e2 : (Expression.argText (a :: b :: rest1)).drop 2 =
          a.text ++ Expression.argText (b :: rest1) := rfl
      have e3 : Expression.argText (b :: rest1) =
          str ", " ++ (Expression.argText (b :: rest1)).drop 2 := rfl
      rw [e1, e2, ih, e3]
      simp only [List.append_assoc]
      rfl

theorem Strings_plain (args : List Expression)
    (h : ∀ a ∈ args, a.String = some a.text) :
    Expression.Strings args = some (args.map Expression.text) := by
  induction args with
  | nil => rfl
  | cons a rest ih =>
    have ha := h a (List.mem_cons_self a rest)
    have hr := ih (fun b hb => h b (List.mem_cons_of_mem a hb))
    simp only [Expression.Strings, ha, hr, List.map_cons]
    rfl

/-- The method `String()` returns the text of a plain expression. -/
theorem String_plain :
    ∀ (n : Nat) (E : Expression), E.size < n → E.isPlain = true → E.String = some E.text := by
  intro n
  induction n with
  | zero => intro E h; omega
  | succ n ih =>
    intro E hs hp
    cases E
    case Identifier id => rfl
    case IntegerLiteral t v => rfl
    case BooleanLiteral t b => rfl
    case NilLiteral t v => rfl
    case PrefixExpression t op r =>
      obtain ⟨_, _, _, hrp⟩ := isPlain_prefixExpression hp
      have hsr : r.size < n := by simp only [Expression.size] at hs; omega
      simp only [Expression.String, ih r hsr hrp, Expression.text]
      rfl
    case InfixExpression t op l r =>
      obtain ⟨_, _, _, hlp, hrp⟩ := isPlain_infixExpression hp
      have hsl : l.size < n := by simp only [Expression.size] at hs; omega
      have hsr : r.size < n := by simp only [Expression.size] at hs; omega
      simp only [Expression.String, ih l hsl hlp, ih r hsr hrp, Expression.text]
      rfl
    case CallExpression t F args =>
      obtain ⟨_, hFp, hap⟩ := isPlain_call hp
      have hsF : F.size < n := by simp only [Expression.size] at hs; omega
      have hargs : Expression.Strings args = some (args.map Expression.text) := by
        apply Strings_plain
        intro a ha
        have := size_lt_sizes args a ha
        simp only [Expression.size] at hs
        exact ih a (by omega) (isPlain_of_allPlain args hap a ha)
      simp only [Expression.String, ih F hsF hFp, hargs, Expression.text, ← join_texts]
      rfl
    all_goals simp [Expression.isPlain] at hp

theorem programString_plain (tok : Token) (E : Expression) (hp : E.isPlain = true) :
    Program.String { Statements := [.ExpressionStatement tok E] } = some E.text := by
  have h := String_plain (E.size + 1) E (by omega) hp
  have hs : (Statement.ExpressionStatement tok E).String = some E.text := by
    cases E <;> first | exact h | simp [Expression.isPlain] at hp
  simp only [Program.String, Statement.Strings, hs]
  simp

/-- C32 (counterexample): the text that `Program.String` returns is parsed to another
program, or with error messages. A string literal is printed without its quotes and read
back as an identifier; an `if` is printed without braces and without its else-if branches
(`ifx 1` is read back as the identifier `ifx` and the number 1); a `for` statement is printed
without its body (`forx ` is an identifier); a function literal is printed without its name,
its types and its braces, and the text is parsed with three error messages; two expression
statements are printed without a separator (`1; 2` gives `12`); a `var` statement is printed
without the type of its name, and read back as a `var` without a type. -/
theorem printed_text_is_another_program :
    printed 60 (str "\"ab\"") = some (str "ab") ∧
    parsesTo 60 (str "ab") [.ExpressionStatement (idToken "ab") (idNode "ab")] = true ∧
    printed 60 (str "if x \x7b 1 \x7d else if y \x7b 2 \x7d") = some (str "ifx 1") ∧
    parsesTo 60 (str "ifx 1")
      [.ExpressionStatement (idToken "ifx") (idNode "ifx"),
        .ExpressionStatement (intToken 1) (intLiteral 1)] = true ∧
    printed 60 (str "for x \x7b 1 \x7d") = some (str "forx ") ∧
    parsesTo 60 (str "forx ") [.ExpressionStatement (idToken "forx") (idNode "forx")] = true ∧
    printed 60 (str "func f(x int) int \x7b x \x7d") = some (str "func(x) x") ∧
    errorsAfter (parseSource 60 (str "func(x) x")) =
      some [str "expect next token to be ID, got ) instead",
        str "expect next token to be \x7b, got ) instead",
        str "no prefix parse function for ) found"] ∧
    printed 60 (str "1; 2") = some (str "12") ∧
    parsesTo 60 (str "12") [.ExpressionStatement (intToken 12) (intLiteral 12)] = true ∧
    parsesTo 60 (str "var x int = 1")
      [.VarStatement ⟨.VAR, str "var"⟩ (.mk (idToken "x") (str "x") (some (ident "int")))
        (intLiteral 1)] = true ∧
    printed 60 (str "var x int = 1") = some (str "var x = 1;\n") ∧
    parsesTo 60 (str "var x = 1;\n")
      [.VarStatement ⟨.VAR, str "var"⟩ (ident "x") (intLiteral 1)] = true := by
  decide!

/-- The round trip of one expression: let `E` be an expression built from identifiers,
integer, boolean and `nil` literals with prefix operators, infix operators and calls, each
node as the parser builds it. `Program.String` of the program that is the one expression
statement `E` returns
the text of `E`, with every operator expression in parentheses; the lexer reads that text as
the tokens of `E`; and the parser, with enough fuel, returns for it a program of one
expression statement that holds `E` itself, all tokens included, and records no message. The
token of the statement is the first token of the text, so it is `(` when `E` is an operator
expression. The sources `-a * f(1, b) == !true` and `f(g(h(1)))(2)(nil, 010)` are parsed to
expressions of this kind. -/
theorem plain_expression_round_trip (E : Expression) (tok : Token) (hp : E.isPlain = true) :
    Program.String { Statements := [.ExpressionStatement tok E] } = some E.text ∧
    lexes E.text 0 E.tokens E.text.length ∧
    (∃ K, ∀ f, K ≤ f → ∃ p, parseSource f E.text =
      .ok { Statements := [.ExpressionStatement (E.tokens.headD eofToken) E] } p ∧
      p.errors = []) ∧
    (parsedExpression 80 (str "-a * f(1, b) == !true")).map Expression.isPlain = some true ∧
    printed 80 (str "-a * f(1, b) == !true") = some (str "(((-a) * f(1, b)) == (!true))") ∧
    (parsedExpression 80 (str "f(g(h(1)))(2)(nil, 010)")).map Expression.isPlain = some true ∧
    printed 80 (str "f(g(h(1)))(2)(nil, 010)") = some (str "f(g(h(1)))(2)(nil, 010)") := by
  refine ⟨programString_plain tok E hp, ?_, parseSource_text E hp, by decide!, by decide!,
    by decide!, by decide!⟩
  have h := lexes_plain (E.size + 1) E (by omega) hp E.text 0 [] (by simp) rfl
  rw [Nat.zero_add] at h
  exact h

theorem plain_expression_round_trip_witness :
    ∃ K, ∀ f, K ≤ f → ∃ p, parseSource f (str "(a + 1)") =
      .ok { Statements := [.ExpressionStatement lparenToken aPlusOne] } p ∧ p.errors = [] :=
  (plain_expression_round_trip aPlusOne (idToken "a") (by decide)).2.2.1

/-! ## Printing and parsing statements again -/

theorem isPlain_var {t : Token} {name : Identifier} {v : Expression}
    (h : (Statement.VarStatement t name v).isPlain = true) :
    ∃ n, t = varToken ∧ name = .mk ⟨.ID, n⟩ n none ∧ isName n = true ∧ v.isPlain = true := by
  obtain ⟨nt, n, ty⟩ := name
  simp only [Statement.isPlain, Bool.and_eq_true, beq_iff_eq, Option.isNone_iff_eq_none] at h
  obtain ⟨⟨⟨⟨h1, h2⟩, h3⟩, h4⟩, h5⟩ := h
  subst h1 h2 h3
  exact ⟨n, rfl, rfl, h4, h5⟩

theorem isPlain_assign {t : Token} {name : Identifier} {v : Expression}
    (h : (Statement.AssignStatement t name v).isPlain = true) :
    ∃ n, t = ⟨.ID, n⟩ ∧ name = .mk ⟨.ID, n⟩ n none ∧ isName n = true ∧ v.isPlain = true := by
  obtain ⟨nt, n, ty⟩ := name
  simp only [Statement.isPlain, Bool.and_eq_true, beq_iff_eq, Option.isNone_iff_eq_none] at h
  obtain ⟨⟨⟨⟨h1, h2⟩, h3⟩, h4⟩, h5⟩ := h
  subst h1 h2 h3
  exact ⟨n, rfl, rfl, h4, h5⟩

theorem isPlain_return {t : Token} {v : Expression}
    (h : (Statement.ReturnStatement t v).isPlain = true) :
    t = returnToken ∧ v.isPlain = true := by
  simpa [Statement.isPlain] using h

/-- The value of a statement: a plain expression in front of a `;`. -/
theorem parseExpression_value (L : Nat → Lexer) (T : Nat → Token)
    (hLT : ∀ j, (L j).Next = some (T j, L (j + 1))) (es : List Str) (v : Expression)
    (hp : v.isPlain = true) (i : Nat) (hr : reads T i v.tokens)
    (hend : T (i + v.tokens.length) = semicolonToken) :
    ∃ K, ∀ f, K ≤ f → parseExpression f LOWEST (cursor L T es i) =
      .ok v (cursor L T es (i + (v.tokens.length - 1))) := by
  have hlen := tokens_length_pos v hp
  refine parseExpression_stop LOWEST v.calls v _ _
    (parseExpression_plain L T hLT es (v.size + 1) v (by omega) hp i LOWEST (by decide) hr) ?_
  show power (T (i + (v.tokens.length - 1) + 1)) ≤ _
  have : i + (v.tokens.length - 1) + 1 = i + v.tokens.length := by omega
  rw [this, hend]
  decide

theorem Parser.expectNext_cursor (L : Nat → Lexer) (T : Nat → Token)
    (hLT : ∀ j, (L j).Next = some (T j, L (j + 1))) (es : List Str) (i : Nat) (tt : TokenType)
    (h : (T (i + 1)).Typ = tt) :
    Parser.expectNext tt (cursor L T es i) = .ok true (cursor L T es (i + 1)) := by
  have hn : (cursor L T es i).nextTok.Typ = tt := h
  simp only [Parser.expectNext, Parser.nextTokenIs, hn, beq_self_eq_true, if_true,
    Act.bind_apply, Parser.Next_cursor L T hLT es i]
  rfl

theorem Parser.skipSemicolon_cursor (L : Nat → Lexer) (T : Nat → Token)
    (hLT : ∀ j, (L j).Next = some (T j, L (j + 1))) (es : List Str) (i : Nat)
    (h : T (i + 1) = semicolonToken) :
    Parser.skipSemicolon (cursor L T es i) = .ok () (cursor L T es (i + 1)) := by
  have hn : (cursor L T es i).nextTok = semicolonToken := h
  simp only [Parser.skipSemicolon, Parser.nextTokenIs, hn, semicolonToken, Token.New,
    beq_self_eq_true, if_true, Parser.Next_cursor L T hLT es i]

/-- The parser on the tokens of a plain statement. -/
theorem parseStatement_plainStatement (L : Nat → Lexer) (T : Nat → Token)
    (hLT : ∀ j, (L j).Next = some (T j, L (j + 1))) (es : List Str) (s : Statement)
    (hp : s.isPlain = true) (i : Nat) (hr : reads T i s.tokens) :
    ∃ K, ∀ f, K ≤ f → parseStatement f (cursor L T es i) =
      .ok s (cursor L T es (i + (s.tokens.length - 1))) := by
  cases s
  case VarStatement t name v =>
    obtain ⟨n, rfl, rfl, _, hv⟩ := isPlain_var hp
    have hlen := tokens_length_pos v hv
    have hr0 : reads T i (varToken :: ⟨.ID, n⟩ :: assignToken :: (v.tokens ++ [semicolonToken])) := by
      simpa [Statement.tokens] using hr
    have h0 : T i = varToken := hr0.1
    have h1 : T (i + 1) = ⟨.ID, n⟩ := hr0.2.1
    have h2 : T (i + 1 + 1) = assignToken := hr0.2.2.1
    have hr3 := (reads_append T v.tokens [semicolonToken] (i + 1 + 1 + 1)).1 hr0.2.2.2
    have hend : T (i + 1 + 1 + 1 + v.tokens.length) = semicolonToken := hr3.2.1
    obtain ⟨K, hK⟩ := parseExpression_value L T hLT es v hv (i + 1 + 1 + 1) hr3.1 hend
    have hT0 : (cursor L T es i).curTok.Typ = .VAR := by
      show (T i).Typ = _
      rw [h0]; rfl
    have hc0 : (cursor L T es i).curTok = varToken := h0
    have hc1 : (cursor L T es (i + 1)).curTok = ⟨.ID, n⟩ := h1
    have hty : (cursor L T es (i + 1)).nextTokenIs .ID = false := by
      show ((T (i + 1 + 1)).Typ == TokenType.ID) = false
      rw [h2]; rfl
    have hx1 := Parser.expectNext_cursor L T hLT es i .ID (by rw [h1])
    have hx2 := Parser.expectNext_cursor L T hLT es (i + 1) .ASSIGN (by rw [h2]; rfl)
    have hsk := Parser.skipSemicolon_cursor L T hLT es (i + 1 + 1 + 1 + (v.tokens.length - 1))
      (by rw [← hend]; congr 1; omega)
    have e : i + ((Statement.VarStatement varToken (.mk ⟨.ID, n⟩ n none) v).tokens.length - 1) =
        i + 1 + 1 + 1 + (v.tokens.length - 1) + 1 := by
      simp only [Statement.tokens, List.length_cons, List.length_append, List.length_nil]
      omega
    refine ⟨K + 2, fun f hf => ?_⟩
    obtain ⟨m, rfl⟩ : ∃ m, f = m + 2 := ⟨f - 2, by omega⟩
    rw [e, parseStatement]
    simp only [hT0]
    rw [parseVarStatement]
    simp only [Act.bind_apply, Act.get, hx1, hty, Bool.false_eq_true, if_false, hx2,
      Bool.not_true, Parser.Next_cursor L T hLT es (i + 1 + 1), hK m (by omega), hsk,
      Act.pure_apply, hc0, hc1]
  case AssignStatement t name v =>
    obtain ⟨n, rfl, rfl, _, hv⟩ := isPlain_assign hp
    have hlen := tokens_length_pos v hv
    have hr0 : reads T i (⟨.ID, n⟩ :: assignToken :: (v.tokens ++ [semicolonToken])) := by
      simpa [Statement.tokens] using hr
    have h0 : T i = ⟨.ID, n⟩ := hr0.1
    have h1 : T (i + 1) = assignToken := hr0.2.1
    have hr3 := (reads_append T v.tokens [semicolonToken] (i + 1 + 1)).1 hr0.2.2
    have hend : T (i + 1 + 1 + v.tokens.length) = semicolonToken := hr3.2.1
    obtain ⟨K, hK⟩ := parseExpression_value L T hLT es v hv (i + 1 + 1) hr3.1 hend
    have hT0 : (cursor L T es i).curTok.Typ = .ID := by
      show (T i).Typ = _
      rw [h0]
    have hN0 : (cursor L T es i).nextTok.Typ = .ASSIGN := by
      show (T (i + 1)).Typ = _
      rw [h1]; rfl
    have hc0 : (cursor L T es i).curTok = ⟨.ID, n⟩ := h0
    have hx1 := Parser.expectNext_cursor L T hLT es i .ASSIGN (by rw [h1]; rfl)
    have hsk := Parser.skipSemicolon_cursor L T hLT es (i + 1 + 1 + (v.tokens.length - 1))
      (by rw [← hend]; congr 1; omega)
    have e : i + ((Statement.AssignStatement ⟨.ID, n⟩ (.mk ⟨.ID, n⟩ n none) v).tokens.length - 1) =
        i + 1 + 1 + (v.tokens.length - 1) + 1 := by
      simp only [Statement.tokens, List.length_cons, List.length_append, List.length_nil]
      omega
    refine ⟨K + 2, fun f hf => ?_⟩
    obtain ⟨m, rfl⟩ : ∃ m, f = m + 2 := ⟨f - 2, by omega⟩
    rw [e, parseStatement]
    simp only [hT0, hN0, if_true]
    rw [parseAssignStatement]
    simp only [Act.bind_apply, Act.get, hx1, Bool.not_true, Bool.false_eq_true, if_false,
      Parser.Next_cursor L T hLT es (i + 1), hK m (by omega), hsk, Act.pure_apply,
      Parser.curIdentifier, hc0]
  case ReturnStatement t v =>
    obtain ⟨rfl, hv⟩ := isPlain_return hp
    have hlen := tokens_length_pos v hv
    have hr0 : reads T i (returnToken :: (v.tokens ++ [semicolonToken])) := by
      simpa [Statement.tokens] using hr
    have h0 : T i = returnToken := hr0.1
    have hr3 := (reads_append T v.tokens [semicolonToken] (i + 1)).1 hr0.2
    have hend : T (i + 1 + v.tokens.length) = semicolonToken := hr3.2.1
    obtain ⟨K, hK⟩ := parseExpression_value L T hLT es v hv (i + 1) hr3.1 hend
    have hT0 : (cursor L T es i).curTok.Typ = .RETURN := by
      show (T i).Typ = _
      rw [h0]; rfl
    have hc0 : (cursor L T es i).curTok = returnToken := h0
    have hsk := Parser.skipSemicolon_cursor L T hLT es (i + 1 + (v.tokens.length - 1))
      (by rw [← hend]; congr 1; omega)
    have e : i + ((Statement.ReturnStatement returnToken v).tokens.length - 1) =
        i + 1 + (v.tokens.length - 1) + 1 := by
      simp only [Statement.tokens, List.length_cons, List.length_append, List.length_nil]
      omega
    refine ⟨K + 2, fun f hf => ?_⟩
    obtain ⟨m, rfl⟩ : ∃ m, f = m + 2 := ⟨f - 2, by omega⟩
    rw [e, parseStatement]
    simp only [hT0]
    rw [parseReturnStatement]
    simp only [Act.bind_apply, Act.get, Parser.Next_cursor L T hLT es i, hK m (by omega), hsk,
      Act.pure_apply, hc0]
  all_goals simp [Statement.isPlain] at hp

/-- A `=` that is not followed by `=` is the token `ASSIGN`. -/
theorem Lexer.Next_assign (input : Str) (p : Nat) (h1 : input.getD p 0 = 61)
    (h2 : input.getD (p + 1) 0 ≠ 61) :
    (Lexer.atPos input p).Next = some (assignToken, Lexer.atPos input (p + 1)) := by
  have hb : isBlank (input.getD p 0) = false := by rw [h1]; rfl
  have hch : (Lexer.atPos input p).ch = input.getD p 0 := rfl
  unfold Lexer.Next
  rw [Lexer.eatBlank_of_not input p hb]
  simp only [hch, h1, Lexer.peak_atPos, h2, if_false, if_true, Lexer.eat_atPos]
  rfl

theorem lexes_semicolon (input : Str) (p : Nat) (rest : Str) (h : input.drop p = 59 :: rest) :
    lexes input p [semicolonToken] (p + 1) := by
  have h1 := getD_of_drop input p 59 rest h
  have h2 := Lexer.Next_punct input p .SEMICOLON (by rw [h1]; rfl)
  rw [h1] at h2
  exact lexes_one input p _ _ h2

/-- The text ` = ` in front of a value is the token `ASSIGN`. -/
theorem lexes_assign (input : Str) (p : Nat) (rest : Str)
    (h : input.drop p = 32 :: 61 :: 32 :: rest) :
    lexes input p [assignToken] (p + 1 + 1) := by
  have hb : isBlank (input.getD p 0) = true := by
    rw [getD_of_drop input p 32 _ h]; rfl
  have h1 : input.drop (p + 1) = 61 :: 32 :: rest := drop_add_of_drop input p [32] _ h
  have h2 : input.drop (p + 1 + 1) = 32 :: rest := drop_add_of_drop input (p + 1) [61] _ h1
  have g1 := getD_of_drop input (p + 1) 61 _ h1
  have g2 := getD_of_drop input (p + 1 + 1) 32 _ h2
  exact lexes_blank input p _ _ [] hb
    (lexes_one input _ _ _ (Lexer.Next_assign input (p + 1) g1 (by rw [g2]; decide)))

/-- The value of a statement and the `;` after it. -/
theorem lexes_value (v : Expression) (hv : v.isPlain = true) (input : Str) (p : Nat)
    (suf : Str) (h : input.drop p = 32 :: (v.text ++ 59 :: suf)) :
    lexes input p (v.tokens ++ [semicolonToken]) (p + 1 + v.text.length + 1) := by
  have hb : isBlank (input.getD p 0) = true := by
    rw [getD_of_drop input p 32 _ h]; rfl
  have h1 : input.drop (p + 1) = v.text ++ 59 :: suf := drop_add_of_drop input p [32] _ h
  have h2 : input.drop (p + 1 + v.text.length) = 59 :: suf :=
    drop_add_of_drop input (p + 1) v.text _ h1
  have hne : v.tokens ≠ [] := by
    obtain ⟨t0, ts, e, _⟩ := tokens_head v hv
    rw [e]; simp
  have s1 := lexes_cons_of_blank input p _ v.tokens hne hb
    (lexes_plain (v.size + 1) v (by omega) hv input (p + 1) _ h1 rfl)
  exact lexes_append input _ _ _ _ p s1 (lexes_semicolon input _ _ h2)

/-- The lexer on the text of a plain statement, in front of further tokens. -/
theorem lexes_statement (s : Statement) (hp : s.isPlain = true) (input : Str) (p : Nat)
    (suf : Str) (h : input.drop p = s.text ++ suf) (ts : List Token) (q : Nat) (hne : ts ≠ [])
    (hrest : lexes input (p + s.text.length) ts q) : lexes input p (s.tokens ++ ts) q := by
  cases s
  case VarStatement t name v =>
    obtain ⟨n, rfl, rfl, hn, hv⟩ := isPlain_var hp
    obtain ⟨n1, n2, n3⟩ := isName_head hn
    have h0 : input.drop p =
        str "var" ++ 32 :: (n ++ 32 :: 61 :: 32 :: (v.text ++ 59 :: 10 :: suf)) := by
      rw [h]
      simp only [Statement.text, List.append_assoc]
      rfl
    have s1 := lexes_one input p _ _
      (Lexer.Next_word input p (str "var") _ h0 (by decide) (by decide) rfl)
    have h1 : input.drop (p + 3) = 32 :: (n ++ 32 :: 61 :: 32 :: (v.text ++ 59 :: 10 :: suf)) :=
      drop_add_of_drop input p (str "var") _ h0
    have hb1 : isBlank (input.getD (p + 3) 0) = true := by
      rw [getD_of_drop input _ 32 _ h1]; rfl
    have h2 : input.drop (p + 3 + 1) = n ++ 32 :: 61 :: 32 :: (v.text ++ 59 :: 10 :: suf) :=
      drop_add_of_drop input _ [32] _ h1
    have s2 := lexes_blank input _ _ _ [] hb1
      (lexes_one input _ _ _ (Lexer.Next_word input _ n _ h2 n1 n2 rfl))
    rw [n3] at s2
    have h3 : input.drop (p + 3 + 1 + n.length) = 32 :: 61 :: 32 :: (v.text ++ 59 :: 10 :: suf) :=
      drop_add_of_drop input _ n _ h2
    have s3 := lexes_assign input _ _ h3
    have h4 : input.drop (p + 3 + 1 + n.length + 1 + 1) = 32 :: (v.text ++ 59 :: 10 :: suf) :=
      drop_add_of_drop input _ [32, 61] _ h3
    have s4 := lexes_value v hv input _ _ h4
    have h4a : input.drop (p + 3 + 1 + n.length + 1 + 1 + 1) = v.text ++ 59 :: 10 :: suf :=
      drop_add_of_drop input _ [32] _ h4
    have h4b : input.drop (p + 3 + 1 + n.length + 1 + 1 + 1 + v.text.length) = 59 :: 10 :: suf :=
      drop_add_of_drop input _ v.text _ h4a
    have h5 : input.drop (p + 3 + 1 + n.length + 1 + 1 + 1 + v.text.length + 1) = 10 :: suf :=
      drop_add_of_drop input _ [59] _ h4b
    have hb5 : isBlank (input.getD (p + 3 + 1 + n.length + 1 + 1 + 1 + v.text.length + 1) 0)
        = true := by
      rw [getD_of_drop input _ 10 _ h5]; rfl
    have e : p + (Statement.VarStatement varToken (.mk ⟨.ID, n⟩ n none) v).text.length =
        p + 3 + 1 + n.length + 1 + 1 + 1 + v.text.length + 1 + 1 := by
      have l1 : (str "var").length = 3 := rfl
      have l2 : (str " ").length = 1 := rfl
      have l3 : (str " = ").length = 3 := rfl
      have l4 : (str ";\n").length = 2 := rfl
      simp only [Statement.text, List.length_append, l1, l2, l3, l4, varToken, Identifier.Value]
      omega
    rw [e] at hrest
    have s5 := lexes_cons_of_blank input _ _ ts hne hb5 hrest
    have := lexes_append input _ _ _ _ p s1
      (lexes_append input _ _ _ _ _ s2
        (lexes_append input _ _ _ _ _ s3 (lexes_append input _ _ _ _ _ s4 s5)))
    simpa [Statement.tokens, varToken] using this
  case AssignStatement t name v =>
    obtain ⟨n, rfl, rfl, hn, hv⟩ := isPlain_assign hp
    obtain ⟨n1, n2, n3⟩ := isName_head hn
    have h2 : input.drop p = n ++ 32 :: 61 :: 32 :: (v.text ++ 59 :: suf) := by
      rw [h]
      simp only [Statement.text, List.append_assoc]
      rfl
    have s2 := lexes_one input _ _ _ (Lexer.Next_word input _ n _ h2 n1 n2 rfl)
    rw [n3] at s2
    have h3 : input.drop (p + n.length) = 32 :: 61 :: 32 :: (v.text ++ 59 :: suf) :=
      drop_add_of_drop input _ n _ h2
    have s3 := lexes_assign input _ _ h3
    have h4 : input.drop (p + n.length + 1 + 1) = 32 :: (v.text ++ 59 :: suf) :=
      drop_add_of_drop input _ [32, 61] _ h3
    have s4 := lexes_value v hv input _ _ h4
    have e : p + (Statement.AssignStatement ⟨.ID, n⟩ (.mk ⟨.ID, n⟩ n none) v).text.length =
        p + n.length + 1 + 1 + 1 + v.text.length + 1 := by
      have l3 : (str " = ").length = 3 := rfl
      have l4 : (str ";").length = 1 := rfl
      simp only [Statement.text, List.length_append, l3, l4, Identifier.Value]
      omega
    rw [e] at hrest
    have := lexes_append input _ _ _ _ p s2
      (lexes_append input _ _ _ _ _ s3 (lexes_append input _ _ _ _ _ s4 hrest))
    simpa [Statement.tokens] using this
  case ReturnStatement t v =>
    obtain ⟨rfl, hv⟩ := isPlain_return hp
    have h0 : input.drop p = str "return" ++ 32 :: (v.text ++ 59 :: suf) := by
      rw [h]
      simp only [Statement.text, List.append_assoc]
      rfl
    have s1 := lexes_one input p _ _
      (Lexer.Next_word input p (str "return") _ h0 (by decide) (by decide) rfl)
    have h4 : input.drop (p + 6) = 32 :: (v.text ++ 59 :: suf) :=
      drop_add_of_drop input p (str "return") _ h0
    have s4 := lexes_value v hv input _ _ h4
    have e : p + (Statement.ReturnStatement returnToken v).text.length =
        p + 6 + 1 + v.text.length + 1 := by
      have l1 : (str "return").length = 6 := rfl
      have l2 : (str " ").length = 1 := rfl
      have l4 : (str ";").length = 1 := rfl
      simp only [Statement.text, List.length_append, l1, l2, l4, returnToken]
      omega
    rw [e] at hrest
    have := lexes_append input _ _ _ _ p s1 (lexes_append input _ _ _ _ _ s4 hrest)
    simpa [Statement.tokens, returnToken] using this
  all_goals simp [Statement.isPlain] at hp

theorem tokensOf_ne_nil (l : List Statement) (e : Option Expression) :
    Statement.tokensOf l ++ (finalTokens e ++ [eofToken]) ≠ [] := by
  intro h
  have := congrArg List.length h
  simp at this

/-- The lexer on the text of plain statements and a final plain expression returns their
tokens and then `EOF`. -/
theorem lexes_program (e : Option Expression) (he : e.all Expression.isPlain = true) :
    ∀ (l : List Statement), l.all Statement.isPlain = true → ∀ (input : Str) (p : Nat),
      input.drop p = Statement.textOf l ++ finalText e →
      ∃ q, lexes input p (Statement.tokensOf l ++ (finalTokens e ++ [eofToken])) q := by
  intro l
  induction l with
  | nil =>
    intro _ input p h
    cases e with
    | none =>
      have hlen : input.length ≤ p := by
        have := congrArg List.length h
        simp [Statement.textOf, finalText] at this
        omega
      exact ⟨p + 1, lexes_one input p _ _
        (Lexer.Next_nul input p (List.getD_eq_default _ _ hlen))⟩
    | some E =>
      have hp : E.isPlain = true := he
      have h1 : input.drop p = E.text ++ [] := by
        rw [h]; simp [Statement.textOf, finalText]
      have s1 := lexes_plain (E.size + 1) E (by omega) hp input p [] h1 rfl
      have hlen : input.length ≤ p + E.text.length := by
        have := congrArg List.length (drop_add_of_drop input p E.text [] h1)
        simp only [List.length_drop, List.length_nil] at this
        omega
      show ∃ q, lexes input p (E.tokens ++ [eofToken]) q
      exact ⟨p + E.text.length + 1, lexes_append input _ _ _ _ p s1
        (lexes_one input _ _ _ (Lexer.Next_nul input _ (List.getD_eq_default _ _ hlen)))⟩
  | cons s rest ih =>
    intro hl input p h
    have hs : s.isPlain = true ∧ rest.all Statement.isPlain = true := by
      simpa using hl
    have h1 : input.drop p = s.text ++ (Statement.textOf rest ++ finalText e) := by
      rw [h]; simp [Statement.textOf]
    obtain ⟨q, hq⟩ := ih hs.2 input (p + s.text.length) (drop_add_of_drop input p s.text _ h1)
    refine ⟨q, ?_⟩
    have := lexes_statement s hs.1 input p _ h1 _ q (tokensOf_ne_nil rest e) hq
    simpa [Statement.tokensOf] using this

/-- The printed text of a plain statement. -/
theorem statementString_plain (s : Statement) (hp : s.isPlain = true) :
    s.String = some s.text := by
  cases s
  case VarStatement t name v =>
    obtain ⟨n, rfl, rfl, hn, hv⟩ := isPlain_var hp
    have h := String_plain (v.size + 1) v (by omega) hv
    cases v <;> first
      | (simp only [Statement.String, h, Statement.text]; rfl)
      | simp [Expression.isPlain] at hv
  case AssignStatement t name v =>
    obtain ⟨n, rfl, rfl, hn, hv⟩ := isPlain_assign hp
    have h := String_plain (v.size + 1) v (by omega) hv
    cases v <;> first
      | (simp only [Statement.String, h, Statement.text]; rfl)
      | simp [Expression.isPlain] at hv
  case ReturnStatement t v =>
    obtain ⟨rfl, hv⟩ := isPlain_return hp
    have h := String_plain (v.size + 1) v (by omega) hv
    cases v <;> (simp only [Statement.String, h, Statement.text]; rfl)
  all_goals simp [Statement.isPlain] at hp

/-- The printed text of a program of plain statements and a final plain expression. -/
theorem plainProgram_String (e : Option Expression) (he : e.all Expression.isPlain = true)
    (tok : Token) (l : List Statement) (hl : l.all Statement.isPlain = true) :
    (plainProgram l e tok).String = some (Statement.textOf l ++ finalText e) := by
  unfold plainProgram Program.String
  show Statement.Strings (l ++ finalStatement tok e) = _
  induction l with
  | nil =>
    cases e with
    | none => rfl
    | some E =>
      have hp : E.isPlain = true := he
      have := programString_plain tok E hp
      simpa [Program.String, Statement.textOf, finalText, finalStatement] using this
  | cons s rest ih =>
    have hs : s.isPlain = true ∧ rest.all Statement.isPlain = true := by
      simpa using hl
    have h1 := statementString_plain s hs.1
    have h2 := ih hs.2
    show Statement.Strings (s :: (rest ++ finalStatement tok e)) = _
    rw [Statement.Strings, h1, h2]
    simp [Statement.textOf]

/-- One round of the loop of `Parse`. -/
theorem parseLoop_step (n : Nat) (acc : List Statement) (p p1 p2 : Parser) (s : Statement)
    (hcur : p.curTok.Typ ≠ .EOF) (hs : parseStatement n p = .ok s p1)
    (hnil : s.isNilNode = false) (hn : Parser.Next p1 = .ok () p2) :
    parseLoop (n + 1) acc p = parseLoop n (acc ++ [s]) p2 := by
  have h1 : p.curTokenIs .EOF = false := by simp [Parser.curTokenIs, hcur]
  rw [parseLoop]
  cases s <;> simp [Statement.isNilNode] at hnil <;> simp [h1, Act.bind_apply, hs, hn]

/-- The loop of `Parse` ends at the token `EOF`. -/
theorem parseLoop_end (n : Nat) (acc : List Statement) (p : Parser)
    (h : p.curTok.Typ = .EOF) : parseLoop (n + 1) acc p = .ok acc p := by
  simp [parseLoop, Parser.curTokenIs, h]

/-- The first token of a plain statement. -/
theorem statementTokens_head (s : Statement) (hp : s.isPlain = true) :
    ∃ t ts, s.tokens = t :: ts ∧ t.Typ ≠ .EOF ∧ s.isNilNode = false := by
  cases s
  case VarStatement t name v =>
    obtain ⟨n, rfl, rfl, _, _⟩ := isPlain_var hp
    exact ⟨_, _, rfl, by decide, rfl⟩
  case AssignStatement t name v =>
    obtain ⟨n, rfl, rfl, _, _⟩ := isPlain_assign hp
    exact ⟨_, _, rfl, by simp, rfl⟩
  case ReturnStatement t v =>
    obtain ⟨rfl, _⟩ := isPlain_return hp
    exact ⟨_, _, rfl, by decide, rfl⟩
  all_goals simp [Statement.isPlain] at hp

/-- The parser on the tokens of a final plain expression, in front of `EOF`. -/
theorem parseStatement_final (L : Nat → Lexer) (T : Nat → Token)
    (hLT : ∀ j, (L j).Next = some (T j, L (j + 1))) (es : List Str) (E : Expression)
    (hp : E.isPlain = true) (i : Nat) (hr : reads T i (E.tokens ++ [eofToken])) :
    (T i).Typ ≠ .EOF ∧ ∃ K, ∀ f, K ≤ f → parseStatement f (cursor L T es i) =
      .ok (.ExpressionStatement (T i) E) (cursor L T es (i + (E.tokens.length - 1))) := by
  have hlen := tokens_length_pos E hp
  have hr1 := (reads_append T E.tokens [eofToken] i).1 hr
  have hend : T (i + E.tokens.length) = eofToken := hr1.2.1
  obtain ⟨t0, ts0, e0, hs0⟩ := tokens_head E hp
  have hfirst : T i = t0 := by
    have := hr1.1
    rw [e0] at this
    exact this.1
  have hnx : T (i + (E.tokens.length - 1) + 1) = eofToken := by
    rw [← hend]; congr 1; omega
  obtain ⟨K, hK⟩ := parseExpression_stop LOWEST E.calls E _ _
    (parseExpression_plain L T hLT es (E.size + 1) E (by omega) hp i LOWEST (by decide) hr1.1)
    (by show power (T _) ≤ _; rw [hnx]; decide)
  have hstart : startsPlain (cursor L T es i).curTok = true := by
    show startsPlain (T i) = true
    rw [hfirst]; exact hs0
  have hid : (cursor L T es i).curTok.Typ = .ID → (cursor L T es i).nextTok.Typ ≠ .ASSIGN := by
    intro h
    have h0 : t0.Typ = .ID := by rw [← hfirst]; exact h
    show (T (i + 1)).Typ ≠ _
    have hr2 : reads T (i + 1) (ts0 ++ [eofToken]) := by
      have := hr
      rw [e0] at this
      exact this.2
    rcases tokens_after_identifier E hp t0 ts0 e0 h0 with rfl | ⟨ts1, rfl⟩
    · rw [hr2.1]; decide
    · rw [hr2.1]; decide
  have hcur : (T i).Typ ≠ .EOF := by
    rw [hfirst]
    unfold startsPlain at hs0
    cases hT : t0.Typ <;> simp [hT] at hs0 <;> simp
  refine ⟨hcur, K + 2, fun f hf => ?_⟩
  obtain ⟨m, rfl⟩ : ∃ m, f = m + 2 := ⟨f - 2, by omega⟩
  have hcurE : (cursor L T es (i + (E.tokens.length - 1))).nextTok = eofToken := hnx
  rw [parseStatement_plain m _ hstart hid, Act.bind_apply, hK m (by omega)]
  simp only [Act.bind_apply, skipSemicolon_eof _ hcurE, Act.pure_apply]
  rfl

/-- The loop of `Parse` over the tokens of plain statements. -/
theorem parseLoop_plainStatements (L : Nat → Lexer) (T : Nat → Token)
    (hLT : ∀ j, (L j).Next = some (T j, L (j + 1))) (es : List Str) :
    ∀ (l : List Statement), l.all Statement.isPlain = true →
      ∀ (i : Nat) (acc : List Statement), reads T i (Statement.tokensOf l) →
        ∃ K, ∀ f, K ≤ f → parseLoop (f + l.length) acc (cursor L T es i) =
          parseLoop f (acc ++ l) (cursor L T es (i + (Statement.tokensOf l).length)) := by
  intro l
  induction l with
  | nil =>
    intro _ i acc _
    exact ⟨0, fun f _ => by simp [Statement.tokensOf]⟩
  | cons s rest ih =>
    intro hl i acc hr
    have hs : s.isPlain = true ∧ rest.all Statement.isPlain = true := by
      simpa using hl
    have hr1 := (reads_append T s.tokens (Statement.tokensOf rest) i).1 hr
    obtain ⟨t, ts, e0, hT, hnil⟩ := statementTokens_head s hs.1
    have hlen : 0 < s.tokens.length := by rw [e0]; simp
    have hcur : (cursor L T es i).curTok.Typ ≠ .EOF := by
      show (T i).Typ ≠ _
      have := hr1.1
      rw [e0] at this
      rw [this.1]
      exact hT
    obtain ⟨K1, hK1⟩ := parseStatement_plainStatement L T hLT es s hs.1 i hr1.1
    obtain ⟨K2, hK2⟩ := ih hs.2 (i + s.tokens.length) (acc ++ [s]) hr1.2
    refine ⟨max K1 K2, fun f hf => ?_⟩
    have e1 : f + (s :: rest).length = f + rest.length + 1 := by
      simp only [List.length_cons]; omega
    have hnext : Parser.Next (cursor L T es (i + (s.tokens.length - 1))) =
        .ok () (cursor L T es (i + s.tokens.length)) := by
      have := Parser.Next_cursor L T hLT es (i + (s.tokens.length - 1))
      have e2 : i + (s.tokens.length - 1) + 1 = i + s.tokens.length := by omega
      rw [e2] at this
      exact this
    rw [e1, parseLoop_step (f + rest.length) acc _ _ _ s hcur
      (hK1 (f + rest.length) (by omega)) hnil hnext, hK2 f (by omega)]
    have e3 : i + s.tokens.length + (Statement.tokensOf rest).length =
        i + (Statement.tokensOf (s :: rest)).length := by
      simp only [Statement.tokensOf, List.length_append]; omega
    rw [e3, List.append_assoc]
    rfl

/-- The parser on a lexer that returns the tokens of plain statements and of a final plain
expression, and then `EOF`: the program holds these statements, and no message is
recorded. -/
theorem parseLexer_program (L : Nat → Lexer) (T : Nat → Token)
    (hLT : ∀ j, (L j).Next = some (T j, L (j + 1))) (l : List Statement)
    (hl : l.all Statement.isPlain = true) (e : Option Expression)
    (he : e.all Expression.isPlain = true)
    (hr : reads T 0 (Statement.tokensOf l ++ (finalTokens e ++ [eofToken]))) :
    ∃ K, ∀ f, K ≤ f → ∃ p, parseLexer f (L 0) =
      .ok (plainProgram l e (T (Statement.tokensOf l).length)) p ∧ p.errors = [] := by
  have hnew : Parser.New (L 0) = some (cursor L T [] 0) := by
    simp only [Parser.New, hLT 0, hLT 1]
    rfl
  have hr1 := (reads_append T (Statement.tokensOf l) (finalTokens e ++ [eofToken]) 0).1 hr
  obtain ⟨K1, hK1⟩ := parseLoop_plainStatements L T hLT [] l hl 0 [] hr1.1
  simp only [List.nil_append, Nat.zero_add] at hK1 hr1
  cases e with
  | none =>
    have hend : T (Statement.tokensOf l).length = eofToken := hr1.2.1
    refine ⟨K1 + 1 + l.length, fun f hf => ⟨cursor L T [] (Statement.tokensOf l).length, ?_, rfl⟩⟩
    obtain ⟨m, rfl⟩ : ∃ m, f = m + 1 + l.length := ⟨f - 1 - l.length, by omega⟩
    have hloop := parseLoop_end m l (cursor L T [] (Statement.tokensOf l).length)
      (by show (T _).Typ = _; rw [hend]; rfl)
    simp only [parseLexer, hnew, Parser.Parse, Act.bind_apply, hK1 (m + 1) (by omega), hloop,
      Act.pure_apply, plainProgram, finalStatement, List.append_nil]
  | some E =>
    have hp : E.isPlain = true := he
    have hlen := tokens_length_pos E hp
    obtain ⟨hcur, K2, hK2⟩ := parseStatement_final L T hLT [] E hp
      (Statement.tokensOf l).length hr1.2
    have hr2 := (reads_append T E.tokens [eofToken] (Statement.tokensOf l).length).1 hr1.2
    have hend : T ((Statement.tokensOf l).length + E.tokens.length) = eofToken := hr2.2.1
    refine ⟨K1 + K2 + 2 + l.length, fun f hf =>
      ⟨cursor L T [] ((Statement.tokensOf l).length + E.tokens.length), ?_, rfl⟩⟩
    obtain ⟨m, rfl⟩ : ∃ m, f = m + 1 + 1 + l.length := ⟨f - 2 - l.length, by omega⟩
    have hnext : Parser.Next (cursor L T [] ((Statement.tokensOf l).length + (E.tokens.length - 1))) =
        .ok () (cursor L T [] ((Statement.tokensOf l).length + E.tokens.length)) := by
      have := Parser.Next_cursor L T hLT [] ((Statement.tokensOf l).length + (E.tokens.length - 1))
      have e2 : (Statement.tokensOf l).length + (E.tokens.length - 1) + 1 =
          (Statement.tokensOf l).length + E.tokens.length := by omega
      rw [e2] at this
      exact this
    have hstep := parseLoop_step (m + 1) l _ _ _ _ hcur (hK2 (m + 1) (by omega)) rfl hnext
    have hloop := parseLoop_end m (l ++ [.ExpressionStatement (T (Statement.tokensOf l).length) E])
      (cursor L T [] ((Statement.tokensOf l).length + E.tokens.length))
      (by show (T _).Typ = _; rw [hend]; rfl)
    simp only [parseLexer, hnew, Parser.Parse, Act.bind_apply, hK1 (m + 1 + 1) (by omega), hstep,
      hloop, Act.pure_apply, plainProgram, finalStatement]

/-- The text of plain statements and of a final plain expression, parsed as a source text:
the program holds these statements, and no message is recorded. -/
theorem parseSource_program (l : List Statement) (hl : l.all Statement.isPlain = true)
    (e : Option Expression) (he : e.all Expression.isPlain = true) :
    ∃ K, ∀ f, K ≤ f → ∃ p, parseSource f (Statement.textOf l ++ finalText e) =
      .ok (plainProgram l e ((finalTokens e).headD eofToken)) p ∧ p.errors = [] := by
  obtain ⟨q, hq⟩ := lexes_program e he l hl (Statement.textOf l ++ finalText e) 0 rfl
  obtain ⟨hr, _⟩ := reads_of_lexes (Statement.textOf l ++ finalText e) 0 _ q 0 0 rfl hq
  obtain ⟨K, hK⟩ := parseLexer_program
    (lexerAt (Lexer.atPos (Statement.textOf l ++ finalText e) 0))
    (tokenAt (Lexer.atPos (Statement.textOf l ++ finalText e) 0))
    (lexerAt_Next (Statement.textOf l ++ finalText e) 0) l hl e he hr
  have hr1 := ((reads_append _ (Statement.tokensOf l) (finalTokens e ++ [eofToken]) 0).1 hr).2
  rw [Nat.zero_add] at hr1
  have hfirst : tokenAt (Lexer.atPos (Statement.textOf l ++ finalText e) 0)
      (Statement.tokensOf l).length = (finalTokens e).headD eofToken := by
    cases e with
    | none => exact hr1.1
    | some E =>
      have hp : E.isPlain = true := he
      obtain ⟨t0, ts0, e0, _⟩ := tokens_head E hp
      simp only [finalTokens, e0] at hr1 ⊢
      exact hr1.1
  refine ⟨K, fun f hf => ?_⟩
  rw [parseSource, Lexer.New_eq, ← hfirst]
  exact hK f hf

/-- C32 (amended): let `l` be a list of statements, each a `var` statement without a type,
an assignment or a `return` statement whose value is a plain expression (identifiers,
integer, boolean and `nil` literals, prefix operators, infix operators and calls, each node
as the parser builds it), and let `e` be no expression or one plain expression, the final
expression statement of the program. `Program.String` of the program of `l` and `e` returns
the texts of the statements one after the other; the lexer reads that text as the tokens of
the statements and then `EOF`; and the parser, with enough fuel, returns for it the program
of `l` and `e` itself, all tokens included, and records no message. The token of the final
expression statement is the first token of the text of `e`, so it is `(` when `e` is an
operator expression. The source `var x = 1; x = x + 1; return x` is parsed to statements of
this kind, and `-a * f(1, b) == !true` to an expression of this kind. -/
theorem plain_program_round_trip (l : List Statement) (e : Option Expression) (tok : Token)
    (hl : l.all Statement.isPlain = true) (he : e.all Expression.isPlain = true) :
    (plainProgram l e tok).String = some (Statement.textOf l ++ finalText e) ∧
    (∃ q, lexes (Statement.textOf l ++ finalText e) 0
      (Statement.tokensOf l ++ (finalTokens e ++ [eofToken])) q) ∧
    (∃ K, ∀ f, K ≤ f → ∃ p, parseSource f (Statement.textOf l ++ finalText e) =
      .ok (plainProgram l e ((finalTokens e).headD eofToken)) p ∧ p.errors = []) ∧
    parsesTo 80 (str "var x = 1; x = x + 1; return x") counterStatements = true ∧
    printed 80 (str "var x = 1; x = x + 1; return x") =
      some (str "var x = 1;\nx = (x + 1);return x;") ∧
    (parsedExpression 80 (str "-a * f(1, b) == !true")).map Expression.isPlain = some true ∧
    printed 80 (str "-a * f(1, b) == !true") = some (str "(((-a) * f(1, b)) == (!true))") :=
  ⟨plainProgram_String e he tok l hl, lexes_program e he l hl _ 0 rfl,
    parseSource_program l hl e he, by decide!, by decide!, by decide!, by decide!⟩

theorem plain_program_round_trip_witness :
    ∃ K, ∀ f, K ≤ f → ∃ p,
      parseSource f (str "var x = 1;\nx = (x + 1);return x;(a + 1)") =
        .ok { Statements := counterStatements ++ [.ExpressionStatement lparenToken aPlusOne] } p ∧
      p.errors = [] :=
  (plain_program_round_trip counterStatements (some aPlusOne) eofToken (by decide)
    (by decide)).2.2.1

end Dao
